import Mathlib

/-!
Verification development for the big-integer library.

Shallow embedding of `src/bigint-optimized/big_integer.cpp`.

* A `uint64_t` is a natural number below `BASE = 2 ^ 64`; every arithmetic operation of the
  source that can wrap is written with an explicit `% BASE`.
* A `std::vector<uint64_t>` is a `List Nat`, least-significant digit first.
* An operation that can hit an `assert` (or the documented undefined behaviour of
  `div_mod_`) returns an `Option`; `none` is the aborted run.
* Loops over an index are structural recursions on the index (or on the digits that are
  still to be visited); `x.getD i 0` is the source's `i < x.size() ? x[i] : 0`.
-/

namespace bigint_optimized

/-! ## Machine-word primitives -/

/-- The constant `MAX_DIGIT = std::numeric_limits<uint64_t>::max()`. -/
def MAX_DIGIT : Nat := 18446744073709551615

/-- The constant `BASE_POWER2 = 64`. -/
def BASE_POWER2 : Nat := 64

/-- The number of values of a `uint64_t`, `2 ^ 64`: unsigned arithmetic wraps modulo it. -/
def BASE : Nat := 18446744073709551616

/-- Conversion `bool -> uint64_t`. -/
def b2n (b : Bool) : Nat := if b then 1 else 0

/-- Source `add_overflow_(left, right, carry)`:
`left > MAX_DIGIT - right || (carry && left + right == MAX_DIGIT)`. -/
def add_overflow_ (left right : Nat) (carry : Bool) : Bool :=
  decide (left > MAX_DIGIT - right) || (carry && decide ((left + right) % BASE = MAX_DIGIT))

/-- Source `sub_overflow_(left, right, carry)`:
`left < right || (carry && left == right)`. -/
def sub_overflow_ (left right : Nat) (carry : Bool) : Bool :=
  decide (left < right) || (carry && decide (left = right))

/-- Source `mul_overflow_`: the upper word of the 128-bit product (`mulq`). -/
def mul_overflow_ (left right : Nat) : Nat := (left * right) / BASE

/-- Source `div_mod_`: `divq` of the 128-bit value `upper_left : lower_left` by `right`.
The source documents `upper_left >= right || right == 0` as undefined behaviour. -/
def div_mod_ (upper_left lower_left right : Nat) : Option (Nat × Nat) :=
  if right = 0 ∨ upper_left ≥ right then none
  else some ((upper_left * BASE + lower_left) / right, (upper_left * BASE + lower_left) % right)

/-- Source `soft_div`: asserts `right != 0`, clamps to `MAX_DIGIT` when the quotient would
not fit in one word. -/
def soft_div (upper_left lower_left right : Nat) : Option Nat :=
  if right = 0 then none
  else if upper_left ≥ right then some MAX_DIGIT
  else (div_mod_ upper_left lower_left right).map Prod.fst

/-- Source `iabs_` on a 32-bit `int`, computed in `unsigned` and widened. -/
def iabs_ (x : Int) : Nat :=
  if x ≥ 0 then (x % 2 ^ 32).toNat else (2 ^ 32 - (x % 2 ^ 32).toNat) % 2 ^ 32

/-- Source `labs_` on a 64-bit `long`, computed in `unsigned long`. -/
def labs_ (x : Int) : Nat :=
  if x ≥ 0 then (x % BASE).toNat else (BASE - (x % BASE).toNat) % BASE

/-- Source `llabs_` on a 64-bit `long long`, computed in `unsigned long long`. -/
def llabs_ (x : Int) : Nat :=
  if x ≥ 0 then (x % BASE).toNat else (BASE - (x % BASE).toNat) % BASE

/-! ## The number type -/

/-- Source `class big_integer`: the digit vector `data_` and the sign flag `sign_`
(`true` is negative). -/
structure big_integer where
  data_ : List Nat
  sign_ : Bool
deriving DecidableEq, Repr

/-- Source `std::vector::resize(n)`: truncate, or pad with value-initialised (zero) words. -/
def resize (ds : List Nat) (n : Nat) : List Nat :=
  ds.take n ++ List.replicate (n - ds.length) 0

/-- Default constructor `big_integer()`. -/
def mk_default : big_integer := ⟨[0], false⟩

/-- The global `const big_integer ZERO`. -/
def ZERO : big_integer := mk_default

/-- Constructor `big_integer(const int&)`. -/
def of_int (val : Int) : big_integer := ⟨[iabs_ val], decide (val < 0)⟩

/-- Constructor `big_integer(const long&)`. -/
def of_long (val : Int) : big_integer := ⟨[labs_ val], decide (val < 0)⟩

/-- Constructor `big_integer(const long long&)`. -/
def of_long_long (val : Int) : big_integer := ⟨[llabs_ val], decide (val < 0)⟩

/-- Constructor `big_integer(const unsigned&)`. -/
def of_unsigned (val : Nat) : big_integer := ⟨[val], false⟩

/-- Constructor `big_integer(const unsigned long&)`. -/
def of_unsigned_long (val : Nat) : big_integer := ⟨[val], false⟩

/-- Constructor `big_integer(const unsigned long long&)`. -/
def of_unsigned_long_long (val : Nat) : big_integer := ⟨[val], false⟩

/-- Source `big_integer::sign()`. -/
def sign (x : big_integer) : Bool := x.sign_

/-- Source `big_integer::set_sign_`:
`sign_ = (data_.size() != 1 || data_[0] != 0) && new_sign`. -/
def set_sign_ (x : big_integer) (new_sign : Bool) : big_integer :=
  { x with sign_ := (x.data_.length != 1 || x.data_.getD 0 0 != 0) && new_sign }

/-- Source `big_integer::switch_sign_`. -/
def switch_sign_ (x : big_integer) : big_integer := set_sign_ x (!x.sign_)

/-- The loop of `keep_invariant_`:
`while (data_.size() > 1 && data_.back() == 0) data_.pop_back();`
The first argument bounds the number of iterations. -/
def pop_zeros : Nat → List Nat → List Nat
  | 0, ds => ds
  | fuel + 1, ds =>
      if ds.length > 1 ∧ ds.getLast? = some 0 then pop_zeros fuel ds.dropLast else ds

/-- Source `big_integer::keep_invariant_`. Every iteration removes a digit, so
`data_.size()` iterations are enough. -/
def keep_invariant_ (x : big_integer) : big_integer :=
  set_sign_ { x with data_ := pop_zeros x.data_.length x.data_ } x.sign_

/-- Unary `operator-`: copy, then `switch_sign_`. -/
def op_neg (val : big_integer) : big_integer := switch_sign_ val

/-- Unary `operator+`. -/
def op_pos (val : big_integer) : big_integer := val

/-- Source `big_integer::abs_`. -/
def abs_ (x : big_integer) : big_integer := if sign x then op_neg x else x

/-! ## Comparison -/

/-- The digit loop of `operator<`: `for (i = max(size, size); i --> 0; )`. -/
def lt_loop (left right : big_integer) : Nat → Bool
  | 0 => false
  | i + 1 =>
      let l := left.data_.getD i 0
      let r := right.data_.getD i 0
      if l != r then (if sign left then decide (l > r) else decide (l < r))
      else lt_loop left right i

/-- Source `operator<`. -/
def op_lt (left right : big_integer) : Bool :=
  if sign left && !sign right then true
  else if !sign left && sign right then false
  else lt_loop left right (max left.data_.length right.data_.length)

/-- Source `operator!=`. -/
def op_ne (left right : big_integer) : Bool := op_lt left right || op_lt right left

/-- Source `operator==`. -/
def op_eq (left right : big_integer) : Bool := !(op_ne left right)

/-- Source `operator>`. -/
def op_gt (left right : big_integer) : Bool := op_lt right left

/-- Source `operator<=`. -/
def op_le (left right : big_integer) : Bool := !(op_gt left right)

/-- Source `operator>=`. -/
def op_ge (left right : big_integer) : Bool := !(op_lt left right)

/-! ## Addition and subtraction -/

/-- The digit loop of `operator+=` (lines 205-210). The second argument holds the digits
`data_[i], data_[i+1], ...` still to be visited, the third is `i`. -/
def add_loop (right : List Nat) : List Nat → Nat → Nat → List Nat
  | [], _, _ => []
  | left_ :: ds, i, carry =>
      let right_ := right.getD i 0
      ((left_ + right_ + carry) % BASE) ::
        add_loop right ds (i + 1) (b2n (add_overflow_ left_ right_ (carry != 0)))

/-- The same-sign branch of `operator+=` (lines 203-212). -/
def add_same (x right : big_integer) : big_integer :=
  let data := resize x.data_ (max x.data_.length right.data_.length + 1)
  keep_invariant_ { x with data_ := add_loop right.data_ data 0 0 }

/-- The digit loop of `operator-=` (lines 230-238); `swap` is `sign() ^ new_sign`. -/
def sub_loop (right : List Nat) (swap : Bool) : List Nat → Nat → Nat → List Nat
  | [], _, _ => []
  | d :: ds, i, carry =>
      let left_ := if swap then right.getD i 0 else d
      let right_ := if swap then d else right.getD i 0
      ((left_ + BASE - right_ + BASE - carry) % BASE) ::
        sub_loop right swap ds (i + 1) (b2n (sub_overflow_ left_ right_ (carry != 0)))

/-- The same-sign branch of `operator-=` (lines 226-241). -/
def sub_same (x right : big_integer) : big_integer :=
  let new_sign := op_lt x right
  let data := resize x.data_ (max x.data_.length right.data_.length)
  let x1 : big_integer := { x with data_ := sub_loop right.data_ (xor (sign x) new_sign) data 0 0 }
  keep_invariant_ (set_sign_ x1 new_sign)

mutual
/-- Source `operator+=`. The first argument bounds the depth of the mutual recursion with
`operator-=`; `none` means the bound was reached. -/
def add_assign_depth : Nat → big_integer → big_integer → Option big_integer
  | 0, _, _ => none
  | depth + 1, x, right =>
      if !sign x && sign right then sub_assign_depth depth x (op_neg right)
      else if sign x && !sign right then
        (sub_assign_depth depth (switch_sign_ x) right).map switch_sign_
      else some (add_same x right)
/-- Source `operator-=`, with the same depth bound. -/
def sub_assign_depth : Nat → big_integer → big_integer → Option big_integer
  | 0, _, _ => none
  | depth + 1, x, right =>
      if !sign x && sign right then add_assign_depth depth x (op_neg right)
      else if sign x && !sign right then
        (add_assign_depth depth (switch_sign_ x) right).map switch_sign_
      else some (sub_same x right)
end

/-- Source `operator+=` (and binary `operator+`, which applies it to a copy). Depth 2 is
always enough (`add_assign_depth_some`). -/
def add_assign (x right : big_integer) : big_integer :=
  (add_assign_depth 2 x right).getD x

/-- Source `operator-=` (and binary `operator-`). -/
def sub_assign (x right : big_integer) : big_integer :=
  (sub_assign_depth 2 x right).getD x

/-- Binary `operator+`. -/
def op_add (left right : big_integer) : big_integer := add_assign left right

/-- Binary `operator-`. -/
def op_sub (left right : big_integer) : big_integer := sub_assign left right

/-- Prefix `operator++`: `*this += 1`. -/
def pre_inc (x : big_integer) : big_integer := add_assign x (of_int 1)

/-- Prefix `operator--`: `*this -= 1`. -/
def pre_dec (x : big_integer) : big_integer := sub_assign x (of_int 1)

/-- Postfix `operator++`: the returned copy and the new state. -/
def post_inc (x : big_integer) : big_integer × big_integer := (x, add_assign x (of_int 1))

/-- Postfix `operator--`: the returned copy and the new state. -/
def post_dec (x : big_integer) : big_integer × big_integer := (x, sub_assign x (of_int 1))

/-- Source `operator~`: `-val - 1`. -/
def op_not (val : big_integer) : big_integer := op_sub (op_neg val) (of_int 1)

/-! ## Multiplication -/

/-- The inner loop of `operator*=` (lines 251-262) for the digit `left_ = data_[i]`. The
third argument holds `result.data_[i + j], result.data_[i + j + 1], ...`, the fourth is `j`.
An exhausted result buffer while the loop condition still holds would be an access past
the end of `result.data_`; the model stops there. -/
def mul_row (left_ : Nat) (right : List Nat) : List Nat → Nat → Nat → List Nat
  | [], _, _ => []
  | x :: res, j, carry =>
      if j < right.length ∨ carry > 0 then
        let right_ := right.getD j 0
        let upper := mul_overflow_ left_ right_
        let lower := (left_ * right_) % BASE
        let upper := (upper + b2n (add_overflow_ lower carry false)) % BASE
        let lower := (lower + carry) % BASE
        let upper := (upper + b2n (add_overflow_ lower x false)) % BASE
        let lower := (lower + x) % BASE
        lower :: mul_row left_ right res (j + 1) upper
      else x :: res

/-- The outer loop of `operator*=` (line 249). The second argument holds the digits
`data_[i], data_[i+1], ...` still to be visited, the third `result.data_[i], ...`. -/
def mul_rows (right : List Nat) : List Nat → List Nat → List Nat
  | [], res => res
  | left_ :: ds, res =>
      match mul_row left_ right res 0 0 with
      | [] => []
      | x :: res1 => x :: mul_rows right ds res1

/-- Source `operator*=` (and binary `operator*`). -/
def mul_assign (x right : big_integer) : big_integer :=
  let result : big_integer :=
    { mk_default with data_ := resize mk_default.data_ (x.data_.length + right.data_.length) }
  let result := { result with data_ := mul_rows right.data_ x.data_ result.data_ }
  keep_invariant_ (set_sign_ result (xor (sign x) (sign right)))

/-- Binary `operator*`. -/
def op_mul (left right : big_integer) : big_integer := mul_assign left right

/-! ## Left shift -/

/-- Source `std::move_backward(begin, end - k, end)`: the first `size - k` elements are
copied to the last `size - k` positions; the first `k` positions keep their content. -/
def move_backward (ds : List Nat) (k : Nat) : List Nat :=
  ds.take k ++ ds.take (ds.length - k)

/-- Source `std::fill(begin, begin + k, 0)`. -/
def fill_front (ds : List Nat) (k : Nat) : List Nat :=
  List.replicate k 0 ++ ds.drop k

/-- Source `operator<<=` (and binary `operator<<`). -/
def shl_assign (x : big_integer) (right : Nat) : big_integer :=
  if op_eq x (of_int 0) then x
  else
    let RIGHT_BITS := right / BASE_POWER2
    let data := resize x.data_ (x.data_.length + RIGHT_BITS)
    let data := move_backward data RIGHT_BITS
    let data := fill_front data RIGHT_BITS
    let right := right % BASE_POWER2
    mul_assign { x with data_ := data } (of_unsigned_long_long ((1 <<< right) % BASE))

/-- Binary `operator<<`. -/
def op_shl (left : big_integer) (right : Nat) : big_integer := shl_assign left right

/-! ## Division -/

/-- The loop of `div_short_`: `for (i = data_.size(); i --> 0; )`
`std::tie(data_[i], carry) = div_mod_(carry, data_[i], right)`. -/
def div_short_loop (right : Nat) : Nat → List Nat → Nat → Option (List Nat × Nat)
  | 0, ds, carry => some (ds, carry)
  | i + 1, ds, carry =>
      match div_mod_ carry (ds.getD i 0) right with
      | none => none
      | some (q, r) => div_short_loop right i (ds.set i q) r

/-- Source `big_integer::div_short_`: the new state and the returned remainder. -/
def div_short_ (x : big_integer) (right : Nat) : Option (big_integer × Nat) :=
  if right = 0 then none
  else
    match div_short_loop right x.data_.length x.data_ 0 with
    | none => none
    | some (ds, carry) => some (keep_invariant_ { x with data_ := ds }, carry)

/-- The correction loop of `operator/=` (lines 302-305):
`while (qt != 0 && u < dq << BASE_POWER2 * k) { --qt; dq -= d; }`. -/
def correct_loop (u d : big_integer) (k : Nat) : Nat → big_integer → Nat × big_integer
  | 0, dq => (0, dq)
  | qt + 1, dq =>
      if op_lt u (op_shl dq ((BASE_POWER2 * k) % BASE)) then
        correct_loop u d k qt (sub_assign dq d)
      else (qt + 1, dq)

/-- The main loop of `operator/=` (lines 297-308): `for (k = n - m; k --> 0; )`. The state
is the quotient under construction and the running dividend `u`. -/
def div_loop (d : big_integer) (m : Nat) : Nat → big_integer → big_integer →
    Option (big_integer × big_integer)
  | 0, x, u => some (x, u)
  | k + 1, x, u =>
      match soft_div (u.data_.getD (k + m) 0) (u.data_.getD (k + m - 1) 0)
          (d.data_.getD (m - 1) 0) with
      | none => none
      | some qt =>
          let dq := op_mul d (of_unsigned_long qt)
          let (qt1, dq1) := correct_loop u d k qt dq
          let x1 : big_integer := { x with data_ := x.data_.set k qt1 }
          let u1 := sub_assign u (op_shl dq1 ((BASE_POWER2 * k) % BASE))
          div_loop d m k x1 u1

/-- Source `operator/=` (and binary `operator/`). `none` is a failed assertion. -/
def div_assign (x right : big_integer) : Option big_integer :=
  if !(op_ne right ZERO) then none
  else if op_lt (abs_ x) (abs_ right) then some (of_int 0)
  else
    let new_sign := xor (sign x) (sign right)
    if right.data_.length = 1 then
      match div_short_ x (right.data_.getD 0 0) with
      | none => none
      | some (x1, _) => some (set_sign_ x1 new_sign)
    else
      let NORM_FACTOR :=
        if right.data_.getLastD 0 = MAX_DIGIT then 1 else MAX_DIGIT / (right.data_.getLastD 0 + 1)
      let u := op_mul x (of_unsigned_long NORM_FACTOR)
      let d := op_mul right (of_unsigned_long NORM_FACTOR)
      let u : big_integer := { u with data_ := u.data_ ++ [0] }
      let u := set_sign_ u false
      let d := set_sign_ d false
      let n := u.data_.length
      let m := d.data_.length
      let x1 : big_integer := { x with data_ := resize x.data_ (n - m) }
      let x2 := set_sign_ x1 new_sign
      match div_loop d m (n - m) x2 u with
      | none => none
      | some (x3, _) => some (keep_invariant_ x3)

/-- Binary `operator/`. -/
def op_div (left right : big_integer) : Option big_integer := div_assign left right

/-- Source `operator%=`: `*this -= *this / right * right`. -/
def mod_assign (x right : big_integer) : Option big_integer :=
  match op_div x right with
  | none => none
  | some q => some (sub_assign x (op_mul q right))

/-- Binary `operator%`. -/
def op_mod (left right : big_integer) : Option big_integer := mod_assign left right

/-! ## Right shift -/

/-- The loop `while (right_bits--) data_.pop_back();`. -/
def pop_back_n : Nat → List Nat → List Nat
  | 0, ds => ds
  | n + 1, ds => pop_back_n n ds.dropLast

/-- Source `operator>>=` (and binary `operator>>`). -/
def shr_assign (x : big_integer) (right : Nat) : Option big_integer :=
  let x1 := if sign x then pre_inc x else x
  let right_bits := right / BASE_POWER2
  let x2 : big_integer :=
    if right_bits < x1.data_.length then
      { x1 with data_ := (pop_back_n right_bits x1.data_.reverse).reverse }
    else { x1 with data_ := [0] }
  let right := right % BASE_POWER2
  match div_assign x2 (of_unsigned_long_long ((1 <<< right) % BASE)) with
  | none => none
  | some x3 => some (if sign x3 then pre_dec x3 else x3)

/-- Binary `operator>>`. -/
def op_shr (left : big_integer) (right : Nat) : Option big_integer := shr_assign left right

/-! ## Bitwise operations -/

/-- Source `big_integer::two_complement_`. -/
def two_complement_ (x : big_integer) : big_integer :=
  if sign x then
    let x1 := pre_inc x
    { x1 with data_ := x1.data_.map (fun i => MAX_DIGIT - i) }
  else x

/-- The loop of `apply_bitwise_` (lines 160-167): the first argument counts the iterations
left, the second is `i`. -/
def bitwise_loop (f : Nat → Nat → Nat) (right : big_integer) :
    Nat → Nat → big_integer → big_integer
  | 0, _, x => x
  | n + 1, i, x =>
      let l := if i < x.data_.length then x.data_.getD i 0 else if sign x then MAX_DIGIT else 0
      let r :=
        if i < right.data_.length then right.data_.getD i 0 else if sign right then MAX_DIGIT else 0
      let x1 : big_integer := if i = x.data_.length then { x with data_ := x.data_ ++ [0] } else x
      bitwise_loop f right n (i + 1) { x1 with data_ := x1.data_.set i (f l r) }

/-- Source `big_integer::apply_bitwise_`; `right` is passed by value. -/
def apply_bitwise_ (f : Nat → Nat → Nat) (x right : big_integer) : big_integer :=
  let sz := max x.data_.length right.data_.length
  let new_sign := decide (f (b2n (sign x)) (b2n (sign right)) &&& 1 ≠ 0)
  let right := two_complement_ right
  let x := two_complement_ x
  let x := bitwise_loop f right sz 0 x
  let x := set_sign_ x new_sign
  let x := two_complement_ x
  keep_invariant_ x

/-- Source `operator&=` (and binary `operator&`). -/
def op_and (left right : big_integer) : big_integer := apply_bitwise_ (fun a b => a &&& b) left right

/-- Source `operator|=` (and binary `operator|`). -/
def op_or (left right : big_integer) : big_integer := apply_bitwise_ (fun a b => a ||| b) left right

/-- Source `operator^=` (and binary `operator^`). -/
def op_xor (left right : big_integer) : big_integer := apply_bitwise_ (fun a b => a ^^^ b) left right

/-! ## Denotation -/

/-- The natural number denoted by a little-endian digit sequence in base `BASE = 2 ^ 64`. -/
def nat_of : List Nat → Nat
  | [] => 0
  | d :: ds => d + BASE * nat_of ds

/-- The integer denoted by a `big_integer`. -/
def val (x : big_integer) : Int := if x.sign_ then -(nat_of x.data_ : Int) else (nat_of x.data_ : Int)

/-- Every digit is a `uint64_t`. -/
def typed (x : big_integer) : Prop := ∀ d ∈ x.data_, d < BASE

/-- Canonical form: the digits are machine words, the digit sequence is non-empty, its
most-significant digit is non-zero unless the length is exactly 1, and the sign flag is
false whenever the value is zero. -/
def canonical (x : big_integer) : Prop :=
  typed x ∧ x.data_ ≠ [] ∧ (x.data_.length = 1 ∨ x.data_.getLast? ≠ some 0) ∧
    (nat_of x.data_ = 0 → x.sign_ = false)

/-- Canonical form can be checked by evaluation. -/
instance canonical_decidable (x : big_integer) : Decidable (canonical x) :=
  inferInstanceAs (Decidable ((∀ d ∈ x.data_, d < BASE) ∧ x.data_ ≠ [] ∧
    (x.data_.length = 1 ∨ x.data_.getLast? ≠ some 0) ∧ (nat_of x.data_ = 0 → x.sign_ = false)))

/-! ## Decimal strings -/

/-- The constant `POWER_10_DIGITS = 10^19` of the string constructor. -/
def POWER_10_DIGITS : Nat := 10000000000000000000

/-- The constant `DIGITS_COUNT = 19` of the string constructor. -/
def DIGITS_COUNT : Nat := 19

/-- Source `static_cast<uint64_t>(str[i] - '0')`, for an ASCII character. -/
def digit_of_char (c : Char) : Nat := (c.toNat + BASE - 48) % BASE

/-- The inner loop of the string constructor (lines 90-94):
`while (i != str.size() && cur_cnt < DIGITS_COUNT)`. The first argument holds the characters
`str[i], str[i+1], ...`; the result is the unread characters, `buf` and `cur_cnt`. -/
def read_chunk : List Char → Nat → Nat → List Char × Nat × Nat
  | [], buf, cur_cnt => ([], buf, cur_cnt)
  | c :: cs, buf, cur_cnt =>
      if cur_cnt < DIGITS_COUNT then
        read_chunk cs ((buf * 10 + digit_of_char c) % BASE) (cur_cnt + 1)
      else (c :: cs, buf, cur_cnt)

/-- The loop `while (cur_cnt > 0) { cur_cnt--; current_power_10 *= 10; }` (lines 100-103). -/
def power_10_loop : Nat → Nat → Nat
  | 0, current_power_10 => current_power_10
  | cur_cnt + 1, current_power_10 => power_10_loop cur_cnt ((current_power_10 * 10) % BASE)

/-- The outer loop of the string constructor (lines 89-108): `while (i != str.size())`. The
second argument holds the unread characters; `buf` and `cur_cnt` are carried along (both
are 0 again at the end of every iteration). The first argument bounds the number of
iterations; `none` means the bound was reached. -/
def parse_loop : Nat → List Char → big_integer → Nat → Nat → Option big_integer
  | 0, _, _, _, _ => none
  | fuel + 1, str, x, buf, cur_cnt =>
      if str = [] then some x
      else
        let (rest, buf1, cur_cnt1) := read_chunk str buf cur_cnt
        let x1 :=
          if cur_cnt1 = DIGITS_COUNT then mul_assign x (of_unsigned_long POWER_10_DIGITS)
          else mul_assign x (of_unsigned_long (power_10_loop cur_cnt1 1))
        let x2 := add_assign x1 (of_unsigned_long buf1)
        parse_loop fuel rest x2 0 0

/-- Constructor `big_integer(const std::string&)`. The member `data_` is default-constructed
(empty) and `sign_` is set to false before the loop; `str[0]` of an empty string is the
terminating null character. Every iteration of the outer loop reads at least one
character, so `str.size() + 1` iterations are enough. -/
def of_string (str : List Char) : Option big_integer :=
  let x : big_integer := ⟨[], false⟩
  let c0 := str.headD (Char.ofNat 0)
  let i := if c0 = '-' ∨ c0 = '+' then 1 else 0
  let new_sign := decide (c0 = '-')
  match parse_loop (str.length + 1) (str.drop i) x 0 0 with
  | none => none
  | some x1 => some (set_sign_ x1 new_sign)

/-- The loop of `to_string` (lines 505-507):
`do { res.push_back(char(arg.div_short_(10) + '0')); } while (arg != ZERO);`
The first argument bounds the number of iterations; `none` means the bound was reached or
an assertion failed. -/
def to_string_loop : Nat → big_integer → List Char → Option (List Char)
  | 0, _, _ => none
  | fuel + 1, arg, res =>
      match div_short_ arg 10 with
      | none => none
      | some (arg1, carry) =>
          let res1 := res ++ [Char.ofNat ((carry + 48) % 256)]
          if op_ne arg1 ZERO then to_string_loop fuel arg1 res1 else some res1

/-- Source `to_string`. A 64-bit digit contributes at most 20 decimal digits, so
`20 * data_.size() + 1` iterations are enough. -/
def to_string (arg : big_integer) : Option (List Char) :=
  let neg := sign arg
  match to_string_loop (20 * arg.data_.length + 1) arg [] with
  | none => none
  | some res => some ((if neg then res ++ ['-'] else res).reverse)

/-- The value of a string of decimal digits, most significant digit first (Horner scheme:
the reference the string constructor is compared with). -/
def decimal_value (ds : List Char) : Nat :=
  ds.foldl (fun n c => n * 10 + (c.toNat - 48)) 0

/-! ## Multiplication and division with checked digit accesses

The functions above read and write digits with total list operations. The variants below return
`none` as soon as an unguarded access `data_[i]` of the source would fall outside the vector (or
an assertion would fail), so that `some` result means that every access was in range. -/

/-- The inner loop of `operator*=` with the access `result.data_[i + j]` checked. -/
def mul_row_checked (left_ : Nat) (right : List Nat) : List Nat → Nat → Nat → Option (List Nat)
  | [], j, carry => if j < right.length ∨ carry > 0 then none else some []
  | x :: res, j, carry =>
      if j < right.length ∨ carry > 0 then
        let right_ := right.getD j 0
        let upper := mul_overflow_ left_ right_
        let lower := (left_ * right_) % BASE
        let upper := (upper + b2n (add_overflow_ lower carry false)) % BASE
        let lower := (lower + carry) % BASE
        let upper := (upper + b2n (add_overflow_ lower x false)) % BASE
        let lower := (lower + x) % BASE
        match mul_row_checked left_ right res (j + 1) upper with
        | none => none
        | some res1 => some (lower :: res1)
      else some (x :: res)

/-- The outer loop of `operator*=` over the checked inner loop. -/
def mul_rows_checked (right : List Nat) : List Nat → List Nat → Option (List Nat)
  | [], res => some res
  | left_ :: ds, res =>
      match mul_row_checked left_ right res 0 0 with
      | none => none
      | some [] => some []
      | some (x :: res1) =>
          match mul_rows_checked right ds res1 with
          | none => none
          | some res2 => some (x :: res2)

/-- Source `operator*=` with the accesses to `result.data_` checked. -/
def mul_assign_checked (x right : big_integer) : Option big_integer :=
  let result : big_integer :=
    { mk_default with data_ := resize mk_default.data_ (x.data_.length + right.data_.length) }
  match mul_rows_checked right.data_ x.data_ result.data_ with
  | none => none
  | some ds =>
      some (keep_invariant_ (set_sign_ { result with data_ := ds } (xor (sign x) (sign right))))

/-- Source `operator<<=` over the checked multiplication. -/
def shl_assign_checked (x : big_integer) (right : Nat) : Option big_integer :=
  if op_eq x (of_int 0) then some x
  else
    let RIGHT_BITS := right / BASE_POWER2
    let data := resize x.data_ (x.data_.length + RIGHT_BITS)
    let data := move_backward data RIGHT_BITS
    let data := fill_front data RIGHT_BITS
    let right := right % BASE_POWER2
    mul_assign_checked { x with data_ := data } (of_unsigned_long_long ((1 <<< right) % BASE))

/-- The loop of `div_short_` with the access `data_[i]` checked. -/
def div_short_loop_checked (right : Nat) : Nat → List Nat → Nat → Option (List Nat × Nat)
  | 0, ds, carry => some (ds, carry)
  | i + 1, ds, carry =>
      match ds.get? i with
      | none => none
      | some digit =>
          match div_mod_ carry digit right with
          | none => none
          | some (q, r) => div_short_loop_checked right i (ds.set i q) r

/-- Source `big_integer::div_short_` over the checked loop. -/
def div_short__checked (x : big_integer) (right : Nat) : Option (big_integer × Nat) :=
  if right = 0 then none
  else
    match div_short_loop_checked right x.data_.length x.data_ 0 with
    | none => none
    | some (ds, carry) => some (keep_invariant_ { x with data_ := ds }, carry)

/-- The correction loop of `operator/=` over the checked shift. -/
def correct_loop_checked (u d : big_integer) (k : Nat) :
    Nat → big_integer → Option (Nat × big_integer)
  | 0, dq => some (0, dq)
  | qt + 1, dq =>
      match shl_assign_checked dq ((BASE_POWER2 * k) % BASE) with
      | none => none
      | some sh =>
          if op_lt u sh then correct_loop_checked u d k qt (sub_assign dq d)
          else some (qt + 1, dq)

/-- The main loop of `operator/=` with the accesses `d.data_[m - 1]` and `data_[k]` checked,
over the checked multiplication, shift and correction loop. -/
def div_loop_checked (d : big_integer) (m : Nat) :
    Nat → big_integer → big_integer → Option (big_integer × big_integer)
  | 0, x, u => some (x, u)
  | k + 1, x, u =>
      if m = 0 then none
      else
        match d.data_.get? (m - 1) with
        | none => none
        | some top =>
            match soft_div (u.data_.getD (k + m) 0) (u.data_.getD (k + m - 1) 0) top with
            | none => none
            | some qt =>
                match mul_assign_checked d (of_unsigned_long qt) with
                | none => none
                | some dq =>
                    match correct_loop_checked u d k qt dq with
                    | none => none
                    | some (qt1, dq1) =>
                        if k < x.data_.length then
                          match shl_assign_checked dq1 ((BASE_POWER2 * k) % BASE) with
                          | none => none
                          | some sh =>
                              div_loop_checked d m k { x with data_ := x.data_.set k qt1 }
                                (sub_assign u sh)
                        else none

/-- Source `operator/=` with every unguarded digit access checked: `right.data_[0]`,
`right.data_.back()`, the accesses of `div_short_`, of the multiplications and of the main loop;
the size `n - m` must not wrap. -/
def div_assign_checked (x right : big_integer) : Option big_integer :=
  if !(op_ne right ZERO) then none
  else if op_lt (abs_ x) (abs_ right) then some (of_int 0)
  else
    let new_sign := xor (sign x) (sign right)
    if right.data_.length = 1 then
      match right.data_.get? 0 with
      | none => none
      | some r0 =>
          match div_short__checked x r0 with
          | none => none
          | some (x1, _) => some (set_sign_ x1 new_sign)
    else
      match right.data_.getLast? with
      | none => none
      | some back =>
          let NORM_FACTOR := if back = MAX_DIGIT then 1 else MAX_DIGIT / (back + 1)
          match mul_assign_checked x (of_unsigned_long NORM_FACTOR),
              mul_assign_checked right (of_unsigned_long NORM_FACTOR) with
          | some u, some d =>
              let u : big_integer := { u with data_ := u.data_ ++ [0] }
              let u := set_sign_ u false
              let d := set_sign_ d false
              let n := u.data_.length
              let m := d.data_.length
              if n < m then none
              else
                let x1 : big_integer := { x with data_ := resize x.data_ (n - m) }
                let x2 := set_sign_ x1 new_sign
                match div_loop_checked d m (n - m) x2 u with
                | none => none
                | some (x3, _) => some (keep_invariant_ x3)
          | _, _ => none

/-- Source `operator%=` over the checked division and multiplication. -/
def mod_assign_checked (x right : big_integer) : Option big_integer :=
  match div_assign_checked x right with
  | none => none
  | some q =>
      match mul_assign_checked q right with
      | none => none
      | some p => some (sub_assign x p)

/-- The number of iterations that the inner loop of `operator*=` (lines 251-262) performs for
the digit `left_ = data_[i]`, started at `j` with `carry`; the arguments are those of
`mul_row`. -/
def mul_row_steps (left_ : Nat) (right : List Nat) : List Nat → Nat → Nat → Nat
  | [], _, _ => 0
  | x :: res, j, carry =>
      if j < right.length ∨ carry > 0 then
        let right_ := right.getD j 0
        let upper := mul_overflow_ left_ right_
        let lower := (left_ * right_) % BASE
        let upper := (upper + b2n (add_overflow_ lower carry false)) % BASE
        let lower := (lower + carry) % BASE
        let upper := (upper + b2n (add_overflow_ lower x false)) % BASE
        1 + mul_row_steps left_ right res (j + 1) upper
      else 0

end bigint_optimized

/-!
Shallow embedding of `src/bigint/big_integer.cpp`, the implementation without the
normalisation helper. The loops of `operator+=`, `operator-=` and `operator*=` are the
same text as in the optimized implementation, so their models are shared.
-/

namespace bigint_simple

open bigint_optimized (BASE b2n resize pop_zeros add_loop sub_loop mul_rows)

/-- The constant `MAX_DIGIT`. -/
def MAX_DIGIT : Nat := 18446744073709551615

/-- Source `abs_` on a 32-bit `int`. -/
def abs_ (x : Int) : Nat :=
  if x ≥ 0 then (x % 2 ^ 32).toNat else (2 ^ 32 - (x % 2 ^ 32).toNat) % 2 ^ 32

/-- Source `class big_integer`: the digit vector `data__` and the sign flag `sign__`. -/
structure big_integer where
  data__ : List Nat
  sign__ : Bool
deriving DecidableEq, Repr

/-- Default constructor `big_integer()`. -/
def mk_default : big_integer := ⟨[0], false⟩

/-- Constructor `big_integer(const int&)`. -/
def of_int (val : Int) : big_integer := ⟨[abs_ val], decide (val < 0)⟩

/-- Constructor `big_integer(const unsigned long long&)`. -/
def of_unsigned_long_long (val : Nat) : big_integer := ⟨[val], false⟩

/-- Source `big_integer::sign()`. -/
def sign (x : big_integer) : Bool := x.sign__

/-- The digit loop of `operator<` (lines 334-338), entered with equal sizes:
`for (i = left.data__.size(); i --> 0; )`. -/
def lt_loop (left right : big_integer) : Nat → Bool
  | 0 => false
  | i + 1 =>
      if left.data__.getD i 0 != right.data__.getD i 0 then
        (if sign left then decide (left.data__.getD i 0 > right.data__.getD i 0)
         else decide (left.data__.getD i 0 < right.data__.getD i 0))
      else lt_loop left right i

/-- Source `operator<`. -/
def op_lt (left right : big_integer) : Bool :=
  if sign left && !sign right then true
  else if !sign left && sign right then false
  else if left.data__.length != right.data__.length then
    (if sign left then decide (left.data__.length > right.data__.length)
     else decide (left.data__.length < right.data__.length))
  else lt_loop left right left.data__.length

/-- Source `operator!=`. -/
def op_ne (left right : big_integer) : Bool := op_lt left right || op_lt right left

/-- Source `operator==`. -/
def op_eq (left right : big_integer) : Bool := !(op_ne left right)

/-- Source `big_integer::set_sign`: `if ((*this) != 0) sign__ = new_sign;`. -/
def set_sign (x : big_integer) (new_sign : Bool) : big_integer :=
  if op_ne x (of_int 0) then { x with sign__ := new_sign } else x

/-- Source `big_integer::switch_sign`. -/
def switch_sign (x : big_integer) : big_integer := set_sign x (!x.sign__)

/-- The integer denoted by a `big_integer`. -/
def val (x : big_integer) : Int :=
  if x.sign__ then -(bigint_optimized.nat_of x.data__ : Int)
  else (bigint_optimized.nat_of x.data__ : Int)

/-- Canonical form, as for the optimized implementation: machine-word digits, non-empty
digit sequence, non-zero most-significant digit unless the length is 1, clear sign flag for
the value zero. -/
def canonical (x : big_integer) : Prop :=
  (∀ d ∈ x.data__, d < BASE) ∧ x.data__ ≠ [] ∧
    (x.data__.length = 1 ∨ x.data__.getLast? ≠ some 0) ∧
    (bigint_optimized.nat_of x.data__ = 0 → x.sign__ = false)

/-- Canonical form can be checked by evaluation. -/
instance canonical_decidable (x : big_integer) : Decidable (canonical x) :=
  inferInstanceAs (Decidable ((∀ d ∈ x.data__, d < BASE) ∧ x.data__ ≠ [] ∧
    (x.data__.length = 1 ∨ x.data__.getLast? ≠ some 0) ∧
    (bigint_optimized.nat_of x.data__ = 0 → x.sign__ = false)))

/-- The loop `while (data__.size() > 1 && data__.back() == 0ULL) data__.pop_back();` that
ends `operator+=`, `operator-=` and `operator*=`. -/
def trim (x : big_integer) : big_integer :=
  { x with data__ := pop_zeros x.data__.length x.data__ }

/-- Unary `operator-`. -/
def op_neg (val : big_integer) : big_integer := switch_sign val

/-- The same-sign branch of `operator+=` (lines 138-148). -/
def add_same (x right : big_integer) : big_integer :=
  let data := resize x.data__ (max x.data__.length right.data__.length + 1)
  trim { x with data__ := add_loop right.data__ data 0 0 }

/-- The same-sign branch of `operator-=` (lines 162-177). -/
def sub_same (x right : big_integer) : big_integer :=
  let new_sign := op_lt x right
  let data := resize x.data__ (max x.data__.length right.data__.length)
  let x1 : big_integer :=
    { x with data__ := sub_loop right.data__ (xor (sign x) new_sign) data 0 0 }
  trim (set_sign x1 new_sign)

mutual
/-- Source `operator+=`; the first argument bounds the depth of the mutual recursion with
`operator-=`, and `none` means the bound was reached. -/
def add_assign_depth : Nat → big_integer → big_integer → Option big_integer
  | 0, _, _ => none
  | depth + 1, x, right =>
      if !sign x && sign right then sub_assign_depth depth x (op_neg right)
      else if sign x && !sign right then
        (sub_assign_depth depth (switch_sign x) right).map switch_sign
      else some (add_same x right)
/-- Source `operator-=`, with the same depth bound. -/
def sub_assign_depth : Nat → big_integer → big_integer → Option big_integer
  | 0, _, _ => none
  | depth + 1, x, right =>
      if !sign x && sign right then add_assign_depth depth x (op_neg right)
      else if sign x && !sign right then
        (add_assign_depth depth (switch_sign x) right).map switch_sign
      else some (sub_same x right)
end

/-- Source `operator+=` (and binary `operator+`): the delegated call always takes the
same-sign branch, so depth 2 is enough. -/
def add_assign (x right : big_integer) : Option big_integer := add_assign_depth 2 x right

/-- Source `operator-=` (and binary `operator-`). -/
def sub_assign (x right : big_integer) : Option big_integer := sub_assign_depth 2 x right

/-- Prefix `operator++`: `*this += 1`. -/
def pre_inc (x : big_integer) : Option big_integer := add_assign x (of_int 1)

/-- Source `operator~`: `-val - 1`. -/
def op_not (val : big_integer) : Option big_integer := sub_assign (op_neg val) (of_int 1)

/-- Source `operator*=` (and binary `operator*`). -/
def mul_assign (x right : big_integer) : big_integer :=
  let result : big_integer :=
    { mk_default with data__ := resize mk_default.data__ (x.data__.length + right.data__.length) }
  let result := { result with data__ := mul_rows right.data__ x.data__ result.data__ }
  trim (set_sign result (xor (sign x) (sign right)))

/-- Binary `operator*`. -/
def op_mul (left right : big_integer) : big_integer := mul_assign left right

/-- The loop `for (i = 0; i < CNT; i++) _right.data__[i] &= ~_left.data__[i];` of
`operator&` (lines 402-403); the first argument counts the iterations left. -/
def and_not_loop (left : List Nat) : Nat → Nat → List Nat → List Nat
  | 0, _, right => right
  | n + 1, i, right =>
      and_not_loop left n (i + 1) (right.set i (right.getD i 0 &&& (MAX_DIGIT - left.getD i 0)))

/-- The loop `for (i = 0; i < _left.data__.size(); i++) _left.data__[i] &= _right.data__[i];`
of `operator&` (lines 409-410). -/
def and_loop (right : List Nat) : Nat → Nat → List Nat → List Nat
  | 0, _, left => left
  | n + 1, i, left => and_loop right n (i + 1) (left.set i (left.getD i 0 &&& right.getD i 0))

/-- The loop `for (i = 0; i < _right.data__.size(); i++) _left.data__[i] |= _right.data__[i];`
of `operator|` (lines 422-423). -/
def or_loop (right : List Nat) : Nat → Nat → List Nat → List Nat
  | 0, _, left => left
  | n + 1, i, left => or_loop right n (i + 1) (left.set i (left.getD i 0 ||| right.getD i 0))

mutual
/-- Source `operator&`; the first argument bounds the depth of the recursion through
`operator&` and `operator|`, and `none` means the bound was reached. -/
def op_and_depth : Nat → big_integer → big_integer → Option big_integer
  | 0, _, _ => none
  | depth + 1, left, right =>
      if !sign left && sign right then op_and_depth depth right left
      else if sign left && sign right then
        match op_not left, op_not right with
        | some nl, some nr =>
            (match op_or_depth depth nl nr with
             | some r => op_not r
             | none => none)
        | _, _ => none
      else if sign left && !sign right then
        match pre_inc left with
        | some left1 =>
            let CNT := min left1.data__.length right.data__.length
            some { right with data__ := and_not_loop left1.data__ CNT 0 right.data__ }
        | none => none
      else
        let l := if left.data__.length > right.data__.length then right else left
        let r := if left.data__.length > right.data__.length then left else right
        some { l with data__ := and_loop r.data__ l.data__.length 0 l.data__ }
/-- Source `operator|`, with the same depth bound. -/
def op_or_depth : Nat → big_integer → big_integer → Option big_integer
  | 0, _, _ => none
  | depth + 1, left, right =>
      if sign left || sign right then
        match op_not left, op_not right with
        | some nl, some nr =>
            (match op_and_depth depth nl nr with
             | some r => op_not r
             | none => none)
        | _, _ => none
      else
        let l := if left.data__.length < right.data__.length then right else left
        let r := if left.data__.length < right.data__.length then left else right
        some { l with data__ := or_loop r.data__ r.data__.length 0 l.data__ }
end

/-- Source `operator&`, run with a depth bound of 8 nested calls. -/
def op_and (left right : big_integer) : Option big_integer := op_and_depth 8 left right

/-- Source `operator|`, run with a depth bound of 8 nested calls. -/
def op_or (left right : big_integer) : Option big_integer := op_or_depth 8 left right

/-- Source `operator^`: `(~left & right) | (left & ~right)`. -/
def op_xor (left right : big_integer) : Option big_integer :=
  match op_not left, op_not right with
  | some nl, some nr =>
      (match op_and nl right, op_and left nr with
       | some a, some b => op_or a b
       | _, _ => none)
  | _, _ => none

/-- Source constant `BASE_POWER2`. -/
def BASE_POWER2 : Nat := 64

/-- Constructor `big_integer(const unsigned long&)`, used for a `uint64_t` operand. -/
def of_unsigned_long (val : Nat) : big_integer := ⟨[val], false⟩

/-- Binary `operator+`: `left += right` on a copy. -/
def op_add (left right : big_integer) : Option big_integer := add_assign left right

/-- Source `operator<<=` (and binary `operator<<`); `none` when `assert(right >= 0)` fails. -/
def shl_assign (x : big_integer) (right : Int) : Option big_integer :=
  if right < 0 then none
  else if op_eq x (of_int 0) then some x
  else
    let right_bits := right.toNat / BASE_POWER2
    let data :=
      if right_bits > 0 then
        bigint_optimized.fill_front
          (bigint_optimized.move_backward (resize x.data__ (x.data__.length + right_bits))
            right_bits) right_bits
      else x.data__
    let right1 := if right_bits > 0 then right.toNat % BASE_POWER2 else right.toNat
    some (mul_assign { x with data__ := data } (of_unsigned_long_long ((1 <<< right1) % BASE)))

/-- Binary `operator<<`. -/
def op_shl (left : big_integer) (right : Int) : Option big_integer := shl_assign left right

/-- The binary search of `operator/=` (lines 217-223):
`while (l < r) { m = r - (r - l) / 2; if (remainder < right * m) r = m - 1; else l = m; }`.
The first argument bounds the number of iterations; `none` means the bound was reached. -/
def search_loop (remainder right : big_integer) : Nat → Nat → Nat → Option Nat
  | 0, _, _ => none
  | fuel + 1, l, r =>
      if l < r then
        let m := r - (r - l) / 2
        if op_lt remainder (op_mul right (of_unsigned_long m)) then
          search_loop remainder right fuel l (m - 1)
        else search_loop remainder right fuel m r
      else some l

/-- The digit loop of `operator/=` (lines 214-226): `for (i = data__.size(); i --> 0; )`. The
state is `result` and `remainder`; the interval of the search halves in every iteration, so 65
iterations are enough for it. -/
def div_loop (data : List Nat) (right : big_integer) :
    Nat → big_integer → big_integer → Option (big_integer × big_integer)
  | 0, result, remainder => some (result, remainder)
  | i + 1, result, remainder =>
      match op_shl remainder BASE_POWER2 with
      | none => none
      | some rs =>
          match op_add rs (of_unsigned_long (data.getD i 0)) with
          | none => none
          | some remainder1 =>
              match search_loop remainder1 right 65 0 MAX_DIGIT with
              | none => none
              | some l =>
                  match op_shl result BASE_POWER2 with
                  | none => none
                  | some qs =>
                      match op_add qs (of_unsigned_long l) with
                      | none => none
                      | some result1 =>
                          match sub_assign remainder1 (op_mul right (of_unsigned_long l)) with
                          | none => none
                          | some remainder2 => div_loop data right i result1 remainder2

/-- Source `operator/=`; `none` when `assert(right != 0)` fails. -/
def div_assign (x right : big_integer) : Option big_integer :=
  if !(op_ne right (of_int 0)) then none
  else
    let new_sign := xor (sign x) (sign right)
    let right1 := set_sign right false
    match div_loop x.data__ right1 x.data__.length mk_default mk_default with
    | none => none
    | some (result, _) => some (set_sign result new_sign)

/-- Binary `operator/`. -/
def op_div (left right : big_integer) : Option big_integer := div_assign left right

end bigint_simple

/-! ## The digit storage (`uint_storage.h`, `vector_ptr.h`)

The storage either keeps its elements in an inline array of `SMALL_DATA_SIZE` words or holds a
`vector_ptr`, a pointer to a reference-counted block on the free store. The free store is a list of
blocks addressed by position; every operation takes the store and returns the new one. An
operation whose C++ behaviour is undefined (a dangling pointer or reference, an index outside the
array or the vector, an invalid iterator range) returns `none`.

The inline array and the `vector_ptr` are the two members of one union: they occupy the same
bytes of the storage object, and only the member that `is_big_` selects exists. The record below
keeps a field for each; no operation reads the field of the member that does not exist, and a
reference into the inline array cannot be read any more once the `vector_ptr` has been
constructed in its place (`read_ref`). -/

namespace storage

/-- The size of `vector_ptr<T>` in bytes: it holds the single pointer `ptr_`. -/
def SIZEOF_VECTOR_PTR : Nat := 8

/-- The constant `SMALL_DATA_SIZE = sizeof(vector_ptr<T>) / sizeof(T)`. -/
def SMALL_DATA_SIZE (sizeof_T : Nat) : Nat := SIZEOF_VECTOR_PTR / sizeof_T

/-- The range of `size_t`. -/
def SIZE_RANGE : Nat := 18446744073709551616

/-- The `--` of a `size_t`. -/
def size_dec (n : Nat) : Nat := (n + (SIZE_RANGE - 1)) % SIZE_RANGE

/-- The `++` of a `size_t`. -/
def size_inc (n : Nat) : Nat := (n + 1) % SIZE_RANGE

/-- The block `vector_ptr::ref_data_`: the vector and the number of owners. -/
structure ref_data_ where
  obj_ : List Nat
  ref_cnt_ : Nat
deriving DecidableEq

/-- The free store: the address `p` holds `some r` while its block is live. -/
abbrev heap := List (Option ref_data_)

/-- The block behind a pointer, `none` for a pointer that is not live. -/
def heap_get (h : heap) (p : Nat) : Option ref_data_ := (h.get? p).join

/-- The expression `new ref_data_(...)`: a fresh address holding the block. -/
def heap_new (h : heap) (r : ref_data_) : heap × Nat := (h ++ [some r], h.length)

/-- A write to the block behind a pointer. -/
def heap_set (h : heap) (p : Nat) (r : ref_data_) : heap := h.set p (some r)

/-- The expression `delete ptr_`. -/
def heap_delete (h : heap) (p : Nat) : heap := h.set p none

/-- The method `vector_ptr::share`: take the pointer of `other` and count one more owner. -/
def share (h : heap) (other_ptr : Nat) : Option (heap × Nat) :=
  match heap_get h other_ptr with
  | none => none
  | some r => some (heap_set h other_ptr { r with ref_cnt_ := size_inc r.ref_cnt_ }, other_ptr)

/-- The method `vector_ptr::unshare`: count one owner less and delete the block at zero. -/
def unshare (h : heap) (ptr_ : Nat) : Option heap :=
  match heap_get h ptr_ with
  | none => none
  | some r =>
      if size_dec r.ref_cnt_ = 0 then some (heap_delete h ptr_)
      else some (heap_set h ptr_ { r with ref_cnt_ := size_dec r.ref_cnt_ })

/-- The copy assignment of `vector_ptr` between two distinct handles. -/
def vector_ptr_assign (h : heap) (ptr_ other_ptr : Nat) : Option (heap × Nat) :=
  match unshare h ptr_ with
  | none => none
  | some h1 => share h1 other_ptr

/-- The method `vector_ptr::detach`: a handle that is not the only owner moves to a private copy
of the block. -/
def detach (h : heap) (ptr_ : Nat) : Option (heap × Nat) :=
  match heap_get h ptr_ with
  | none => none
  | some r =>
      if r.ref_cnt_ > 1 then
        some (heap_new (heap_set h ptr_ { r with ref_cnt_ := size_dec r.ref_cnt_ }) ⟨r.obj_, 1⟩)
      else some (h, ptr_)

/-- The class `uint_storage<T>`: the tag, the inline length, and the two members of the union
(the pointer of `big_data_` and the array `small_data_`). The member that `is_big_` does not
select does not exist; its field is never read. -/
structure uint_storage where
  is_big_ : Bool
  size_ : Nat
  big_data_ : Nat
  small_data_ : List Nat
deriving DecidableEq

/-- The method `size()`. -/
def size (h : heap) (s : uint_storage) : Option Nat :=
  if s.is_big_ then (heap_get h s.big_data_).map (fun r => r.obj_.length) else some s.size_

/-- The constant `operator[]`. -/
def op_index (h : heap) (s : uint_storage) (ind : Nat) : Option Nat :=
  if s.is_big_ then (heap_get h s.big_data_).bind (fun r => r.obj_.get? ind)
  else s.small_data_.get? ind

/-- The method `small_to_big`: the vector is built from the first `size_` inline elements. -/
def small_to_big (h : heap) (s : uint_storage) : heap × uint_storage :=
  if !s.is_big_ then
    let (h1, p) := heap_new h ⟨s.small_data_.take s.size_, 1⟩
    (h1, { s with big_data_ := p, is_big_ := true })
  else (h, s)

/-- The method `init_big_data`. -/
def init_big_data (h : heap) (x src : uint_storage) : Option (heap × uint_storage) :=
  match share h src.big_data_ with
  | none => none
  | some (h1, p) => some (h1, { x with big_data_ := p })

/-- The method `init_small_data`: `copy_n` of the first `size_` elements of the source. -/
def init_small_data (x src : uint_storage) : uint_storage :=
  { x with small_data_ := src.small_data_.take src.size_ ++ x.small_data_.drop src.size_,
           size_ := src.size_ }

/-- The copy constructor; `x` is the object before its members are initialised. -/
def copy_construct (h : heap) (x other : uint_storage) : Option (heap × uint_storage) :=
  if other.is_big_ then
    match init_big_data h x other with
    | none => none
    | some (h1, x1) => some (h1, { x1 with is_big_ := other.is_big_ })
  else some (h, { init_small_data x other with is_big_ := other.is_big_ })

/-- The copy assignment `operator=`; `same` says that `this == &other`. -/
def op_assign (h : heap) (x other : uint_storage) (same : Bool) : Option (heap × uint_storage) :=
  if same then some (h, x)
  else if other.is_big_ then
    if x.is_big_ then
      match vector_ptr_assign h x.big_data_ other.big_data_ with
      | none => none
      | some (h1, p) => some (h1, { x with big_data_ := p, is_big_ := other.is_big_ })
    else
      match init_big_data h x other with
      | none => none
      | some (h1, x1) => some (h1, { x1 with is_big_ := other.is_big_ })
  else
    if x.is_big_ then
      match unshare h x.big_data_ with
      | none => none
      | some h1 => some (h1, { init_small_data x other with is_big_ := other.is_big_ })
    else some (h, { init_small_data x other with is_big_ := other.is_big_ })

/-- The argument `const T& elem` of `push_back`: a reference to an object of type `T`. The
object is either not part of the storage object that `push_back` is called on (a temporary, a
variable, an element of a vector on the free store or of another storage), and then it keeps its
value `v` during the call; or it is the element `small_data_[ind]` of the inline array of that
storage object itself, as `s[ind]`, `s.back()` or `s.begin()` of an inline storage return
it. -/
inductive elem_ref where
  | outside (v : Nat)
  | own_small (ind : Nat)
deriving DecidableEq

/-- The value read through a reference when the storage object is in state `s`. The inline array
shares its bytes with the handle `big_data_`: once the handle has been constructed the array does
not exist any more, and a reference to one of its elements is dangling. -/
def read_ref (s : uint_storage) : elem_ref → Option Nat
  | elem_ref.outside v => some v
  | elem_ref.own_small ind => if s.is_big_ then none else s.small_data_.get? ind

/-- The method `push_back(const T& elem)`. The reference is read where the source reads it: in
`big_data_->push_back(elem)` after `small_to_big()` and `detach()`, or in the assignment to
`small_data_[size_++]`. -/
def push_back (sizeof_T : Nat) (h : heap) (s : uint_storage) (elem : elem_ref) :
    Option (heap × uint_storage) :=
  let (h1, s1) :=
    if !s.is_big_ && s.size_ = SMALL_DATA_SIZE sizeof_T then small_to_big h s else (h, s)
  if s1.is_big_ then
    match detach h1 s1.big_data_ with
    | none => none
    | some (h2, p) =>
        match heap_get h2 p with
        | none => none
        | some r =>
            match read_ref s1 elem with
            | none => none
            | some v =>
                some (heap_set h2 p { r with obj_ := r.obj_ ++ [v] }, { s1 with big_data_ := p })
  else if s1.size_ < s1.small_data_.length then
    match read_ref s1 elem with
    | none => none
    | some v =>
        some (h1, { s1 with small_data_ := s1.small_data_.set s1.size_ v,
                            size_ := size_inc s1.size_ })
  else none

/-- The method `pop_back`; `std::vector::pop_back` needs a non-empty vector. -/
def pop_back (h : heap) (s : uint_storage) : Option (heap × uint_storage) :=
  if s.is_big_ then
    match detach h s.big_data_ with
    | none => none
    | some (h2, p) =>
        match heap_get h2 p with
        | none => none
        | some r =>
            if r.obj_ = [] then none
            else some (heap_set h2 p { r with obj_ := r.obj_.dropLast }, { s with big_data_ := p })
  else some (h, { s with size_ := size_dec s.size_ })

/-- A write `s[ind] = v` through the mutable `operator[]`. -/
def op_index_set (h : heap) (s : uint_storage) (ind v : Nat) : Option (heap × uint_storage) :=
  if s.is_big_ then
    match detach h s.big_data_ with
    | none => none
    | some (h2, p) =>
        match heap_get h2 p with
        | none => none
        | some r =>
            if ind < r.obj_.length then
              some (heap_set h2 p { r with obj_ := r.obj_.set ind v }, { s with big_data_ := p })
            else none
  else if ind < s.small_data_.length then
    some (h, { s with small_data_ := s.small_data_.set ind v })
  else none

/-- A write `s.back() = v` through the mutable `back()`. -/
def back_set (h : heap) (s : uint_storage) (v : Nat) : Option (heap × uint_storage) :=
  if s.is_big_ then
    match detach h s.big_data_ with
    | none => none
    | some (h2, p) =>
        match heap_get h2 p with
        | none => none
        | some r =>
            if r.obj_ = [] then none
            else
              some (heap_set h2 p { r with obj_ := r.obj_.set (r.obj_.length - 1) v },
                { s with big_data_ := p })
  else if size_dec s.size_ < s.small_data_.length then
    some (h, { s with small_data_ := s.small_data_.set (size_dec s.size_) v })
  else none

/-- The call `std::fill(a + first, a + last, 0)` on an array: the range has to be valid. -/
def fill_zero (a : List Nat) (first last : Nat) : Option (List Nat) :=
  if first ≤ last ∧ last ≤ a.length then
    some (a.take first ++ List.replicate (last - first) 0 ++ a.drop last)
  else none

/-- The method `resize`. -/
def resize (sizeof_T : Nat) (h : heap) (s : uint_storage) (new_size : Nat) :
    Option (heap × uint_storage) :=
  let (h1, s1) :=
    if !s.is_big_ && new_size > SMALL_DATA_SIZE sizeof_T then small_to_big h s else (h, s)
  if s1.is_big_ then
    match detach h1 s1.big_data_ with
    | none => none
    | some (h2, p) =>
        match heap_get h2 p with
        | none => none
        | some r =>
            some (heap_set h2 p { r with obj_ := bigint_optimized.resize r.obj_ new_size }, { s1 with big_data_ := p })
  else
    match fill_zero s1.small_data_ s1.size_ new_size with
    | none => none
    | some a => some (h1, { s1 with small_data_ := a, size_ := new_size })

/-- The elements a storage holds, in order: the vector of its block, or the first `size_`
elements of the inline array. -/
def contents (h : heap) (s : uint_storage) : Option (List Nat) :=
  if s.is_big_ then (heap_get h s.big_data_).map (fun r => r.obj_)
  else some (s.small_data_.take s.size_)

/-- A mutating operation of the storage: `push_back` of an object with value `elem` that is not
part of the storage object, `pop_back`, a write through the mutable `operator[]` or `back()`,
`resize`. -/
inductive mutation where
  | push_back (elem : Nat)
  | pop_back
  | index_set (ind v : Nat)
  | back_set (v : Nat)
  | resize (new_size : Nat)
deriving DecidableEq

/-- The run of a mutating operation on a storage. -/
def apply_mutation (sizeof_T : Nat) (h : heap) (s : uint_storage) :
    mutation → Option (heap × uint_storage)
  | mutation.push_back elem => push_back sizeof_T h s (elem_ref.outside elem)
  | mutation.pop_back => pop_back h s
  | mutation.index_set ind v => op_index_set h s ind v
  | mutation.back_set v => back_set h s v
  | mutation.resize new_size => resize sizeof_T h s new_size

/-- The effect a mutating operation is meant to have on the sequence of elements; `none` when
the sequence does not meet the precondition of the operation. -/
def mutate (xs : List Nat) : mutation → Option (List Nat)
  | mutation.push_back elem => some (xs ++ [elem])
  | mutation.pop_back => if xs = [] then none else some xs.dropLast
  | mutation.index_set ind v => if ind < xs.length then some (xs.set ind v) else none
  | mutation.back_set v => if xs = [] then none else some (xs.set (xs.length - 1) v)
  | mutation.resize new_size => some (bigint_optimized.resize xs new_size)

/-- A valid storage object: the inline array has `SMALL_DATA_SIZE` elements; a shared storage
points to a live block that counts at least one owner, an inline one has its length within the
array. -/
def valid (sizeof_T : Nat) (h : heap) (s : uint_storage) : Prop :=
  s.small_data_.length = SMALL_DATA_SIZE sizeof_T ∧
  if s.is_big_ then
    ∃ r, heap_get h s.big_data_ = some r ∧ 1 ≤ r.ref_cnt_ ∧ r.ref_cnt_ < SIZE_RANGE
  else s.size_ ≤ SMALL_DATA_SIZE sizeof_T

/-- The owner count of the block of a shared storage can take one more owner. -/
def can_share (h : heap) (s : uint_storage) : Prop :=
  s.is_big_ = true → ∀ r, heap_get h s.big_data_ = some r → r.ref_cnt_ + 1 < SIZE_RANGE

/-- Two distinct storage objects are counted separately: when both point to the same block, the
block counts at least two owners. -/
def counted (h : heap) (s t : uint_storage) : Prop :=
  s.is_big_ = true → t.is_big_ = true → s.big_data_ = t.big_data_ →
    ∃ r, heap_get h s.big_data_ = some r ∧ 2 ≤ r.ref_cnt_

end storage

/-! ## The generic vector (`src/vector/vector.h`)

`vector<T>` owns a block obtained from `operator new` and constructs its elements in it with
placement `new`. The free store is modelled explicitly, so that a pointer that is null, a block
that has been released and a slot that holds no object can be told apart; an operation whose
behaviour is undefined on the given state (a failed `assert`, an access through `nullptr` or
outside the block, the use of a slot without an object) returns `none`. Copying a `T` is taken
not to throw, and `operator new` not to fail. -/

namespace generic_vector

/-- The number of values of `size_t`. -/
def SIZE_RANGE : Nat := 18446744073709551616

/-- A block of the free store seen as slots for objects of type `T`: `none` is raw storage,
`some v` an object with value `v`. -/
abbrev block (T : Type) := List (Option T)

/-- The free store: the blocks allocated so far, `none` for a released one. A pointer that is
not null is an index into it. -/
abbrev heap (T : Type) := List (Option (block T))

/-- The members of `vector<T>`; `data_ = none` is `nullptr`. -/
structure vector (T : Type) where
  /-- Member `T* data_`. -/
  data_ : Option Nat
  /-- Member `size_t size_`. -/
  size_ : Nat
  /-- Member `size_t capacity_`. -/
  capacity_ : Nat

/-- The live block that the pointer `p` refers to. -/
def deref {T : Type} (h : heap T) (p : Option Nat) : Option (block T) :=
  match p with
  | none => none
  | some a => h.getD a none

/-- The call `operator new(bytes)` for an array of `T`: a new block with room for
`bytes / sizeof(T)` objects. -/
def operator_new {T : Type} (sizeof_T : Nat) (h : heap T) (bytes : Nat) : heap T × Option Nat :=
  (h ++ [some (List.replicate (bytes / sizeof_T) none)], some h.length)

/-- The call `operator delete(p)`: nothing happens for `nullptr`, a live block is released. -/
def operator_delete {T : Type} (h : heap T) (p : Option Nat) : Option (heap T) :=
  match p with
  | none => some h
  | some a =>
      match h.getD a none with
      | none => none
      | some _ => some (h.set a none)

/-- Placement `new (p + i) T(v)`. -/
def construct_at {T : Type} (h : heap T) (p : Option Nat) (i : Nat) (v : T) : Option (heap T) :=
  match p with
  | none => none
  | some a =>
      match h.getD a none with
      | none => none
      | some b => if i < b.length then some (h.set a (some (b.set i (some v)))) else none

/-- The destructor call `p[i].~T()`. -/
def destroy_at {T : Type} (h : heap T) (p : Option Nat) (i : Nat) : Option (heap T) :=
  match p with
  | none => none
  | some a =>
      match h.getD a none with
      | none => none
      | some b =>
          match b.getD i none with
          | none => none
          | some _ => some (h.set a (some (b.set i none)))

/-- The value of the object `p[i]`. -/
def read_at {T : Type} (h : heap T) (p : Option Nat) (i : Nat) : Option T :=
  match deref h p with
  | none => none
  | some b => b.getD i none

/-- Source `vector<T>::vector()`. -/
def mk_default {T : Type} : vector T := ⟨none, 0, 0⟩

/-- Source `vector<T>::size`. -/
def size {T : Type} (v : vector T) : Nat := v.size_

/-- Source `vector<T>::capacity`. -/
def capacity {T : Type} (v : vector T) : Nat := v.capacity_

/-- Source `vector<T>::empty`. -/
def empty {T : Type} (v : vector T) : Bool := v.size_ == 0

/-- Source `vector<T>::operator[]`: `data_[i]`. -/
def op_index {T : Type} (h : heap T) (v : vector T) (i : Nat) : Option T := read_at h v.data_ i

/-- Source `vector<T>::free_data`: `for (size_t i = size; i --> 0; ) dst[i].~T();`. -/
def free_data {T : Type} (dst : Option Nat) : Nat → heap T → Option (heap T)
  | 0, h => some h
  | i + 1, h =>
      match destroy_at h dst i with
      | none => none
      | some h1 => free_data dst i h1

/-- The loop of `copy_data`: `for (; i < new_size; i++) new (tmp + i) T(src[i]);`. The first
argument is `new_size - i`. -/
def copy_loop {T : Type} (src tmp : Option Nat) : Nat → Nat → heap T → Option (heap T)
  | 0, _, h => some h
  | k + 1, i, h =>
      match read_at h src i with
      | none => none
      | some v =>
          match construct_at h tmp i v with
          | none => none
          | some h1 => copy_loop src tmp k (i + 1) h1

/-- Source `vector<T>::copy_data`. -/
def copy_data {T : Type} (sizeof_T : Nat) (h : heap T) (src : Option Nat)
    (new_size new_cap : Nat) : Option (heap T × Option Nat) :=
  if new_cap < new_size then none
  else if new_cap = 0 then some (h, none)
  else
    let a := operator_new sizeof_T h ((sizeof_T * new_cap) % SIZE_RANGE)
    match copy_loop src a.2 new_size 0 a.1 with
    | none => none
    | some h2 => some (h2, a.2)

/-- Source `vector<T>::force_capacity`. -/
def force_capacity {T : Type} (sizeof_T : Nat) (h : heap T) (v : vector T) (new_cap : Nat) :
    Option (heap T × vector T) :=
  if new_cap < v.size_ then none
  else if new_cap = v.capacity_ then some (h, v)
  else
    match copy_data sizeof_T h v.data_ v.size_ new_cap with
    | none => none
    | some (h1, tmp) =>
        match free_data v.data_ v.size_ h1 with
        | none => none
        | some h2 =>
            match operator_delete h2 v.data_ with
            | none => none
            | some h3 => some (h3, ⟨tmp, v.size_, new_cap⟩)

/-- Source `vector<T>::push_back`. -/
def push_back {T : Type} (sizeof_T : Nat) (h : heap T) (v : vector T) (elem : T) :
    Option (heap T × vector T) :=
  if v.size_ = v.capacity_ then
    let t := elem
    match force_capacity sizeof_T h v
        (if v.capacity_ ≠ 0 then (2 * v.capacity_) % SIZE_RANGE else 1) with
    | none => none
    | some (h1, v1) =>
        match construct_at h1 v1.data_ v1.size_ t with
        | none => none
        | some h2 => some (h2, { v1 with size_ := (v1.size_ + 1) % SIZE_RANGE })
  else
    match construct_at h v.data_ v.size_ elem with
    | none => none
    | some h1 => some (h1, { v with size_ := (v.size_ + 1) % SIZE_RANGE })

/-- Source `vector<T>::pop_back`: `data_[--size_].~T();`. -/
def pop_back {T : Type} (h : heap T) (v : vector T) : Option (heap T × vector T) :=
  let s := (v.size_ + SIZE_RANGE - 1) % SIZE_RANGE
  match destroy_at h v.data_ s with
  | none => none
  | some h1 => some (h1, { v with size_ := s })

/-- Source `vector<T>::reserve`. -/
def reserve {T : Type} (sizeof_T : Nat) (h : heap T) (v : vector T) (new_capacity : Nat) :
    Option (heap T × vector T) :=
  if new_capacity ≤ v.capacity_ then some (h, v) else force_capacity sizeof_T h v new_capacity

/-- Source `vector<T>::shrink_to_fit`. -/
def shrink_to_fit {T : Type} (sizeof_T : Nat) (h : heap T) (v : vector T) :
    Option (heap T × vector T) :=
  if empty v then
    match operator_delete h v.data_ with
    | none => none
    | some h1 => some (h1, { v with data_ := none })
  else force_capacity sizeof_T h v v.size_

/-- The storage invariant of `vector<T>`: `size_ <= capacity_`; `data_` is null when
`capacity_` is zero and otherwise points to a live block of `capacity_` slots, the first
`size_` of which hold objects. -/
def valid {T : Type} (sizeof_T : Nat) (h : heap T) (v : vector T) : Prop :=
  0 < sizeof_T ∧ v.size_ ≤ v.capacity_ ∧ sizeof_T * v.capacity_ < SIZE_RANGE ∧
    if v.capacity_ = 0 then v.data_ = none
    else ∃ b, deref h v.data_ = some b ∧ b.length = v.capacity_ ∧
      ∀ i, i < v.size_ → ∃ e, b.getD i none = some e

end generic_vector

namespace bigint_optimized

/-! ## Digit sequences and their value -/

theorem BASE_pos : 0 < BASE := by decide

theorem MAX_DIGIT_eq : MAX_DIGIT = BASE - 1 := by decide

theorem nat_of_append (xs ys : List Nat) :
    nat_of (xs ++ ys) = nat_of xs + BASE ^ xs.length * nat_of ys := by
  induction xs with
  | nil => simp [nat_of]
  | cons d ds ih =>
    rw [List.cons_append]
    simp only [nat_of, List.length_cons, pow_succ]
    rw [ih]; ring

theorem nat_of_replicate_zero (n : Nat) : nat_of (List.replicate n 0) = 0 := by
  induction n with
  | zero => rfl
  | succ n ih => simp [List.replicate_succ, nat_of, ih]

theorem nat_of_lt (ds : List Nat) (h : ∀ d ∈ ds, d < BASE) :
    nat_of ds < BASE ^ ds.length := by
  induction ds with
  | nil => simp [nat_of]
  | cons d ds ih =>
    have h1 : d < BASE := h d (List.mem_cons_self _ _)
    have h2 := ih (fun e he => h e (List.mem_cons_of_mem _ he))
    simp only [nat_of, List.length_cons, pow_succ]
    nlinarith

theorem nat_of_resize (ds : List Nat) (n : Nat) (h : ds.length ≤ n) :
    nat_of (resize ds n) = nat_of ds := by
  unfold resize
  rw [List.take_of_length_le h, nat_of_append, nat_of_replicate_zero]; simp

theorem length_resize (ds : List Nat) (n : Nat) : (resize ds n).length = n := by
  unfold resize
  simp [List.length_take]; omega

theorem mem_resize (ds : List Nat) (n : Nat) (h : ∀ d ∈ ds, d < BASE) :
    ∀ d ∈ resize ds n, d < BASE := by
  intro d hd
  unfold resize at hd
  rcases List.mem_append.1 hd with h1 | h1
  · exact h d (List.mem_of_mem_take h1)
  · rw [List.mem_replicate] at h1; rw [h1.2]; exact BASE_pos

theorem nat_of_dropLast (ds : List Nat) (h : ds.getLast? = some 0) :
    nat_of ds.dropLast = nat_of ds := by
  have h2 : ds = ds.dropLast ++ [0] := by
    have := List.dropLast_append_getLast? 0 (by simpa using h)
    exact this.symm
  conv_rhs => rw [h2, nat_of_append]
  simp [nat_of]

theorem nat_of_pop_zeros (fuel : Nat) (ds : List Nat) : nat_of (pop_zeros fuel ds) = nat_of ds := by
  induction fuel generalizing ds with
  | zero => rfl
  | succ n ih =>
    unfold pop_zeros
    split
    · rename_i h; rw [ih, nat_of_dropLast _ h.2]
    · rfl

theorem mem_pop_zeros (fuel : Nat) (ds : List Nat) : ∀ d ∈ pop_zeros fuel ds, d ∈ ds := by
  induction fuel generalizing ds with
  | zero => intro d hd; exact hd
  | succ n ih =>
    unfold pop_zeros
    split
    · intro d hd; exact List.mem_of_mem_dropLast (ih _ d hd)
    · intro d hd; exact hd

theorem pop_zeros_ne_nil (fuel : Nat) (ds : List Nat) (h : ds ≠ []) : pop_zeros fuel ds ≠ [] := by
  induction fuel generalizing ds with
  | zero => exact h
  | succ n ih =>
    unfold pop_zeros
    split
    · rename_i h1; apply ih; intro h2
      have := congrArg List.length h2
      simp at this; omega
    · exact h

theorem pop_zeros_done (fuel : Nat) (ds : List Nat) (h : ds.length ≤ fuel + 1) :
    (pop_zeros fuel ds).length ≤ 1 ∨ (pop_zeros fuel ds).getLast? ≠ some 0 := by
  induction fuel generalizing ds with
  | zero => left; simpa [pop_zeros] using h
  | succ n ih =>
    unfold pop_zeros
    split
    · apply ih; simp; omega
    · rename_i h1
      by_cases h2 : ds.length > 1
      · right; intro h3; exact h1 ⟨h2, h3⟩
      · left; omega

/-! ## Sign handling and normalisation -/

theorem nat_of_eq_zero (ds : List Nat) (h : nat_of ds = 0) : ∀ d ∈ ds, d = 0 := by
  induction ds with
  | nil => intro d hd; cases hd
  | cons e es ih =>
    simp only [nat_of] at h
    have hB := BASE_pos
    have h1 : e = 0 := by omega
    have h2 : nat_of es = 0 := by
      rcases Nat.eq_zero_or_pos (nat_of es) with h3 | h3
      · exact h3
      · have := Nat.mul_pos hB h3; omega
    intro d hd
    rcases List.mem_cons.1 hd with h3 | h3
    · rw [h3, h1]
    · exact ih h2 d h3

theorem eq_zero_digit_of_trimmed (ds : List Nat) (hne : ds ≠ [])
    (htrim : ds.length = 1 ∨ ds.getLast? ≠ some 0) (h0 : nat_of ds = 0) : ds = [0] := by
  have hall := nat_of_eq_zero ds h0
  have hlast : ds.getLast? = some 0 := by
    rw [List.getLast?_eq_getLast _ hne]
    rw [hall _ (List.getLast_mem hne)]
  rcases htrim with h | h
  · rcases ds with _ | ⟨d, _ | ⟨e, es⟩⟩
    · exact absurd rfl hne
    · rw [hall d (List.mem_cons_self _ _)]
    · simp at h
  · exact absurd hlast h

theorem data_set_sign_ (x : big_integer) (s : Bool) : (set_sign_ x s).data_ = x.data_ := rfl

theorem sign_set_sign_of_ne (x : big_integer) (s : Bool) (h : nat_of x.data_ ≠ 0) :
    (set_sign_ x s).sign_ = s := by
  unfold set_sign_
  rcases hx : x.data_ with _ | ⟨d, _ | ⟨e, es⟩⟩
  · rw [hx] at h; simp [nat_of] at h
  · rw [hx] at h
    simp only [nat_of] at h
    have : d ≠ 0 := by omega
    simp [this]
  · simp

theorem val_set_sign_ (x : big_integer) (s : Bool) :
    val (set_sign_ x s) = if s then -(nat_of x.data_ : Int) else (nat_of x.data_ : Int) := by
  by_cases h : nat_of x.data_ = 0
  · unfold val
    rw [data_set_sign_, h]
    split <;> split <;> simp
  · unfold val
    rw [data_set_sign_, sign_set_sign_of_ne x s h]

theorem canonical_set_sign_ (x : big_integer) (s : Bool) (ht : typed x) (hne : x.data_ ≠ [])
    (htrim : x.data_.length = 1 ∨ x.data_.getLast? ≠ some 0) : canonical (set_sign_ x s) := by
  refine ⟨ht, hne, htrim, ?_⟩
  intro h0
  rw [data_set_sign_] at h0
  have := eq_zero_digit_of_trimmed x.data_ hne htrim h0
  unfold set_sign_
  simp [this]

theorem data_keep_invariant_ (x : big_integer) :
    (keep_invariant_ x).data_ = pop_zeros x.data_.length x.data_ := rfl

theorem nat_of_keep_invariant_ (x : big_integer) :
    nat_of (keep_invariant_ x).data_ = nat_of x.data_ := by
  rw [data_keep_invariant_, nat_of_pop_zeros]

theorem val_keep_invariant_ (x : big_integer) : val (keep_invariant_ x) = val x := by
  unfold keep_invariant_
  rw [val_set_sign_]
  simp only [nat_of_pop_zeros]
  rfl

theorem canonical_keep_invariant_ (x : big_integer) (ht : typed x) (hne : x.data_ ≠ []) :
    canonical (keep_invariant_ x) := by
  unfold keep_invariant_
  apply canonical_set_sign_
  · intro d hd; exact ht d (mem_pop_zeros _ _ d hd)
  · exact pop_zeros_ne_nil _ _ hne
  · have h1 := pop_zeros_done x.data_.length x.data_ (by omega)
    have h2 := pop_zeros_ne_nil x.data_.length x.data_ hne
    show (pop_zeros x.data_.length x.data_).length = 1 ∨ _
    rcases h1 with h1 | h1
    · left
      have : (pop_zeros x.data_.length x.data_).length ≠ 0 := by
        intro h3; exact h2 (List.length_eq_zero.1 h3)
      omega
    · right; exact h1

theorem canonical_sign_ne_zero (x : big_integer) (h : canonical x) (hs : x.sign_ = true) :
    nat_of x.data_ ≠ 0 := by
  intro h0
  have := h.2.2.2 h0
  rw [hs] at this; cases this

theorem val_of_nonneg (x : big_integer) (hs : x.sign_ = false) : val x = (nat_of x.data_ : Int) := by
  unfold val; rw [hs]; rfl

theorem val_of_neg (x : big_integer) (hs : x.sign_ = true) : val x = -(nat_of x.data_ : Int) := by
  unfold val; rw [hs]; rfl

theorem canonical_switch_sign_ (x : big_integer) (h : canonical x) : canonical (switch_sign_ x) :=
  canonical_set_sign_ x _ h.1 h.2.1 h.2.2.1

theorem val_switch_sign_ (x : big_integer) : val (switch_sign_ x) = -val x := by
  unfold switch_sign_
  rw [val_set_sign_]
  unfold val
  cases x.sign_ <;> simp

theorem sign_switch_sign_of_neg (x : big_integer) (hs : x.sign_ = true) :
    (switch_sign_ x).sign_ = false := by
  unfold switch_sign_ set_sign_
  simp [hs]

/-! ## Comparison -/

theorem nat_of_take_succ (ds : List Nat) (i : Nat) :
    nat_of (ds.take (i + 1)) = nat_of (ds.take i) + BASE ^ i * ds.getD i 0 := by
  induction ds generalizing i with
  | nil => simp [nat_of]
  | cons d ds ih =>
    cases i with
    | zero => simp [nat_of]
    | succ j =>
      simp only [List.take_succ_cons, nat_of, List.getD_cons_succ]
      rw [ih j, pow_succ]; ring

theorem nat_of_take_lt (ds : List Nat) (i : Nat) (h : ∀ d ∈ ds, d < BASE) :
    nat_of (ds.take i) < BASE ^ i := by
  have h1 := nat_of_lt (ds.take i) (fun d hd => h d (List.mem_of_mem_take hd))
  have h2 : BASE ^ (ds.take i).length ≤ BASE ^ i :=
    Nat.pow_le_pow_right BASE_pos (by simp [List.length_take])
  omega

theorem getD_lt (ds : List Nat) (i : Nat) (h : ∀ d ∈ ds, d < BASE) : ds.getD i 0 < BASE := by
  rw [List.getD_eq_getElem?_getD]
  rcases hi : ds[i]? with _ | v
  · exact BASE_pos
  · exact h v (List.getElem?_mem hi)

theorem lt_loop_iff (a b : big_integer) (ha : typed a) (hb : typed b) (i : Nat) :
    lt_loop a b i = true ↔
      (if a.sign_ then nat_of (b.data_.take i) < nat_of (a.data_.take i)
       else nat_of (a.data_.take i) < nat_of (b.data_.take i)) := by
  induction i with
  | zero => simp [lt_loop]
  | succ i ih =>
    have hl := getD_lt a.data_ i ha
    have hr := getD_lt b.data_ i hb
    have hL := nat_of_take_lt a.data_ i ha
    have hR := nat_of_take_lt b.data_ i hb
    have hP : 0 < BASE ^ i := Nat.pow_pos BASE_pos
    simp only [lt_loop, sign]
    rw [nat_of_take_succ a.data_ i, nat_of_take_succ b.data_ i]
    generalize a.data_.getD i 0 = l at *
    generalize b.data_.getD i 0 = r at *
    generalize nat_of (List.take i a.data_) = L at *
    generalize nat_of (List.take i b.data_) = R at *
    generalize BASE ^ i = P at *
    by_cases hlr : l = r
    · subst hlr
      simp only [bne_self_eq_false, Bool.false_eq_true, if_false]
      rw [ih]
      split <;> constructor <;> intro h <;> omega
    · have hne : (l != r) = true := by simpa using hlr
      simp only [hne, if_true]
      rcases Nat.lt_or_gt_of_ne hlr with h1 | h1
      · have h2 : P * (l + 1) ≤ P * r := Nat.mul_le_mul_left P h1
        have h3 : P * (l + 1) = P * l + P := by ring
        split <;> simp only [decide_eq_true_eq] <;> constructor <;> intro h <;> omega
      · have h2 : P * (r + 1) ≤ P * l := Nat.mul_le_mul_left P h1
        have h3 : P * (r + 1) = P * r + P := by ring
        split <;> simp only [decide_eq_true_eq] <;> constructor <;> intro h <;> omega

theorem op_lt_iff (a b : big_integer) (ha : canonical a) (hb : canonical b) :
    op_lt a b = true ↔ val a < val b := by
  have hla := lt_loop_iff a b ha.1 hb.1 (max a.data_.length b.data_.length)
  rw [List.take_of_length_le (le_max_left _ _), List.take_of_length_le (le_max_right _ _)] at hla
  have hca := canonical_sign_ne_zero a ha
  unfold op_lt
  simp only [sign]
  rcases Bool.eq_false_or_eq_true a.sign_ with hsa | hsa <;>
    rcases Bool.eq_false_or_eq_true b.sign_ with hsb | hsb
  · rw [val_of_neg a hsa, val_of_neg b hsb]
    simp only [hsa, hsb, if_true] at hla ⊢
    simp only [Bool.not_true, Bool.and_false, Bool.false_and, Bool.false_eq_true, if_false]
    rw [hla]
    constructor <;> intro h <;> omega
  · rw [val_of_neg a hsa, val_of_nonneg b hsb]
    have := hca hsa
    simp only [hsa, hsb]
    simp only [Bool.not_false, Bool.and_true, if_true, true_iff]
    omega
  · rw [val_of_nonneg a hsa, val_of_neg b hsb]
    simp only [hsa, hsb]
    simp only [Bool.false_and, Bool.not_false, Bool.and_true, Bool.false_eq_true, if_false,
      if_true, false_iff]
    omega
  · rw [val_of_nonneg a hsa, val_of_nonneg b hsb]
    simp only [hsa, hsb, Bool.false_eq_true, if_false] at hla ⊢
    simp only [Bool.false_and, Bool.not_false, Bool.and_false, Bool.false_eq_true, if_false]
    rw [hla]
    exact Nat.cast_lt.symm

theorem op_eq_iff (a b : big_integer) (ha : canonical a) (hb : canonical b) :
    op_eq a b = true ↔ val a = val b := by
  unfold op_eq op_ne
  have h1 := op_lt_iff a b ha hb
  have h2 := op_lt_iff b a hb ha
  rcases h3 : op_lt a b with _ | _ <;> rcases h4 : op_lt b a with _ | _ <;>
    rw [h3] at h1 <;> rw [h4] at h2 <;> simp at h1 h2 ⊢ <;> omega

/-! ## Addition and subtraction of magnitudes -/

theorem nat_of_drop (right : List Nat) (i : Nat) :
    nat_of (right.drop i) = right.getD i 0 + BASE * nat_of (right.drop (i + 1)) := by
  induction right generalizing i with
  | nil => simp [nat_of]
  | cons r rs ih =>
    cases i with
    | zero => simp [nat_of]
    | succ j => simpa using ih j

theorem add_digit (d r c : Nat) (hd : d < BASE) (hr : r < BASE) (hc : c ≤ 1) :
    (d + r + c) % BASE + BASE * b2n (add_overflow_ d r (c != 0)) = d + r + c := by
  unfold add_overflow_ b2n MAX_DIGIT
  unfold BASE at *
  have hc' : c = 0 ∨ c = 1 := by omega
  rcases hc' with rfl | rfl
  · simp only [bne_self_eq_false, Bool.false_and, Bool.or_false, decide_eq_true_eq]
    split <;> omega
  · simp only [Bool.or_eq_true, decide_eq_true_eq, Bool.and_eq_true, bne_iff_ne, ne_eq,
      one_ne_zero, not_false_eq_true, true_and]
    split <;> omega

theorem sub_digit (l r c : Nat) (hl : l < BASE) (hr : r < BASE) (hc : c ≤ 1) :
    (l + BASE - r + BASE - c) % BASE + r + c = l + BASE * b2n (sub_overflow_ l r (c != 0)) := by
  unfold sub_overflow_ b2n
  unfold BASE at *
  have hc' : c = 0 ∨ c = 1 := by omega
  rcases hc' with rfl | rfl
  · simp only [bne_self_eq_false, Bool.false_and, Bool.or_false, decide_eq_true_eq]
    split <;> omega
  · simp only [Bool.or_eq_true, decide_eq_true_eq, Bool.and_eq_true, bne_iff_ne, ne_eq,
      one_ne_zero, not_false_eq_true, true_and]
    split <;> omega

theorem b2n_le_one (b : Bool) : b2n b ≤ 1 := by
  unfold b2n; split <;> omega

theorem length_add_loop (right ds : List Nat) (i c : Nat) :
    (add_loop right ds i c).length = ds.length := by
  induction ds generalizing i c with
  | nil => rfl
  | cons d ds ih => simp [add_loop, ih]

theorem mem_add_loop (right ds : List Nat) (i c : Nat) :
    ∀ e ∈ add_loop right ds i c, e < BASE := by
  induction ds generalizing i c with
  | nil => intro e he; cases he
  | cons d ds ih =>
    intro e he
    simp only [add_loop, List.mem_cons] at he
    rcases he with h | h
    · rw [h]; exact Nat.mod_lt _ BASE_pos
    · exact ih _ _ e h

theorem nat_of_add_loop (right ds : List Nat) (i c : Nat) (hds : ∀ d ∈ ds, d < BASE)
    (hr : ∀ d ∈ right, d < BASE) (hc : c ≤ 1)
    (hfit : nat_of ds + nat_of (right.drop i) + c < BASE ^ ds.length) :
    nat_of (add_loop right ds i c) = nat_of ds + nat_of (right.drop i) + c := by
  induction ds generalizing i c with
  | nil =>
    simp only [add_loop, nat_of, List.length_nil, pow_zero] at hfit ⊢
    omega
  | cons d ds ih =>
    have hd : d < BASE := hds d (List.mem_cons_self _ _)
    have hg := getD_lt right i hr
    have hdig := add_digit d (right.getD i 0) c hd hg hc
    have hb := b2n_le_one (add_overflow_ d (right.getD i 0) (c != 0))
    have hm : (d + right.getD i 0 + c) % BASE < BASE := Nat.mod_lt _ BASE_pos
    rw [nat_of_drop right i] at hfit ⊢
    simp only [add_loop, nat_of, List.length_cons, pow_succ] at hfit ⊢
    rw [ih (i + 1) _ (fun e he => hds e (List.mem_cons_of_mem _ he)) hb]
    · generalize b2n (add_overflow_ d (right.getD i 0) (c != 0)) = c1 at *
      generalize (d + right.getD i 0 + c) % BASE = m at *
      generalize nat_of (List.drop (i + 1) right) = N at *
      generalize nat_of ds = D at *
      unfold BASE at *
      omega
    · generalize b2n (add_overflow_ d (right.getD i 0) (c != 0)) = c1 at *
      generalize (d + right.getD i 0 + c) % BASE = m at *
      generalize nat_of (List.drop (i + 1) right) = N at *
      generalize nat_of ds = D at *
      generalize BASE ^ ds.length = P at *
      unfold BASE at *
      omega

theorem length_sub_loop (right : List Nat) (swap : Bool) (ds : List Nat) (i c : Nat) :
    (sub_loop right swap ds i c).length = ds.length := by
  induction ds generalizing i c with
  | nil => rfl
  | cons d ds ih => simp [sub_loop, ih]

theorem mem_sub_loop (right : List Nat) (swap : Bool) (ds : List Nat) (i c : Nat) :
    ∀ e ∈ sub_loop right swap ds i c, e < BASE := by
  induction ds generalizing i c with
  | nil => intro e he; cases he
  | cons d ds ih =>
    intro e he
    simp only [sub_loop, List.mem_cons] at he
    rcases he with h | h
    · rw [h]; exact Nat.mod_lt _ BASE_pos
    · exact ih _ _ e h

theorem nat_of_sub_loop_noswap (right ds : List Nat) (i c : Nat) (hds : ∀ d ∈ ds, d < BASE)
    (hr : ∀ d ∈ right, d < BASE) (hc : c ≤ 1)
    (hfit : nat_of (right.drop i) + c ≤ nat_of ds) :
    nat_of (sub_loop right false ds i c) + nat_of (right.drop i) + c = nat_of ds := by
  induction ds generalizing i c with
  | nil =>
    simp only [sub_loop, nat_of] at hfit ⊢
    omega
  | cons d ds ih =>
    have hd : d < BASE := hds d (List.mem_cons_self _ _)
    have hg := getD_lt right i hr
    have hdig := sub_digit d (right.getD i 0) c hd hg hc
    have hb := b2n_le_one (sub_overflow_ d (right.getD i 0) (c != 0))
    have hm : (d + BASE - right.getD i 0 + BASE - c) % BASE < BASE := Nat.mod_lt _ BASE_pos
    rw [nat_of_drop right i] at hfit ⊢
    simp only [nat_of] at hfit ⊢
    simp only [sub_loop, nat_of, Bool.false_eq_true, if_false]
    have hrec := ih (i + 1) _ (fun e he => hds e (List.mem_cons_of_mem _ he)) hb (by
      generalize b2n (sub_overflow_ d (right.getD i 0) (c != 0)) = c1 at *
      generalize (d + BASE - right.getD i 0 + BASE - c) % BASE = m at *
      generalize nat_of (List.drop (i + 1) right) = N at *
      generalize nat_of ds = D at *
      unfold BASE at *
      omega)
    generalize nat_of (sub_loop right false ds (i + 1)
      (b2n (sub_overflow_ d (right.getD i 0) (c != 0)))) = S at *
    generalize b2n (sub_overflow_ d (right.getD i 0) (c != 0)) = c1 at *
    generalize (d + BASE - right.getD i 0 + BASE - c) % BASE = m at *
    generalize nat_of (List.drop (i + 1) right) = N at *
    generalize nat_of ds = D at *
    unfold BASE at *
    omega

theorem nat_of_sub_loop_swap (right ds : List Nat) (i c : Nat) (hds : ∀ d ∈ ds, d < BASE)
    (hr : ∀ d ∈ right, d < BASE) (hc : c ≤ 1)
    (hfit : nat_of ds + c ≤ nat_of (right.drop i))
    (hlen : nat_of (right.drop i) < BASE ^ ds.length) :
    nat_of (sub_loop right true ds i c) + nat_of ds + c = nat_of (right.drop i) := by
  induction ds generalizing i c with
  | nil =>
    simp only [sub_loop, nat_of, List.length_nil, pow_zero] at hfit hlen ⊢
    omega
  | cons d ds ih =>
    have hd : d < BASE := hds d (List.mem_cons_self _ _)
    have hg := getD_lt right i hr
    have hdig := sub_digit (right.getD i 0) d c hg hd hc
    have hb := b2n_le_one (sub_overflow_ (right.getD i 0) d (c != 0))
    have hm : (right.getD i 0 + BASE - d + BASE - c) % BASE < BASE := Nat.mod_lt _ BASE_pos
    rw [nat_of_drop right i] at hfit hlen ⊢
    simp only [nat_of, List.length_cons, pow_succ] at hfit hlen ⊢
    simp only [sub_loop, nat_of, if_true]
    have hrec := ih (i + 1) _ (fun e he => hds e (List.mem_cons_of_mem _ he)) hb (by
      generalize b2n (sub_overflow_ (right.getD i 0) d (c != 0)) = c1 at *
      generalize (right.getD i 0 + BASE - d + BASE - c) % BASE = m at *
      generalize nat_of (List.drop (i + 1) right) = N at *
      generalize nat_of ds = D at *
      unfold BASE at *
      omega) (by
      generalize nat_of (List.drop (i + 1) right) = N at *
      generalize BASE ^ ds.length = P at *
      unfold BASE at *
      omega)
    generalize nat_of (sub_loop right true ds (i + 1)
      (b2n (sub_overflow_ (right.getD i 0) d (c != 0)))) = S at *
    generalize b2n (sub_overflow_ (right.getD i 0) d (c != 0)) = c1 at *
    generalize (right.getD i 0 + BASE - d + BASE - c) % BASE = m at *
    generalize nat_of (List.drop (i + 1) right) = N at *
    generalize nat_of ds = D at *
    unfold BASE at *
    omega

theorem pow_max_left (a b : Nat) : BASE ^ a ≤ BASE ^ max a b :=
  Nat.pow_le_pow_right BASE_pos (le_max_left _ _)

theorem pow_max_right (a b : Nat) : BASE ^ b ≤ BASE ^ max a b :=
  Nat.pow_le_pow_right BASE_pos (le_max_right _ _)

theorem canonical_add_same (x right : big_integer) : canonical (add_same x right) := by
  unfold add_same
  apply canonical_keep_invariant_
  · intro d hd; exact mem_add_loop _ _ _ _ d hd
  · intro h
    have := congrArg List.length h
    simp only [length_add_loop, length_resize, List.length_nil] at this
    omega

theorem nat_of_add_same (x right : big_integer) (hx : typed x) (hr : typed right) :
    nat_of (add_same x right).data_ = nat_of x.data_ + nat_of right.data_ := by
  unfold add_same
  rw [nat_of_keep_invariant_]
  show nat_of (add_loop right.data_ _ 0 0) = _
  have h1 := nat_of_lt x.data_ hx
  have h2 := nat_of_lt right.data_ hr
  have h3 := pow_max_left x.data_.length right.data_.length
  have h4 := pow_max_right x.data_.length right.data_.length
  have hle : x.data_.length ≤ max x.data_.length right.data_.length + 1 := by
    have := le_max_left x.data_.length right.data_.length; omega
  rw [nat_of_add_loop _ _ _ _ (mem_resize _ _ hx) hr (le_of_lt Nat.zero_lt_one)]
  · rw [nat_of_resize _ _ hle]; simp
  · rw [nat_of_resize _ _ hle, length_resize, pow_succ]
    simp only [List.drop_zero]
    generalize BASE ^ max x.data_.length right.data_.length = P at *
    generalize BASE ^ x.data_.length = P1 at *
    generalize BASE ^ right.data_.length = P2 at *
    unfold BASE
    omega

theorem sign_keep_invariant_of_ne (x : big_integer) (h : nat_of x.data_ ≠ 0) :
    (keep_invariant_ x).sign_ = x.sign_ := by
  unfold keep_invariant_
  apply sign_set_sign_of_ne
  show nat_of (pop_zeros _ _) ≠ 0
  rw [nat_of_pop_zeros]; exact h

theorem val_add_same (x right : big_integer) (hx : typed x) (hr : typed right)
    (hs : x.sign_ = right.sign_) : val (add_same x right) = val x + val right := by
  have h1 := nat_of_add_same x right hx hr
  have h2 : val (add_same x right) =
      if x.sign_ then -(nat_of (add_same x right).data_ : Int)
      else (nat_of (add_same x right).data_ : Int) := by
    unfold add_same
    rw [val_keep_invariant_, nat_of_keep_invariant_]
    rfl
  rw [h2, h1]
  unfold val
  rw [← hs]
  split <;> push_cast <;> ring

theorem op_lt_same_sign (a b : big_integer) (ha : typed a) (hb : typed b)
    (hs : a.sign_ = b.sign_) :
    op_lt a b = true ↔
      (if a.sign_ then nat_of b.data_ < nat_of a.data_ else nat_of a.data_ < nat_of b.data_) := by
  have hla := lt_loop_iff a b ha hb (max a.data_.length b.data_.length)
  rw [List.take_of_length_le (le_max_left _ _), List.take_of_length_le (le_max_right _ _)] at hla
  unfold op_lt
  simp only [sign]
  rcases Bool.eq_false_or_eq_true a.sign_ with hsa | hsa
  · have hsb : b.sign_ = true := by rw [← hs]; exact hsa
    simp only [hsa, hsb, if_true] at hla ⊢
    simp only [Bool.not_true, Bool.and_false, Bool.false_and, Bool.false_eq_true, if_false]
    exact hla
  · have hsb : b.sign_ = false := by rw [← hs]; exact hsa
    simp only [hsa, hsb, Bool.false_eq_true, if_false] at hla ⊢
    simp only [Bool.false_and, Bool.not_false, Bool.and_false, Bool.false_eq_true, if_false]
    exact hla

theorem canonical_sub_same (x right : big_integer) (hne : x.data_ ≠ []) :
    canonical (sub_same x right) := by
  unfold sub_same
  apply canonical_keep_invariant_
  · intro d hd; exact mem_sub_loop _ _ _ _ _ d hd
  · intro h
    have := congrArg List.length h
    simp only [data_set_sign_, length_sub_loop, length_resize, List.length_nil] at this
    have h1 : x.data_.length ≠ 0 := fun h2 => hne (List.length_eq_zero.1 h2)
    have := le_max_left x.data_.length right.data_.length
    omega

theorem val_sub_same (x right : big_integer) (hx : typed x) (hr : typed right)
    (hs : x.sign_ = right.sign_) : val (sub_same x right) = val x - val right := by
  have hlt := op_lt_same_sign x right hx hr hs
  have h1 := nat_of_lt x.data_ hx
  have h2 := nat_of_lt right.data_ hr
  have h3 := pow_max_left x.data_.length right.data_.length
  have h4 := pow_max_right x.data_.length right.data_.length
  have hrx := mem_resize x.data_ (max x.data_.length right.data_.length) hx
  have hnx := nat_of_resize x.data_ (max x.data_.length right.data_.length) (le_max_left _ _)
  have hlx := length_resize x.data_ (max x.data_.length right.data_.length)
  unfold sub_same
  rw [val_keep_invariant_, val_set_sign_]
  simp only [sign]
  generalize resize x.data_ (max x.data_.length right.data_.length) = data at *
  unfold val
  rw [← hs]
  rcases Bool.eq_false_or_eq_true x.sign_ with hsx | hsx <;>
    rcases Bool.eq_false_or_eq_true (op_lt x right) with hl | hl <;>
    simp only [hsx, hl, if_true, Bool.false_eq_true, if_false, true_iff, false_iff, not_lt]
      at hlt ⊢
  · -- both negative, |x| > |right|
    have := nat_of_sub_loop_noswap right.data_ data 0 0 hrx hr (le_of_lt Nat.zero_lt_one)
      (by simp only [List.drop_zero]; omega)
    simp only [List.drop_zero, Bool.xor_self] at this ⊢
    omega
  · -- both negative, |x| ≤ |right|
    have := nat_of_sub_loop_swap right.data_ data 0 0 hrx hr (le_of_lt Nat.zero_lt_one)
      (by simp only [List.drop_zero]; omega) (by simp only [List.drop_zero]; rw [hlx]; omega)
    simp only [List.drop_zero, Bool.xor_false] at this ⊢
    omega
  · -- both non-negative, x < right
    have := nat_of_sub_loop_swap right.data_ data 0 0 hrx hr (le_of_lt Nat.zero_lt_one)
      (by simp only [List.drop_zero]; omega) (by simp only [List.drop_zero]; rw [hlx]; omega)
    simp only [List.drop_zero, Bool.false_xor] at this ⊢
    omega
  · -- both non-negative, x ≥ right
    have := nat_of_sub_loop_noswap right.data_ data 0 0 hrx hr (le_of_lt Nat.zero_lt_one)
      (by simp only [List.drop_zero]; omega)
    simp only [List.drop_zero, Bool.xor_self] at this ⊢
    omega

/-! ## `operator+=` and `operator-=` -/

theorem sign_op_neg_of_neg (x : big_integer) (hs : x.sign_ = true) : (op_neg x).sign_ = false :=
  sign_switch_sign_of_neg x hs

/-- One level of delegation is always enough: `operator+=` unrolled. -/
theorem add_assign_eq (x right : big_integer) :
    add_assign x right =
      if !sign x && sign right then sub_same x (op_neg right)
      else if sign x && !sign right then switch_sign_ (sub_same (switch_sign_ x) right)
      else add_same x right := by
  unfold add_assign
  simp only [add_assign_depth, sub_assign_depth, sign]
  rcases Bool.eq_false_or_eq_true x.sign_ with hsx | hsx <;>
    rcases Bool.eq_false_or_eq_true right.sign_ with hsr | hsr
  · simp [hsx, hsr]
  · simp [hsx, hsr, sign_switch_sign_of_neg x hsx]
  · simp [hsx, hsr, sign_op_neg_of_neg right hsr]
  · simp [hsx, hsr]

/-- One level of delegation is always enough: `operator-=` unrolled. -/
theorem sub_assign_eq (x right : big_integer) :
    sub_assign x right =
      if !sign x && sign right then add_same x (op_neg right)
      else if sign x && !sign right then switch_sign_ (add_same (switch_sign_ x) right)
      else sub_same x right := by
  unfold sub_assign
  simp only [add_assign_depth, sub_assign_depth, sign]
  rcases Bool.eq_false_or_eq_true x.sign_ with hsx | hsx <;>
    rcases Bool.eq_false_or_eq_true right.sign_ with hsr | hsr
  · simp [hsx, hsr]
  · simp [hsx, hsr, sign_switch_sign_of_neg x hsx]
  · simp [hsx, hsr, sign_op_neg_of_neg right hsr]
  · simp [hsx, hsr]

theorem add_assign_depth_some (x right : big_integer) :
    add_assign_depth 2 x right = some (add_assign x right) := by
  unfold add_assign
  simp only [add_assign_depth, sub_assign_depth, sign]
  rcases Bool.eq_false_or_eq_true x.sign_ with hsx | hsx <;>
    rcases Bool.eq_false_or_eq_true right.sign_ with hsr | hsr
  · simp [hsx, hsr]
  · simp [hsx, hsr, sign_switch_sign_of_neg x hsx]
  · simp [hsx, hsr, sign_op_neg_of_neg right hsr]
  · simp [hsx, hsr]

theorem sub_assign_depth_some (x right : big_integer) :
    sub_assign_depth 2 x right = some (sub_assign x right) := by
  unfold sub_assign
  simp only [add_assign_depth, sub_assign_depth, sign]
  rcases Bool.eq_false_or_eq_true x.sign_ with hsx | hsx <;>
    rcases Bool.eq_false_or_eq_true right.sign_ with hsr | hsr
  · simp [hsx, hsr]
  · simp [hsx, hsr, sign_switch_sign_of_neg x hsx]
  · simp [hsx, hsr, sign_op_neg_of_neg right hsr]
  · simp [hsx, hsr]

/-- The result of `operator+=` does not depend on the depth bound once it is at least 2. -/
theorem add_assign_depth_ge (n : Nat) (x right : big_integer) :
    add_assign_depth (n + 2) x right = some (add_assign x right) := by
  rw [← add_assign_depth_some]
  simp only [add_assign_depth, sub_assign_depth, sign]
  rcases Bool.eq_false_or_eq_true x.sign_ with hsx | hsx <;>
    rcases Bool.eq_false_or_eq_true right.sign_ with hsr | hsr
  · simp [hsx, hsr]
  · simp [hsx, hsr, sign_switch_sign_of_neg x hsx]
  · simp [hsx, hsr, sign_op_neg_of_neg right hsr]
  · simp [hsx, hsr]

/-- The result of `operator-=` does not depend on the depth bound once it is at least 2. -/
theorem sub_assign_depth_ge (n : Nat) (x right : big_integer) :
    sub_assign_depth (n + 2) x right = some (sub_assign x right) := by
  rw [← sub_assign_depth_some]
  simp only [add_assign_depth, sub_assign_depth, sign]
  rcases Bool.eq_false_or_eq_true x.sign_ with hsx | hsx <;>
    rcases Bool.eq_false_or_eq_true right.sign_ with hsr | hsr
  · simp [hsx, hsr]
  · simp [hsx, hsr, sign_switch_sign_of_neg x hsx]
  · simp [hsx, hsr, sign_op_neg_of_neg right hsr]
  · simp [hsx, hsr]

theorem typed_set_sign_ (x : big_integer) (s : Bool) (h : typed x) : typed (set_sign_ x s) := h

theorem typed_switch_sign_ (x : big_integer) (h : typed x) : typed (switch_sign_ x) := h

theorem data_switch_sign_ (x : big_integer) : (switch_sign_ x).data_ = x.data_ := rfl

theorem canonical_add_assign (x right : big_integer) (hx : x.data_ ≠ []) :
    canonical (add_assign x right) := by
  rw [add_assign_eq]
  split
  · exact canonical_sub_same _ _ hx
  · split
    · exact canonical_switch_sign_ _ (canonical_sub_same _ _ hx)
    · exact canonical_add_same _ _

theorem canonical_sub_assign (x right : big_integer) (hx : x.data_ ≠ []) :
    canonical (sub_assign x right) := by
  rw [sub_assign_eq]
  split
  · exact canonical_add_same _ _
  · split
    · exact canonical_switch_sign_ _ (canonical_add_same _ _)
    · exact canonical_sub_same _ _ hx

theorem val_op_neg (x : big_integer) : val (op_neg x) = -val x := val_switch_sign_ x

theorem val_add_assign (x right : big_integer) (hx : typed x) (hr : typed right) :
    val (add_assign x right) = val x + val right := by
  rw [add_assign_eq]
  simp only [sign]
  rcases Bool.eq_false_or_eq_true x.sign_ with hsx | hsx <;>
    rcases Bool.eq_false_or_eq_true right.sign_ with hsr | hsr <;>
    simp only [hsx, hsr, Bool.not_true, Bool.not_false, Bool.and_true, Bool.and_false,
      Bool.false_and, Bool.true_and, if_true, Bool.false_eq_true, if_false]
  · exact val_add_same x right hx hr (by rw [hsx, hsr])
  · rw [val_switch_sign_, val_sub_same _ _ (typed_switch_sign_ x hx) hr
      (by rw [sign_switch_sign_of_neg x hsx, hsr]), val_switch_sign_]
    ring
  · rw [val_sub_same x (op_neg right) hx (typed_switch_sign_ right hr)
      (by rw [hsx]; exact (sign_op_neg_of_neg right hsr).symm), val_op_neg]
    ring
  · exact val_add_same x right hx hr (by rw [hsx, hsr])

theorem val_sub_assign (x right : big_integer) (hx : typed x) (hr : typed right) :
    val (sub_assign x right) = val x - val right := by
  rw [sub_assign_eq]
  simp only [sign]
  rcases Bool.eq_false_or_eq_true x.sign_ with hsx | hsx <;>
    rcases Bool.eq_false_or_eq_true right.sign_ with hsr | hsr <;>
    simp only [hsx, hsr, Bool.not_true, Bool.not_false, Bool.and_true, Bool.and_false,
      Bool.false_and, Bool.true_and, if_true, Bool.false_eq_true, if_false]
  · exact val_sub_same x right hx hr (by rw [hsx, hsr])
  · rw [val_switch_sign_, val_add_same _ _ (typed_switch_sign_ x hx) hr
      (by rw [sign_switch_sign_of_neg x hsx, hsr]), val_switch_sign_]
    ring
  · rw [val_add_same x (op_neg right) hx (typed_switch_sign_ right hr)
      (by rw [hsx]; exact (sign_op_neg_of_neg right hsr).symm), val_op_neg]
    ring
  · exact val_sub_same x right hx hr (by rw [hsx, hsr])

theorem canonical_of_int_one : canonical (of_int 1) := by
  refine ⟨?_, ?_, ?_, ?_⟩
  · intro d hd
    have : d = 1 := by simpa [of_int, iabs_] using hd
    rw [this]; decide
  · simp [of_int]
  · left; rfl
  · intro h; rfl

theorem val_of_int_one : val (of_int 1) = 1 := by decide

theorem val_of_int_zero : val (of_int 0) = 0 := by decide

/-- A canonical value is zero exactly when it is the single digit 0 with a clear sign. -/
theorem canonical_val_eq_zero (x : big_integer) (h : canonical x) (h0 : val x = 0) :
    x = ⟨[0], false⟩ := by
  have hn : nat_of x.data_ = 0 := by
    unfold val at h0
    split at h0 <;> omega
  have hd := eq_zero_digit_of_trimmed x.data_ h.2.1 h.2.2.1 hn
  have hs := h.2.2.2 hn
  cases x
  simp only at hd hs
  rw [hd, hs]

/-! ## Multiplication -/

/-- One step of the inner loop of `operator*=`: the two words `upper : lower` hold
`left_ * right_ + carry + result.data_[i + j]` exactly. -/
theorem mul_digit (l r c x : Nat) (hl : l < BASE) (hr : r < BASE) (hc : c < BASE)
    (hx : x < BASE) :
    (((l * r) % BASE + c) % BASE + x) % BASE +
      BASE * (((mul_overflow_ l r + b2n (add_overflow_ ((l * r) % BASE) c false)) % BASE +
        b2n (add_overflow_ (((l * r) % BASE + c) % BASE) x false)) % BASE) = l * r + c + x := by
  have h1 : l * r ≤ (BASE - 1) * (BASE - 1) :=
    Nat.mul_le_mul (Nat.le_sub_one_of_lt hl) (Nat.le_sub_one_of_lt hr)
  have h2 := Nat.div_add_mod (l * r) BASE
  have h3 : (l * r) % BASE < BASE := Nat.mod_lt _ BASE_pos
  unfold mul_overflow_ add_overflow_ b2n MAX_DIGIT
  generalize l * r = p at *
  generalize p / BASE = u at *
  generalize p % BASE = w at *
  simp only [Bool.false_and, Bool.or_false, decide_eq_true_eq]
  unfold BASE at *
  simp only [Nat.reduceSub, Nat.reduceMul] at h1
  split <;> split <;> omega

theorem length_mul_row (l : Nat) (right res : List Nat) (j c : Nat) :
    (mul_row l right res j c).length = res.length := by
  induction res generalizing j c with
  | nil => rfl
  | cons x res ih =>
    unfold mul_row
    split
    · simp [ih]
    · rfl

theorem mem_mul_row (l : Nat) (right res : List Nat) (j c : Nat) (hres : ∀ d ∈ res, d < BASE) :
    ∀ e ∈ mul_row l right res j c, e < BASE := by
  induction res generalizing j c with
  | nil => intro e he; cases he
  | cons x res ih =>
    unfold mul_row
    split
    · intro e he
      simp only [List.mem_cons] at he
      rcases he with h | h
      · rw [h]; exact Nat.mod_lt _ BASE_pos
      · exact ih _ _ (fun d hd => hres d (List.mem_cons_of_mem _ hd)) e h
    · exact hres

theorem nat_of_mul_row (l : Nat) (right res : List Nat) (j c : Nat) (hl : l < BASE)
    (hr : ∀ d ∈ right, d < BASE) (hres : ∀ d ∈ res, d < BASE) (hc : c < BASE)
    (hfit : l * nat_of (right.drop j) + nat_of res + c < BASE ^ res.length) :
    nat_of (mul_row l right res j c) = l * nat_of (right.drop j) + nat_of res + c := by
  induction res generalizing j c with
  | nil =>
    simp only [mul_row, nat_of, List.length_nil, pow_zero] at hfit ⊢
    omega
  | cons x res ih =>
    have hx : x < BASE := hres x (List.mem_cons_self _ _)
    have hg := getD_lt right j hr
    unfold mul_row
    split
    · have hdig := mul_digit l (right.getD j 0) c x hl hg hc hx
      have hsplit : l * nat_of (right.drop j) =
          l * right.getD j 0 + BASE * (l * nat_of (right.drop (j + 1))) := by
        rw [nat_of_drop right j]; ring
      rw [hsplit] at hfit ⊢
      simp only [nat_of, List.length_cons, pow_succ] at hfit ⊢
      rw [ih (j + 1) _ (fun d hd => hres d (List.mem_cons_of_mem _ hd))
        (Nat.mod_lt _ BASE_pos)]
      · generalize (((mul_overflow_ l (right.getD j 0) +
          b2n (add_overflow_ ((l * right.getD j 0) % BASE) c false)) % BASE +
          b2n (add_overflow_ (((l * right.getD j 0) % BASE + c) % BASE) x false)) % BASE) = up
          at *
        generalize (((l * right.getD j 0) % BASE + c) % BASE + x) % BASE = lo at *
        generalize l * nat_of (List.drop (j + 1) right) = M at *
        generalize l * right.getD j 0 = p at *
        generalize nat_of res = X at *
        unfold BASE at *
        omega
      · generalize (((mul_overflow_ l (right.getD j 0) +
          b2n (add_overflow_ ((l * right.getD j 0) % BASE) c false)) % BASE +
          b2n (add_overflow_ (((l * right.getD j 0) % BASE + c) % BASE) x false)) % BASE) = up
          at *
        generalize (((l * right.getD j 0) % BASE + c) % BASE + x) % BASE = lo at *
        generalize l * nat_of (List.drop (j + 1) right) = M at *
        generalize l * right.getD j 0 = p at *
        generalize nat_of res = X at *
        generalize BASE ^ res.length = P at *
        unfold BASE at *
        omega
    · rename_i hcond
      have h1 : right.length ≤ j := by omega
      have h2 : c = 0 := by omega
      rw [List.drop_of_length_le h1, h2]
      simp [nat_of]

theorem length_mul_rows (right ds res : List Nat) :
    (mul_rows right ds res).length = res.length := by
  induction ds generalizing res with
  | nil => rfl
  | cons l ds ih =>
    unfold mul_rows
    have h := length_mul_row l right res 0 0
    split
    · rename_i heq; rw [heq] at h; exact h
    · rename_i x res1 heq
      rw [heq] at h
      simp only [List.length_cons] at h ⊢
      rw [ih]; exact h

theorem mem_mul_rows (right ds res : List Nat) (hres : ∀ d ∈ res, d < BASE) :
    ∀ e ∈ mul_rows right ds res, e < BASE := by
  induction ds generalizing res with
  | nil => exact hres
  | cons l ds ih =>
    unfold mul_rows
    have h := mem_mul_row l right res 0 0 hres
    split
    · intro e he; cases he
    · rename_i x res1 heq
      rw [heq] at h
      intro e he
      rcases List.mem_cons.1 he with h1 | h1
      · rw [h1]; exact h x (List.mem_cons_self _ _)
      · exact ih res1 (fun d hd => h d (List.mem_cons_of_mem _ hd)) e h1

theorem nat_of_mul_rows (right ds res : List Nat) (hds : ∀ d ∈ ds, d < BASE)
    (hr : ∀ d ∈ right, d < BASE) (hres : ∀ d ∈ res, d < BASE)
    (hfit : nat_of ds * nat_of right + nat_of res < BASE ^ res.length) :
    nat_of (mul_rows right ds res) = nat_of ds * nat_of right + nat_of res := by
  induction ds generalizing res with
  | nil => simp [mul_rows, nat_of]
  | cons l ds ih =>
    have hl : l < BASE := hds l (List.mem_cons_self _ _)
    have hsplit : nat_of (l :: ds) * nat_of right =
        l * nat_of right + BASE * (nat_of ds * nat_of right) := by
      simp only [nat_of]; ring
    rw [hsplit] at hfit ⊢
    have hrow := nat_of_mul_row l right res 0 0 hl hr hres BASE_pos (by
      simp only [List.drop_zero]
      generalize BASE * (nat_of ds * nat_of right) = Q at *
      omega)
    have hlen := length_mul_row l right res 0 0
    have hmem := mem_mul_row l right res 0 0 hres
    simp only [List.drop_zero, Nat.add_zero] at hrow
    unfold mul_rows
    split
    · rename_i heq
      rw [heq] at hlen
      rw [← hlen] at hfit
      simp only [List.length_nil, pow_zero] at hfit
      simp only [nat_of]
      omega
    · rename_i x res1 heq
      rw [heq] at hrow hlen hmem
      simp only [nat_of] at hrow ⊢
      rw [← hlen] at hfit
      simp only [List.length_cons, pow_succ] at hfit
      rw [ih res1 (fun d hd => hds d (List.mem_cons_of_mem _ hd))
        (fun d hd => hmem d (List.mem_cons_of_mem _ hd))]
      · generalize nat_of ds * nat_of right = Q at *
        generalize l * nat_of right = p at *
        unfold BASE at *
        omega
      · have hx := hmem x (List.mem_cons_self _ _)
        generalize nat_of ds * nat_of right = Q at *
        generalize l * nat_of right = p at *
        generalize BASE ^ res1.length = P at *
        generalize nat_of res1 = X1 at *
        generalize nat_of res = X at *
        unfold BASE at *
        omega

theorem nat_of_resize_default (k : Nat) : nat_of (resize mk_default.data_ k) = 0 := by
  unfold resize
  rw [nat_of_append, nat_of_replicate_zero]
  cases k with
  | zero => simp [nat_of]
  | succ k => simp [mk_default, nat_of]

theorem mem_resize_default (k : Nat) : ∀ d ∈ resize mk_default.data_ k, d < BASE := by
  apply mem_resize
  intro d hd
  have : d = 0 := by simpa [mk_default] using hd
  rw [this]; exact BASE_pos

theorem data_mul_assign (x right : big_integer) :
    (mul_assign x right).data_ =
      pop_zeros (x.data_.length + right.data_.length)
        (mul_rows right.data_ x.data_
          (resize mk_default.data_ (x.data_.length + right.data_.length))) := by
  unfold mul_assign
  simp only [data_keep_invariant_, data_set_sign_, length_mul_rows, length_resize]

theorem canonical_mul_assign (x right : big_integer) (hx : x.data_ ≠ []) :
    canonical (mul_assign x right) := by
  unfold mul_assign
  apply canonical_keep_invariant_
  · intro d hd
    exact mem_mul_rows _ _ _ (mem_resize_default _) d hd
  · intro h
    have := congrArg List.length h
    simp only [data_set_sign_, length_mul_rows, length_resize, List.length_nil] at this
    have h1 : x.data_.length ≠ 0 := fun h2 => hx (List.length_eq_zero.1 h2)
    omega

theorem nat_of_mul_rows_default (x right : big_integer) (hx : typed x) (hr : typed right) :
    nat_of (mul_rows right.data_ x.data_
      (resize mk_default.data_ (x.data_.length + right.data_.length))) =
      nat_of x.data_ * nat_of right.data_ := by
  rw [nat_of_mul_rows _ _ _ hx hr (mem_resize_default _), nat_of_resize_default]
  · rfl
  · rw [nat_of_resize_default, length_resize, pow_add, Nat.add_zero]
    exact Nat.mul_lt_mul'' (nat_of_lt _ hx) (nat_of_lt _ hr)

theorem nat_of_mul_assign (x right : big_integer) (hx : typed x) (hr : typed right) :
    nat_of (mul_assign x right).data_ = nat_of x.data_ * nat_of right.data_ := by
  rw [data_mul_assign, nat_of_pop_zeros, nat_of_mul_rows_default x right hx hr]

theorem val_mul_assign (x right : big_integer) (hx : typed x) (hr : typed right) :
    val (mul_assign x right) = val x * val right := by
  unfold mul_assign
  rw [val_keep_invariant_, val_set_sign_]
  simp only [nat_of_mul_rows_default x right hx hr, sign]
  unfold val
  cases x.sign_ <;> cases right.sign_ <;> simp

theorem sign_mul_assign (x right : big_integer) (hx : typed x) (hr : typed right)
    (hne : nat_of x.data_ * nat_of right.data_ ≠ 0) :
    (mul_assign x right).sign_ = xor x.sign_ right.sign_ := by
  unfold mul_assign
  rw [sign_keep_invariant_of_ne, sign_set_sign_of_ne]
  · rfl
  · show nat_of (mul_rows _ _ _) ≠ 0
    rw [nat_of_mul_rows_default x right hx hr]; exact hne
  · rw [data_set_sign_]
    show nat_of (mul_rows _ _ _) ≠ 0
    rw [nat_of_mul_rows_default x right hx hr]; exact hne

/-! ## Left shift -/

theorem shift_digits_eq (ds : List Nat) (k : Nat) :
    fill_front (move_backward (resize ds (ds.length + k)) k) k = List.replicate k 0 ++ ds := by
  have h1 : resize ds (ds.length + k) = ds ++ List.replicate k 0 := by
    unfold resize
    rw [List.take_of_length_le (Nat.le_add_right _ _)]
    simp
  rw [h1]
  unfold move_backward fill_front
  simp only [List.length_append, List.length_replicate, Nat.add_sub_cancel]
  rw [List.take_left' rfl]
  rw [List.drop_left' (by simp [List.length_take])]

theorem nat_of_shift_digits (ds : List Nat) (k : Nat) :
    nat_of (List.replicate k 0 ++ ds) = BASE ^ k * nat_of ds := by
  rw [nat_of_append, nat_of_replicate_zero]; simp

theorem BASE_eq_pow : BASE = 2 ^ 64 := by decide

theorem one_shl_lt (r : Nat) (hr : r < 64) : (1 <<< r) % BASE = 2 ^ r := by
  rw [Nat.one_shiftLeft]
  apply Nat.mod_eq_of_lt
  rw [BASE_eq_pow]
  exact Nat.pow_lt_pow_right (by omega) hr

theorem typed_of_single (v : Nat) (h : v < BASE) : typed (⟨[v], false⟩ : big_integer) := by
  intro d hd
  have : d = v := by simpa using hd
  rw [this]; exact h

theorem shift_pow (k : Nat) : BASE ^ (k / 64) * 2 ^ (k % 64) = 2 ^ k := by
  rw [BASE_eq_pow, ← pow_mul, ← pow_add, Nat.div_add_mod]

theorem data_shl_ne (x : big_integer) (k : Nat) (h : op_eq x (of_int 0) = false) :
    shl_assign x k = mul_assign { x with data_ := List.replicate (k / 64) 0 ++ x.data_ }
      ⟨[2 ^ (k % 64)], false⟩ := by
  unfold shl_assign
  simp only [h, Bool.false_eq_true, if_false, BASE_POWER2, shift_digits_eq, of_unsigned_long_long]
  rw [one_shl_lt _ (Nat.mod_lt _ (by omega))]

theorem two_pow_lt_BASE (r : Nat) (hr : r < 64) : 2 ^ r < BASE := by
  rw [BASE_eq_pow]; exact Nat.pow_lt_pow_right (by omega) hr

theorem val_shl_assign (x : big_integer) (k : Nat) (hx : canonical x) :
    val (shl_assign x k) = val x * 2 ^ k := by
  rcases Bool.eq_false_or_eq_true (op_eq x (of_int 0)) with h | h
  · have h0 : val x = 0 := by
      have := (op_eq_iff x (of_int 0) hx (by decide)).1 h
      rw [this]; decide
    unfold shl_assign
    simp only [h, if_true]
    rw [h0]; simp
  · rw [data_shl_ne x k h]
    have ht : typed { x with data_ := List.replicate (k / 64) 0 ++ x.data_ } := by
      intro d hd
      rcases List.mem_append.1 hd with h1 | h1
      · rw [List.mem_replicate] at h1; rw [h1.2]; exact BASE_pos
      · exact hx.1 d h1
    rw [val_mul_assign _ _ ht (typed_of_single _ (two_pow_lt_BASE _ (Nat.mod_lt _ (by omega))))]
    have h2 : val (⟨[2 ^ (k % 64)], false⟩ : big_integer) = ((2 ^ (k % 64) : Nat) : Int) := by
      simp [val, nat_of]
    have h3 : val { x with data_ := List.replicate (k / 64) 0 ++ x.data_ } =
        val x * ((BASE ^ (k / 64) : Nat) : Int) := by
      unfold val
      simp only [nat_of_shift_digits]
      split <;> push_cast <;> ring
    rw [h2, h3, mul_assoc, ← Nat.cast_mul, shift_pow]
    push_cast; rfl

theorem canonical_shl_assign (x : big_integer) (k : Nat) (hx : canonical x) :
    canonical (shl_assign x k) := by
  rcases Bool.eq_false_or_eq_true (op_eq x (of_int 0)) with h | h
  · unfold shl_assign
    simp only [h, if_true]
    exact hx
  · rw [data_shl_ne x k h]
    apply canonical_mul_assign
    simp only [ne_eq, List.append_eq_nil, not_and]
    intro _; exact hx.2.1

/-! ## Division: every assertion holds and the result is canonical -/

theorem canonical_abs_ (x : big_integer) (h : canonical x) : canonical (abs_ x) := by
  unfold abs_
  split
  · exact canonical_switch_sign_ x h
  · exact h

theorem val_abs_ (x : big_integer) : val (abs_ x) = (nat_of x.data_ : Int) := by
  unfold abs_ sign
  rcases Bool.eq_false_or_eq_true x.sign_ with hs | hs
  · simp only [hs, if_true]
    rw [val_op_neg, val_of_neg x hs]; ring
  · simp only [hs, Bool.false_eq_true, if_false]
    exact val_of_nonneg x hs

theorem canonical_ZERO : canonical ZERO := by decide

theorem val_ZERO : val ZERO = 0 := by decide

theorem op_ne_ZERO (x : big_integer) (h : canonical x) :
    op_ne x ZERO = true ↔ nat_of x.data_ ≠ 0 := by
  have h1 := op_eq_iff x ZERO h canonical_ZERO
  rw [val_ZERO] at h1
  unfold op_eq at h1
  have h2 : val x = 0 ↔ nat_of x.data_ = 0 := by
    unfold val; split <;> omega
  rw [h2] at h1
  rcases Bool.eq_false_or_eq_true (op_ne x ZERO) with h3 | h3
  · rw [h3] at h1 ⊢
    simp only [Bool.not_true, Bool.false_eq_true, false_iff] at h1
    simp [h1]
  · rw [h3] at h1 ⊢
    simp only [Bool.not_false, true_iff] at h1
    simp [h1]

theorem div_short_loop_some (right i : Nat) (ds : List Nat) (carry : Nat)
    (hds : ∀ d ∈ ds, d < BASE) (hc : carry < right) :
    ∃ ds1 c1, div_short_loop right i ds carry = some (ds1, c1) ∧ c1 < right ∧
      ds1.length = ds.length ∧ ∀ d ∈ ds1, d < BASE := by
  induction i generalizing ds carry with
  | zero => exact ⟨ds, carry, rfl, hc, rfl, hds⟩
  | succ i ih =>
    have hg := getD_lt ds i hds
    have hdm : div_mod_ carry (ds.getD i 0) right =
        some ((carry * BASE + ds.getD i 0) / right, (carry * BASE + ds.getD i 0) % right) := by
      unfold div_mod_
      rw [if_neg]
      omega
    have hq : (carry * BASE + ds.getD i 0) / right < BASE := by
      rw [Nat.div_lt_iff_lt_mul (by omega)]
      have : (carry + 1) * BASE ≤ BASE * right := by
        rw [Nat.mul_comm]; exact Nat.mul_le_mul_left _ hc
      have h2 : (carry + 1) * BASE = carry * BASE + BASE := by ring
      omega
    have hm : (carry * BASE + ds.getD i 0) % right < right := Nat.mod_lt _ (by omega)
    have hset : ∀ d ∈ ds.set i ((carry * BASE + ds.getD i 0) / right), d < BASE := by
      intro d hd
      rcases List.mem_or_eq_of_mem_set hd with h1 | h1
      · exact hds d h1
      · rw [h1]; exact hq
    obtain ⟨ds1, c1, h1, h2, h3, h4⟩ := ih _ _ hset hm
    refine ⟨ds1, c1, ?_, h2, ?_, h4⟩
    · simp only [div_short_loop, hdm]; exact h1
    · rw [h3, List.length_set]

theorem div_short__some (x : big_integer) (right : Nat) (hx : typed x) (hne : x.data_ ≠ [])
    (hr : right ≠ 0) :
    ∃ x1 c1, div_short_ x right = some (x1, c1) ∧ canonical x1 ∧ c1 < right := by
  obtain ⟨ds1, c1, h1, h2, h3, h4⟩ :=
    div_short_loop_some right x.data_.length x.data_ 0 hx (by omega)
  refine ⟨keep_invariant_ { x with data_ := ds1 }, c1, ?_, ?_, h2⟩
  · unfold div_short_
    simp only [hr, if_false, h1]
  · apply canonical_keep_invariant_
    · exact h4
    · intro h5
      have h6 : ds1.length = 0 := by
        have := congrArg List.length h5
        simpa using this
      have h7 : x.data_.length ≠ 0 := fun h8 => hne (List.length_eq_zero.1 h8)
      omega

theorem correct_loop_le (u d : big_integer) (k qt : Nat) (dq : big_integer) :
    (correct_loop u d k qt dq).1 ≤ qt := by
  induction qt generalizing dq with
  | zero => simp [correct_loop]
  | succ qt ih =>
    unfold correct_loop
    split
    · exact Nat.le_succ_of_le (ih _)
    · exact Nat.le_refl _

theorem soft_div_some (upper lower right : Nat) (hr : right ≠ 0) (hl : lower < BASE) :
    ∃ qt, soft_div upper lower right = some qt ∧ qt < BASE := by
  unfold soft_div
  rw [if_neg hr]
  split
  · exact ⟨MAX_DIGIT, rfl, by decide⟩
  · rename_i h1
    have hdm : div_mod_ upper lower right =
        some ((upper * BASE + lower) / right, (upper * BASE + lower) % right) := by
      unfold div_mod_
      rw [if_neg]
      omega
    refine ⟨(upper * BASE + lower) / right, by rw [hdm]; rfl, ?_⟩
    rw [Nat.div_lt_iff_lt_mul (by omega)]
    have : (upper + 1) * BASE ≤ BASE * right := by
      rw [Nat.mul_comm]; exact Nat.mul_le_mul_left _ (by omega)
    have h2 : (upper + 1) * BASE = upper * BASE + BASE := by ring
    omega

theorem div_loop_some (d : big_integer) (m : Nat) (hd : d.data_.getD (m - 1) 0 ≠ 0) (k : Nat)
    (x u : big_integer) (hx : typed x) (hu : typed u) (hune : u.data_ ≠ []) :
    ∃ x1 u1, div_loop d m k x u = some (x1, u1) ∧ typed x1 ∧
      x1.data_.length = x.data_.length ∧ x1.sign_ = x.sign_ := by
  induction k generalizing x u with
  | zero => exact ⟨x, u, rfl, hx, rfl, rfl⟩
  | succ k ih =>
    obtain ⟨qt, hqt, hqlt⟩ := soft_div_some (u.data_.getD (k + m) 0) (u.data_.getD (k + m - 1) 0)
      _ hd (getD_lt _ _ hu)
    have hle := correct_loop_le u d k qt (op_mul d (of_unsigned_long qt))
    have hx1 : typed (big_integer.mk
        (x.data_.set k (correct_loop u d k qt (op_mul d (of_unsigned_long qt))).1) x.sign_) := by
      intro e he
      rcases List.mem_or_eq_of_mem_set he with h1 | h1
      · exact hx e h1
      · rw [h1]; omega
    have hu1 := canonical_sub_assign u (op_shl (correct_loop u d k qt
      (op_mul d (of_unsigned_long qt))).2 ((BASE_POWER2 * k) % BASE)) hune
    obtain ⟨x1, u1, h1, h2, h3, h4⟩ := ih _ _ hx1 hu1.1 hu1.2.1
    refine ⟨x1, u1, ?_, h2, ?_, ?_⟩
    · simp only [div_loop, hqt]; exact h1
    · rw [h3]; simp
    · rw [h4]

theorem pow_le_nat_of (ds : List Nat) (hne : ds ≠ []) (hlast : ds.getLast? ≠ some 0) :
    BASE ^ (ds.length - 1) ≤ nat_of ds := by
  have h1 : ds = ds.dropLast ++ [ds.getLast hne] := (List.dropLast_append_getLast hne).symm
  have h2 : ds.getLast hne ≠ 0 := by
    intro h3; apply hlast
    rw [List.getLast?_eq_getLast _ hne, h3]
  rw [h1, nat_of_append]
  simp only [List.length_append, List.length_dropLast, List.length_singleton, nat_of,
    Nat.mul_zero, Nat.add_zero]
  have h4 : ds.length - 1 + 1 - 1 = ds.length - 1 := by omega
  rw [h4]
  have h5 : BASE ^ (ds.length - 1) * 1 ≤ BASE ^ (ds.length - 1) * ds.getLast hne :=
    Nat.mul_le_mul_left _ (by omega)
  omega

theorem getLast?_ne_zero_of_canonical (x : big_integer) (h : canonical x)
    (hnz : nat_of x.data_ ≠ 0) : x.data_.getLast? ≠ some 0 := by
  rcases h.2.2.1 with h1 | h1
  · rcases hx : x.data_ with _ | ⟨d, _ | ⟨e, es⟩⟩
    · rw [hx] at h1; simp at h1
    · rw [hx] at hnz
      simp only [nat_of] at hnz
      simp only [List.getLast?_singleton, ne_eq, Option.some.injEq]
      omega
    · rw [hx] at h1; simp at h1
  · exact h1

theorem length_le_of_nat_of_le (a b : big_integer) (ha : canonical a) (hb : canonical b)
    (hnz : nat_of b.data_ ≠ 0) (hle : nat_of b.data_ ≤ nat_of a.data_) :
    b.data_.length ≤ a.data_.length := by
  have h1 := pow_le_nat_of b.data_ hb.2.1 (getLast?_ne_zero_of_canonical b hb hnz)
  have h2 := nat_of_lt a.data_ ha.1
  have h3 : BASE ^ (b.data_.length - 1) < BASE ^ a.data_.length := by omega
  have h4 := (Nat.pow_lt_pow_iff_right (by decide : 1 < BASE)).1 h3
  omega

theorem getD_last_ne_zero (ds : List Nat) (hne : ds ≠ []) (hlast : ds.getLast? ≠ some 0) :
    ds.getD (ds.length - 1) 0 ≠ 0 := by
  intro h
  apply hlast
  have hl : ds.length - 1 < ds.length := by
    have : ds.length ≠ 0 := fun h2 => hne (List.length_eq_zero.1 h2)
    omega
  rw [List.getLast?_eq_getElem?, List.getElem?_eq_getElem hl]
  rw [List.getD_eq_getElem _ _ hl] at h
  rw [h]

theorem canonical_of_int_zero : canonical (of_int 0) := by decide

theorem norm_factor_bounds (t : Nat) (ht : t < BASE) :
    0 < (if t = MAX_DIGIT then 1 else MAX_DIGIT / (t + 1)) ∧
      (if t = MAX_DIGIT then 1 else MAX_DIGIT / (t + 1)) < BASE := by
  split
  · exact ⟨Nat.one_pos, by decide⟩
  · rename_i h
    have h1 : t + 1 ≤ MAX_DIGIT := by
      unfold MAX_DIGIT BASE at *; omega
    constructor
    · exact Nat.div_pos h1 (by omega)
    · have := Nat.div_le_self MAX_DIGIT (t + 1)
      unfold MAX_DIGIT BASE at *; omega

theorem getLastD_lt (ds : List Nat) (h : ∀ d ∈ ds, d < BASE) : ds.getLastD 0 < BASE := by
  rcases ds with _ | ⟨d, ds⟩
  · exact BASE_pos
  · rw [List.getLastD_cons]
    rcases hds : ds with _ | ⟨e, es⟩
    · simpa using h d (List.mem_cons_self _ _)
    · rw [← hds]
      have hne : ds ≠ [] := by rw [hds]; simp
      rw [List.getLastD_eq_getLast?, List.getLast?_eq_getLast _ hne]
      exact h _ (List.mem_cons_of_mem _ (List.getLast_mem hne))

theorem div_assign_some (x right : big_integer) (hx : canonical x) (hr : canonical right)
    (hnz : nat_of right.data_ ≠ 0) : ∃ q, div_assign x right = some q ∧ canonical q := by
  have hne := (op_ne_ZERO right hr).2 hnz
  unfold div_assign
  rw [hne]
  simp only [Bool.not_true, Bool.false_eq_true, if_false]
  split
  · exact ⟨of_int 0, rfl, canonical_of_int_zero⟩
  · rename_i hlt
    have hge : nat_of right.data_ ≤ nat_of x.data_ := by
      have h1 := op_lt_iff (abs_ x) (abs_ right) (canonical_abs_ x hx) (canonical_abs_ right hr)
      rw [val_abs_, val_abs_] at h1
      have h2 : ¬ ((nat_of x.data_ : Int) < (nat_of right.data_ : Int)) := fun h3 => hlt (h1.2 h3)
      omega
    split
    · rename_i hlen
      have hd0 : right.data_.getD 0 0 ≠ 0 := by
        rcases hrd : right.data_ with _ | ⟨d, _ | ⟨e, es⟩⟩
        · rw [hrd] at hlen; simp at hlen
        · rw [hrd] at hnz
          simp only [nat_of] at hnz
          simp only [List.getD_cons_zero]; omega
        · rw [hrd] at hlen; simp at hlen
      obtain ⟨x1, c1, h1, h2, _⟩ := div_short__some x (right.data_.getD 0 0) hx.1 hx.2.1 hd0
      rw [h1]
      exact ⟨_, rfl, canonical_set_sign_ x1 _ h2.1 h2.2.1 h2.2.2.1⟩
    · obtain ⟨hf0, hflt⟩ := norm_factor_bounds (right.data_.getLastD 0) (getLastD_lt _ hr.1)
      generalize (if right.data_.getLastD 0 = MAX_DIGIT then 1
        else MAX_DIGIT / (right.data_.getLastD 0 + 1)) = f at *
      have hF : typed (of_unsigned_long f) := typed_of_single f hflt
      have hu0 := canonical_mul_assign x (of_unsigned_long f) hx.2.1
      have hd0 := canonical_mul_assign right (of_unsigned_long f) hr.2.1
      have hnu := nat_of_mul_assign x (of_unsigned_long f) hx.1 hF
      have hnd := nat_of_mul_assign right (of_unsigned_long f) hr.1 hF
      have hFv : nat_of (of_unsigned_long f).data_ = f := by simp [of_unsigned_long, nat_of]
      rw [hFv] at hnu hnd
      have hdnz : nat_of (mul_assign right (of_unsigned_long f)).data_ ≠ 0 := by
        rw [hnd]; exact Nat.mul_ne_zero hnz (by omega)
      have hlen := length_le_of_nat_of_le _ _ hu0 hd0 hdnz (by
        rw [hnu, hnd]; exact Nat.mul_le_mul_right f hge)
      have hdlast := getD_last_ne_zero _ hd0.2.1 (getLast?_ne_zero_of_canonical _ hd0 hdnz)
      simp only [op_mul, data_set_sign_, List.length_append, List.length_singleton]
      obtain ⟨x3, u3, h1, h2, h3, _⟩ := div_loop_some
        (set_sign_ (mul_assign right (of_unsigned_long f)) false)
        (mul_assign right (of_unsigned_long f)).data_.length hdlast
        ((mul_assign x (of_unsigned_long f)).data_.length + 1 -
          (mul_assign right (of_unsigned_long f)).data_.length)
        (set_sign_ (big_integer.mk (resize x.data_
          ((mul_assign x (of_unsigned_long f)).data_.length + 1 -
            (mul_assign right (of_unsigned_long f)).data_.length)) x.sign_)
          (xor (sign x) (sign right)))
        (set_sign_ (big_integer.mk ((mul_assign x (of_unsigned_long f)).data_ ++ [0])
          (mul_assign x (of_unsigned_long f)).sign_) false)
        (mem_resize _ _ hx.1)
        (by
          intro e he
          rcases List.mem_append.1 he with h4 | h4
          · exact hu0.1 e h4
          · have : e = 0 := by simpa using h4
            rw [this]; exact BASE_pos)
        (by simp [data_set_sign_])
      rw [h1]
      refine ⟨_, rfl, canonical_keep_invariant_ x3 h2 ?_⟩
      intro h4
      rw [h4, data_set_sign_] at h3
      simp only [List.length_nil, length_resize] at h3
      omega

theorem mod_assign_some (x right : big_integer) (hx : canonical x) (hr : canonical right)
    (hnz : nat_of right.data_ ≠ 0) :
    ∃ q, div_assign x right = some q ∧ canonical q ∧
      mod_assign x right = some (sub_assign x (mul_assign q right)) := by
  obtain ⟨q, h1, h2⟩ := div_assign_some x right hx hr hnz
  refine ⟨q, h1, h2, ?_⟩
  unfold mod_assign op_div op_mul
  rw [h1]

/-! ## Constructors -/

theorem iabs__eq (v : Int) (h1 : -2 ^ 31 ≤ v) (h2 : v < 2 ^ 31) : iabs_ v = v.natAbs := by
  unfold iabs_
  split <;> omega

theorem labs__eq (v : Int) (h1 : -2 ^ 63 ≤ v) (h2 : v < 2 ^ 63) : labs_ v = v.natAbs := by
  unfold labs_ BASE
  split <;> omega

theorem llabs__eq (v : Int) (h1 : -2 ^ 63 ≤ v) (h2 : v < 2 ^ 63) : llabs_ v = v.natAbs := by
  unfold llabs_ BASE
  split <;> omega

theorem canonical_single (d : Nat) (s : Bool) (hd : d < BASE) (hs : d = 0 → s = false) :
    canonical ⟨[d], s⟩ := by
  refine ⟨?_, by simp, Or.inl rfl, ?_⟩
  · intro e he
    have : e = d := by simpa using he
    rw [this]; exact hd
  · intro h
    simp only [nat_of] at h
    exact hs (by omega)

theorem canonical_of_int (v : Int) (h1 : -2 ^ 31 ≤ v) (h2 : v < 2 ^ 31) :
    canonical (of_int v) := by
  unfold of_int
  rw [iabs__eq v h1 h2]
  apply canonical_single
  · unfold BASE; omega
  · intro h; simp only [decide_eq_false_iff_not]; omega

theorem canonical_of_long (v : Int) (h1 : -2 ^ 63 ≤ v) (h2 : v < 2 ^ 63) :
    canonical (of_long v) := by
  unfold of_long
  rw [labs__eq v h1 h2]
  apply canonical_single
  · unfold BASE; omega
  · intro h; simp only [decide_eq_false_iff_not]; omega

theorem canonical_of_long_long (v : Int) (h1 : -2 ^ 63 ≤ v) (h2 : v < 2 ^ 63) :
    canonical (of_long_long v) := by
  unfold of_long_long
  rw [llabs__eq v h1 h2]
  apply canonical_single
  · unfold BASE; omega
  · intro h; simp only [decide_eq_false_iff_not]; omega

theorem canonical_of_unsigned (v : Nat) (h : v < BASE) : canonical (of_unsigned v) :=
  canonical_single v false h (fun _ => rfl)

/-! ## Right shift and the bitwise operators keep the canonical form -/

theorem div_assign_short_some (x right : big_integer) (hx : typed x) (hne : x.data_ ≠ [])
    (hr : canonical right) (hnz : nat_of right.data_ ≠ 0) (hlen : right.data_.length = 1) :
    ∃ q, div_assign x right = some q ∧ canonical q := by
  have hnez := (op_ne_ZERO right hr).2 hnz
  unfold div_assign
  rw [hnez]
  simp only [Bool.not_true, Bool.false_eq_true, if_false, hlen, if_true]
  split
  · exact ⟨of_int 0, rfl, canonical_of_int_zero⟩
  · have hd0 : right.data_.getD 0 0 ≠ 0 := by
      rcases hrd : right.data_ with _ | ⟨d, _ | ⟨e, es⟩⟩
      · rw [hrd] at hlen; simp at hlen
      · rw [hrd] at hnz
        simp only [nat_of] at hnz
        simp only [List.getD_cons_zero]; omega
      · rw [hrd] at hlen; simp at hlen
    obtain ⟨x1, c1, h1, h2, _⟩ := div_short__some x (right.data_.getD 0 0) hx hne hd0
    rw [h1]
    exact ⟨_, rfl, canonical_set_sign_ x1 _ h2.1 h2.2.1 h2.2.2.1⟩

theorem length_pop_back_n (n : Nat) (ds : List Nat) :
    (pop_back_n n ds).length = ds.length - n := by
  induction n generalizing ds with
  | zero => rfl
  | succ n ih =>
    simp only [pop_back_n, ih, List.length_dropLast]; omega

theorem mem_pop_back_n (n : Nat) (ds : List Nat) : ∀ d ∈ pop_back_n n ds, d ∈ ds := by
  induction n generalizing ds with
  | zero => intro d hd; exact hd
  | succ n ih =>
    intro d hd
    exact List.mem_of_mem_dropLast (ih _ d hd)

theorem canonical_pre_inc (x : big_integer) (hne : x.data_ ≠ []) : canonical (pre_inc x) :=
  canonical_add_assign x _ hne

theorem canonical_pre_dec (x : big_integer) (hne : x.data_ ≠ []) : canonical (pre_dec x) :=
  canonical_sub_assign x _ hne

theorem shr_assign_some (x : big_integer) (k : Nat) (hx : canonical x) :
    ∃ y, shr_assign x k = some y ∧ canonical y := by
  have hx1 : canonical (if sign x then pre_inc x else x) := by
    split
    · exact canonical_pre_inc x hx.2.1
    · exact hx
  unfold shr_assign
  generalize (if sign x then pre_inc x else x) = x1 at *
  simp only [BASE_POWER2, of_unsigned_long_long]
  rw [one_shl_lt _ (Nat.mod_lt _ (by omega))]
  have hdiv : canonical (⟨[2 ^ (k % 64)], false⟩ : big_integer) :=
    canonical_single _ _ (two_pow_lt_BASE _ (Nat.mod_lt _ (by omega))) (fun _ => rfl)
  have hdnz : nat_of (⟨[2 ^ (k % 64)], false⟩ : big_integer).data_ ≠ 0 := by
    simp only [nat_of]
    have : 0 < 2 ^ (k % 64) := Nat.pow_pos (by omega)
    omega
  have hx2 : ∀ x2 : big_integer, typed x2 → x2.data_ ≠ [] →
      ∃ y, (match div_assign x2 ⟨[2 ^ (k % 64)], false⟩ with
        | none => none
        | some x3 => some (if sign x3 then pre_dec x3 else x3)) = some y ∧ canonical y := by
    intro x2 ht hne
    obtain ⟨q, h1, h2⟩ := div_assign_short_some x2 _ ht hne hdiv hdnz rfl
    rw [h1]
    refine ⟨_, rfl, ?_⟩
    split
    · exact canonical_pre_dec q h2.2.1
    · exact h2
  apply hx2
  · split
    · intro d hd
      exact hx1.1 d (List.mem_reverse.1 (mem_pop_back_n _ _ d (List.mem_reverse.1 hd)))
    · intro d hd
      have : d = 0 := by simpa using hd
      rw [this]; exact BASE_pos
  · split
    · intro h
      have := congrArg List.length h
      simp only [List.length_reverse, length_pop_back_n, List.length_nil] at this
      omega
    · simp

theorem two_complement__ok (y : big_integer) (ht : typed y) (hne : y.data_ ≠ []) :
    typed (two_complement_ y) ∧ (two_complement_ y).data_ ≠ [] := by
  unfold two_complement_
  split
  · have h := canonical_pre_inc y hne
    constructor
    · intro d hd
      simp only [List.mem_map] at hd
      obtain ⟨e, _, he⟩ := hd
      rw [← he]
      unfold MAX_DIGIT BASE; omega
    · simp only [ne_eq, List.map_eq_nil_iff]
      exact h.2.1
  · exact ⟨ht, hne⟩

theorem bitwise_loop_ok (f : Nat → Nat → Nat)
    (hf : ∀ a b, a < BASE → b < BASE → f a b < BASE) (right : big_integer) (hr : typed right)
    (n i : Nat) (x : big_integer) (hx : typed x) (hne : x.data_ ≠ []) :
    typed (bitwise_loop f right n i x) ∧ (bitwise_loop f right n i x).data_ ≠ [] := by
  induction n generalizing i x with
  | zero => exact ⟨hx, hne⟩
  | succ n ih =>
    unfold bitwise_loop
    have hl : (if i < x.data_.length then x.data_.getD i 0
        else if sign x then MAX_DIGIT else 0) < BASE := by
      split
      · exact getD_lt _ _ hx
      · split
        · decide
        · exact BASE_pos
    have hrr : (if i < right.data_.length then right.data_.getD i 0
        else if sign right then MAX_DIGIT else 0) < BASE := by
      split
      · exact getD_lt _ _ hr
      · split
        · decide
        · exact BASE_pos
    have hv := hf _ _ hl hrr
    apply ih
    · intro d hd
      rcases List.mem_or_eq_of_mem_set hd with h1 | h1
      · split at h1
        · rcases List.mem_append.1 h1 with h2 | h2
          · exact hx d h2
          · have : d = 0 := by simpa using h2
            rw [this]; exact BASE_pos
        · exact hx d h1
      · rw [h1]; exact hv
    · intro h
      have h2 := congrArg List.length h
      simp only [List.length_set, List.length_nil] at h2
      split at h2
      · simp at h2
      · exact hne (List.length_eq_zero.1 h2)

theorem canonical_apply_bitwise_ (f : Nat → Nat → Nat)
    (hf : ∀ a b, a < BASE → b < BASE → f a b < BASE) (x right : big_integer)
    (hx : canonical x) (hr : canonical right) : canonical (apply_bitwise_ f x right) := by
  unfold apply_bitwise_
  have h1 := two_complement__ok right hr.1 hr.2.1
  have h2 := two_complement__ok x hx.1 hx.2.1
  have h3 := bitwise_loop_ok f hf (two_complement_ right) h1.1
    (max x.data_.length right.data_.length) 0 (two_complement_ x) h2.1 h2.2
  have h4 := two_complement__ok (set_sign_ (bitwise_loop f (two_complement_ right)
    (max x.data_.length right.data_.length) 0 (two_complement_ x))
    (decide (f (b2n (sign x)) (b2n (sign right)) &&& 1 ≠ 0))) h3.1 h3.2
  exact canonical_keep_invariant_ _ h4.1 h4.2

theorem and_lt_BASE (a b : Nat) (ha : a < BASE) (_hb : b < BASE) : a &&& b < BASE :=
  lt_of_le_of_lt Nat.and_le_left ha

theorem or_lt_BASE (a b : Nat) (ha : a < BASE) (hb : b < BASE) : a ||| b < BASE := by
  rw [BASE_eq_pow] at *
  exact Nat.or_lt_two_pow ha hb

theorem xor_lt_BASE (a b : Nat) (ha : a < BASE) (hb : b < BASE) : a ^^^ b < BASE := by
  rw [BASE_eq_pow] at *
  exact Nat.xor_lt_two_pow ha hb

/-! ## The claims -/

/-- Claim C1: canonical form (machine-word digits, non-empty digit sequence, non-zero
most-significant digit unless the length is 1, clear sign flag for the value zero) is
established by every constructor from a native integer and preserved by `+`, `-`, `*`,
`/` and `%` (non-zero divisor; both return a value), `<<`, `>>`, `&`, `|`, `^`, unary `-`,
`~`, `++` and `--`. -/
theorem canonical_is_invariant (v32 v64 : Int) (w32 w64 : Nat) (a b : big_integer) (k : Nat)
    (hv32 : -2 ^ 31 ≤ v32 ∧ v32 < 2 ^ 31) (hv64 : -2 ^ 63 ≤ v64 ∧ v64 < 2 ^ 63)
    (hw32 : w32 < 2 ^ 32) (hw64 : w64 < 2 ^ 64) (ha : canonical a) (hb : canonical b) :
    (canonical (of_int v32) ∧ canonical (of_long v64) ∧ canonical (of_long_long v64) ∧
      canonical (of_unsigned w32) ∧ canonical (of_unsigned_long w64) ∧
      canonical (of_unsigned_long_long w64)) ∧
    (canonical (op_add a b) ∧ canonical (op_sub a b) ∧ canonical (op_mul a b)) ∧
    (val b ≠ 0 → ∃ q r, op_div a b = some q ∧ op_mod a b = some r ∧
      canonical q ∧ canonical r) ∧
    (canonical (op_shl a k) ∧ ∃ y, op_shr a k = some y ∧ canonical y) ∧
    (canonical (op_and a b) ∧ canonical (op_or a b) ∧ canonical (op_xor a b)) ∧
    (canonical (op_neg a) ∧ canonical (op_not a) ∧ canonical (pre_inc a) ∧
      canonical (pre_dec a) ∧ canonical (post_inc a).1 ∧ canonical (post_inc a).2 ∧
      canonical (post_dec a).1 ∧ canonical (post_dec a).2) := by
  have hB : BASE = 2 ^ 64 := BASE_eq_pow
  refine ⟨⟨canonical_of_int v32 hv32.1 hv32.2, canonical_of_long v64 hv64.1 hv64.2,
    canonical_of_long_long v64 hv64.1 hv64.2, canonical_of_unsigned w32 ?_,
    canonical_of_unsigned w64 (by omega), canonical_of_unsigned w64 (by omega)⟩,
    ⟨canonical_add_assign a b ha.2.1, canonical_sub_assign a b ha.2.1,
      canonical_mul_assign a b ha.2.1⟩, ?_,
    ⟨canonical_shl_assign a k ha, shr_assign_some a k ha⟩,
    ⟨canonical_apply_bitwise_ _ and_lt_BASE a b ha hb,
      canonical_apply_bitwise_ _ or_lt_BASE a b ha hb,
      canonical_apply_bitwise_ _ xor_lt_BASE a b ha hb⟩,
    ⟨canonical_switch_sign_ a ha, canonical_sub_assign _ _ ha.2.1, canonical_pre_inc a ha.2.1,
      canonical_pre_dec a ha.2.1, ha, canonical_pre_inc a ha.2.1, ha,
      canonical_pre_dec a ha.2.1⟩⟩
  · have : (2 : Nat) ^ 32 ≤ 2 ^ 64 := Nat.pow_le_pow_right (by omega) (by omega)
    omega
  · intro hb0
    have hnz : nat_of b.data_ ≠ 0 := by
      intro h; apply hb0; unfold val; rw [h]; simp
    obtain ⟨q, h1, h2, h3⟩ := mod_assign_some a b ha hb hnz
    exact ⟨q, _, h1, h3, h2, canonical_sub_assign a _ ha.2.1⟩

/-- The invariant of C1 at `-7` and `5` (shift count 70), with the extreme native values. -/
theorem canonical_is_invariant_witness :
    (canonical ⟨[7], true⟩ ∧ canonical ⟨[5], false⟩ ∧ val ⟨[5], false⟩ ≠ 0) ∧
    (canonical (of_int (-2147483648)) ∧ canonical (of_long (-9223372036854775808)) ∧
      canonical (of_long_long (-9223372036854775808)) ∧
      canonical (of_unsigned 4294967295) ∧ canonical (of_unsigned_long 18446744073709551615) ∧
      canonical (of_unsigned_long_long 18446744073709551615)) ∧
    (canonical (op_add ⟨[7], true⟩ ⟨[5], false⟩) ∧ canonical (op_sub ⟨[7], true⟩ ⟨[5], false⟩) ∧
      canonical (op_mul ⟨[7], true⟩ ⟨[5], false⟩)) ∧
    (∃ q r, op_div ⟨[7], true⟩ ⟨[5], false⟩ = some q ∧
      op_mod ⟨[7], true⟩ ⟨[5], false⟩ = some r ∧ canonical q ∧ canonical r) ∧
    (canonical (op_shl ⟨[7], true⟩ 70) ∧ ∃ y, op_shr ⟨[7], true⟩ 70 = some y ∧ canonical y) ∧
    (canonical (op_and ⟨[7], true⟩ ⟨[5], false⟩) ∧ canonical (op_or ⟨[7], true⟩ ⟨[5], false⟩) ∧
      canonical (op_xor ⟨[7], true⟩ ⟨[5], false⟩)) ∧
    (canonical (op_neg ⟨[7], true⟩) ∧ canonical (op_not ⟨[7], true⟩) ∧
      canonical (pre_inc ⟨[7], true⟩) ∧ canonical (pre_dec ⟨[7], true⟩) ∧
      canonical (post_inc ⟨[7], true⟩).1 ∧ canonical (post_inc ⟨[7], true⟩).2 ∧
      canonical (post_dec ⟨[7], true⟩).1 ∧ canonical (post_dec ⟨[7], true⟩).2) :=
  (fun h => ⟨⟨by decide, by decide, by decide⟩, h.1, h.2.1, h.2.2.1 (by decide), h.2.2.2⟩)
    (canonical_is_invariant (-2147483648) (-9223372036854775808) 4294967295 18446744073709551615
      ⟨[7], true⟩ ⟨[5], false⟩ 70 (by norm_num) (by norm_num) (by norm_num) (by norm_num)
      (by decide) (by decide))

/-- Claim C2, evaluated at `x = -3 * 2^64`, `y = 2 * 2^64` (both canonical, `y` non-zero):
`operator/=` fixes the sign right after `data_.resize(n - m)`, while the only remaining digit
is still the old least-significant digit 0, so the quotient comes out as `+1`; truncation
toward zero of `-3/2` is `-1`, with sign flag `sign(x) XOR sign(y) = true`. -/
theorem div_sign_lost :
    canonical ⟨[0, 3], true⟩ ∧ canonical ⟨[0, 2], false⟩ ∧
    val ⟨[0, 3], true⟩ = -55340232221128654848 ∧ val ⟨[0, 2], false⟩ = 36893488147419103232 ∧
    op_div ⟨[0, 3], true⟩ ⟨[0, 2], false⟩ = some ⟨[1], false⟩ ∧
    xor (sign ⟨[0, 3], true⟩) (sign ⟨[0, 2], false⟩) = true := by
  decide

/-- Claim C3, evaluated at `x = -3 * 2^64`, `y = 2 * 2^64`: `x % y` is computed from the
quotient `+1` and comes out as `-5 * 2^64`, whose magnitude is not below `|y|`; the
truncating remainder is `-2^64`. -/
theorem mod_out_of_range :
    op_mod ⟨[0, 3], true⟩ ⟨[0, 2], false⟩ = some ⟨[0, 5], true⟩ ∧
    val ⟨[0, 5], true⟩ = -92233720368547758080 ∧
    ¬ (|val ⟨[0, 5], true⟩| < |val ⟨[0, 2], false⟩|) := by
  decide

/-- Claim C4: for canonical `x` and canonical non-zero `y`, `x / y` and `x % y` return
values and `(x / y) * y + (x % y) == x` under the library's `operator==`. -/
theorem div_mul_add_mod (x y : big_integer) (hx : canonical x) (hy : canonical y)
    (hy0 : val y ≠ 0) :
    ∃ q r, op_div x y = some q ∧ op_mod x y = some r ∧
      op_eq (op_add (op_mul q y) r) x = true := by
  have hnz : nat_of y.data_ ≠ 0 := by
    intro h; apply hy0; unfold val; rw [h]; simp
  obtain ⟨q, h1, h2, h3⟩ := mod_assign_some x y hx hy hnz
  refine ⟨q, _, h1, h3, ?_⟩
  have hm := canonical_mul_assign q y h2.2.1
  have hs := canonical_sub_assign x (mul_assign q y) hx.2.1
  show op_eq (add_assign (mul_assign q y) (sub_assign x (mul_assign q y))) x = true
  rw [op_eq_iff _ _ (canonical_add_assign _ _ hm.2.1) hx]
  rw [val_add_assign _ _ hm.1 hs.1, val_sub_assign _ _ hx.1 hm.1]
  ring

/-- The identity of C4 at `-17` and `5`. -/
theorem div_mul_add_mod_witness :
    canonical ⟨[17], true⟩ ∧ canonical ⟨[5], false⟩ ∧ val ⟨[5], false⟩ ≠ 0 ∧
    ∃ q r, op_div ⟨[17], true⟩ ⟨[5], false⟩ = some q ∧ op_mod ⟨[17], true⟩ ⟨[5], false⟩ = some r ∧
      op_eq (op_add (op_mul q ⟨[5], false⟩) r) ⟨[17], true⟩ = true :=
  ⟨by decide, by decide, by decide,
    div_mul_add_mod ⟨[17], true⟩ ⟨[5], false⟩ (by decide) (by decide) (by decide)⟩

/-- Claim C5: for canonical `a` and `b` of any signs and digit counts, `a + b` denotes the
integer sum. -/
theorem val_op_add (a b : big_integer) (ha : canonical a) (hb : canonical b) :
    val (op_add a b) = val a + val b :=
  val_add_assign a b ha.1 hb.1

/-- The sum of C5 at `123456789012345678901234567890` and `1`. -/
theorem val_op_add_witness :
    canonical ⟨[14083847773837265618, 6692605942], false⟩ ∧ canonical ⟨[1], false⟩ ∧
    val ⟨[14083847773837265618, 6692605942], false⟩ = 123456789012345678901234567890 ∧
    op_add ⟨[14083847773837265618, 6692605942], false⟩ ⟨[1], false⟩ =
      ⟨[14083847773837265619, 6692605942], false⟩ ∧
    val (op_add ⟨[14083847773837265618, 6692605942], false⟩ ⟨[1], false⟩) =
      val ⟨[14083847773837265618, 6692605942], false⟩ + val ⟨[1], false⟩ :=
  ⟨by decide, by decide, by decide, by decide,
    val_op_add ⟨[14083847773837265618, 6692605942], false⟩ ⟨[1], false⟩ (by decide) (by decide)⟩

/-- Claim C6: for canonical `a` and `b`, `a - b` denotes the integer difference; for every
canonical `x`, `x - x` and `x + (-x)` are the zero value with a clear sign flag. -/
theorem val_op_sub (a b x : big_integer) (ha : canonical a) (hb : canonical b)
    (hx : canonical x) :
    val (op_sub a b) = val a - val b ∧
    (val (op_sub x x) = 0 ∧ sign (op_sub x x) = false) ∧
    (val (op_add x (op_neg x)) = 0 ∧ sign (op_add x (op_neg x)) = false) := by
  have h1 : val (op_sub x x) = 0 := by
    unfold op_sub; rw [val_sub_assign x x hx.1 hx.1]; ring
  have h2 : val (op_add x (op_neg x)) = 0 := by
    unfold op_add
    rw [val_add_assign x (op_neg x) hx.1 (typed_switch_sign_ x hx.1), val_op_neg]; ring
  have h3 := canonical_val_eq_zero _ (canonical_sub_assign x x hx.2.1) h1
  have h4 := canonical_val_eq_zero _ (canonical_add_assign x (op_neg x) hx.2.1) h2
  refine ⟨val_sub_assign a b ha.1 hb.1, ⟨h1, ?_⟩, ⟨h2, ?_⟩⟩
  · unfold op_sub sign; rw [h3]
  · unfold op_add sign; rw [h4]

/-- The difference of C6 at `2^64 - 1`, and at `x = 0` (`0 - 0`). -/
theorem val_op_sub_witness :
    canonical ⟨[0, 1], false⟩ ∧ canonical ⟨[1], false⟩ ∧ canonical ⟨[0], false⟩ ∧
    val (op_sub ⟨[0, 1], false⟩ ⟨[1], false⟩) = val ⟨[0, 1], false⟩ - val ⟨[1], false⟩ ∧
    (val (op_sub ⟨[0], false⟩ ⟨[0], false⟩) = 0 ∧
      sign (op_sub ⟨[0], false⟩ ⟨[0], false⟩) = false) ∧
    (val (op_add ⟨[0], false⟩ (op_neg ⟨[0], false⟩)) = 0 ∧
      sign (op_add ⟨[0], false⟩ (op_neg ⟨[0], false⟩)) = false) :=
  ⟨by decide, by decide, by decide,
    val_op_sub ⟨[0, 1], false⟩ ⟨[1], false⟩ ⟨[0], false⟩ (by decide) (by decide) (by decide)⟩

/-- Claim C7: for canonical `a` and `b`, `a * b` denotes the integer product; its sign flag
is `sign(a) XOR sign(b)` when the product is non-zero and false when it is zero. -/
theorem val_op_mul (a b : big_integer) (ha : canonical a) (hb : canonical b) :
    val (op_mul a b) = val a * val b ∧
    sign (op_mul a b) = (if val a * val b = 0 then false else xor (sign a) (sign b)) := by
  have hv := val_mul_assign a b ha.1 hb.1
  refine ⟨hv, ?_⟩
  split
  · rename_i h0
    rw [← hv] at h0
    have := canonical_val_eq_zero _ (canonical_mul_assign a b ha.2.1) h0
    unfold op_mul sign; rw [this]
  · rename_i h0
    apply sign_mul_assign a b ha.1 hb.1
    intro h
    apply h0
    rcases Nat.mul_eq_zero.1 h with h1 | h1
    · have : val a = 0 := by unfold val; rw [h1]; simp
      rw [this]; ring
    · have : val b = 0 := by unfold val; rw [h1]; simp
      rw [this]; ring

/-- The product of C7 at `-(2^64 + 3)` and `2^64 - 1`. -/
theorem val_op_mul_witness :
    canonical ⟨[3, 1], true⟩ ∧ canonical ⟨[18446744073709551615], false⟩ ∧
    val (op_mul ⟨[3, 1], true⟩ ⟨[18446744073709551615], false⟩) =
      val ⟨[3, 1], true⟩ * val ⟨[18446744073709551615], false⟩ ∧
    sign (op_mul ⟨[3, 1], true⟩ ⟨[18446744073709551615], false⟩) =
      (if val ⟨[3, 1], true⟩ * val ⟨[18446744073709551615], false⟩ = 0 then false
       else xor (sign ⟨[3, 1], true⟩) (sign ⟨[18446744073709551615], false⟩)) :=
  ⟨by decide, by decide,
    val_op_mul ⟨[3, 1], true⟩ ⟨[18446744073709551615], false⟩ (by decide) (by decide)⟩

/-- Claim C8: for canonical `a` and `b`, `operator<` is the order of the denoted integers,
`operator==` holds exactly when the denoted integers are equal, and exactly one of
`a < b`, `a == b`, `b < a` holds. -/
theorem op_lt_is_order (a b : big_integer) (ha : canonical a) (hb : canonical b) :
    (op_lt a b = true ↔ val a < val b) ∧ (op_eq a b = true ↔ val a = val b) ∧
    ((op_lt a b = true ∧ op_eq a b = false ∧ op_lt b a = false) ∨
      (op_lt a b = false ∧ op_eq a b = true ∧ op_lt b a = false) ∨
      (op_lt a b = false ∧ op_eq a b = false ∧ op_lt b a = true)) := by
  have h1 := op_lt_iff a b ha hb
  have h2 := op_lt_iff b a hb ha
  have h3 := op_eq_iff a b ha hb
  refine ⟨h1, h3, ?_⟩
  rcases Bool.eq_false_or_eq_true (op_lt a b) with e1 | e1 <;>
    rcases Bool.eq_false_or_eq_true (op_lt b a) with e2 | e2 <;>
    rcases Bool.eq_false_or_eq_true (op_eq a b) with e3 | e3 <;>
    rw [e1] at h1 <;> rw [e2] at h2 <;> rw [e3] at h3 <;>
    simp only [true_iff, false_iff, Bool.false_eq_true] at h1 h2 h3 <;>
    simp only [e1, e2, e3] <;> first | omega | simp

/-- The order of C8 at `-(2^64 + 3)` and `-5`. -/
theorem op_lt_is_order_witness :
    canonical ⟨[3, 1], true⟩ ∧ canonical ⟨[5], true⟩ ∧
    (op_lt ⟨[3, 1], true⟩ ⟨[5], true⟩ = true ↔ val ⟨[3, 1], true⟩ < val ⟨[5], true⟩) ∧
    (op_eq ⟨[3, 1], true⟩ ⟨[5], true⟩ = true ↔ val ⟨[3, 1], true⟩ = val ⟨[5], true⟩) ∧
    ((op_lt ⟨[3, 1], true⟩ ⟨[5], true⟩ = true ∧ op_eq ⟨[3, 1], true⟩ ⟨[5], true⟩ = false ∧
        op_lt ⟨[5], true⟩ ⟨[3, 1], true⟩ = false) ∨
      (op_lt ⟨[3, 1], true⟩ ⟨[5], true⟩ = false ∧ op_eq ⟨[3, 1], true⟩ ⟨[5], true⟩ = true ∧
        op_lt ⟨[5], true⟩ ⟨[3, 1], true⟩ = false) ∨
      (op_lt ⟨[3, 1], true⟩ ⟨[5], true⟩ = false ∧ op_eq ⟨[3, 1], true⟩ ⟨[5], true⟩ = false ∧
        op_lt ⟨[5], true⟩ ⟨[3, 1], true⟩ = true)) :=
  ⟨by decide, by decide, op_lt_is_order ⟨[3, 1], true⟩ ⟨[5], true⟩ (by decide) (by decide)⟩

/-- Claim C9, evaluated at `x = -1`, `k = 100` (and at `x = -2`, `k = 1`): after the
initial `++` the magnitude is divided to zero, `operator/=` clears the sign, and the final
`if (sign()) --(*this)` is skipped, so the result is `0`; the floor of `-1 / 2^100` (and of
`-2 / 2`) is `-1`. -/
theorem shr_negative_to_zero :
    canonical ⟨[1], true⟩ ∧ val ⟨[1], true⟩ = -1 ∧
    op_shr ⟨[1], true⟩ 100 = some ⟨[0], false⟩ ∧
    Int.fdiv (-1) 1267650600228229401496703205376 = -1 ∧
    canonical ⟨[2], true⟩ ∧ val ⟨[2], true⟩ = -2 ∧
    op_shr ⟨[2], true⟩ 1 = some ⟨[0], false⟩ ∧ Int.fdiv (-2) 2 = -1 := by
  decide

/-- Claim C10: for canonical `x` of either sign and every bit count `k`, `x << k` denotes
`val x * 2^k`; for non-zero `x` it is computed as `k / 64` zero digits put in front of the
digits, followed by a multiplication by `2^(k mod 64)`. -/
theorem val_op_shl (x : big_integer) (k : Nat) (hx : canonical x) :
    val (op_shl x k) = val x * 2 ^ k ∧
    (val x ≠ 0 → op_shl x k =
      op_mul ⟨List.replicate (k / 64) 0 ++ x.data_, x.sign_⟩
        (of_unsigned_long_long (2 ^ (k % 64)))) := by
  refine ⟨val_shl_assign x k hx, ?_⟩
  intro h0
  have h1 : op_eq x (of_int 0) = false := by
    rcases Bool.eq_false_or_eq_true (op_eq x (of_int 0)) with h | h
    · exact absurd (((op_eq_iff x (of_int 0) hx canonical_of_int_zero).1 h).trans val_of_int_zero) h0
    · exact h
  exact data_shl_ne x k h1

/-- The shift of C10 at `-3` and `k = 130`. -/
theorem val_op_shl_witness :
    (canonical ⟨[3], true⟩ ∧ val ⟨[3], true⟩ ≠ 0) ∧
    val (op_shl ⟨[3], true⟩ 130) = val ⟨[3], true⟩ * 2 ^ 130 ∧
    op_shl ⟨[3], true⟩ 130 =
      op_mul ⟨List.replicate (130 / 64) 0 ++ (⟨[3], true⟩ : big_integer).data_,
        (⟨[3], true⟩ : big_integer).sign_⟩ (of_unsigned_long_long (2 ^ (130 % 64))) :=
  (fun h => ⟨⟨by decide, by decide⟩, h.1, h.2 (by decide)⟩)
    (val_op_shl ⟨[3], true⟩ 130 (by decide))

/-- Claim C12, evaluated at `a = -1`, `b = 2^64`: `two_complement_` increments `a` to the
canonical zero, whose sign flag is false, so the digit of `a` above its length is filled
with `0` instead of `MAX_DIGIT` and the code returns `0`; the bitwise AND of `-1` with
`2^64` in two's complement is `2^64`. -/
theorem and_minus_one_drops_digit :
    canonical ⟨[1], true⟩ ∧ val ⟨[1], true⟩ = -1 ∧
    canonical ⟨[0, 1], false⟩ ∧ val ⟨[0, 1], false⟩ = 18446744073709551616 ∧
    op_and ⟨[1], true⟩ ⟨[0, 1], false⟩ = ⟨[0], false⟩ ∧
    op_and ⟨[0, 1], false⟩ ⟨[1], true⟩ = ⟨[0], false⟩ ∧
    op_eq (op_and ⟨[1], true⟩ ⟨[0, 1], false⟩) ⟨[0, 1], false⟩ = false := by
  decide

/-- Claim C13, evaluated at `a = -(2^64 - 1)`: the result digits in two's complement are
`[1]` with a negative sign; the decoding `two_complement_` increments the value to the
canonical zero (sign flag false) and complements the single digit, so the code returns
`+(2^64 - 1)`; `a | 0` is `a`. -/
theorem or_zero_changes_sign :
    canonical ⟨[18446744073709551615], true⟩ ∧
    val ⟨[18446744073709551615], true⟩ = -18446744073709551615 ∧
    op_or ⟨[18446744073709551615], true⟩ (of_int 0) = ⟨[18446744073709551615], false⟩ ∧
    op_eq (op_or ⟨[18446744073709551615], true⟩ (of_int 0)) ⟨[18446744073709551615], true⟩ =
      false := by
  decide

/-- Claim C19: for a signed native integer `v` (32-bit `int`, 64-bit `long` and
`long long`, the minimum values included) the constructor stores the single digit `|v|`,
which fits a machine word, with sign flag `v < 0`, and the result denotes `v`; for an
unsigned native `v` the single digit is `v` and the sign flag is false. -/
theorem native_constructors (v32 v64 : Int) (w32 w64 : Nat)
    (hv32 : -2 ^ 31 ≤ v32 ∧ v32 < 2 ^ 31) (hv64 : -2 ^ 63 ≤ v64 ∧ v64 < 2 ^ 63)
    (hw32 : w32 < 2 ^ 32) (hw64 : w64 < 2 ^ 64) :
    (of_int v32 = ⟨[v32.natAbs], decide (v32 < 0)⟩ ∧ v32.natAbs < BASE ∧ val (of_int v32) = v32) ∧
    (of_long v64 = ⟨[v64.natAbs], decide (v64 < 0)⟩ ∧ v64.natAbs < BASE ∧
      val (of_long v64) = v64) ∧
    (of_long_long v64 = ⟨[v64.natAbs], decide (v64 < 0)⟩ ∧ val (of_long_long v64) = v64) ∧
    (of_unsigned w32 = ⟨[w32], false⟩ ∧ w32 < BASE ∧ val (of_unsigned w32) = w32) ∧
    (of_unsigned_long w64 = ⟨[w64], false⟩ ∧ w64 < BASE ∧ val (of_unsigned_long w64) = w64) ∧
    (of_unsigned_long_long w64 = ⟨[w64], false⟩ ∧ val (of_unsigned_long_long w64) = w64) := by
  have hval : ∀ v : Int, val ⟨[v.natAbs], decide (v < 0)⟩ = v := by
    intro v
    unfold val
    simp only [nat_of, Nat.mul_zero, Nat.add_zero, decide_eq_true_eq]
    split <;> omega
  have hvalu : ∀ w : Nat, val ⟨[w], false⟩ = w := by
    intro w; simp [val, nat_of]
  refine ⟨⟨?_, ?_, ?_⟩, ⟨?_, ?_, ?_⟩, ⟨?_, ?_⟩, ⟨rfl, ?_, hvalu w32⟩, ⟨rfl, ?_, hvalu w64⟩,
    ⟨rfl, hvalu w64⟩⟩
  · unfold of_int; rw [iabs__eq v32 hv32.1 hv32.2]
  · unfold BASE; omega
  · unfold of_int; rw [iabs__eq v32 hv32.1 hv32.2]; exact hval v32
  · unfold of_long; rw [labs__eq v64 hv64.1 hv64.2]
  · unfold BASE; omega
  · unfold of_long; rw [labs__eq v64 hv64.1 hv64.2]; exact hval v64
  · unfold of_long_long; rw [llabs__eq v64 hv64.1 hv64.2]
  · unfold of_long_long; rw [llabs__eq v64 hv64.1 hv64.2]; exact hval v64
  · unfold BASE; omega
  · unfold BASE; omega

/-- The constructors of C19 at the minimum and maximum native values. -/
theorem native_constructors_witness :
    (of_int (-2147483648) = ⟨[(-2147483648 : Int).natAbs], decide ((-2147483648 : Int) < 0)⟩ ∧
      (-2147483648 : Int).natAbs < BASE ∧ val (of_int (-2147483648)) = -2147483648) ∧
    (of_long (-9223372036854775808) =
        ⟨[(-9223372036854775808 : Int).natAbs], decide ((-9223372036854775808 : Int) < 0)⟩ ∧
      (-9223372036854775808 : Int).natAbs < BASE ∧
      val (of_long (-9223372036854775808)) = -9223372036854775808) ∧
    (of_long_long (-9223372036854775808) =
        ⟨[(-9223372036854775808 : Int).natAbs], decide ((-9223372036854775808 : Int) < 0)⟩ ∧
      val (of_long_long (-9223372036854775808)) = -9223372036854775808) ∧
    (of_unsigned 4294967295 = ⟨[4294967295], false⟩ ∧ 4294967295 < BASE ∧
      val (of_unsigned 4294967295) = (4294967295 : Nat)) ∧
    (of_unsigned_long 18446744073709551615 = ⟨[18446744073709551615], false⟩ ∧
      18446744073709551615 < BASE ∧
      val (of_unsigned_long 18446744073709551615) = (18446744073709551615 : Nat)) ∧
    (of_unsigned_long_long 18446744073709551615 = ⟨[18446744073709551615], false⟩ ∧
      val (of_unsigned_long_long 18446744073709551615) = (18446744073709551615 : Nat)) :=
  native_constructors (-2147483648) (-9223372036854775808) 4294967295 18446744073709551615
    (by norm_num) (by norm_num) (by norm_num) (by norm_num)

/-! ## Short division: the quotient and the remainder -/

theorem take_set_self (l : List Nat) (i a : Nat) : (l.set i a).take i = l.take i := by
  induction l generalizing i with
  | nil => simp
  | cons d ds ih =>
    cases i with
    | zero => simp
    | succ j => simp [ih]

theorem getD_of_drop_eq (l1 l2 : List Nat) (i : Nat) (h : l1.drop i = l2.drop i) :
    l1.getD i 0 = l2.getD i 0 := by
  have h1 := congrArg List.head? h
  rw [List.head?_drop, List.head?_drop] at h1
  rw [List.getD_eq_getElem?_getD, List.getD_eq_getElem?_getD, h1]

theorem div_short_loop_spec (right i : Nat) (ds : List Nat) (carry : Nat)
    (hds : ∀ d ∈ ds, d < BASE) (hc : carry < right) (hi : i ≤ ds.length) :
    ∃ ds1 c1, div_short_loop right i ds carry = some (ds1, c1) ∧ c1 < right ∧
      ds1.length = ds.length ∧ (∀ d ∈ ds1, d < BASE) ∧ ds1.drop i = ds.drop i ∧
      nat_of (ds1.take i) * right + c1 = carry * BASE ^ i + nat_of (ds.take i) := by
  induction i generalizing ds carry with
  | zero =>
    refine ⟨ds, carry, rfl, hc, rfl, hds, rfl, ?_⟩
    simp [nat_of]
  | succ i ih =>
    have hg := getD_lt ds i hds
    have hdm : div_mod_ carry (ds.getD i 0) right =
        some ((carry * BASE + ds.getD i 0) / right, (carry * BASE + ds.getD i 0) % right) := by
      unfold div_mod_
      rw [if_neg]
      omega
    have hq : (carry * BASE + ds.getD i 0) / right < BASE := by
      rw [Nat.div_lt_iff_lt_mul (by omega)]
      have : (carry + 1) * BASE ≤ BASE * right := by
        rw [Nat.mul_comm]; exact Nat.mul_le_mul_left _ hc
      have h2 : (carry + 1) * BASE = carry * BASE + BASE := by ring
      omega
    have hm : (carry * BASE + ds.getD i 0) % right < right := Nat.mod_lt _ (by omega)
    have hset : ∀ d ∈ ds.set i ((carry * BASE + ds.getD i 0) / right), d < BASE := by
      intro d hd
      rcases List.mem_or_eq_of_mem_set hd with h1 | h1
      · exact hds d h1
      · rw [h1]; exact hq
    obtain ⟨ds1, c1, h1, h2, h3, h4, h5, h6⟩ := ih _ _ hset hm (by rw [List.length_set]; omega)
    refine ⟨ds1, c1, ?_, h2, ?_, h4, ?_, ?_⟩
    · simp only [div_short_loop, hdm]; exact h1
    · rw [h3, List.length_set]
    · have := congrArg (List.drop 1) h5
      simp only [List.drop_drop] at this
      rw [this, List.drop_set_of_lt _ _ (Nat.lt_succ_self i)]
    · have hget : ds1.getD i 0 = (carry * BASE + ds.getD i 0) / right := by
        rw [getD_of_drop_eq _ _ _ h5, List.getD_eq_getElem?_getD,
          List.getElem?_set_self (by omega)]
        rfl
      rw [take_set_self] at h6
      rw [nat_of_take_succ ds1 i, nat_of_take_succ ds i, hget, pow_succ]
      have hdm2 := Nat.div_add_mod (carry * BASE + ds.getD i 0) right
      generalize (carry * BASE + ds.getD i 0) / right = q at *
      generalize (carry * BASE + ds.getD i 0) % right = r at *
      generalize ds.getD i 0 = d at *
      generalize nat_of (List.take i ds1) = T1 at *
      generalize nat_of (List.take i ds) = T at *
      generalize BASE ^ i = P at *
      have e1 : (T1 + P * q) * right + c1 = T1 * right + c1 + P * (right * q) := by ring
      have e2 : carry * (P * BASE) + (T + P * d) = P * (carry * BASE + d) + T := by ring
      rw [e1, e2, h6, ← hdm2]
      ring

theorem div_short__spec (x : big_integer) (right : Nat) (hx : typed x) (hne : x.data_ ≠ [])
    (hr : right ≠ 0) :
    ∃ x1 c1, div_short_ x right = some (x1, c1) ∧ canonical x1 ∧
      nat_of x1.data_ = nat_of x.data_ / right ∧ c1 = nat_of x.data_ % right ∧
      (nat_of x.data_ / right ≠ 0 → x1.sign_ = x.sign_) := by
  obtain ⟨ds1, c1, h1, h2, h3, h4, _, h6⟩ :=
    div_short_loop_spec right x.data_.length x.data_ 0 hx (by omega) (Nat.le_refl _)
  rw [List.take_of_length_le (Nat.le_refl _), ← h3, List.take_of_length_le (Nat.le_refl _)] at h6
  simp only [Nat.zero_mul, Nat.zero_add] at h6
  have hdm := (Nat.div_mod_unique (a := nat_of x.data_) (b := right) (c := c1)
    (d := nat_of ds1) (by omega)).2 ⟨by rw [← h6]; ring, h2⟩
  have hcan : canonical (keep_invariant_ (big_integer.mk ds1 x.sign_)) := by
    apply canonical_keep_invariant_
    · exact h4
    · intro h5
      have h7 : x.data_.length ≠ 0 := fun h8 => hne (List.length_eq_zero.1 h8)
      rw [show (big_integer.mk ds1 x.sign_).data_ = ds1 from rfl] at h5
      rw [h5] at h3
      simp at h3
      omega
  refine ⟨keep_invariant_ (big_integer.mk ds1 x.sign_), c1, ?_, hcan, ?_, hdm.2.symm, ?_⟩
  · unfold div_short_
    simp only [hr, if_false, h1]
  · rw [nat_of_keep_invariant_]; exact hdm.1.symm
  · intro hq
    rw [sign_keep_invariant_of_ne]
    show nat_of ds1 ≠ 0
    rw [← hdm.1]; exact hq

/-! ## Right shift of a non-negative value -/

theorem reverse_pop_back_n (n : Nat) (ds : List Nat) :
    (pop_back_n n ds.reverse).reverse = ds.drop n := by
  induction n generalizing ds with
  | zero => simp [pop_back_n]
  | succ n ih =>
    simp only [pop_back_n]
    rw [List.dropLast_reverse, ih, List.drop_tail]

theorem nat_of_take_add_drop (ds : List Nat) (n : Nat) (h : n ≤ ds.length) :
    nat_of ds = nat_of (ds.take n) + BASE ^ n * nat_of (ds.drop n) := by
  conv_lhs => rw [← List.take_append_drop n ds]
  rw [nat_of_append, List.length_take, Nat.min_eq_left h]

theorem nat_of_drop_eq_div (ds : List Nat) (n : Nat) (hds : ∀ d ∈ ds, d < BASE)
    (h : n ≤ ds.length) : nat_of (ds.drop n) = nat_of ds / BASE ^ n := by
  have h1 := nat_of_take_add_drop ds n h
  have h2 := nat_of_take_lt ds n hds
  rw [h1, Nat.add_comm, Nat.mul_add_div (Nat.pow_pos BASE_pos), Nat.div_eq_of_lt h2]
  simp

theorem canonical_nonneg_of_val (x : big_integer) (h : canonical x) (hv : 0 ≤ val x) :
    x.sign_ = false := by
  rcases Bool.eq_false_or_eq_true x.sign_ with hs | hs
  · have h1 := canonical_sign_ne_zero x h hs
    rw [val_of_neg x hs] at hv
    omega
  · exact hs

/-- Division of a non-negative canonical value by a non-zero machine word. -/
theorem div_assign_word (x : big_integer) (d : Nat) (hx : canonical x) (hs : x.sign_ = false)
    (hd0 : d ≠ 0) (hd : d < BASE) :
    ∃ q, div_assign x ⟨[d], false⟩ = some q ∧ canonical q ∧ q.sign_ = false ∧
      nat_of q.data_ = nat_of x.data_ / d := by
  have hr : canonical (⟨[d], false⟩ : big_integer) := canonical_single d false hd (fun _ => rfl)
  have hnd : nat_of (⟨[d], false⟩ : big_integer).data_ = d := by simp [nat_of]
  have hnez := (op_ne_ZERO _ hr).2 (by rw [hnd]; exact hd0)
  have hlt := op_lt_iff (abs_ x) (abs_ ⟨[d], false⟩) (canonical_abs_ x hx) (canonical_abs_ _ hr)
  rw [val_abs_, val_abs_, hnd] at hlt
  unfold div_assign
  rw [hnez]
  simp only [Bool.not_true, Bool.false_eq_true, if_false, List.length_singleton, if_true]
  split
  · rename_i h1
    have h2 : nat_of x.data_ < d := by
      have := hlt.1 h1; omega
    refine ⟨of_int 0, rfl, canonical_of_int_zero, rfl, ?_⟩
    rw [Nat.div_eq_of_lt h2]; rfl
  · obtain ⟨x1, c1, h1, h2, h3, _, _⟩ := div_short__spec x d hx.1 hx.2.1 hd0
    simp only [List.getD_cons_zero, h1]
    refine ⟨_, rfl, canonical_set_sign_ x1 _ h2.1 h2.2.1 h2.2.2.1, ?_, ?_⟩
    · simp [set_sign_, sign, hs]
    · rw [data_set_sign_]; exact h3

theorem shr_assign_nonneg (y : big_integer) (k : Nat) (hy : canonical y)
    (hs : y.sign_ = false) :
    ∃ z, shr_assign y k = some z ∧ canonical z ∧ z.sign_ = false ∧
      nat_of z.data_ = nat_of y.data_ / 2 ^ k := by
  unfold shr_assign
  simp only [sign, hs, Bool.false_eq_true, if_false, BASE_POWER2, of_unsigned_long_long]
  rw [one_shl_lt _ (Nat.mod_lt _ (by omega)), reverse_pop_back_n]
  have hpos : 2 ^ (k % 64) ≠ 0 := by
    have : 0 < 2 ^ (k % 64) := Nat.pow_pos (by omega)
    omega
  have key : ∀ x2 : big_integer, canonical x2 → x2.sign_ = false →
      nat_of x2.data_ = nat_of y.data_ / BASE ^ (k / 64) →
      ∃ z, (match div_assign x2 ⟨[2 ^ (k % 64)], false⟩ with
        | none => none
        | some x3 => some (if x3.sign_ = true then pre_dec x3 else x3)) = some z ∧
        canonical z ∧ z.sign_ = false ∧ nat_of z.data_ = nat_of y.data_ / 2 ^ k := by
    intro x2 hc hs2 hn
    obtain ⟨q, h1, h2, h3, h4⟩ := div_assign_word x2 (2 ^ (k % 64)) hc hs2 hpos
      (two_pow_lt_BASE _ (Nat.mod_lt _ (by omega)))
    rw [h1]
    simp only [h3, Bool.false_eq_true, if_false]
    refine ⟨q, rfl, h2, h3, ?_⟩
    rw [h4, hn, Nat.div_div_eq_div_mul, shift_pow]
  apply key
  · split
    · rename_i hlt
      refine ⟨fun d hd => hy.1 d (List.mem_of_mem_drop hd), ?_, ?_, ?_⟩
      · intro h
        have := congrArg List.length h
        simp only [List.length_drop, List.length_nil] at this
        omega
      · rcases hy.2.2.1 with h1 | h1
        · left
          have : k / 64 = 0 := by omega
          simp only [this, List.drop_zero]; exact h1
        · right
          show (List.drop (k / 64) y.data_).getLast? ≠ some 0
          rw [List.getLast?_drop, if_neg (by omega)]; exact h1
      · intro _; rfl
    · exact canonical_single 0 _ BASE_pos (fun _ => rfl)
  · split <;> rfl
  · split
    · rename_i hlt
      exact nat_of_drop_eq_div y.data_ _ hy.1 (by omega)
    · rename_i hge
      have h1 := nat_of_lt y.data_ hy.1
      have h2 : BASE ^ y.data_.length ≤ BASE ^ (k / 64) :=
        Nat.pow_le_pow_right BASE_pos (by omega)
      rw [Nat.div_eq_of_lt (by omega)]
      simp [nat_of]

/-! ## The canonical form is unique -/

theorem nat_of_inj_of_length_eq (xs ys : List Nat) (hx : ∀ d ∈ xs, d < BASE)
    (hy : ∀ d ∈ ys, d < BASE) (hlen : xs.length = ys.length) (h : nat_of xs = nat_of ys) :
    xs = ys := by
  induction xs generalizing ys with
  | nil =>
    cases ys with
    | nil => rfl
    | cons y ys => simp at hlen
  | cons x xs ih =>
    cases ys with
    | nil => simp at hlen
    | cons y ys =>
      have h1 : x < BASE := hx x (List.mem_cons_self _ _)
      have h2 : y < BASE := hy y (List.mem_cons_self _ _)
      simp only [nat_of] at h
      have h3 : x = y ∧ nat_of xs = nat_of ys := by
        generalize nat_of xs = a at *
        generalize nat_of ys = b at *
        unfold BASE at *
        omega
      rw [h3.1, ih ys (fun d hd => hx d (List.mem_cons_of_mem _ hd))
        (fun d hd => hy d (List.mem_cons_of_mem _ hd)) (by simpa using hlen) h3.2]

theorem val_eq_zero_iff (x : big_integer) : val x = 0 ↔ nat_of x.data_ = 0 := by
  unfold val; split <;> omega

theorem canonical_eq_of_val_eq (a b : big_integer) (ha : canonical a) (hb : canonical b)
    (h : val a = val b) : a = b := by
  by_cases h0 : val a = 0
  · rw [canonical_val_eq_zero a ha h0, canonical_val_eq_zero b hb (h ▸ h0)]
  · have hna : nat_of a.data_ ≠ 0 := fun h1 => h0 ((val_eq_zero_iff a).2 h1)
    have hnb : nat_of b.data_ ≠ 0 := fun h1 => h0 (h ▸ (val_eq_zero_iff b).2 h1)
    have hsn : a.sign_ = b.sign_ ∧ nat_of a.data_ = nat_of b.data_ := by
      rcases Bool.eq_false_or_eq_true a.sign_ with hsa | hsa <;>
        rcases Bool.eq_false_or_eq_true b.sign_ with hsb | hsb
      · rw [val_of_neg a hsa, val_of_neg b hsb] at h
        exact ⟨by rw [hsa, hsb], by omega⟩
      · rw [val_of_neg a hsa, val_of_nonneg b hsb] at h
        omega
      · rw [val_of_nonneg a hsa, val_of_neg b hsb] at h
        omega
      · rw [val_of_nonneg a hsa, val_of_nonneg b hsb] at h
        exact ⟨by rw [hsa, hsb], by omega⟩
    have hl1 := length_le_of_nat_of_le a b ha hb hnb (le_of_eq hsn.2.symm)
    have hl2 := length_le_of_nat_of_le b a hb ha hna (le_of_eq hsn.2)
    have hd := nat_of_inj_of_length_eq a.data_ b.data_ ha.1 hb.1 (by omega) hsn.2
    cases a; cases b
    simp only at hd hsn
    rw [hd, hsn.1]

/-- Claim C11: for canonical non-negative `x` and every bit count `k`, `(x << k) >> k`
returns a value and it equals `x` under the library's `operator==`. -/
theorem shl_shr_cancel (x : big_integer) (k : Nat) (hx : canonical x) (hx0 : 0 ≤ val x) :
    ∃ z, op_shr (op_shl x k) k = some z ∧ op_eq z x = true := by
  have hs := canonical_nonneg_of_val x hx hx0
  have hy := canonical_shl_assign x k hx
  have hv := val_shl_assign x k hx
  have hys : (shl_assign x k).sign_ = false := by
    apply canonical_nonneg_of_val _ hy
    rw [hv]; positivity
  obtain ⟨z, h1, h2, h3, h4⟩ := shr_assign_nonneg (shl_assign x k) k hy hys
  refine ⟨z, h1, ?_⟩
  rw [op_eq_iff z x h2 hx, val_of_nonneg z h3, val_of_nonneg x hs, h4]
  rw [val_of_nonneg _ hys, val_of_nonneg x hs] at hv
  have hv2 : nat_of (shl_assign x k).data_ = nat_of x.data_ * 2 ^ k := by exact_mod_cast hv
  rw [hv2, Nat.mul_div_cancel _ (Nat.pow_pos (by omega))]

/-- The round trip of C11 at `x = 1`, `k = 128`. -/
theorem shl_shr_cancel_witness :
    (canonical ⟨[1], false⟩ ∧ 0 ≤ val ⟨[1], false⟩) ∧
    op_shl ⟨[1], false⟩ 128 = ⟨[0, 0, 1], false⟩ ∧
    ∃ z, op_shr (op_shl ⟨[1], false⟩ 128) 128 = some z ∧ op_eq z ⟨[1], false⟩ = true :=
  ⟨⟨by decide, by decide⟩, by decide, shl_shr_cancel ⟨[1], false⟩ 128 (by decide) (by decide)⟩

/-! ## Decimal formatting -/

theorem digitChar_eq (d : Nat) (h : d < 10) : Nat.digitChar d = Char.ofNat ((d + 48) % 256) := by
  interval_cases d <;> rfl

/-- The decimal rendering of the standard library, least significant digit first. -/
theorem toDigitsCore_eq (fuel n : Nat) (ds : List Char) (h : n < fuel) :
    Nat.toDigitsCore 10 fuel n ds =
      (if n = 0 then [Char.ofNat 48]
       else (Nat.digits 10 n).map (fun d => Char.ofNat ((d + 48) % 256))).reverse ++ ds := by
  induction fuel generalizing n ds with
  | zero => omega
  | succ fuel ih =>
    have hm : n % 10 < 10 := Nat.mod_lt _ (by omega)
    simp only [Nat.toDigitsCore]
    rw [digitChar_eq _ hm]
    by_cases hq : n / 10 = 0
    · rw [if_pos hq]
      have hlt : n < 10 := by omega
      rw [Nat.mod_eq_of_lt hlt]
      by_cases h0 : n = 0
      · subst h0; rfl
      · rw [if_neg h0, Nat.digits_of_lt 10 n h0 hlt]; rfl
    · rw [if_neg hq, ih (n / 10) _ (by omega), if_neg hq]
      have h0 : n ≠ 0 := by omega
      have hd : Nat.digits 10 n = n % 10 :: Nat.digits 10 (n / 10) :=
        Nat.digits_def' (by omega) (by omega)
      rw [if_neg h0, hd]
      simp

theorem toDigits_eq (n : Nat) :
    Nat.toDigits 10 n =
      (if n = 0 then [Char.ofNat 48]
       else (Nat.digits 10 n).map (fun d => Char.ofNat ((d + 48) % 256))).reverse := by
  unfold Nat.toDigits
  rw [toDigitsCore_eq _ _ _ (Nat.lt_succ_self n)]
  simp

theorem to_string_loop_spec (fuel : Nat) (arg : big_integer) (res : List Char)
    (ht : typed arg) (hne : arg.data_ ≠ []) (hv : nat_of arg.data_ < 10 ^ (fuel + 1)) :
    to_string_loop (fuel + 1) arg res =
      some (res ++ (if nat_of arg.data_ = 0 then [Char.ofNat 48]
        else (Nat.digits 10 (nat_of arg.data_)).map (fun d => Char.ofNat ((d + 48) % 256)))) := by
  induction fuel generalizing arg res with
  | zero =>
    obtain ⟨x1, c1, h1, h2, h3, h4, _⟩ := div_short__spec arg 10 ht hne (by omega)
    have hlt : nat_of arg.data_ < 10 := by simpa using hv
    have hq : nat_of x1.data_ = 0 := by rw [h3]; omega
    have hne0 : op_ne x1 ZERO = false := by
      rcases Bool.eq_false_or_eq_true (op_ne x1 ZERO) with h | h
      · exact absurd hq ((op_ne_ZERO x1 h2).1 h)
      · exact h
    simp only [to_string_loop, h1, hne0, Bool.false_eq_true, if_false]
    rw [h4, Nat.mod_eq_of_lt hlt]
    by_cases h0 : nat_of arg.data_ = 0
    · rw [if_pos h0, h0]
    · rw [if_neg h0, Nat.digits_of_lt 10 _ h0 hlt]; rfl
  | succ fuel ih =>
    obtain ⟨x1, c1, h1, h2, h3, h4, _⟩ := div_short__spec arg 10 ht hne (by omega)
    rw [to_string_loop]
    simp only [h1]
    by_cases hq : nat_of arg.data_ / 10 = 0
    · have hne0 : op_ne x1 ZERO = false := by
        rcases Bool.eq_false_or_eq_true (op_ne x1 ZERO) with h | h
        · exact absurd (h3.trans hq) ((op_ne_ZERO x1 h2).1 h)
        · exact h
      have hlt : nat_of arg.data_ < 10 := by omega
      simp only [hne0, Bool.false_eq_true, if_false]
      rw [h4, Nat.mod_eq_of_lt hlt]
      by_cases h0 : nat_of arg.data_ = 0
      · rw [if_pos h0, h0]
      · rw [if_neg h0, Nat.digits_of_lt 10 _ h0 hlt]; rfl
    · have hne1 : op_ne x1 ZERO = true := (op_ne_ZERO x1 h2).2 (by rw [h3]; exact hq)
      simp only [hne1, if_true]
      have hv1 : nat_of x1.data_ < 10 ^ (fuel + 1) := by
        rw [h3, Nat.div_lt_iff_lt_mul (by omega)]
        rw [pow_succ] at hv; exact hv
      rw [ih x1 _ h2.1 h2.2.1 hv1, h3, if_neg hq, h4]
      have h0 : nat_of arg.data_ ≠ 0 := by omega
      have hd : Nat.digits 10 (nat_of arg.data_) =
          nat_of arg.data_ % 10 :: Nat.digits 10 (nat_of arg.data_ / 10) :=
        Nat.digits_def' (by omega) (by omega)
      rw [if_neg h0, hd]
      simp

theorem BASE_lt_pow_ten : BASE < 10 ^ 20 := by decide

theorem nat_of_lt_pow_ten (ds : List Nat) (h : ∀ d ∈ ds, d < BASE) :
    nat_of ds < 10 ^ (20 * ds.length + 1) := by
  have h1 := nat_of_lt ds h
  have h2 : BASE ^ ds.length ≤ (10 ^ 20) ^ ds.length :=
    Nat.pow_le_pow_left (le_of_lt BASE_lt_pow_ten) _
  rw [← pow_mul] at h2
  have h3 : 10 ^ (20 * ds.length) ≤ 10 ^ (20 * ds.length + 1) :=
    Nat.pow_le_pow_right (by omega) (by omega)
  omega

theorem to_string_eq (x : big_integer) (hx : canonical x) :
    to_string x = some ((if val x < 0 then [Char.ofNat 45] else []) ++
      Nat.toDigits 10 (val x).natAbs) := by
  unfold to_string
  rw [to_string_loop_spec _ x [] hx.1 hx.2.1 (nat_of_lt_pow_ten _ hx.1), toDigits_eq]
  simp only [sign, List.nil_append]
  rcases Bool.eq_false_or_eq_true x.sign_ with hs | hs
  · have h1 := canonical_sign_ne_zero x hx hs
    have h2 : val x < 0 := by rw [val_of_neg x hs]; omega
    have h3 : (val x).natAbs = nat_of x.data_ := by rw [val_of_neg x hs]; omega
    rw [hs, if_pos h2, h3]
    simp
  · have h2 : ¬ val x < 0 := by rw [val_of_nonneg x hs]; omega
    have h3 : (val x).natAbs = nat_of x.data_ := by rw [val_of_nonneg x hs]; omega
    rw [hs, if_neg h2, h3]
    simp

/-! ## Decimal parsing -/

theorem isDigit_bounds (c : Char) (h : c.isDigit = true) : 48 ≤ c.toNat ∧ c.toNat ≤ 57 := by
  simp only [Char.isDigit, Bool.and_eq_true, decide_eq_true_eq] at h
  exact ⟨h.1, h.2⟩

theorem digit_of_char_eq (c : Char) (h : c.isDigit = true) : digit_of_char c = c.toNat - 48 := by
  have hb := isDigit_bounds c h
  unfold digit_of_char BASE
  omega

theorem foldl_decimal (b : Nat) (l : List Char) :
    l.foldl (fun n c => n * 10 + (c.toNat - 48)) b = b * 10 ^ l.length + decimal_value l := by
  unfold decimal_value
  induction l generalizing b with
  | nil => simp
  | cons c cs ih =>
    simp only [List.foldl_cons, List.length_cons, pow_succ]
    rw [ih (b * 10 + (c.toNat - 48)), ih (0 * 10 + (c.toNat - 48))]
    ring

theorem decimal_value_append (l1 l2 : List Char) :
    decimal_value (l1 ++ l2) = decimal_value l1 * 10 ^ l2.length + decimal_value l2 := by
  conv_lhs => unfold decimal_value
  rw [List.foldl_append, foldl_decimal]
  rfl

theorem read_chunk_spec (str : List Char) (buf cnt : Nat) (hd : ∀ c ∈ str, c.isDigit = true)
    (hc : cnt ≤ 19) (hb : buf < 10 ^ cnt) :
    ∃ chunk rest buf1, read_chunk str buf cnt = (rest, buf1, cnt + chunk.length) ∧
      str = chunk ++ rest ∧ cnt + chunk.length ≤ 19 ∧
      buf1 = buf * 10 ^ chunk.length + decimal_value chunk ∧
      buf1 < 10 ^ (cnt + chunk.length) ∧ (cnt + chunk.length = 19 ∨ rest = []) ∧
      (str ≠ [] → cnt < 19 → chunk ≠ []) := by
  induction str generalizing buf cnt with
  | nil => exact ⟨[], [], buf, rfl, rfl, hc, by simp [decimal_value], hb, Or.inr rfl, by simp⟩
  | cons c cs ih =>
    by_cases h19 : cnt < 19
    · have hcb := isDigit_bounds c (hd c (List.mem_cons_self _ _))
      have hstep : (buf * 10 + digit_of_char c) % BASE = buf * 10 + (c.toNat - 48) := by
        rw [digit_of_char_eq c (hd c (List.mem_cons_self _ _))]
        apply Nat.mod_eq_of_lt
        have h1 : 10 ^ (cnt + 1) ≤ 10 ^ 19 := Nat.pow_le_pow_right (by omega) (by omega)
        have h2 : (10 : Nat) ^ 19 < BASE := by decide
        rw [pow_succ] at h1
        omega
      have hb1 : buf * 10 + (c.toNat - 48) < 10 ^ (cnt + 1) := by
        rw [pow_succ]; omega
      obtain ⟨chunk, rest, buf1, h1, h2, h3, h4, h5, h6, _⟩ :=
        ih (buf * 10 + (c.toNat - 48)) (cnt + 1) (fun e he => hd e (List.mem_cons_of_mem _ he))
          (by omega) hb1
      refine ⟨c :: chunk, rest, buf1, ?_, ?_, ?_, ?_, ?_, ?_, ?_⟩
      · rw [read_chunk, if_pos (show cnt < DIGITS_COUNT from h19), hstep, h1, List.length_cons,
          show cnt + 1 + chunk.length = cnt + (chunk.length + 1) by omega]
      · rw [h2]; rfl
      · simp only [List.length_cons]; omega
      · rw [h4]
        have := foldl_decimal (0 * 10 + (c.toNat - 48)) chunk
        simp only [List.length_cons, pow_succ]
        have h7 : decimal_value (c :: chunk) =
            (c.toNat - 48) * 10 ^ chunk.length + decimal_value chunk := by
          conv_lhs => unfold decimal_value
          rw [List.foldl_cons, this]; simp
        rw [h7]; ring
      · simp only [List.length_cons]
        rw [show cnt + (chunk.length + 1) = cnt + 1 + chunk.length by omega]; exact h5
      · simp only [List.length_cons]
        rcases h6 with h6 | h6
        · left; omega
        · right; exact h6
      · intro _ _; simp
    · have h19e : cnt = 19 := by omega
      refine ⟨[], c :: cs, buf, ?_, rfl, hc, by simp [decimal_value], hb, Or.inl (by simpa using h19e),
        fun _ h => absurd h h19⟩
      rw [read_chunk, if_neg (show ¬ cnt < DIGITS_COUNT from h19)]
      rfl

theorem power_10_loop_eq (cnt p : Nat) (h : p * 10 ^ cnt < BASE) :
    power_10_loop cnt p = p * 10 ^ cnt := by
  induction cnt generalizing p with
  | zero => simp [power_10_loop]
  | succ cnt ih =>
    have h1 : p * 10 ^ (cnt + 1) = p * 10 * 10 ^ cnt := by rw [pow_succ]; ring
    have h2 : p * 10 ≤ p * 10 * 10 ^ cnt := Nat.le_mul_of_pos_right _ (Nat.pow_pos (by omega))
    simp only [power_10_loop]
    rw [Nat.mod_eq_of_lt (by omega), ih _ (by omega), h1]

theorem canonical_mul_assign_right (x right : big_integer) (hr : right.data_ ≠ []) :
    canonical (mul_assign x right) := by
  unfold mul_assign
  apply canonical_keep_invariant_
  · intro d hd
    exact mem_mul_rows _ _ _ (mem_resize_default _) d hd
  · intro h
    have := congrArg List.length h
    simp only [data_set_sign_, length_mul_rows, length_resize, List.length_nil] at this
    have h1 : right.data_.length ≠ 0 := fun h2 => hr (List.length_eq_zero.1 h2)
    omega

theorem val_of_unsigned_long (v : Nat) : val (of_unsigned_long v) = (v : Int) := by
  simp [of_unsigned_long, val, nat_of]

theorem parse_loop_spec (fuel : Nat) (str : List Char) (x : big_integer)
    (hd : ∀ c ∈ str, c.isDigit = true) (hx : typed x) (hf : str.length < fuel) :
    ∃ y, parse_loop fuel str x 0 0 = some y ∧ typed y ∧
      (str ≠ [] ∨ canonical x → canonical y) ∧
      val y = val x * 10 ^ str.length + decimal_value str := by
  induction fuel generalizing str x with
  | zero => omega
  | succ fuel ih =>
    by_cases hs : str = []
    · subst hs
      refine ⟨x, by simp [parse_loop], hx, ?_, by simp [decimal_value]⟩
      intro h
      rcases h with h | h
      · exact absurd rfl h
      · exact h
    · obtain ⟨chunk, rest, buf1, h1, h2, h3, h4, h5, h6, h7⟩ :=
        read_chunk_spec str 0 0 hd (by omega) (by omega)
      simp only [Nat.zero_add, Nat.zero_mul] at h1 h3 h4 h5
      have hcne := h7 hs (by omega)
      have hclen : chunk.length ≠ 0 := fun h => hcne (List.length_eq_zero.1 h)
      have hp : (if chunk.length = DIGITS_COUNT then POWER_10_DIGITS
          else power_10_loop chunk.length 1) = 10 ^ chunk.length := by
        split
        · rename_i h19; rw [h19]; decide
        · rw [power_10_loop_eq _ _ (by
            have h8 : 10 ^ chunk.length ≤ 10 ^ 19 := Nat.pow_le_pow_right (by omega) h3
            have h9 : (10 : Nat) ^ 19 < BASE := by decide
            omega)]
          simp
      have hplt : 10 ^ chunk.length < BASE := by
        have h8 : 10 ^ chunk.length ≤ 10 ^ 19 := Nat.pow_le_pow_right (by omega) h3
        have h9 : (10 : Nat) ^ 19 < BASE := by decide
        omega
      have hx1e : (if chunk.length = DIGITS_COUNT then
            mul_assign x (of_unsigned_long POWER_10_DIGITS)
          else mul_assign x (of_unsigned_long (power_10_loop chunk.length 1))) =
          mul_assign x (of_unsigned_long (10 ^ chunk.length)) := by
        rw [← hp]; split <;> rfl
      have hc1 := canonical_mul_assign_right x (of_unsigned_long (10 ^ chunk.length))
        (by simp [of_unsigned_long])
      have hv1 := val_mul_assign x (of_unsigned_long (10 ^ chunk.length)) hx
        (typed_of_single _ hplt)
      have hc2 := canonical_add_assign (mul_assign x (of_unsigned_long (10 ^ chunk.length)))
        (of_unsigned_long buf1) hc1.2.1
      have hv2 := val_add_assign (mul_assign x (of_unsigned_long (10 ^ chunk.length)))
        (of_unsigned_long buf1) hc1.1 (typed_of_single _ (by omega))
      have hlen : str.length = chunk.length + rest.length := by rw [h2]; simp
      obtain ⟨y, hy1, hy2, hy3, hy4⟩ := ih rest _
        (fun c hc => hd c (by rw [h2]; exact List.mem_append_right _ hc)) hc2.1 (by omega)
      refine ⟨y, ?_, hy2, fun _ => hy3 (Or.inr hc2), ?_⟩
      · rw [parse_loop]
        simp only [hs, if_false, h1, hx1e]
        exact hy1
      · rw [hy4, hv2, hv1, val_of_unsigned_long, val_of_unsigned_long, h4, hlen, h2,
          decimal_value_append, pow_add]
        push_cast
        ring

theorem digit_char_toNat (d : Nat) (h : d < 10) :
    (Char.ofNat ((d + 48) % 256)).toNat = d + 48 := by
  interval_cases d <;> rfl

theorem digit_char_isDigit (d : Nat) (h : d < 10) :
    (Char.ofNat ((d + 48) % 256)).isDigit = true := by
  interval_cases d <;> rfl

theorem decimal_value_digits (n : Nat) :
    decimal_value ((Nat.digits 10 n).map (fun d => Char.ofNat ((d + 48) % 256))).reverse = n := by
  induction n using Nat.strong_induction_on with
  | _ n ih =>
    by_cases h0 : n = 0
    · subst h0; simp [decimal_value]
    · have hd : Nat.digits 10 n = n % 10 :: Nat.digits 10 (n / 10) :=
        Nat.digits_def' (by omega) (by omega)
      rw [hd, List.map_cons, List.reverse_cons, decimal_value_append, ih (n / 10) (by omega)]
      have h1 : decimal_value [Char.ofNat ((n % 10 + 48) % 256)] = n % 10 := by
        simp only [decimal_value, List.foldl_cons, List.foldl_nil,
          digit_char_toNat _ (Nat.mod_lt n (by omega))]
        omega
      rw [h1]
      simp only [List.length_singleton, pow_one]
      omega

theorem toDigits_ne_nil (n : Nat) : Nat.toDigits 10 n ≠ [] := by
  rw [toDigits_eq]
  by_cases h0 : n = 0
  · simp [h0]
  · have hd : Nat.digits 10 n = n % 10 :: Nat.digits 10 (n / 10) :=
      Nat.digits_def' (by omega) (by omega)
    rw [if_neg h0, hd]; simp

theorem toDigits_isDigit (n : Nat) : ∀ c ∈ Nat.toDigits 10 n, c.isDigit = true := by
  rw [toDigits_eq]
  intro c hc
  rw [List.mem_reverse] at hc
  by_cases h0 : n = 0
  · rw [if_pos h0] at hc
    have : c = Char.ofNat 48 := by simpa using hc
    rw [this]; rfl
  · rw [if_neg h0, List.mem_map] at hc
    obtain ⟨d, hd, hc⟩ := hc
    rw [← hc]
    exact digit_char_isDigit d (Nat.digits_lt_base (by omega) hd)

theorem decimal_value_toDigits (n : Nat) : decimal_value (Nat.toDigits 10 n) = n := by
  rw [toDigits_eq]
  by_cases h0 : n = 0
  · subst h0; simp [decimal_value]
  · rw [if_neg h0, decimal_value_digits]

theorem toDigits_head (n : Nat) (h0 : n ≠ 0) :
    (Nat.toDigits 10 n).head? ≠ some (Char.ofNat 48) := by
  rw [toDigits_eq, if_neg h0, List.head?_reverse, List.getLast?_map]
  have hne : Nat.digits 10 n ≠ [] := Nat.digits_ne_nil_iff_ne_zero.2 h0
  rw [List.getLast?_eq_getLast _ hne]
  have h1 := Nat.getLast_digit_ne_zero 10 h0
  have h2 : (Nat.digits 10 n).getLast hne < 10 :=
    Nat.digits_lt_base (by omega) (List.getLast_mem hne)
  generalize (Nat.digits 10 n).getLast hne = d at *
  simp only [Option.map_some', ne_eq, Option.some.injEq]
  intro h3
  have h4 := congrArg Char.toNat h3
  rw [digit_char_toNat d h2] at h4
  have h5 : (Char.ofNat 48).toNat = 48 := rfl
  omega

theorem of_string_eq (sgn ds : List Char)
    (hs : sgn = [] ∨ sgn = [Char.ofNat 43] ∨ sgn = [Char.ofNat 45]) (hne : ds ≠ [])
    (hd : ∀ c ∈ ds, c.isDigit = true) :
    ∃ x, of_string (sgn ++ ds) = some x ∧ canonical x ∧
      val x = (if sgn = [Char.ofNat 45] then -(decimal_value ds : Int)
        else (decimal_value ds : Int)) := by
  have hx0 : typed (⟨[], false⟩ : big_integer) := by intro d hd; cases hd
  have key : ∀ fuel, ds.length < fuel → ∀ s : Bool,
      ∃ x, (match parse_loop fuel ds ⟨[], false⟩ 0 0 with
        | none => none
        | some x1 => some (set_sign_ x1 s)) = some x ∧ canonical x ∧
        val x = (if s then -(decimal_value ds : Int) else (decimal_value ds : Int)) := by
    intro fuel hf s
    obtain ⟨y, h1, _, h3, h4⟩ := parse_loop_spec fuel ds ⟨[], false⟩ hd hx0 hf
    have hc := h3 (Or.inl hne)
    have hv0 : val (⟨[], false⟩ : big_integer) = 0 := rfl
    rw [hv0, zero_mul, zero_add] at h4
    have hys := canonical_nonneg_of_val y hc (by rw [h4]; positivity)
    rw [val_of_nonneg y hys] at h4
    rw [h1]
    refine ⟨_, rfl, canonical_set_sign_ y s hc.1 hc.2.1 hc.2.2.1, ?_⟩
    rw [val_set_sign_, h4]
  rcases hs with hs | hs | hs
  · subst hs
    obtain ⟨c, cs, hcs⟩ := List.exists_cons_of_ne_nil hne
    have hcb := isDigit_bounds c (hd c (by rw [hcs]; exact List.mem_cons_self _ _))
    have h45 : c ≠ Char.ofNat 45 := by
      intro h; rw [h] at hcb
      have : (Char.ofNat 45).toNat = 45 := rfl
      omega
    have h43 : c ≠ Char.ofNat 43 := by
      intro h; rw [h] at hcb
      have : (Char.ofNat 43).toNat = 43 := rfl
      omega
    have h45' : c ≠ '-' := h45
    have h43' : c ≠ '+' := h43
    unfold of_string
    simp only [List.nil_append]
    have hhead : ds.headD (Char.ofNat 0) = c := by rw [hcs]; rfl
    simp only [hhead, h45', h43', or_self, if_false, List.drop_zero, decide_False]
    have := key (ds.length + 1) (by omega) false
    simpa using this
  · subst hs
    unfold of_string
    have hhead : ([Char.ofNat 43] ++ ds).headD (Char.ofNat 0) = '+' := rfl
    have hne2 : ¬ ('+' = '-') := by decide
    simp only [hhead, or_true, if_true, hne2, decide_False]
    have := key (([Char.ofNat 43] ++ ds).length + 1) (by simp; omega) false
    have hneq : ¬ ([Char.ofNat 43] = [Char.ofNat 45]) := by decide
    simpa [hneq] using this
  · subst hs
    unfold of_string
    have hhead : ([Char.ofNat 45] ++ ds).headD (Char.ofNat 0) = '-' := rfl
    simp only [hhead, true_or, if_true, decide_True]
    have := key (([Char.ofNat 45] ++ ds).length + 1) (by simp; omega) true
    simpa using this

/-- Claim C16: for every canonical `x`, `to_string x` returns a string, and constructing a
`big_integer` from that string gives `x` itself (same sign and digits); hence formatting
the parsed value gives the same string again. -/
theorem of_string_to_string (x : big_integer) (hx : canonical x) :
    ∃ s, to_string x = some s ∧ of_string s = some x ∧
      (of_string s).bind to_string = some s := by
  have hts := to_string_eq x hx
  have hsg : (if val x < 0 then [Char.ofNat 45] else []) = [] ∨
      (if val x < 0 then [Char.ofNat 45] else []) = [Char.ofNat 43] ∨
      (if val x < 0 then [Char.ofNat 45] else []) = [Char.ofNat 45] := by
    split
    · right; right; rfl
    · left; rfl
  obtain ⟨y, h1, h2, h3⟩ := of_string_eq _ (Nat.toDigits 10 (val x).natAbs) hsg
    (toDigits_ne_nil _) (toDigits_isDigit _)
  rw [decimal_value_toDigits] at h3
  have hxy : y = x := by
    apply canonical_eq_of_val_eq y x h2 hx
    rw [h3]
    by_cases hneg : val x < 0
    · rw [if_pos hneg, if_pos rfl]; omega
    · rw [if_neg hneg, if_neg (by decide)]; omega
  rw [hxy] at h1
  refine ⟨_, hts, h1, ?_⟩
  rw [h1]
  exact hts

/-- The round trip of C16 at `x = -123456789012345678901234567890`. -/
theorem of_string_to_string_witness :
    canonical ⟨[14083847773837265618, 6692605942], true⟩ ∧
    ∃ s, to_string ⟨[14083847773837265618, 6692605942], true⟩ = some s ∧
      of_string s = some ⟨[14083847773837265618, 6692605942], true⟩ ∧
      (of_string s).bind to_string = some s :=
  ⟨by decide, of_string_to_string ⟨[14083847773837265618, 6692605942], true⟩ (by decide)⟩

/-- Claim C17: for every string made of an optional leading `+` or `-` followed by at
least one decimal digit (any number of digits, leading zeros allowed), the string
constructor returns a canonical value that denotes the signed decimal value of the
string. -/
theorem of_string_denotes (sgn ds : List Char)
    (hs : sgn = [] ∨ sgn = ['+'] ∨ sgn = ['-']) (hne : ds ≠ [])
    (hd : ∀ c ∈ ds, c.isDigit = true) :
    ∃ x, of_string (sgn ++ ds) = some x ∧ canonical x ∧
      val x = (if sgn = ['-'] then -(decimal_value ds : Int) else (decimal_value ds : Int)) :=
  of_string_eq sgn ds hs hne hd

/-- The constructor of C17 at `"-0"`, which yields zero with a clear sign flag, and at a
string of 41 characters (two full chunks of 19 digits and a last chunk of 2). -/
theorem of_string_denotes_witness :
    ((['-'] : List Char) = [] ∨ (['-'] : List Char) = ['+'] ∨ (['-'] : List Char) = ['-']) ∧
    (['0'] : List Char) ≠ [] ∧ (∀ c ∈ (['0'] : List Char), c.isDigit = true) ∧
    (∃ x, of_string (['-'] ++ ['0']) = some x ∧ canonical x ∧
      val x = (if (['-'] : List Char) = ['-'] then -(decimal_value ['0'] : Int)
        else (decimal_value ['0'] : Int))) ∧
    of_string ['-', '0'] = some ⟨[0], false⟩ ∧
    of_string "+0000000000123456789012345678901234567890".toList =
      some ⟨[14083847773837265618, 6692605942], false⟩ :=
  ⟨by decide, by decide, by decide,
    of_string_denotes ['-'] ['0'] (by decide) (by decide) (by decide), by decide, by decide⟩

/-- Claim C18: for every canonical `x`, `to_string x` is the decimal numeral of `|val x|`
(the rendering `Nat.toDigits 10` of the standard library, which has no leading zeros),
prefixed by `-` exactly when `val x < 0`; the numeral of zero is the single character
`0`. -/
theorem to_string_denotes (x : big_integer) (hx : canonical x) :
    to_string x = some ((if val x < 0 then ['-'] else []) ++ Nat.toDigits 10 (val x).natAbs) ∧
    (val x = 0 → to_string x = some ['0']) ∧
    (val x ≠ 0 → (Nat.toDigits 10 (val x).natAbs).head? ≠ some '0') := by
  have h := to_string_eq x hx
  refine ⟨h, ?_, ?_⟩
  · intro h0
    rw [h, h0]; rfl
  · intro h0
    exact toDigits_head _ (by omega)

/-- The numeral of C18 at `x = -123456789012345678901234567890` and at zero. -/
theorem to_string_denotes_witness :
    (canonical ⟨[14083847773837265618, 6692605942], true⟩ ∧
      val ⟨[14083847773837265618, 6692605942], true⟩ ≠ 0 ∧ val ⟨[0], false⟩ = 0) ∧
    to_string ⟨[14083847773837265618, 6692605942], true⟩ =
      some ((if val ⟨[14083847773837265618, 6692605942], true⟩ < 0 then ['-'] else []) ++
        Nat.toDigits 10 (val ⟨[14083847773837265618, 6692605942], true⟩).natAbs) ∧
    (Nat.toDigits 10 (val ⟨[14083847773837265618, 6692605942], true⟩).natAbs).head? ≠
      some '0' ∧
    to_string ⟨[14083847773837265618, 6692605942], true⟩ =
      some "-123456789012345678901234567890".toList ∧
    to_string ⟨[0], false⟩ = some ['0'] :=
  (fun h => ⟨⟨by decide, by decide, by decide⟩, h.1, h.2.2 (by decide), by decide,
      (to_string_denotes ⟨[0], false⟩ (by decide)).2.1 (by decide)⟩)
    (to_string_denotes ⟨[14083847773837265618, 6692605942], true⟩ (by decide))

/-! ## Bitwise AND of a value with its complement -/

theorem and_compl_digit (d : Nat) (h : d < BASE) : d &&& (MAX_DIGIT - d) = 0 := by
  apply Nat.eq_of_testBit_eq
  intro i
  have h1 : MAX_DIGIT - d = 2 ^ 64 - (d + 1) := by
    unfold MAX_DIGIT BASE at *; omega
  rw [BASE_eq_pow] at h
  rw [Nat.testBit_and, h1, Nat.testBit_two_pow_sub_succ h]
  cases d.testBit i <;> simp

theorem compl_and_digit (d : Nat) (h : d < BASE) : (MAX_DIGIT - d) &&& d = 0 := by
  rw [Nat.land_comm]; exact and_compl_digit d h

theorem nat_of_eq_zero_of_getD (ds : List Nat) (h : ∀ j < ds.length, ds.getD j 0 = 0) :
    nat_of ds = 0 := by
  induction ds with
  | nil => rfl
  | cons d ds ih =>
    have h0 : d = 0 := h 0 (by simp)
    have h1 : nat_of ds = 0 := ih (fun j hj => by
      have := h (j + 1) (by simpa using hj)
      simpa using this)
    simp [nat_of, h0, h1]

theorem getD_set_ne (l : List Nat) (i j v : Nat) (h : i ≠ j) :
    (l.set i v).getD j 0 = l.getD j 0 := by
  rw [List.getD_eq_getElem?_getD, List.getD_eq_getElem?_getD, List.getElem?_set, if_neg h]

theorem getD_set_self (l : List Nat) (i v : Nat) (h : i < l.length) :
    (l.set i v).getD i 0 = v := by
  rw [List.getD_eq_getElem?_getD, List.getElem?_set_self h]; rfl

/-- The loop of `apply_bitwise_` when every combined digit is zero: afterwards the visited
positions hold zero. -/
theorem bitwise_loop_zero (f : Nat → Nat → Nat) (right : big_integer) (n i : Nat)
    (x : big_integer) (hi : i ≤ x.data_.length) (hlow : ∀ j < i, x.data_.getD j 0 = 0)
    (hf : ∀ j, i ≤ j → j < i + n →
      f (if j < x.data_.length then x.data_.getD j 0 else if sign x then MAX_DIGIT else 0)
        (if j < right.data_.length then right.data_.getD j 0
         else if sign right then MAX_DIGIT else 0) = 0) :
    (bitwise_loop f right n i x).sign_ = x.sign_ ∧
    (bitwise_loop f right n i x).data_.length = max x.data_.length (i + n) ∧
    ∀ j < i + n, (bitwise_loop f right n i x).data_.getD j 0 = 0 := by
  induction n generalizing i x with
  | zero =>
    refine ⟨rfl, ?_, ?_⟩
    · simp only [bitwise_loop, Nat.add_zero]; omega
    · intro j hj; exact hlow j (by omega)
  | succ n ih =>
    have hfi := hf i (Nat.le_refl _) (by omega)
    rw [bitwise_loop]
    simp only [hfi]
    by_cases hlen : i = x.data_.length
    · -- a new digit is pushed
      simp only [hlen, if_true]
      have hstep := ih (x.data_.length + 1)
        (big_integer.mk ((x.data_ ++ [0]).set x.data_.length 0) x.sign_)
        (by simp) (by
          intro j hj
          show ((x.data_ ++ [0]).set x.data_.length 0).getD j 0 = 0
          by_cases hjl : j = x.data_.length
          · rw [hjl, getD_set_self _ _ _ (by simp)]
          · rw [getD_set_ne _ _ _ _ (Ne.symm hjl), List.getD_append _ _ _ _ (by omega)]
            exact hlow j (by omega)) (by
          intro j hj1 hj2
          have h1 : ¬ j < ((x.data_ ++ [0]).set x.data_.length 0).length := by simp; omega
          have h2 : ¬ j < x.data_.length := by omega
          have := hf j (by omega) (by omega)
          simp only [h2, if_false] at this
          simp only [h1, if_false, sign]
          exact this)
      refine ⟨hstep.1, ?_, ?_⟩
      · rw [hstep.2.1]; simp; omega
      · intro j hj; exact hstep.2.2 j (by omega)
    · -- an existing digit is overwritten
      have hlt : i < x.data_.length := by omega
      simp only [hlen, if_false]
      have hstep := ih (i + 1) (big_integer.mk (x.data_.set i 0) x.sign_)
        (by simp; omega) (by
          intro j hj
          show (x.data_.set i 0).getD j 0 = 0
          by_cases hjl : j = i
          · rw [hjl, getD_set_self _ _ _ hlt]
          · rw [getD_set_ne _ _ _ _ (Ne.symm hjl)]
            exact hlow j (by omega)) (by
          intro j hj1 hj2
          have := hf j (by omega) (by omega)
          simp only [List.length_set, sign]
          rw [getD_set_ne _ _ _ _ (by omega)]
          exact this)
      refine ⟨hstep.1, ?_, ?_⟩
      · rw [hstep.2.1]; simp; omega
      · intro j hj; exact hstep.2.2 j (by omega)

theorem val_pre_inc (x : big_integer) (hx : typed x) : val (pre_inc x) = val x + 1 := by
  unfold pre_inc
  rw [val_add_assign x _ hx canonical_of_int_one.1, val_of_int_one]

theorem canonical_op_not (a : big_integer) (ha : canonical a) : canonical (op_not a) :=
  canonical_sub_assign _ _ ha.2.1

theorem val_op_not (a : big_integer) (ha : canonical a) : val (op_not a) = -val a - 1 := by
  unfold op_not op_sub
  rw [val_sub_assign (op_neg a) _ (typed_switch_sign_ a ha.1) canonical_of_int_one.1,
    val_op_neg, val_of_int_one]

theorem getD_map_compl (l : List Nat) (j : Nat) (h : j < l.length) :
    (l.map (fun i => MAX_DIGIT - i)).getD j 0 = MAX_DIGIT - l.getD j 0 := by
  rw [List.getD_eq_getElem _ _ (by simpa using h), List.getD_eq_getElem _ _ h, List.getElem_map]

/-- When every digit pair combines to zero and the result sign is clear, `apply_bitwise_`
with the AND function returns zero. -/
theorem apply_bitwise_and_zero (x right X R : big_integer) (hX : two_complement_ x = X)
    (hR : two_complement_ right = R)
    (hlen : X.data_.length ≤ max x.data_.length right.data_.length)
    (hsign : (b2n (sign x) &&& b2n (sign right)) &&& 1 = 0)
    (hf : ∀ j,
      (if j < X.data_.length then X.data_.getD j 0 else if sign X then MAX_DIGIT else 0) &&&
        (if j < R.data_.length then R.data_.getD j 0 else if sign R then MAX_DIGIT else 0) = 0) :
    val (apply_bitwise_ (fun a b => a &&& b) x right) = 0 := by
  unfold apply_bitwise_
  simp only [hX, hR, hsign, ne_eq, not_true_eq_false, decide_False]
  obtain ⟨h1, h2, h3⟩ := bitwise_loop_zero (fun a b => a &&& b) R
    (max x.data_.length right.data_.length) 0 X (Nat.zero_le _) (fun j hj => by omega)
    (fun j _ _ => hf j)
  have hn : nat_of (bitwise_loop (fun a b => a &&& b) R
      (max x.data_.length right.data_.length) 0 X).data_ = 0 := by
    apply nat_of_eq_zero_of_getD
    intro j hj
    apply h3
    rw [h2] at hj
    omega
  have hs : (set_sign_ (bitwise_loop (fun a b => a &&& b) R
      (max x.data_.length right.data_.length) 0 X) false).sign_ = false := by
    simp [set_sign_]
  have htc : two_complement_ (set_sign_ (bitwise_loop (fun a b => a &&& b) R
      (max x.data_.length right.data_.length) 0 X) false) =
      set_sign_ (bitwise_loop (fun a b => a &&& b) R
        (max x.data_.length right.data_.length) 0 X) false := by
    unfold two_complement_
    simp only [sign, hs, Bool.false_eq_true, if_false]
  rw [htc, val_keep_invariant_, val_set_sign_, hn]
  simp

theorem and_not_self_val (a : big_integer) (ha : canonical a) :
    val (op_and a (op_not a)) = 0 := by
  have hr := canonical_op_not a ha
  have hvr := val_op_not a ha
  unfold op_and
  rcases Bool.eq_false_or_eq_true a.sign_ with hs | hs
  · -- `a` is negative, `~a` is non-negative
    have hna := canonical_sign_ne_zero a ha hs
    have hrs : (op_not a).sign_ = false := by
      apply canonical_nonneg_of_val _ hr
      rw [hvr, val_of_neg a hs]; omega
    have hpi : pre_inc a = op_neg (op_not a) := by
      apply canonical_eq_of_val_eq _ _ (canonical_pre_inc a ha.2.1)
        (canonical_switch_sign_ _ hr)
      rw [val_pre_inc a ha.1, val_switch_sign_, hvr]; ring
    have hdata : (pre_inc a).data_ = (op_not a).data_ := by rw [hpi]; rfl
    apply apply_bitwise_and_zero a (op_not a)
      (big_integer.mk ((pre_inc a).data_.map (fun i => MAX_DIGIT - i)) (pre_inc a).sign_)
      (op_not a)
    · unfold two_complement_; simp only [sign, hs, if_true]
    · unfold two_complement_; simp only [sign, hrs, Bool.false_eq_true, if_false]
    · simp only [List.length_map, hdata]; exact le_max_right _ _
    · simp only [sign, hs, hrs, b2n, Bool.false_eq_true, if_false]; rfl
    · intro j
      simp only [List.length_map, hdata, sign, hrs, Bool.false_eq_true, if_false]
      by_cases hj : j < (op_not a).data_.length
      · simp only [hj, if_true]
        rw [getD_map_compl _ _ hj]
        exact compl_and_digit _ (getD_lt _ _ hr.1)
      · simp only [hj, if_false]
        exact Nat.and_zero _
  · -- `a` is non-negative, `~a` is negative
    have hrs : (op_not a).sign_ = true := by
      rcases Bool.eq_false_or_eq_true (op_not a).sign_ with h | h
      · exact h
      · have h1 := val_of_nonneg _ h
        rw [hvr, val_of_nonneg a hs] at h1
        omega
    have hpi : pre_inc (op_not a) = op_neg a := by
      apply canonical_eq_of_val_eq _ _ (canonical_pre_inc _ hr.2.1)
        (canonical_switch_sign_ _ ha)
      rw [val_pre_inc _ hr.1, val_switch_sign_, hvr]; ring
    have hdata : (pre_inc (op_not a)).data_ = a.data_ := by rw [hpi]; rfl
    apply apply_bitwise_and_zero a (op_not a) a
      (big_integer.mk ((pre_inc (op_not a)).data_.map (fun i => MAX_DIGIT - i))
        (pre_inc (op_not a)).sign_)
    · unfold two_complement_; simp only [sign, hs, Bool.false_eq_true, if_false]
    · unfold two_complement_; simp only [sign, hrs, if_true]
    · exact le_max_left _ _
    · simp only [sign, hs, hrs, b2n, Bool.false_eq_true, if_false]; rfl
    · intro j
      simp only [List.length_map, hdata, sign, hs, Bool.false_eq_true, if_false]
      by_cases hj : j < a.data_.length
      · simp only [hj, if_true]
        rw [getD_map_compl _ _ hj]
        exact and_compl_digit _ (getD_lt _ _ ha.1)
      · simp only [hj, if_false]
        exact Nat.zero_and _

/-- Claim C15 as stated, evaluated at `a = 0`: `~a` is `-1` and `a & ~a` is `0`, which
`operator==` reports different from `-1`. -/
theorem and_not_self_is_not_minus_one :
    canonical (of_int 0) ∧ op_not (of_int 0) = of_int (-1) ∧
    op_and (of_int 0) (op_not (of_int 0)) = ⟨[0], false⟩ ∧
    op_eq (op_and (of_int 0) (op_not (of_int 0))) (of_int (-1)) = false := by
  decide

/-- Claim C15, amended: for every canonical `a`, `a & ~a == 0` under the library's
`operator==`. -/
theorem and_not_self_is_zero (a : big_integer) (ha : canonical a) :
    op_eq (op_and a (op_not a)) (of_int 0) = true := by
  have hc : canonical (op_and a (op_not a)) :=
    canonical_apply_bitwise_ _ and_lt_BASE a (op_not a) ha (canonical_op_not a ha)
  rw [op_eq_iff _ _ hc canonical_of_int_zero, val_of_int_zero]
  exact and_not_self_val a ha

/-- The amended C15 at `a = -(2^64 - 1) * 2^64 - 5`. -/
theorem and_not_self_is_zero_witness :
    canonical ⟨[5, 18446744073709551615], true⟩ ∧
    op_eq (op_and ⟨[5, 18446744073709551615], true⟩ (op_not ⟨[5, 18446744073709551615], true⟩))
      (of_int 0) = true :=
  ⟨by decide, and_not_self_is_zero ⟨[5, 18446744073709551615], true⟩ (by decide)⟩

/-! ## Increment and decrement -/

/-- C27: for a canonical `x`, postfix `x++` (`x--`) returns `x` itself and leaves a canonical
state denoting `val x + 1` (`val x - 1`); prefix `++x` (`--x`) returns the updated state, which
denotes the same number; the final state of the postfix form is the one of the prefix form. -/
theorem inc_dec_forms (x : big_integer) (hx : canonical x) :
    ((post_inc x).1 = x ∧ val (post_inc x).2 = val x + 1 ∧ canonical (post_inc x).2) ∧
    ((post_dec x).1 = x ∧ val (post_dec x).2 = val x - 1 ∧ canonical (post_dec x).2) ∧
    (val (pre_inc x) = val x + 1 ∧ canonical (pre_inc x)) ∧
    (val (pre_dec x) = val x - 1 ∧ canonical (pre_dec x)) ∧
    (post_inc x).2 = pre_inc x ∧ (post_dec x).2 = pre_dec x := by
  have h1 : val (add_assign x (of_int 1)) = val x + 1 := by
    rw [val_add_assign x _ hx.1 canonical_of_int_one.1, val_of_int_one]
  have h2 : val (sub_assign x (of_int 1)) = val x - 1 := by
    rw [val_sub_assign x _ hx.1 canonical_of_int_one.1, val_of_int_one]
  have c1 : canonical (add_assign x (of_int 1)) := canonical_add_assign x _ hx.2.1
  have c2 : canonical (sub_assign x (of_int 1)) := canonical_sub_assign x _ hx.2.1
  exact ⟨⟨rfl, h1, c1⟩, ⟨rfl, h2, c2⟩, ⟨h1, c1⟩, ⟨h2, c2⟩, rfl, rfl⟩

theorem inc_dec_forms_witness :
    canonical (of_int (-1)) ∧ (post_inc (of_int (-1))).1 = of_int (-1) ∧
    val (post_inc (of_int (-1))).2 = val (of_int (-1)) + 1 ∧
    (post_inc (of_int (-1))).2 = pre_inc (of_int (-1)) :=
  ⟨by decide, (inc_dec_forms (of_int (-1)) (by decide)).1.1,
    (inc_dec_forms (of_int (-1)) (by decide)).1.2.1,
    (inc_dec_forms (of_int (-1)) (by decide)).2.2.2.2.1⟩

/-! ## Long division: the quotient digits -/

theorem nat_of_drop_div (ds : List Nat) (n : Nat) (hds : ∀ d ∈ ds, d < BASE) :
    nat_of (ds.drop n) = nat_of ds / BASE ^ n := by
  by_cases h : n ≤ ds.length
  · exact nat_of_drop_eq_div ds n hds h
  · rw [List.drop_eq_nil_of_le (by omega)]
    have h1 := nat_of_lt ds hds
    have h2 : BASE ^ ds.length ≤ BASE ^ n := Nat.pow_le_pow_right BASE_pos (by omega)
    rw [Nat.div_eq_of_lt (by omega)]
    rfl

/-- The two digits at positions `j` and `j + 1` are the value shifted down by `j` digits, when
nothing lies above them. -/
theorem two_digits_eq_div (ds : List Nat) (j : Nat) (hds : ∀ d ∈ ds, d < BASE)
    (hlt : nat_of ds < BASE ^ (j + 2)) :
    nat_of ds / BASE ^ j = ds.getD j 0 + BASE * ds.getD (j + 1) 0 := by
  rw [← nat_of_drop_div ds j hds, nat_of_drop, nat_of_drop ds (j + 1),
    nat_of_drop_div ds (j + 1 + 1) hds, Nat.div_eq_of_lt hlt]
  ring

/-- The value of a non-empty digit sequence is at least its top digit times the weight of the
top position. -/
theorem top_digit_le (ds : List Nat) (hne : ds ≠ []) :
    ds.getD (ds.length - 1) 0 * BASE ^ (ds.length - 1) ≤ nat_of ds := by
  have hl : ds.length - 1 ≤ ds.length := by omega
  have h1 := nat_of_take_add_drop ds (ds.length - 1) hl
  have h2 := nat_of_drop ds (ds.length - 1)
  have h3 : ds.drop (ds.length - 1 + 1) = [] := by
    apply List.drop_eq_nil_of_le
    have : ds.length ≠ 0 := fun h => hne (List.length_eq_zero.1 h)
    omega
  rw [h3] at h2
  simp only [nat_of, Nat.mul_zero, Nat.add_zero] at h2
  rw [h1, h2, Nat.mul_comm]
  exact Nat.le_add_left _ _

/-- The estimate of `soft_div` from the top two digits of the running dividend and the top digit
of the divisor is a digit that is not below the true quotient digit. -/
theorem soft_div_estimate (u d : big_integer) (k : Nat) (hu : typed u) (hd : typed d)
    (hdne : d.data_ ≠ []) (htop : d.data_.getD (d.data_.length - 1) 0 ≠ 0)
    (hlt : nat_of u.data_ < nat_of d.data_ * BASE ^ (k + 1)) :
    ∃ qt, soft_div (u.data_.getD (k + d.data_.length) 0) (u.data_.getD (k + d.data_.length - 1) 0)
        (d.data_.getD (d.data_.length - 1) 0) = some qt ∧
      nat_of u.data_ / (nat_of d.data_ * BASE ^ k) ≤ qt ∧ qt ≤ MAX_DIGIT := by
  have hm : 1 ≤ d.data_.length := by
    have : d.data_.length ≠ 0 := fun h => hdne (List.length_eq_zero.1 h)
    omega
  have hDlt := nat_of_lt d.data_ hd
  have hDtop := top_digit_le d.data_ hdne
  have hkpos : 0 < BASE ^ k := Nat.pow_pos BASE_pos
  have hDpos : 0 < nat_of d.data_ := by
    rcases Nat.eq_zero_or_pos (nat_of d.data_) with h | h
    · rw [h] at hlt; simp at hlt
    · exact h
  have hqlt : nat_of u.data_ / (nat_of d.data_ * BASE ^ k) < BASE := by
    rw [Nat.div_lt_iff_lt_mul (Nat.mul_pos hDpos hkpos)]
    calc nat_of u.data_ < nat_of d.data_ * BASE ^ (k + 1) := hlt
      _ = BASE * (nat_of d.data_ * BASE ^ k) := by rw [pow_succ]; ring
  unfold soft_div
  rw [if_neg htop]
  split
  · refine ⟨MAX_DIGIT, rfl, ?_, le_refl _⟩
    have hB : BASE = MAX_DIGIT + 1 := by decide
    omega
  · rename_i hup
    have hdm : div_mod_ (u.data_.getD (k + d.data_.length) 0)
        (u.data_.getD (k + d.data_.length - 1) 0) (d.data_.getD (d.data_.length - 1) 0) =
        some ((u.data_.getD (k + d.data_.length) 0 * BASE +
          u.data_.getD (k + d.data_.length - 1) 0) / d.data_.getD (d.data_.length - 1) 0,
          (u.data_.getD (k + d.data_.length) 0 * BASE +
          u.data_.getD (k + d.data_.length - 1) 0) % d.data_.getD (d.data_.length - 1) 0) := by
      unfold div_mod_
      rw [if_neg]
      omega
    rw [hdm]
    refine ⟨_, rfl, ?_, ?_⟩
    · -- the true digit times the top digit of the divisor stays below the top two digits
      have hj : k + d.data_.length = (k + d.data_.length - 1) + 1 := by omega
      have hU2 : nat_of u.data_ < BASE ^ (k + d.data_.length - 1 + 2) := by
        calc nat_of u.data_ < nat_of d.data_ * BASE ^ (k + 1) := hlt
          _ ≤ BASE ^ d.data_.length * BASE ^ (k + 1) := Nat.mul_le_mul_right _ (le_of_lt hDlt)
          _ = BASE ^ (k + d.data_.length - 1 + 2) := by
              rw [← pow_add]; congr 1; omega
      have h2 := two_digits_eq_div u.data_ (k + d.data_.length - 1) hu hU2
      rw [← hj] at h2
      rw [Nat.le_div_iff_mul_le (by omega)]
      have h3 : u.data_.getD (k + d.data_.length) 0 * BASE +
          u.data_.getD (k + d.data_.length - 1) 0 =
          nat_of u.data_ / BASE ^ (k + d.data_.length - 1) := by rw [h2]; ring
      rw [h3, Nat.le_div_iff_mul_le (Nat.pow_pos BASE_pos)]
      have h4 : BASE ^ (k + d.data_.length - 1) = BASE ^ (d.data_.length - 1) * BASE ^ k := by
        rw [← pow_add]; congr 1; omega
      have h5 := Nat.div_mul_le_self (nat_of u.data_) (nat_of d.data_ * BASE ^ k)
      calc nat_of u.data_ / (nat_of d.data_ * BASE ^ k) * d.data_.getD (d.data_.length - 1) 0 *
            BASE ^ (k + d.data_.length - 1)
          = nat_of u.data_ / (nat_of d.data_ * BASE ^ k) *
            ((d.data_.getD (d.data_.length - 1) 0 * BASE ^ (d.data_.length - 1)) * BASE ^ k) := by
            rw [h4]; ring
        _ ≤ nat_of u.data_ / (nat_of d.data_ * BASE ^ k) * (nat_of d.data_ * BASE ^ k) :=
            Nat.mul_le_mul_left _ (Nat.mul_le_mul_right _ hDtop)
        _ ≤ nat_of u.data_ := h5
    · have hlow := getD_lt u.data_ (k + d.data_.length - 1) hu
      have : (u.data_.getD (k + d.data_.length) 0 * BASE +
          u.data_.getD (k + d.data_.length - 1) 0) / d.data_.getD (d.data_.length - 1) 0 < BASE := by
        rw [Nat.div_lt_iff_lt_mul (by omega)]
        have h6 : (u.data_.getD (k + d.data_.length) 0 + 1) * BASE ≤
            BASE * d.data_.getD (d.data_.length - 1) 0 := by
          rw [Nat.mul_comm]; exact Nat.mul_le_mul_left _ (by omega)
        have h7 : (u.data_.getD (k + d.data_.length) 0 + 1) * BASE =
            u.data_.getD (k + d.data_.length) 0 * BASE + BASE := by ring
        omega
      have hB : BASE = MAX_DIGIT + 1 := by decide
      omega

theorem pow_two_mul_64 (k : Nat) : 2 ^ (BASE_POWER2 * k) = BASE ^ k := by
  rw [BASE_eq_pow, ← pow_mul]
  rfl

/-- The shift `dq << BASE_POWER2 * k` of a canonical non-negative `dq`, for a digit count `k`
whose bit count fits a machine word, is canonical, non-negative and denotes `dq * BASE ^ k`. -/
theorem shl_digits (dq : big_integer) (k : Nat) (hc : canonical dq) (hs : dq.sign_ = false)
    (hk : BASE_POWER2 * k < BASE) :
    canonical (op_shl dq ((BASE_POWER2 * k) % BASE)) ∧
    (op_shl dq ((BASE_POWER2 * k) % BASE)).sign_ = false ∧
    nat_of (op_shl dq ((BASE_POWER2 * k) % BASE)).data_ = nat_of dq.data_ * BASE ^ k := by
  rw [Nat.mod_eq_of_lt hk]
  unfold op_shl
  have h1 := canonical_shl_assign dq (BASE_POWER2 * k) hc
  have h2 := val_shl_assign dq (BASE_POWER2 * k) hc
  have hp : ((2 : Int) ^ (BASE_POWER2 * k)) = ((BASE ^ k : Nat) : Int) := by
    rw [← pow_two_mul_64]; push_cast; rfl
  rw [val_of_nonneg dq hs, hp] at h2
  have h3 : (0 : Int) ≤ val (shl_assign dq (BASE_POWER2 * k)) := by
    rw [h2]; positivity
  have h4 := canonical_nonneg_of_val _ h1 h3
  rw [val_of_nonneg _ h4] at h2
  exact ⟨h1, h4, by exact_mod_cast h2⟩

/-- The correction loop ends at the largest digit not above the estimate whose multiple of the
divisor, shifted to position `k`, does not exceed the running dividend (or at zero), with `dq`
the matching multiple of the divisor. -/
theorem correct_loop_spec (u d : big_integer) (k : Nat) (hu : typed u) (hus : u.sign_ = false)
    (hd : canonical d) (hds : d.sign_ = false) (hk : BASE_POWER2 * k < BASE) (qt : Nat) :
    ∀ dq, canonical dq → dq.sign_ = false → nat_of dq.data_ = nat_of d.data_ * qt →
      canonical (correct_loop u d k qt dq).2 ∧ (correct_loop u d k qt dq).2.sign_ = false ∧
      nat_of (correct_loop u d k qt dq).2.data_ =
        nat_of d.data_ * (correct_loop u d k qt dq).1 ∧
      (correct_loop u d k qt dq).1 ≤ qt ∧
      (∀ z, (correct_loop u d k qt dq).1 < z → z ≤ qt →
        nat_of u.data_ < nat_of d.data_ * z * BASE ^ k) ∧
      ((correct_loop u d k qt dq).1 ≠ 0 →
        nat_of d.data_ * (correct_loop u d k qt dq).1 * BASE ^ k ≤ nat_of u.data_) := by
  induction qt with
  | zero =>
      intro dq hc hs hn
      simp only [correct_loop]
      exact ⟨hc, hs, hn, le_refl _, fun z h1 h2 => by omega, fun h => absurd rfl h⟩
  | succ qt ih =>
      intro dq hc hs hn
      obtain ⟨s1, s2, s3⟩ := shl_digits dq k hc hs hk
      have hlt := op_lt_same_sign u (op_shl dq ((BASE_POWER2 * k) % BASE)) hu s1.1
        (by rw [hus, s2])
      rw [hus] at hlt
      simp only [Bool.false_eq_true, if_false] at hlt
      rw [s3, hn] at hlt
      unfold correct_loop
      by_cases hcmp : op_lt u (op_shl dq ((BASE_POWER2 * k) % BASE)) = true
      · rw [if_pos hcmp]
        have hv := val_sub_assign dq d hc.1 hd.1
        rw [val_of_nonneg dq hs, val_of_nonneg d hds, hn] at hv
        have hv2 : val (sub_assign dq d) = ((nat_of d.data_ * qt : Nat) : Int) := by
          rw [hv]; push_cast; ring
        have hc2 := canonical_sub_assign dq d hc.2.1
        have hs2 := canonical_nonneg_of_val _ hc2 (by rw [hv2]; positivity)
        rw [val_of_nonneg _ hs2] at hv2
        obtain ⟨a1, a2, a3, a4, a5, a6⟩ := ih (sub_assign dq d) hc2 hs2 (by exact_mod_cast hv2)
        refine ⟨a1, a2, a3, by omega, ?_, a6⟩
        intro z hz1 hz2
        by_cases hz : z ≤ qt
        · exact a5 z hz1 hz
        · have : z = qt + 1 := by omega
          rw [this]
          exact hlt.1 hcmp
      · rw [if_neg hcmp]
        refine ⟨hc, hs, hn, le_refl _, fun z h1 h2 => by omega, ?_⟩
        intro _
        have : ¬ nat_of u.data_ < nat_of d.data_ * (qt + 1) * BASE ^ k := fun h => hcmp (hlt.2 h)
        show nat_of d.data_ * (qt + 1) * BASE ^ k ≤ nat_of u.data_
        omega

/-- One iteration of the division loop at position `k`, from a state whose running dividend
is below `d * BASE ^ (k + 1)`: the estimate of `soft_div` is a digit not below the true
quotient digit `u / (d * BASE ^ k)`, the correction loop stops at exactly that digit, and the
new running dividend is the remainder `u % (d * BASE ^ k)`, which is below `d * BASE ^ k`. -/
theorem div_step (u d : big_integer) (k : Nat) (hu : typed u) (hus : u.sign_ = false)
    (hune : u.data_ ≠ []) (hd : canonical d) (hds : d.sign_ = false)
    (hD : nat_of d.data_ ≠ 0) (hk : BASE_POWER2 * k < BASE)
    (hlt : nat_of u.data_ < nat_of d.data_ * BASE ^ (k + 1)) :
    ∃ qt, soft_div (u.data_.getD (k + d.data_.length) 0)
        (u.data_.getD (k + d.data_.length - 1) 0) (d.data_.getD (d.data_.length - 1) 0) = some qt ∧
      nat_of u.data_ / (nat_of d.data_ * BASE ^ k) ≤ qt ∧ qt ≤ MAX_DIGIT ∧
      (correct_loop u d k qt (op_mul d (of_unsigned_long qt))).1 =
        nat_of u.data_ / (nat_of d.data_ * BASE ^ k) ∧
      canonical (sub_assign u (op_shl (correct_loop u d k qt (op_mul d (of_unsigned_long qt))).2
        ((BASE_POWER2 * k) % BASE))) ∧
      (sub_assign u (op_shl (correct_loop u d k qt (op_mul d (of_unsigned_long qt))).2
        ((BASE_POWER2 * k) % BASE))).sign_ = false ∧
      nat_of (sub_assign u (op_shl (correct_loop u d k qt (op_mul d (of_unsigned_long qt))).2
        ((BASE_POWER2 * k) % BASE))).data_ = nat_of u.data_ % (nat_of d.data_ * BASE ^ k) ∧
      nat_of u.data_ % (nat_of d.data_ * BASE ^ k) < nat_of d.data_ * BASE ^ k := by
  have htop := getD_last_ne_zero _ hd.2.1 (getLast?_ne_zero_of_canonical d hd hD)
  obtain ⟨qt, hqt, hge, hmax⟩ := soft_div_estimate u d k hu hd.1 hd.2.1 htop hlt
  have hqlt : qt < BASE := by
    have hB : BASE = MAX_DIGIT + 1 := by decide
    omega
  have hF : typed (of_unsigned_long qt) := typed_of_single qt hqlt
  have hFv : nat_of (of_unsigned_long qt).data_ = qt := by simp [of_unsigned_long, nat_of]
  have hc0 : canonical (op_mul d (of_unsigned_long qt)) :=
    canonical_mul_assign d (of_unsigned_long qt) hd.2.1
  have hn0 : nat_of (op_mul d (of_unsigned_long qt)).data_ = nat_of d.data_ * qt := by
    unfold op_mul
    rw [nat_of_mul_assign d _ hd.1 hF, hFv]
  have hv0 : val (op_mul d (of_unsigned_long qt)) = ((nat_of d.data_ * qt : Nat) : Int) := by
    unfold op_mul
    rw [val_mul_assign d _ hd.1 hF, val_of_nonneg d hds, val_of_unsigned_long]
    push_cast; ring
  have hs0 := canonical_nonneg_of_val _ hc0 (by rw [hv0]; positivity)
  obtain ⟨c1, c2, c3, c4, c5, c6⟩ :=
    correct_loop_spec u d k hu hus hd hds hk qt _ hc0 hs0 hn0
  have hkpos : 0 < BASE ^ k := Nat.pow_pos BASE_pos
  have hDk : 0 < nat_of d.data_ * BASE ^ k := Nat.mul_pos (by omega) hkpos
  have hq : (correct_loop u d k qt (op_mul d (of_unsigned_long qt))).1 =
      nat_of u.data_ / (nat_of d.data_ * BASE ^ k) := by
    apply le_antisymm
    · by_cases h0 : (correct_loop u d k qt (op_mul d (of_unsigned_long qt))).1 = 0
      · rw [h0]; exact Nat.zero_le _
      · have := c6 h0
        rw [Nat.le_div_iff_mul_le hDk]
        calc _ = nat_of d.data_ *
              (correct_loop u d k qt (op_mul d (of_unsigned_long qt))).1 * BASE ^ k := by ring
          _ ≤ nat_of u.data_ := this
    · by_contra hcon
      have h1 := c5 _ (by omega) hge
      have h2 := Nat.div_mul_le_self (nat_of u.data_) (nat_of d.data_ * BASE ^ k)
      have h3 : nat_of d.data_ * (nat_of u.data_ / (nat_of d.data_ * BASE ^ k)) * BASE ^ k =
          nat_of u.data_ / (nat_of d.data_ * BASE ^ k) * (nat_of d.data_ * BASE ^ k) := by ring
      omega
  obtain ⟨s1, s2, s3⟩ := shl_digits _ k c1 c2 hk
  rw [c3, hq] at s3
  have hv := val_sub_assign u _ hu s1.1
  rw [val_of_nonneg u hus, val_of_nonneg _ s2, s3] at hv
  have hdm := Nat.div_add_mod (nat_of u.data_) (nat_of d.data_ * BASE ^ k)
  have hv2 : val (sub_assign u (op_shl (correct_loop u d k qt (op_mul d (of_unsigned_long qt))).2
      ((BASE_POWER2 * k) % BASE))) =
      ((nat_of u.data_ % (nat_of d.data_ * BASE ^ k) : Nat) : Int) := by
    rw [hv]
    have h4 : nat_of d.data_ * (nat_of u.data_ / (nat_of d.data_ * BASE ^ k)) * BASE ^ k =
        nat_of d.data_ * BASE ^ k * (nat_of u.data_ / (nat_of d.data_ * BASE ^ k)) := by ring
    rw [h4]
    omega
  have hcu := canonical_sub_assign u (op_shl
    (correct_loop u d k qt (op_mul d (of_unsigned_long qt))).2 ((BASE_POWER2 * k) % BASE)) hune
  have hsu := canonical_nonneg_of_val _ hcu (by rw [hv2]; positivity)
  rw [val_of_nonneg _ hsu] at hv2
  exact ⟨qt, hqt, hge, hmax, hq, hcu, hsu, by exact_mod_cast hv2, Nat.mod_lt _ hDk⟩

theorem drop_succ_of_drop_eq (l1 l2 : List Nat) (i : Nat) (h : l1.drop i = l2.drop i) :
    l1.drop (i + 1) = l2.drop (i + 1) := by
  have := congrArg (List.drop 1) h
  simpa [List.drop_drop, Nat.add_comm] using this

/-- The division loop started at position `k` with a running dividend below `d * BASE ^ k`
writes the digits of `u / d` into the positions below `k`, leaves the other positions alone, and
ends with the remainder `u % d` as running dividend. -/
theorem div_loop_spec (d : big_integer) (hd : canonical d) (hds : d.sign_ = false)
    (hD : nat_of d.data_ ≠ 0) (k : Nat) :
    ∀ x u, typed x → k ≤ x.data_.length → typed u → u.sign_ = false → u.data_ ≠ [] →
      nat_of u.data_ < nat_of d.data_ * BASE ^ k → BASE_POWER2 * k < BASE →
      ∃ x3 u3, div_loop d d.data_.length k x u = some (x3, u3) ∧ typed x3 ∧
        x3.data_.length = x.data_.length ∧ x3.sign_ = x.sign_ ∧
        nat_of (x3.data_.take k) = nat_of u.data_ / nat_of d.data_ ∧
        x3.data_.drop k = x.data_.drop k ∧
        nat_of u3.data_ = nat_of u.data_ % nat_of d.data_ ∧ u3.sign_ = false := by
  induction k with
  | zero =>
      intro x u hx _ hu hus _ hlt _
      refine ⟨x, u, rfl, hx, rfl, rfl, ?_, rfl, ?_, hus⟩
      · simp only [List.take_zero, nat_of]
        rw [Nat.div_eq_of_lt (by simpa using hlt)]
      · rw [Nat.mod_eq_of_lt (by simpa using hlt)]
  | succ k ih =>
      intro x u hx hkx hu hus hune hlt hk
      have hk' : BASE_POWER2 * k < BASE := by
        have : BASE_POWER2 * k ≤ BASE_POWER2 * (k + 1) := Nat.mul_le_mul_left _ (by omega)
        omega
      obtain ⟨qt, hqt, hge, hmax, hq, hcu, hsu, hnu, hrem⟩ :=
        div_step u d k hu hus hune hd hds hD hk' hlt
      have hqlt : nat_of u.data_ / (nat_of d.data_ * BASE ^ k) < BASE := by
        have hB : BASE = MAX_DIGIT + 1 := by decide
        omega
      have hx1 : typed (big_integer.mk
          (x.data_.set k (correct_loop u d k qt (op_mul d (of_unsigned_long qt))).1) x.sign_) := by
        intro e he
        rcases List.mem_or_eq_of_mem_set he with h1 | h1
        · exact hx e h1
        · rw [h1, hq]; exact hqlt
      obtain ⟨x3, u3, e1, e2, e3, e4, e5, e6, e7, e8⟩ :=
        ih _ _ hx1 (by simp only [List.length_set]; omega) hcu.1 hsu hcu.2.1
          (by rw [hnu]; exact hrem) hk'
      simp only [List.length_set] at e3
      refine ⟨x3, u3, ?_, e2, e3, e4, ?_, ?_, ?_, e8⟩
      · simp only [div_loop, hqt]; exact e1
      · have hg : x3.data_.getD k 0 = nat_of u.data_ / (nat_of d.data_ * BASE ^ k) := by
          rw [getD_of_drop_eq _ _ k e6]
          simp only
          rw [getD_set_self _ _ _ (by omega), hq]
        rw [nat_of_take_succ, e5, hnu, hg]
        have hdm := Nat.div_add_mod (nat_of u.data_) (nat_of d.data_ * BASE ^ k)
        have hDpos : 0 < nat_of d.data_ := by omega
        conv_rhs => rw [← hdm]
        have h1 : nat_of d.data_ * BASE ^ k * (nat_of u.data_ / (nat_of d.data_ * BASE ^ k)) =
            nat_of d.data_ * (BASE ^ k * (nat_of u.data_ / (nat_of d.data_ * BASE ^ k))) := by ring
        rw [h1, Nat.mul_add_div hDpos]
        ring
      · rw [drop_succ_of_drop_eq _ _ k e6]
        simp only
        rw [List.drop_set_of_lt _ _ (by omega)]
      · rw [e7, hnu]
        exact Nat.mod_mod_of_dvd _ (Dvd.intro _ rfl)

theorem sign_set_sign_imp (x : big_integer) (s : Bool) (h : (set_sign_ x s).sign_ = true) :
    s = true := by
  unfold set_sign_ at h
  simp only [Bool.and_eq_true] at h
  exact h.2

theorem sign_set_sign_false (x : big_integer) : (set_sign_ x false).sign_ = false := by
  simp [set_sign_]

theorem sign_keep_invariant_imp (x : big_integer) (h : (keep_invariant_ x).sign_ = true) :
    x.sign_ = true := by
  unfold keep_invariant_ at h
  exact sign_set_sign_imp _ _ h

theorem length_le_of_lt_pow (a : big_integer) (ha : canonical a) (j : Nat) (hj : 1 ≤ j)
    (h : nat_of a.data_ < BASE ^ j) : a.data_.length ≤ j := by
  rcases ha.2.2.1 with h1 | h1
  · omega
  · have h2 := pow_le_nat_of a.data_ ha.2.1 h1
    have h3 : BASE ^ (a.data_.length - 1) < BASE ^ j := by omega
    have h4 := (Nat.pow_lt_pow_iff_right (by decide : 1 < BASE)).1 h3
    omega

/-- The quotient of `operator/=`: for canonical operands, a non-zero divisor and a dividend
whose digit count leaves the bit counts `BASE_POWER2 * k` within a machine word, the result is
canonical, its digits denote the quotient of the magnitudes, and its sign is set only when the
signs of the operands differ. -/
theorem div_assign_value (x right : big_integer) (hx : canonical x) (hr : canonical right)
    (hnz : nat_of right.data_ ≠ 0) (hsize : x.data_.length < 2 ^ 57) :
    ∃ q, div_assign x right = some q ∧ canonical q ∧
      nat_of q.data_ = nat_of x.data_ / nat_of right.data_ ∧
      (q.sign_ = true → xor x.sign_ right.sign_ = true) := by
  have hne := (op_ne_ZERO right hr).2 hnz
  unfold div_assign
  rw [hne]
  simp only [Bool.not_true, Bool.false_eq_true, if_false]
  have hcmp := op_lt_iff (abs_ x) (abs_ right) (canonical_abs_ x hx) (canonical_abs_ right hr)
  rw [val_abs_, val_abs_] at hcmp
  split
  · rename_i hlt
    have h1 : nat_of x.data_ < nat_of right.data_ := by
      have := hcmp.1 hlt
      omega
    refine ⟨of_int 0, rfl, canonical_of_int_zero, ?_, ?_⟩
    · rw [Nat.div_eq_of_lt h1]; rfl
    · intro h; cases h
  · rename_i hlt
    have hge : nat_of right.data_ ≤ nat_of x.data_ := by
      have h2 : ¬ ((nat_of x.data_ : Int) < (nat_of right.data_ : Int)) := fun h3 => hlt (hcmp.2 h3)
      omega
    split
    · rename_i hlen
      have hd0 : right.data_.getD 0 0 = nat_of right.data_ := by
        rcases hrd : right.data_ with _ | ⟨d, _ | ⟨e, es⟩⟩
        · rw [hrd] at hlen; simp at hlen
        · simp [nat_of]
        · rw [hrd] at hlen; simp at hlen
      obtain ⟨x1, c1, h1, h2, h3, _, _⟩ :=
        div_short__spec x (right.data_.getD 0 0) hx.1 hx.2.1 (by rw [hd0]; exact hnz)
      rw [h1]
      refine ⟨_, rfl, canonical_set_sign_ x1 _ h2.1 h2.2.1 h2.2.2.1, ?_, ?_⟩
      · rw [data_set_sign_, h3, hd0]
      · intro h
        exact sign_set_sign_imp _ _ h
    · obtain ⟨hf0, hflt⟩ := norm_factor_bounds (right.data_.getLastD 0) (getLastD_lt _ hr.1)
      generalize (if right.data_.getLastD 0 = MAX_DIGIT then 1
        else MAX_DIGIT / (right.data_.getLastD 0 + 1)) = f at *
      have hF : typed (of_unsigned_long f) := typed_of_single f hflt
      have hu0 := canonical_mul_assign x (of_unsigned_long f) hx.2.1
      have hd0 := canonical_mul_assign right (of_unsigned_long f) hr.2.1
      have hnu := nat_of_mul_assign x (of_unsigned_long f) hx.1 hF
      have hnd := nat_of_mul_assign right (of_unsigned_long f) hr.1 hF
      have hFv : nat_of (of_unsigned_long f).data_ = f := by simp [of_unsigned_long, nat_of]
      rw [hFv] at hnu hnd
      have hdnz : nat_of (mul_assign right (of_unsigned_long f)).data_ ≠ 0 := by
        rw [hnd]; exact Nat.mul_ne_zero hnz (by omega)
      have hlen := length_le_of_nat_of_le _ _ hu0 hd0 hdnz (by
        rw [hnu, hnd]; exact Nat.mul_le_mul_right f hge)
      -- the length of the scaled dividend
      have hXlt := nat_of_lt x.data_ hx.1
      have hulen : (mul_assign x (of_unsigned_long f)).data_.length ≤ x.data_.length + 1 := by
        apply length_le_of_lt_pow _ hu0 _ (by omega)
        rw [hnu, pow_succ]
        calc nat_of x.data_ * f < BASE ^ x.data_.length * f :=
              Nat.mul_lt_mul_of_pos_right hXlt hf0
          _ ≤ BASE ^ x.data_.length * BASE := Nat.mul_le_mul_left _ (le_of_lt hflt)
      simp only [op_mul, data_set_sign_, List.length_append, List.length_singleton]
      have hdc : canonical (set_sign_ (mul_assign right (of_unsigned_long f)) false) :=
        canonical_set_sign_ _ _ hd0.1 hd0.2.1 hd0.2.2.1
      have hut : typed (set_sign_ (big_integer.mk ((mul_assign x (of_unsigned_long f)).data_ ++ [0])
          (mul_assign x (of_unsigned_long f)).sign_) false) := by
        intro e he
        rcases List.mem_append.1 he with h4 | h4
        · exact hu0.1 e h4
        · have : e = 0 := by simpa using h4
          rw [this]; exact BASE_pos
      have hun : nat_of ((mul_assign x (of_unsigned_long f)).data_ ++ [0]) =
          nat_of x.data_ * f := by
        rw [nat_of_append, hnu]
        simp [nat_of]
      have hdlow := pow_le_nat_of _ hd0.2.1 (getLast?_ne_zero_of_canonical _ hd0 hdnz)
      have hdpos : 1 ≤ (mul_assign right (of_unsigned_long f)).data_.length := by
        have : (mul_assign right (of_unsigned_long f)).data_.length ≠ 0 :=
          fun h => hd0.2.1 (List.length_eq_zero.1 h)
        omega
      have hubound := nat_of_lt _ hu0.1
      obtain ⟨x3, u3, h1, h2, h3, h4, h5, _, _, _⟩ := div_loop_spec
        (set_sign_ (mul_assign right (of_unsigned_long f)) false) hdc (sign_set_sign_false _)
        hdnz
        ((mul_assign x (of_unsigned_long f)).data_.length + 1 -
          (mul_assign right (of_unsigned_long f)).data_.length)
        (set_sign_ (big_integer.mk (resize x.data_
          ((mul_assign x (of_unsigned_long f)).data_.length + 1 -
            (mul_assign right (of_unsigned_long f)).data_.length)) x.sign_)
          (xor (sign x) (sign right)))
        (set_sign_ (big_integer.mk ((mul_assign x (of_unsigned_long f)).data_ ++ [0])
          (mul_assign x (of_unsigned_long f)).sign_) false)
        (mem_resize _ _ hx.1)
        (by simp only [data_set_sign_, length_resize]; exact le_refl _)
        hut (sign_set_sign_false _)
        (by simp [data_set_sign_])
        (by
          simp only [data_set_sign_]
          rw [hun, ← hnu]
          calc nat_of (mul_assign x (of_unsigned_long f)).data_
              < BASE ^ (mul_assign x (of_unsigned_long f)).data_.length := hubound
            _ = BASE ^ ((mul_assign right (of_unsigned_long f)).data_.length - 1) *
                BASE ^ ((mul_assign x (of_unsigned_long f)).data_.length + 1 -
                  (mul_assign right (of_unsigned_long f)).data_.length) := by
                rw [← pow_add]; congr 1; omega
            _ ≤ _ := Nat.mul_le_mul_right _ hdlow)
        (by
          have h57 : 2 ^ 57 = 144115188075855872 := by norm_num
          unfold BASE_POWER2 BASE
          omega)
      simp only [data_set_sign_] at h1 h3 h5
      rw [h1]
      have hx3ne : x3.data_ ≠ [] := by
        intro h6
        rw [h6] at h3
        simp only [List.length_nil, length_resize] at h3
        omega
      refine ⟨_, rfl, canonical_keep_invariant_ x3 h2 hx3ne, ?_, ?_⟩
      · rw [nat_of_keep_invariant_]
        rw [length_resize] at h3
        rw [← h3, List.take_length, hun, hnd] at h5
        rw [h5, Nat.mul_div_mul_right _ _ hf0]
      · intro h6
        have h7 := sign_keep_invariant_imp _ h6
        rw [h4] at h7
        have := sign_set_sign_imp _ _ h7
        simpa [sign] using this

theorem abs_val_eq (x : big_integer) : |val x| = (nat_of x.data_ : Int) := by
  unfold val
  split
  · rw [abs_neg]; exact abs_of_nonneg (by positivity)
  · exact abs_of_nonneg (by positivity)

theorem val_ne_zero_iff (x : big_integer) : val x ≠ 0 ↔ nat_of x.data_ ≠ 0 := by
  unfold val
  split <;> omega

/-- C28: for canonical `x` and `y` with `y` non-zero and `|y| ≤ |x|` (and a dividend whose digit
count keeps the bit counts `BASE_POWER2 * k` within a machine word), `operator/=` returns digits
that denote `|val x| / |val y|` rounded down. In every state of the division loop (a running
dividend `u` below `d * BASE ^ (k + 1)`), the estimate of `soft_div` at position `k` is a digit
not below the true quotient digit `u / (d * BASE ^ k)`, the correction loop stops at exactly the
true digit, and the new running dividend is below `d * BASE ^ k`. -/
theorem long_division_digits (x y : big_integer) (hx : canonical x) (hy : canonical y)
    (hy0 : val y ≠ 0) (hge : |val y| ≤ |val x|) (hsize : x.data_.length < 2 ^ 57) :
    (∃ q, div_assign x y = some q ∧ canonical q ∧
      (nat_of q.data_ : Int) = |val x| / |val y|) ∧
    (∀ u d k, typed u → u.sign_ = false → u.data_ ≠ [] → canonical d → d.sign_ = false →
      nat_of d.data_ ≠ 0 → BASE_POWER2 * k < BASE →
      nat_of u.data_ < nat_of d.data_ * BASE ^ (k + 1) →
      ∃ qt, soft_div (u.data_.getD (k + d.data_.length) 0)
          (u.data_.getD (k + d.data_.length - 1) 0)
          (d.data_.getD (d.data_.length - 1) 0) = some qt ∧
        nat_of u.data_ / (nat_of d.data_ * BASE ^ k) ≤ qt ∧ qt ≤ MAX_DIGIT ∧
        (correct_loop u d k qt (op_mul d (of_unsigned_long qt))).1 =
          nat_of u.data_ / (nat_of d.data_ * BASE ^ k) ∧
        nat_of (sub_assign u (op_shl (correct_loop u d k qt (op_mul d (of_unsigned_long qt))).2
          ((BASE_POWER2 * k) % BASE))).data_ < nat_of d.data_ * BASE ^ k) := by
  have _ := hge
  constructor
  · obtain ⟨q, h1, h2, h3, _⟩ :=
      div_assign_value x y hx hy ((val_ne_zero_iff y).1 hy0) hsize
    refine ⟨q, h1, h2, ?_⟩
    rw [abs_val_eq, abs_val_eq, h3]
    norm_cast
  · intro u d k hu hus hune hd hds hD hk hlt
    obtain ⟨qt, a1, a2, a3, a4, _, _, a7, a8⟩ := div_step u d k hu hus hune hd hds hD hk hlt
    exact ⟨qt, a1, a2, a3, a4, by rw [a7]; exact a8⟩

theorem long_division_digits_witness :
    canonical ⟨[0, 3], true⟩ ∧ canonical ⟨[0, 2], false⟩ ∧
    ∃ q, div_assign ⟨[0, 3], true⟩ ⟨[0, 2], false⟩ = some q ∧ canonical q ∧
      (nat_of q.data_ : Int) = |val ⟨[0, 3], true⟩| / |val ⟨[0, 2], false⟩| :=
  ⟨by decide, by decide,
    (long_division_digits ⟨[0, 3], true⟩ ⟨[0, 2], false⟩ (by decide) (by decide) (by decide)
      (by decide) (by decide)).1⟩

theorem sign_of_val_neg (r : big_integer) (h : val r < 0) : r.sign_ = true := by
  rcases Bool.eq_false_or_eq_true r.sign_ with hs | hs
  · exact hs
  · rw [val_of_nonneg r hs] at h
    omega

theorem sign_of_val_pos (r : big_integer) (h : 0 < val r) : r.sign_ = false := by
  rcases Bool.eq_false_or_eq_true r.sign_ with hs | hs
  · rw [val_of_neg r hs] at h
    omega
  · exact hs

/-- C22 (the claim fails): `-6 % 3` is zero, whose sign flag is clear, while the sign flag of
`-6` is set. -/
theorem mod_zero_sign_differs :
    canonical (of_int (-6)) ∧ canonical (of_int 3) ∧ val (of_int (-6)) ≠ 0 ∧
    val (of_int 3) ≠ 0 ∧ sign (of_int (-6)) = true ∧
    op_mod (of_int (-6)) (of_int 3) = some ⟨[0], false⟩ ∧
    (op_mod (of_int (-6)) (of_int 3)).map sign = some false := by
  decide

/-- C22 (amended): for canonical `x` and canonical non-zero `y` (and a dividend whose digit
count keeps the bit counts `BASE_POWER2 * k` within a machine word), `x % y` is returned, is
canonical, and either denotes zero or has the sign of `x`. -/
theorem mod_sign (x y : big_integer) (hx : canonical x) (hy : canonical y) (hy0 : val y ≠ 0)
    (hsize : x.data_.length < 2 ^ 57) :
    ∃ r, op_mod x y = some r ∧ canonical r ∧ (val r = 0 ∨ sign r = sign x) := by
  obtain ⟨q, h1, h2, h3, h4⟩ := div_assign_value x y hx hy ((val_ne_zero_iff y).1 hy0) hsize
  have he : op_mod x y = some (sub_assign x (mul_assign q y)) := by
    unfold op_mod mod_assign op_div op_mul
    rw [h1]
  have hcm := canonical_mul_assign q y h2.2.1
  have hv : val (sub_assign x (mul_assign q y)) = val x - val q * val y := by
    rw [val_sub_assign x _ hx.1 hcm.1, val_mul_assign q y h2.1 hy.1]
  have hle : ((nat_of q.data_ * nat_of y.data_ : Nat) : Int) ≤ (nat_of x.data_ : Int) := by
    rw [h3]
    exact_mod_cast Nat.div_mul_le_self _ _
  push_cast at hle
  refine ⟨_, he, canonical_sub_assign x _ hx.2.1, ?_⟩
  by_cases hz : val (sub_assign x (mul_assign q y)) = 0
  · exact Or.inl hz
  · right
    unfold sign
    have hnn : (0 : Int) ≤ (nat_of q.data_ : Int) * (nat_of y.data_ : Int) := by positivity
    rcases Bool.eq_false_or_eq_true x.sign_ with hsx | hsx <;>
      rcases Bool.eq_false_or_eq_true y.sign_ with hsy | hsy <;>
      rcases Bool.eq_false_or_eq_true q.sign_ with hsq | hsq
    all_goals first
      | (exfalso
         have := h4 hsq
         rw [hsx, hsy] at this
         revert this
         decide)
      | (rw [hsx]
         first
          | (apply sign_of_val_neg
             apply lt_of_le_of_ne _ hz
             rw [hv]
             first
              | rw [val_of_neg x hsx, val_of_neg y hsy, val_of_neg q hsq]
              | rw [val_of_neg x hsx, val_of_neg y hsy, val_of_nonneg q hsq]
              | rw [val_of_neg x hsx, val_of_nonneg y hsy, val_of_neg q hsq]
              | rw [val_of_neg x hsx, val_of_nonneg y hsy, val_of_nonneg q hsq]
             nlinarith)
          | (apply sign_of_val_pos
             apply lt_of_le_of_ne _ (Ne.symm hz)
             rw [hv]
             first
              | rw [val_of_nonneg x hsx, val_of_neg y hsy, val_of_neg q hsq]
              | rw [val_of_nonneg x hsx, val_of_neg y hsy, val_of_nonneg q hsq]
              | rw [val_of_nonneg x hsx, val_of_nonneg y hsy, val_of_neg q hsq]
              | rw [val_of_nonneg x hsx, val_of_nonneg y hsy, val_of_nonneg q hsq]
             nlinarith))

theorem mod_sign_witness :
    canonical ⟨[0, 3], true⟩ ∧ canonical ⟨[0, 2], false⟩ ∧
    ∃ r, op_mod ⟨[0, 3], true⟩ ⟨[0, 2], false⟩ = some r ∧ canonical r ∧
      (val r = 0 ∨ sign r = sign ⟨[0, 3], true⟩) :=
  ⟨by decide, by decide,
    mod_sign ⟨[0, 3], true⟩ ⟨[0, 2], false⟩ (by decide) (by decide) (by decide) (by decide)⟩

/-! ## Every digit access of multiplication and division is in range -/

/-- The inner loop of `operator*=` never reads or writes past the end of `result.data_`: when
the row and the carry fit the remaining digits and the remaining digits of `right` have room,
the checked loop returns what the loop computes. -/
theorem mul_row_checked_eq (l : Nat) (right res : List Nat) (j c : Nat) (hl : l < BASE)
    (hr : ∀ d ∈ right, d < BASE) (hres : ∀ d ∈ res, d < BASE) (hc : c < BASE)
    (hfit : l * nat_of (right.drop j) + nat_of res + c < BASE ^ res.length)
    (hlen : right.length ≤ j + res.length) :
    mul_row_checked l right res j c = some (mul_row l right res j c) := by
  induction res generalizing j c with
  | nil =>
    simp only [nat_of, List.length_nil, pow_zero, Nat.add_zero] at hfit hlen
    unfold mul_row_checked mul_row
    rw [if_neg (by omega)]
  | cons x res ih =>
    have hx : x < BASE := hres x (List.mem_cons_self _ _)
    have hg := getD_lt right j hr
    unfold mul_row_checked mul_row
    split
    · have hdig := mul_digit l (right.getD j 0) c x hl hg hc hx
      have hsplit : l * nat_of (right.drop j) =
          l * right.getD j 0 + BASE * (l * nat_of (right.drop (j + 1))) := by
        rw [nat_of_drop right j]; ring
      rw [hsplit] at hfit
      simp only [nat_of, List.length_cons, pow_succ] at hfit hlen
      simp only
      rw [ih (j + 1) _ (fun d hd => hres d (List.mem_cons_of_mem _ hd))
        (Nat.mod_lt _ BASE_pos) _ (by omega)]
      generalize (((mul_overflow_ l (right.getD j 0) +
        b2n (add_overflow_ ((l * right.getD j 0) % BASE) c false)) % BASE +
        b2n (add_overflow_ (((l * right.getD j 0) % BASE + c) % BASE) x false)) % BASE) = up
        at *
      generalize (((l * right.getD j 0) % BASE + c) % BASE + x) % BASE = lo at *
      generalize l * nat_of (List.drop (j + 1) right) = M at *
      generalize l * right.getD j 0 = p at *
      generalize nat_of res = X at *
      generalize BASE ^ res.length = P at *
      unfold BASE at *
      omega
    · rfl

/-- The loops of `operator*=` never read or write past the end of `result.data_` when the
product fits the result and the result has a digit for every pair of positions. -/
theorem mul_rows_checked_eq (right ds res : List Nat) (hds : ∀ d ∈ ds, d < BASE)
    (hr : ∀ d ∈ right, d < BASE) (hres : ∀ d ∈ res, d < BASE)
    (hfit : nat_of ds * nat_of right + nat_of res < BASE ^ res.length)
    (hlen : ds.length + right.length ≤ res.length) :
    mul_rows_checked right ds res = some (mul_rows right ds res) := by
  induction ds generalizing res with
  | nil => rfl
  | cons l ds ih =>
    have hl : l < BASE := hds l (List.mem_cons_self _ _)
    have hsplit : nat_of (l :: ds) * nat_of right =
        l * nat_of right + BASE * (nat_of ds * nat_of right) := by
      simp only [nat_of]; ring
    rw [hsplit] at hfit
    simp only [List.length_cons] at hlen
    have hfit0 : l * nat_of (right.drop 0) + nat_of res + 0 < BASE ^ res.length := by
      simp only [List.drop_zero]
      generalize BASE * (nat_of ds * nat_of right) = Q at *
      omega
    have hck := mul_row_checked_eq l right res 0 0 hl hr hres BASE_pos hfit0 (by omega)
    have hrow := nat_of_mul_row l right res 0 0 hl hr hres BASE_pos hfit0
    have hlen1 := length_mul_row l right res 0 0
    have hmem := mem_mul_row l right res 0 0 hres
    simp only [List.drop_zero, Nat.add_zero] at hrow
    unfold mul_rows_checked mul_rows
    rw [hck]
    rcases hrw : mul_row l right res 0 0 with _ | ⟨x, res1⟩
    · rfl
    · rw [hrw] at hrow hlen1 hmem
      simp only [nat_of] at hrow
      rw [← hlen1] at hfit hlen
      simp only [List.length_cons, pow_succ] at hfit hlen
      simp only
      rw [ih res1 (fun d hd => hds d (List.mem_cons_of_mem _ hd))
        (fun d hd => hmem d (List.mem_cons_of_mem _ hd)) _ (by omega)]
      have hx := hmem x (List.mem_cons_self _ _)
      generalize nat_of ds * nat_of right = Q at *
      generalize l * nat_of right = p at *
      generalize BASE ^ res1.length = P at *
      generalize nat_of res1 = X1 at *
      generalize nat_of res = X at *
      unfold BASE at *
      omega

/-- Source `operator*=` on typed operands: every access to `result.data_` is in range. -/
theorem mul_assign_checked_eq (x right : big_integer) (hx : typed x) (hr : typed right) :
    mul_assign_checked x right = some (mul_assign x right) := by
  unfold mul_assign_checked mul_assign
  simp only
  rw [mul_rows_checked_eq right.data_ x.data_ _ hx hr (mem_resize_default _) _
    (by rw [length_resize])]
  rw [nat_of_resize_default, length_resize, Nat.add_zero, pow_add]
  have h1 := nat_of_lt x.data_ hx
  have h2 := nat_of_lt right.data_ hr
  exact Nat.mul_lt_mul'' h1 h2

/-- Source `operator<<=` on a typed operand: every digit access is in range. -/
theorem shl_assign_checked_eq (x : big_integer) (k : Nat) (hx : typed x) :
    shl_assign_checked x k = some (shl_assign x k) := by
  unfold shl_assign_checked shl_assign
  split
  · rfl
  · simp only [shift_digits_eq]
    apply mul_assign_checked_eq
    · intro e he
      rcases List.mem_append.1 he with h | h
      · rw [List.eq_of_mem_replicate h]; exact BASE_pos
      · exact hx e h
    · intro e he
      have : e = (1 <<< (k % BASE_POWER2)) % BASE := by
        simpa [of_unsigned_long_long] using he
      rw [this]
      exact Nat.mod_lt _ BASE_pos

/-- The loop of `div_short_` reads and writes `data_[i]` below the size only. -/
theorem div_short_loop_checked_eq (right : Nat) (i : Nat) (ds : List Nat) (carry : Nat)
    (hi : i ≤ ds.length) :
    div_short_loop_checked right i ds carry = div_short_loop right i ds carry := by
  induction i generalizing ds carry with
  | zero => rfl
  | succ i ih =>
    unfold div_short_loop_checked div_short_loop
    have hget : ds.get? i = some (ds.getD i 0) := by
      rw [List.get?_eq_getElem?, List.getElem?_eq_getElem (by omega),
        List.getD_eq_getElem _ _ (by omega)]
    rw [hget]
    simp only
    cases div_mod_ carry (ds.getD i 0) right with
    | none => rfl
    | some qr =>
        obtain ⟨q, r⟩ := qr
        simp only
        exact ih _ _ (by simp only [List.length_set]; omega)

theorem div_short__checked_eq (x : big_integer) (right : Nat) :
    div_short__checked x right = div_short_ x right := by
  unfold div_short__checked div_short_
  rw [div_short_loop_checked_eq right _ _ _ (le_refl _)]

/-- The correction loop keeps `dq` typed and non-empty. -/
theorem correct_loop_typed (u d : big_integer) (k qt : Nat) :
    ∀ dq, typed dq → dq.data_ ≠ [] →
      typed (correct_loop u d k qt dq).2 ∧ (correct_loop u d k qt dq).2.data_ ≠ [] := by
  induction qt with
  | zero => intro dq h1 h2; exact ⟨h1, h2⟩
  | succ qt ih =>
    intro dq h1 h2
    unfold correct_loop
    split
    · have hc := canonical_sub_assign dq d h2
      exact ih _ hc.1 hc.2.1
    · exact ⟨h1, h2⟩

/-- The correction loop of `operator/=`: every digit access is in range. -/
theorem correct_loop_checked_eq (u d : big_integer) (k qt : Nat) :
    ∀ dq, typed dq → dq.data_ ≠ [] →
      correct_loop_checked u d k qt dq = some (correct_loop u d k qt dq) := by
  induction qt with
  | zero => intro dq _ _; rfl
  | succ qt ih =>
    intro dq h1 h2
    unfold correct_loop_checked correct_loop
    rw [shl_assign_checked_eq dq _ h1]
    simp only [op_shl]
    split
    · have hc := canonical_sub_assign dq d h2
      exact ih _ hc.1 hc.2.1
    · rfl

/-- The main loop of `operator/=`: the accesses `d.data_[m - 1]` and `data_[k]` and every
access of the operators it calls are in range. -/
theorem div_loop_checked_eq (d : big_integer) (hd : typed d) (hdne : d.data_ ≠ []) (k : Nat) :
    ∀ x u, k ≤ x.data_.length → typed u → u.data_ ≠ [] →
      div_loop_checked d d.data_.length k x u = div_loop d d.data_.length k x u := by
  have hm : d.data_.length ≠ 0 := fun h => hdne (List.length_eq_zero.1 h)
  have hget : d.data_.get? (d.data_.length - 1) = some (d.data_.getD (d.data_.length - 1) 0) := by
    rw [List.get?_eq_getElem?, List.getElem?_eq_getElem (by omega),
      List.getD_eq_getElem _ _ (by omega)]
  induction k with
  | zero => intro x u _ _ _; rfl
  | succ k ih =>
    intro x u hk hu hune
    unfold div_loop_checked div_loop
    rw [if_neg hm, hget]
    simp only
    by_cases htop : d.data_.getD (d.data_.length - 1) 0 = 0
    · have hn : soft_div (u.data_.getD (k + d.data_.length) 0)
          (u.data_.getD (k + d.data_.length - 1) 0)
          (d.data_.getD (d.data_.length - 1) 0) = none := by
        unfold soft_div
        rw [if_pos htop]
      rw [hn]
    · obtain ⟨qt, hqt, hqlt⟩ := soft_div_some (u.data_.getD (k + d.data_.length) 0)
        (u.data_.getD (k + d.data_.length - 1) 0) _ htop (getD_lt _ _ hu)
      rw [hqt]
      simp only
      have hF : typed (of_unsigned_long qt) := typed_of_single qt hqlt
      rw [mul_assign_checked_eq d _ hd hF]
      simp only
      have hc0 := canonical_mul_assign d (of_unsigned_long qt) hdne
      rw [correct_loop_checked_eq u d k qt _ hc0.1 hc0.2.1]
      simp only
      rw [if_pos (by omega)]
      obtain ⟨t1, t2⟩ := correct_loop_typed u d k qt _ hc0.1 hc0.2.1
      simp only [op_mul] at t1 t2 ⊢
      rw [shl_assign_checked_eq _ _ t1]
      simp only [op_shl]
      have hcu := canonical_sub_assign u (shl_assign
        (correct_loop u d k qt (mul_assign d (of_unsigned_long qt))).2
        ((BASE_POWER2 * k) % BASE)) hune
      exact ih _ _ (by simp only [List.length_set]; omega) hcu.1 hcu.2.1

/-- Source `operator/=` on canonical operands: every unguarded digit access is in range and the
size `n - m` does not wrap, so the checked division returns what the division returns. -/
theorem div_assign_checked_eq (x right : big_integer) (hx : canonical x) (hr : canonical right) :
    div_assign_checked x right = div_assign x right := by
  unfold div_assign_checked div_assign
  rcases Bool.eq_false_or_eq_true (op_ne right ZERO) with hne | hne
  swap
  · simp only [hne, Bool.not_false, if_true]
  simp only [hne, Bool.not_true, Bool.false_eq_true, if_false]
  have hnz := (op_ne_ZERO right hr).1 hne
  split
  · rfl
  · rename_i hlt
    have hge : nat_of right.data_ ≤ nat_of x.data_ := by
      have h1 := op_lt_iff (abs_ x) (abs_ right) (canonical_abs_ x hx) (canonical_abs_ right hr)
      rw [val_abs_, val_abs_] at h1
      have h2 : ¬ ((nat_of x.data_ : Int) < (nat_of right.data_ : Int)) := fun h3 => hlt (h1.2 h3)
      omega
    split
    · rename_i hlen
      have hget : right.data_.get? 0 = some (right.data_.getD 0 0) := by
        rw [List.get?_eq_getElem?, List.getElem?_eq_getElem (by omega),
          List.getD_eq_getElem _ _ (by omega)]
      rw [hget]
      simp only
      rw [div_short__checked_eq]
    · have hlast : right.data_.getLast? = some (right.data_.getLastD 0) := by
        rw [List.getLastD_eq_getLast?, List.getLast?_eq_getLast _ hr.2.1]
        rfl
      rw [hlast]
      simp only
      obtain ⟨hf0, hflt⟩ := norm_factor_bounds (right.data_.getLastD 0) (getLastD_lt _ hr.1)
      generalize (if right.data_.getLastD 0 = MAX_DIGIT then 1
        else MAX_DIGIT / (right.data_.getLastD 0 + 1)) = f at *
      have hF : typed (of_unsigned_long f) := typed_of_single f hflt
      rw [mul_assign_checked_eq x _ hx.1 hF, mul_assign_checked_eq right _ hr.1 hF]
      simp only
      have hu0 := canonical_mul_assign x (of_unsigned_long f) hx.2.1
      have hd0 := canonical_mul_assign right (of_unsigned_long f) hr.2.1
      have hnu := nat_of_mul_assign x (of_unsigned_long f) hx.1 hF
      have hnd := nat_of_mul_assign right (of_unsigned_long f) hr.1 hF
      have hFv : nat_of (of_unsigned_long f).data_ = f := by simp [of_unsigned_long, nat_of]
      rw [hFv] at hnu hnd
      have hdnz : nat_of (mul_assign right (of_unsigned_long f)).data_ ≠ 0 := by
        rw [hnd]; exact Nat.mul_ne_zero hnz (by omega)
      have hlen := length_le_of_nat_of_le _ _ hu0 hd0 hdnz (by
        rw [hnu, hnd]; exact Nat.mul_le_mul_right f hge)
      simp only [op_mul, data_set_sign_, List.length_append, List.length_singleton]
      rw [if_neg (by omega)]
      have hut : typed (set_sign_ (big_integer.mk ((mul_assign x (of_unsigned_long f)).data_ ++ [0])
          (mul_assign x (of_unsigned_long f)).sign_) false) := by
        intro e he
        rcases List.mem_append.1 he with h4 | h4
        · exact hu0.1 e h4
        · have : e = 0 := by simpa using h4
          rw [this]; exact BASE_pos
      have hck := div_loop_checked_eq (set_sign_ (mul_assign right (of_unsigned_long f)) false)
        hd0.1 hd0.2.1
        ((mul_assign x (of_unsigned_long f)).data_.length + 1 -
          (mul_assign right (of_unsigned_long f)).data_.length)
        (set_sign_ (big_integer.mk (resize x.data_
          ((mul_assign x (of_unsigned_long f)).data_.length + 1 -
            (mul_assign right (of_unsigned_long f)).data_.length)) x.sign_)
          (xor (sign x) (sign right)))
        (set_sign_ (big_integer.mk ((mul_assign x (of_unsigned_long f)).data_ ++ [0])
          (mul_assign x (of_unsigned_long f)).sign_) false)
        (by simp only [data_set_sign_, length_resize]; exact le_refl _)
        hut (by simp [data_set_sign_])
      simp only [data_set_sign_] at hck
      rw [hck]

/-- Source `operator%=` on canonical operands: every unguarded digit access is in range. -/
theorem mod_assign_checked_eq (x right : big_integer) (hx : canonical x) (hr : canonical right) :
    mod_assign_checked x right = mod_assign x right := by
  unfold mod_assign_checked mod_assign op_div
  rw [div_assign_checked_eq x right hx hr]
  cases hq : div_assign x right with
  | none => rfl
  | some q =>
      simp only
      rcases Nat.eq_zero_or_pos (nat_of right.data_) with h0 | h0
      · have hne : op_ne right ZERO = false := by
          rcases Bool.eq_false_or_eq_true (op_ne right ZERO) with h | h
          · exact absurd h0 ((op_ne_ZERO right hr).1 h)
          · exact h
        unfold div_assign at hq
        simp [hne] at hq
      · obtain ⟨q', h1, h2⟩ := div_assign_some x right hx hr (by omega)
        rw [hq] at h1
        cases h1
        rw [mul_assign_checked_eq q right h2.1 hr.1]
        rfl

/-- C21: for canonical `x` and `y`, `x / y` and `x % y` produce no value exactly when `y` is
zero; and the division and the remainder with every unguarded digit access checked
(`right.data_[0]`, `right.data_.back()`, `d.data_[m - 1]`, `data_[k]`, the accesses of
`div_short_` and of the multiplications) and the assertions of `operator/=`, `soft_div` and
`div_short_` return the same value, so for a non-zero `y` no assertion fails and no digit
access is out of range. -/
theorem div_mod_fail_iff_zero (x y : big_integer) (hx : canonical x) (hy : canonical y) :
    (op_div x y = none ↔ val y = 0) ∧ (op_mod x y = none ↔ val y = 0) ∧
    (val y ≠ 0 → ∃ q r, op_div x y = some q ∧ op_mod x y = some r ∧
      div_assign_checked x y = some q ∧ mod_assign_checked x y = some r) := by
  have hv : val y = 0 ↔ nat_of y.data_ = 0 := by
    unfold val
    split <;> omega
  have hzero : nat_of y.data_ = 0 → div_assign x y = none := by
    intro h0
    have hne : op_ne y ZERO = false := by
      rcases Bool.eq_false_or_eq_true (op_ne y ZERO) with h | h
      · exact absurd h0 ((op_ne_ZERO y hy).1 h)
      · exact h
    unfold div_assign
    simp [hne]
  refine ⟨?_, ?_, ?_⟩
  · rw [hv]
    unfold op_div
    constructor
    · intro hn
      by_contra h0
      obtain ⟨q, h1, _⟩ := div_assign_some x y hx hy h0
      rw [hn] at h1
      cases h1
    · exact hzero
  · rw [hv]
    unfold op_mod
    constructor
    · intro hn
      by_contra h0
      obtain ⟨q, _, _, h3⟩ := mod_assign_some x y hx hy h0
      rw [hn] at h3
      cases h3
    · intro h0
      unfold mod_assign op_div
      rw [hzero h0]
  · intro hne
    have h0 : nat_of y.data_ ≠ 0 := fun h => hne (hv.2 h)
    obtain ⟨q, h1, _, h3⟩ := mod_assign_some x y hx hy h0
    refine ⟨q, _, h1, h3, ?_, ?_⟩
    · rw [div_assign_checked_eq x y hx hy, h1]
    · rw [mod_assign_checked_eq x y hx hy, h3]

theorem div_mod_fail_iff_zero_witness :
    canonical ⟨[0, 3], true⟩ ∧ canonical ⟨[0, 2], false⟩ ∧
    (op_div ⟨[0, 3], true⟩ ⟨[0, 2], false⟩ = none ↔ val ⟨[0, 2], false⟩ = 0) ∧
    (val ⟨[0, 2], false⟩ ≠ 0 → ∃ q r, op_div ⟨[0, 3], true⟩ ⟨[0, 2], false⟩ = some q ∧
      op_mod ⟨[0, 3], true⟩ ⟨[0, 2], false⟩ = some r ∧
      div_assign_checked ⟨[0, 3], true⟩ ⟨[0, 2], false⟩ = some q ∧
      mod_assign_checked ⟨[0, 3], true⟩ ⟨[0, 2], false⟩ = some r) :=
  ⟨by decide, by decide,
    (div_mod_fail_iff_zero ⟨[0, 3], true⟩ ⟨[0, 2], false⟩ (by decide) (by decide)).1,
    (div_mod_fail_iff_zero ⟨[0, 3], true⟩ ⟨[0, 2], false⟩ (by decide) (by decide)).2.2⟩

/-! ## Depth of the mutual recursion of `operator+=` and `operator-=` -/

/-- Claim C31: `operator+=` and `operator-=` return for all operands, with mutual recursion of depth
at most one. A call that may not delegate at all (depth bound 1) returns exactly when it is in
the same-sign digit-wise branch; with any bound that allows one delegation the call returns, and
its result is the same-sign branch of the other operator applied to the negated operand (or to
the object with its sign flipped, which is flipped back afterwards). In both delegations the
operand handed over has a clear sign, so the delegated call cannot delegate again. -/
theorem add_sub_recursion_depth (x right : big_integer) (depth : Nat) :
    add_assign_depth (depth + 2) x right =
        some (if !sign x && sign right then sub_same x (op_neg right)
          else if sign x && !sign right then switch_sign_ (sub_same (switch_sign_ x) right)
          else add_same x right) ∧
      sub_assign_depth (depth + 2) x right =
        some (if !sign x && sign right then add_same x (op_neg right)
          else if sign x && !sign right then switch_sign_ (add_same (switch_sign_ x) right)
          else sub_same x right) ∧
      add_assign_depth 1 x right =
        (if (!sign x && sign right) || (sign x && !sign right) then none
          else some (add_same x right)) ∧
      sub_assign_depth 1 x right =
        (if (!sign x && sign right) || (sign x && !sign right) then none
          else some (sub_same x right)) ∧
      (if !sign x && sign right then
          sign (op_neg right) = false ∧
          add_assign_depth (depth + 2) x right = sub_assign_depth 1 x (op_neg right) ∧
          sub_assign_depth (depth + 2) x right = add_assign_depth 1 x (op_neg right)
        else if sign x && !sign right then
          sign (switch_sign_ x) = false ∧
          add_assign_depth (depth + 2) x right =
            (sub_assign_depth 1 (switch_sign_ x) right).map switch_sign_ ∧
          sub_assign_depth (depth + 2) x right =
            (add_assign_depth 1 (switch_sign_ x) right).map switch_sign_
        else
          add_assign_depth (depth + 2) x right = add_assign_depth 1 x right ∧
          sub_assign_depth (depth + 2) x right = sub_assign_depth 1 x right) := by
  simp only [add_assign_depth, sub_assign_depth, sign]
  rcases Bool.eq_false_or_eq_true x.sign_ with hsx | hsx <;>
    rcases Bool.eq_false_or_eq_true right.sign_ with hsr | hsr
  · simp [hsx, hsr]
  · simp [hsx, hsr, sign_switch_sign_of_neg x hsx]
  · simp [hsx, hsr, sign_op_neg_of_neg right hsr]
  · simp [hsx, hsr]

/-! ## Index range and carries of `operator*=` -/

theorem getD_zero_of_lt_pow (ds : List Nat) (k : Nat) (hds : ∀ d ∈ ds, d < BASE)
    (h : nat_of ds < BASE ^ k) (j : Nat) (hj : k ≤ j) : ds.getD j 0 = 0 := by
  have h1 : nat_of (ds.drop k) = 0 := by
    rw [nat_of_drop_div ds k hds]; exact Nat.div_eq_of_lt h
  have h2 := nat_of_eq_zero _ h1
  by_cases hlt : j < ds.length
  · have h3 : ds.getD j 0 = (ds.drop k).getD (j - k) 0 := by
      simp only [List.getD_eq_getElem?_getD, List.getElem?_drop]
      congr 2; omega
    rw [h3]
    have h4 : j - k < (ds.drop k).length := by rw [List.length_drop]; omega
    rw [List.getD_eq_getElem _ _ h4]
    exact h2 _ (List.getElem_mem _)
  · rw [List.getD_eq_default _ _ (by omega)]

/-- The high word of a digit product plus the two carry-outs fits in 64 bits. -/
theorem upper_no_overflow (l r c x : Nat) (hl : l < BASE) (hr : r < BASE) (hc : c < BASE)
    (hx : x < BASE) :
    mul_overflow_ l r + b2n (add_overflow_ ((l * r) % BASE) c false) +
      b2n (add_overflow_ (((l * r) % BASE + c) % BASE) x false) < BASE := by
  have h1 : l * r ≤ (BASE - 1) * (BASE - 1) :=
    Nat.mul_le_mul (Nat.le_sub_one_of_lt hl) (Nat.le_sub_one_of_lt hr)
  have h2 := Nat.div_add_mod (l * r) BASE
  have h3 : (l * r) % BASE < BASE := Nat.mod_lt _ BASE_pos
  unfold mul_overflow_ add_overflow_ b2n MAX_DIGIT
  generalize l * r = p at *
  generalize p / BASE = u at *
  generalize p % BASE = w at *
  simp only [Bool.false_and, Bool.or_false, decide_eq_true_eq]
  unfold BASE at *
  simp only [Nat.reduceSub, Nat.reduceMul] at h1
  split <;> split <;> omega

/-- The carry that iteration `j = m` leaves, on a slot that holds zero. -/
theorem last_carry_zero (l c : Nat) (hc : c < BASE) :
    ((mul_overflow_ l 0 + b2n (add_overflow_ ((l * 0) % BASE) c false)) % BASE +
      b2n (add_overflow_ (((l * 0) % BASE + c) % BASE) 0 false)) % BASE = 0 ∧
    (((l * 0) % BASE + c) % BASE + 0) % BASE = c := by
  unfold mul_overflow_ add_overflow_ b2n MAX_DIGIT
  simp only [Nat.mul_zero, Nat.zero_mod, Nat.zero_div, Nat.zero_add, Nat.add_zero,
    Bool.false_and, Bool.or_false, decide_eq_true_eq, Nat.mod_mod]
  unfold BASE at *
  rw [Nat.mod_eq_of_lt hc]
  constructor
  · split <;> split <;> omega
  · trivial

theorem mul_row_last (l : Nat) (right res : List Nat) (c : Nat) (hc : c < BASE) :
    mul_row_checked l right (0 :: res) right.length c = some (c :: res) := by
  have hg : right.getD right.length 0 = 0 := List.getD_eq_default _ _ (Nat.le_refl _)
  have h0 := last_carry_zero l c hc
  have hnext : mul_row_checked l right res (right.length + 1) 0 = some res := by
    cases res with
    | nil => unfold mul_row_checked; rw [if_neg (by omega)]
    | cons y ys => unfold mul_row_checked; rw [if_neg (by omega)]
  unfold mul_row_checked
  by_cases hc0 : c = 0
  · rw [if_neg (by omega), hc0]
  · rw [if_pos (by omega)]
    simp only [hg, h0.1, h0.2, hnext]

theorem mul_row_steps_le (l : Nat) (right res : List Nat) (j c : Nat) (hc : c < BASE)
    (hj : j ≤ right.length) (hz : res.getD (right.length - j) 0 = 0) :
    mul_row_steps l right res j c ≤ right.length + 1 - j := by
  induction res generalizing j c with
  | nil => simp [mul_row_steps]
  | cons x res ih =>
    unfold mul_row_steps
    split
    · rename_i hcond
      by_cases hjm : j < right.length
      · have hz1 : res.getD (right.length - (j + 1)) 0 = 0 := by
          have e : right.length - j = (right.length - (j + 1)) + 1 := by omega
          rw [e, List.getD_cons_succ] at hz
          exact hz
        simp only
        refine le_trans (Nat.add_le_add_left
          (ih (j + 1) _ (Nat.mod_lt _ BASE_pos) (by omega) hz1) 1) (by omega)
      · have hje : j = right.length := by omega
        subst hje
        have hx : x = 0 := by simpa using hz
        subst hx
        have hg : right.getD right.length 0 = 0 := List.getD_eq_default _ _ (Nat.le_refl _)
        have h0 := last_carry_zero l c hc
        have hnext : mul_row_steps l right res (right.length + 1) 0 = 0 := by
          cases res with
          | nil => rfl
          | cons y ys => unfold mul_row_steps; rw [if_neg (by omega)]
        simp only [hg, h0.1, hnext]
        omega
    · omega

theorem mul_rows_nil (right ds : List Nat) : mul_rows right ds [] = [] := by
  cases ds with
  | nil => rfl
  | cons l ds => simp [mul_rows, mul_row]

theorem mul_rows_append (right ds1 ds2 res : List Nat) :
    mul_rows right (ds1 ++ ds2) res =
      (mul_rows right ds1 res).take ds1.length ++
        mul_rows right ds2 ((mul_rows right ds1 res).drop ds1.length) := by
  induction ds1 generalizing res with
  | nil => simp [mul_rows]
  | cons l ds1 ih =>
    simp only [List.cons_append, mul_rows]
    cases hrow : mul_row l right res 0 0 with
    | nil => simp [mul_rows_nil]
    | cons y res1 =>
      simp only [List.length_cons, List.take_succ_cons, List.drop_succ_cons, List.cons_append]
      exact congrArg (List.cons y) (ih res1)

theorem mul_rows_single (right res : List Nat) (l : Nat) :
    mul_rows right [l] res = mul_row l right res 0 0 := by
  simp only [mul_rows]
  cases mul_row l right res 0 0 with
  | nil => rfl
  | cons y res1 => rfl

theorem take_succ_getD (ds : List Nat) (i : Nat) (hi : i < ds.length) :
    ds.take (i + 1) = ds.take i ++ [ds.getD i 0] := by
  rw [List.take_succ, List.getD_eq_getElem?_getD, List.getElem?_eq_getElem hi]
  rfl

theorem getD_drop (ds : List Nat) (i k : Nat) : (ds.drop i).getD k 0 = ds.getD (i + k) 0 := by
  simp only [List.getD_eq_getElem?_getD, List.getElem?_drop]

/-- The state of the result buffer of `operator*=` when iteration `i` of the outer loop
starts: its value is the product of the first `i` digits with `right`. -/
theorem mul_rows_prefix (right ds : List Nat) (i k : Nat) (hds : ∀ d ∈ ds, d < BASE)
    (hr : ∀ d ∈ right, d < BASE) (hi : i ≤ ds.length) (hk : ds.length + right.length ≤ k) :
    (∀ e ∈ mul_rows right (ds.take i) (resize mk_default.data_ k), e < BASE) ∧
      nat_of (mul_rows right (ds.take i) (resize mk_default.data_ k)) < BASE ^ (i + right.length) := by
  have htk : ∀ d ∈ ds.take i, d < BASE := fun d hd => hds d (List.mem_of_mem_take hd)
  have h1 := nat_of_take_lt ds i hds
  have h2 := nat_of_lt right hr
  have h3 : nat_of (ds.take i) * nat_of right < BASE ^ (i + right.length) := by
    rw [pow_add]; exact Nat.mul_lt_mul'' h1 h2
  have h4 : BASE ^ (i + right.length) ≤ BASE ^ k := Nat.pow_le_pow_right BASE_pos (by omega)
  refine ⟨mem_mul_rows _ _ _ (mem_resize_default k), ?_⟩
  rw [nat_of_mul_rows right (ds.take i) _ htk hr (mem_resize_default k)
    (by rw [nat_of_resize_default, length_resize]; omega)]
  rw [nat_of_resize_default]
  omega

/-- Claim C32: in `operator*=` on operands with `n` and `m` digits the result buffer has `n + m`
digits and no access `result.data_[i + j]` falls outside it (the run with checked accesses
returns the result of the unchecked one). When iteration `i` of the outer loop starts, every
slot from index `i + m` on still holds zero; the inner loop then performs at most `m + 1`
iterations, so its indices `i + j` stay below `n + m`, and the buffer after it is the buffer
before with the row applied from index `i` on. Iteration `j = m` on a zero slot stores the carry
and ends the loop with carry zero, and the high word plus the two carry-outs stays below
`2^64`. -/
theorem mul_indices_in_range (x right : big_integer) (hx : typed x) (hr : typed right) :
    (resize mk_default.data_ (x.data_.length + right.data_.length)).length =
        x.data_.length + right.data_.length ∧
      mul_assign_checked x right = some (mul_assign x right) ∧
      (∀ i buf, i < x.data_.length →
        buf = mul_rows right.data_ (x.data_.take i)
          (resize mk_default.data_ (x.data_.length + right.data_.length)) →
        buf.length = x.data_.length + right.data_.length ∧
        (∀ k, i + right.data_.length ≤ k → buf.getD k 0 = 0) ∧
        mul_row_steps (x.data_.getD i 0) right.data_ (buf.drop i) 0 0 ≤
          right.data_.length + 1 ∧
        i + mul_row_steps (x.data_.getD i 0) right.data_ (buf.drop i) 0 0 ≤
          x.data_.length + right.data_.length ∧
        mul_rows right.data_ (x.data_.take (i + 1))
            (resize mk_default.data_ (x.data_.length + right.data_.length)) =
          buf.take i ++ mul_row (x.data_.getD i 0) right.data_ (buf.drop i) 0 0) ∧
      (∀ l c res, l < BASE → c < BASE →
        mul_row_checked l right.data_ (0 :: res) right.data_.length c = some (c :: res)) ∧
      (∀ l r c s, l < BASE → r < BASE → c < BASE → s < BASE →
        mul_overflow_ l r + b2n (add_overflow_ ((l * r) % BASE) c false) +
          b2n (add_overflow_ (((l * r) % BASE + c) % BASE) s false) < BASE) := by
  refine ⟨length_resize _ _, mul_assign_checked_eq x right hx hr, ?_, ?_, ?_⟩
  · intro i buf hi hbuf
    have hp := mul_rows_prefix right.data_ x.data_ i (x.data_.length + right.data_.length)
      hx hr (by omega) (Nat.le_refl _)
    rw [← hbuf] at hp
    have hlen : buf.length = x.data_.length + right.data_.length := by
      rw [hbuf, length_mul_rows, length_resize]
    have hzero : ∀ k, i + right.data_.length ≤ k → buf.getD k 0 = 0 :=
      fun k hk => getD_zero_of_lt_pow buf _ hp.1 hp.2 k hk
    have hsteps := mul_row_steps_le (x.data_.getD i 0) right.data_ (buf.drop i) 0 0 BASE_pos
      (Nat.zero_le _) (by rw [Nat.sub_zero, getD_drop]; exact hzero _ (Nat.le_refl _))
    rw [Nat.sub_zero] at hsteps
    refine ⟨hlen, hzero, hsteps, by omega, ?_⟩
    rw [take_succ_getD x.data_ i hi, mul_rows_append, ← hbuf, mul_rows_single,
      List.length_take, Nat.min_eq_left (by omega)]
  · intro l c res _ hc
    exact mul_row_last l right.data_ res c hc
  · intro l r c s hl hr hc hs
    exact upper_no_overflow l r c s hl hr hc hs

theorem mul_indices_in_range_witness :
    typed ⟨[3, 18446744073709551615], true⟩ ∧ typed ⟨[18446744073709551615], false⟩ ∧
      mul_assign_checked ⟨[3, 18446744073709551615], true⟩ ⟨[18446744073709551615], false⟩ =
        some (mul_assign ⟨[3, 18446744073709551615], true⟩ ⟨[18446744073709551615], false⟩) :=
  ⟨by unfold typed; decide, by unfold typed; decide,
    (mul_indices_in_range ⟨[3, 18446744073709551615], true⟩ ⟨[18446744073709551615], false⟩
      (by unfold typed; decide) (by unfold typed; decide)).2.1⟩

end bigint_optimized

namespace bigint_simple

/-- Claim C14, evaluated at `a = 2^64` (two digits): `operator&` returns its digit vector
without removing most-significant zero digits, so `a ^ a` is the two-digit sequence
`[0, 0]`; `operator==` decides by the digit counts first and reports it different from
`0`. -/
theorem xor_self_not_trimmed :
    canonical ⟨[0, 1], false⟩ ∧ val ⟨[0, 1], false⟩ = 18446744073709551616 ∧
    op_xor ⟨[0, 1], false⟩ ⟨[0, 1], false⟩ = some ⟨[0, 0], false⟩ ∧
    op_eq ⟨[0, 0], false⟩ (of_int 0) = false := by
  decide

/-- Claim C20, evaluated at `x = -5`: `operator*=` calls `set_sign` while the result still
has `n + m` digits, where the comparison with `0` inside `set_sign` decides by the digit
counts, so the zero product gets the sign flag `true`; after the trimming loop the product
is the digit `0` with a negative sign, `sign()` is true and `x * 0 == 0` is false. -/
theorem mul_zero_negative_sign :
    canonical ⟨[5], true⟩ ∧ val ⟨[5], true⟩ = -5 ∧ canonical (of_int 0) ∧
    op_mul ⟨[5], true⟩ (of_int 0) = ⟨[0], true⟩ ∧
    op_mul (of_int 0) ⟨[5], true⟩ = ⟨[0], true⟩ ∧
    sign (op_mul ⟨[5], true⟩ (of_int 0)) = true ∧
    op_eq (op_mul ⟨[5], true⟩ (of_int 0)) (of_int 0) = false ∧
    op_eq (op_mul (of_int 0) ⟨[5], true⟩) (of_int 0) = false := by
  decide

open bigint_optimized (BASE nat_of resize pop_zeros add_loop sub_loop mul_rows)
/-! ## The simple implementation: comparison and signs -/

theorem of_int_zero : of_int 0 = ⟨[0], false⟩ := by decide

theorem of_int_one : of_int 1 = ⟨[1], false⟩ := by decide

theorem lt_loop_eq (x y : big_integer) (i : Nat) :
    lt_loop x y i = bigint_optimized.lt_loop ⟨x.data__, x.sign__⟩ ⟨y.data__, y.sign__⟩ i := by
  induction i with
  | zero => rfl
  | succ i ih =>
    unfold lt_loop bigint_optimized.lt_loop
    rw [ih]
    rfl

theorem length_pos_of_ne_nil (ds : List Nat) (h : ds ≠ []) : 1 ≤ ds.length := by
  have : ds.length ≠ 0 := fun h0 => h (List.length_eq_zero.1 h0)
  omega

/-- A canonical digit sequence that is longer than another typed one denotes more. -/
theorem nat_of_lt_of_length_lt (xs ys : List Nat) (hx : ∀ d ∈ xs, d < BASE)
    (hyne : ys ≠ []) (hy : ys.length = 1 ∨ ys.getLast? ≠ some 0) (hxne : xs ≠ [])
    (hlen : xs.length < ys.length) : nat_of xs < nat_of ys := by
  have h1 := bigint_optimized.nat_of_lt xs hx
  have hx1 := length_pos_of_ne_nil xs hxne
  have h2 : ys.getLast? ≠ some 0 := by
    rcases hy with h | h
    · omega
    · exact h
  have h3 := bigint_optimized.pow_le_nat_of ys hyne h2
  have h4 : BASE ^ xs.length ≤ BASE ^ (ys.length - 1) :=
    Nat.pow_le_pow_right bigint_optimized.BASE_pos (by omega)
  omega

/-- Source `operator<` on canonical non-negative operands compares the values. -/
theorem op_lt_nonneg (x y : big_integer) (hx : canonical x) (hy : canonical y)
    (hsx : x.sign__ = false) (hsy : y.sign__ = false) :
    op_lt x y = true ↔ nat_of x.data__ < nat_of y.data__ := by
  unfold op_lt sign
  simp only [hsx, hsy, Bool.false_and, Bool.not_false, Bool.and_false, Bool.false_eq_true, if_false,
    Bool.and_self]
  by_cases hlen : x.data__.length = y.data__.length
  · have hne : (x.data__.length != y.data__.length) = false := by simp [hlen]
    simp only [hne, Bool.false_eq_true, if_false]
    rw [lt_loop_eq]
    have h := bigint_optimized.lt_loop_iff ⟨x.data__, x.sign__⟩ ⟨y.data__, y.sign__⟩ hx.1 hy.1
      x.data__.length
    simp only [hsx, Bool.false_eq_true, if_false] at h ⊢
    rw [h, List.take_length, hlen, List.take_length]
  · have hne : (x.data__.length != y.data__.length) = true := by simp [hlen]
    simp only [hne, if_true, decide_eq_true_eq]
    constructor
    · intro h
      exact nat_of_lt_of_length_lt _ _ hx.1 hy.2.1 hy.2.2.1 hx.2.1 h
    · intro h
      by_contra hc
      have h2 := nat_of_lt_of_length_lt _ _ hy.1 hx.2.1 hx.2.2.1 hy.2.1 (by omega)
      omega

/-- The test `*this != 0` of `set_sign` on a canonical value. -/
theorem op_ne_zero (x : big_integer) (hx : canonical x) :
    op_ne x (of_int 0) = true ↔ nat_of x.data__ ≠ 0 := by
  have hz : canonical (⟨[0], false⟩ : big_integer) := by decide
  rw [of_int_zero]
  rcases Bool.eq_false_or_eq_true x.sign__ with hs | hs
  · have hnz : nat_of x.data__ ≠ 0 := by
      intro h0
      have := hx.2.2.2 h0
      rw [hs] at this; cases this
    simp only [op_ne, op_lt, sign, hs, Bool.not_false, Bool.and_self, if_true, Bool.true_or]
    exact ⟨fun _ => hnz, fun _ => trivial⟩
  · unfold op_ne
    have h1 := op_lt_nonneg x ⟨[0], false⟩ hx hz hs rfl
    have h2 := op_lt_nonneg ⟨[0], false⟩ x hz hx rfl hs
    simp only [nat_of, Nat.mul_zero, Nat.add_zero] at h1 h2
    rw [Bool.or_eq_true, h1, h2]
    omega

/-- The test `*this != 0` of `set_sign` on a non-negative value that is not zero, trimmed or
not. -/
theorem op_ne_zero_of_pos (x : big_integer) (hs : x.sign__ = false)
    (hnz : nat_of x.data__ ≠ 0) : op_ne x (of_int 0) = true := by
  rw [of_int_zero]
  have hne : x.data__ ≠ [] := by
    intro h; rw [h] at hnz; exact hnz rfl
  have hl := length_pos_of_ne_nil _ hne
  unfold op_ne
  rw [Bool.or_eq_true]
  right
  unfold op_lt sign
  simp only [hs, Bool.false_and, Bool.not_false, Bool.and_false, Bool.false_eq_true, if_false,
    Bool.and_self, List.length_singleton]
  by_cases hlen : x.data__.length = 1
  · have hne1 : ((1 : Nat) != x.data__.length) = false := by simp [hlen]
    simp only [hne1, Bool.false_eq_true, if_false]
    rcases hxd : x.data__ with _ | ⟨d, _ | ⟨e, es⟩⟩
    · exact absurd hxd hne
    · rw [hxd] at hnz
      simp only [nat_of, Nat.mul_zero, Nat.add_zero] at hnz
      have hd : (0 != d) = true := by simp; omega
      simp only [lt_loop, sign, hxd, List.getD_cons_zero, hd, if_true, Bool.false_eq_true,
        if_false, decide_eq_true_eq]
      omega
    · rw [hxd] at hlen; simp at hlen
  · have hne1 : ((1 : Nat) != x.data__.length) = true := by
      simp; omega
    simp only [hne1, if_true, decide_eq_true_eq]
    omega

theorem data_set_sign (x : big_integer) (s : Bool) : (set_sign x s).data__ = x.data__ := by
  unfold set_sign
  split <;> rfl

theorem set_sign_of_ne (x : big_integer) (s : Bool) (h : op_ne x (of_int 0) = true) :
    set_sign x s = ⟨x.data__, s⟩ := by
  unfold set_sign
  rw [if_pos h]

theorem set_sign_of_eq (x : big_integer) (s : Bool) (h : op_ne x (of_int 0) = false) :
    set_sign x s = x := by
  unfold set_sign
  rw [if_neg (by rw [h]; simp)]

theorem set_sign_same (x : big_integer) : set_sign x x.sign__ = x := by
  unfold set_sign
  split <;> rfl

/-- Source `set_sign` on a canonical value: the digits stay, the result is canonical and has
the new sign unless the value is zero. -/
theorem canonical_set_sign (x : big_integer) (s : Bool) (hx : canonical x) :
    canonical (set_sign x s) ∧ nat_of (set_sign x s).data__ = nat_of x.data__ ∧
    (nat_of x.data__ ≠ 0 → (set_sign x s).sign__ = s) ∧
    (nat_of x.data__ = 0 → (set_sign x s).sign__ = false) := by
  by_cases h0 : nat_of x.data__ = 0
  · have h1 : op_ne x (of_int 0) = false := by
      rcases Bool.eq_false_or_eq_true (op_ne x (of_int 0)) with h | h
      · exact absurd h0 ((op_ne_zero x hx).1 h)
      · exact h
    rw [set_sign_of_eq x s h1]
    exact ⟨hx, rfl, fun h => absurd h0 h, fun _ => hx.2.2.2 h0⟩
  · have h1 := (op_ne_zero x hx).2 h0
    rw [set_sign_of_ne x s h1]
    exact ⟨⟨hx.1, hx.2.1, hx.2.2.1, fun h => absurd h h0⟩, rfl, fun _ => rfl,
      fun h => absurd h h0⟩

theorem simple_val_of_nonneg (x : big_integer) (hs : x.sign__ = false) :
    val x = (nat_of x.data__ : Int) := by
  unfold val; rw [hs]; rfl

theorem simple_val_of_neg (x : big_integer) (hs : x.sign__ = true) :
    val x = -(nat_of x.data__ : Int) := by
  unfold val; rw [hs]; rfl

/-- Source `switch_sign` (and unary minus) on a canonical value negates it. -/
theorem canonical_switch_sign (x : big_integer) (hx : canonical x) :
    canonical (switch_sign x) ∧ val (switch_sign x) = -val x ∧
    nat_of (switch_sign x).data__ = nat_of x.data__ ∧
    (nat_of x.data__ ≠ 0 → (switch_sign x).sign__ = !x.sign__) := by
  unfold switch_sign
  obtain ⟨h1, h2, h3, h4⟩ := canonical_set_sign x (!x.sign__) hx
  refine ⟨h1, ?_, h2, h3⟩
  by_cases h0 : nat_of x.data__ = 0
  · have hs := h4 h0
    rw [simple_val_of_nonneg _ hs, h2, h0, simple_val_of_nonneg x (hx.2.2.2 h0), h0]
    rfl
  · have hs := h3 h0
    rcases Bool.eq_false_or_eq_true x.sign__ with hsx | hsx
    · simp only [hsx] at hs ⊢
      rw [simple_val_of_nonneg _ hs, simple_val_of_neg x hsx, data_set_sign]
      simp
    · simp only [hsx] at hs ⊢
      rw [simple_val_of_neg _ hs, simple_val_of_nonneg x hsx, data_set_sign]

/-! ## The simple implementation: arithmetic on non-negative values -/

/-- A value is canonical and non-negative with the digits of a canonical value of the
optimized implementation. -/
theorem canonical_of_optimized (x : big_integer) (y : bigint_optimized.big_integer)
    (hy : bigint_optimized.canonical y) (hd : x.data__ = y.data_) (hs : x.sign__ = false) :
    canonical x := by
  refine ⟨?_, ?_, ?_, fun _ => hs⟩
  · rw [hd]; exact hy.1
  · rw [hd]; exact hy.2.1
  · rw [hd]; exact hy.2.2.1

theorem canonical_to_optimized (x : big_integer) (hx : canonical x) :
    bigint_optimized.canonical ⟨x.data__, x.sign__⟩ := hx

theorem add_same_data (x right : big_integer) :
    (add_same x right).data__ =
      (bigint_optimized.add_same ⟨x.data__, x.sign__⟩ ⟨right.data__, right.sign__⟩).data_ ∧
    (add_same x right).sign__ = x.sign__ := ⟨rfl, rfl⟩

/-- The same-sign branch of `operator+=` on non-negative typed operands. -/
theorem add_same_nonneg (x right : big_integer) (hx : ∀ d ∈ x.data__, d < BASE)
    (hr : ∀ d ∈ right.data__, d < BASE) (hs : x.sign__ = false) :
    canonical (add_same x right) ∧ (add_same x right).sign__ = false ∧
    nat_of (add_same x right).data__ = nat_of x.data__ + nat_of right.data__ := by
  obtain ⟨h1, h2⟩ := add_same_data x right
  have hc := bigint_optimized.canonical_add_same ⟨x.data__, x.sign__⟩ ⟨right.data__, right.sign__⟩
  have hn := bigint_optimized.nat_of_add_same ⟨x.data__, x.sign__⟩ ⟨right.data__, right.sign__⟩
    hx hr
  refine ⟨canonical_of_optimized _ _ hc h1 (by rw [h2, hs]), by rw [h2, hs], ?_⟩
  rw [h1, hn]

theorem op_lt_eq_optimized (x y : big_integer) (hx : canonical x) (hy : canonical y)
    (hsx : x.sign__ = false) (hsy : y.sign__ = false) :
    op_lt x y = bigint_optimized.op_lt ⟨x.data__, x.sign__⟩ ⟨y.data__, y.sign__⟩ := by
  have h1 := op_lt_nonneg x y hx hy hsx hsy
  have h2 := bigint_optimized.op_lt_iff ⟨x.data__, x.sign__⟩ ⟨y.data__, y.sign__⟩ hx hy
  have hvx : bigint_optimized.val ⟨x.data__, x.sign__⟩ = (nat_of x.data__ : Int) :=
    bigint_optimized.val_of_nonneg _ hsx
  have hvy : bigint_optimized.val ⟨y.data__, y.sign__⟩ = (nat_of y.data__ : Int) :=
    bigint_optimized.val_of_nonneg _ hsy
  rw [hvx, hvy] at h2
  rcases Bool.eq_false_or_eq_true (op_lt x y) with h | h
  · rw [h]
    exact (h2.2 (by exact_mod_cast h1.1 h)).symm
  · rw [h]
    rcases Bool.eq_false_or_eq_true (bigint_optimized.op_lt ⟨x.data__, x.sign__⟩
      ⟨y.data__, y.sign__⟩) with h' | h'
    · have := h1.2 (by exact_mod_cast h2.1 h')
      rw [h] at this; cases this
    · exact h'.symm

/-- The same-sign branch of `operator-=` on canonical non-negative operands. -/
theorem sub_same_nonneg (x right : big_integer) (hx : canonical x) (hr : canonical right)
    (hsx : x.sign__ = false) (hsr : right.sign__ = false) :
    canonical (sub_same x right) ∧
    val (sub_same x right) = (nat_of x.data__ : Int) - (nat_of right.data__ : Int) := by
  have hlt := op_lt_eq_optimized x right hx hr hsx hsr
  have hltv := op_lt_nonneg x right hx hr hsx hsr
  have hc := bigint_optimized.canonical_sub_same ⟨x.data__, x.sign__⟩
    ⟨right.data__, right.sign__⟩ hx.2.1
  have hv := bigint_optimized.val_sub_same ⟨x.data__, x.sign__⟩ ⟨right.data__, right.sign__⟩
    hx.1 hr.1 (by simp only [hsx, hsr])
  have hvx : bigint_optimized.val ⟨x.data__, x.sign__⟩ = (nat_of x.data__ : Int) :=
    bigint_optimized.val_of_nonneg _ hsx
  have hvr : bigint_optimized.val ⟨right.data__, right.sign__⟩ = (nat_of right.data__ : Int) :=
    bigint_optimized.val_of_nonneg _ hsr
  rw [hvx, hvr] at hv
  have hdata : (sub_same x right).data__ =
      (bigint_optimized.sub_same ⟨x.data__, x.sign__⟩ ⟨right.data__, right.sign__⟩).data_ := by
    unfold sub_same bigint_optimized.sub_same
    simp only [trim, data_set_sign, bigint_optimized.data_keep_invariant_,
      bigint_optimized.data_set_sign_, hlt, sign, bigint_optimized.sign]
  -- the value of the digits before trimming
  have hnat : nat_of (sub_loop right.data__ (xor (sign x) (op_lt x right))
      (resize x.data__ (max x.data__.length right.data__.length)) 0 0) =
      nat_of (sub_same x right).data__ := by
    unfold sub_same
    simp only [trim, data_set_sign]
    rw [bigint_optimized.nat_of_pop_zeros]
  have hsign : (sub_same x right).sign__ = op_lt x right := by
    unfold sub_same
    simp only [trim]
    rcases Bool.eq_false_or_eq_true (op_lt x right) with h | h
    · rw [h]
      rw [set_sign_of_ne _ _ (op_ne_zero_of_pos _ (by exact hsx) (by
        simp only
        rw [h] at hnat
        rw [hnat, hdata]
        intro h0
        have hs0 := hc.2.2.2 h0
        rw [bigint_optimized.val_of_nonneg _ hs0, h0] at hv
        have := hltv.1 h
        omega))]
    · rw [h]
      unfold set_sign
      split
      · rfl
      · exact hsx
  rcases Bool.eq_false_or_eq_true (op_lt x right) with h | h
  · -- the result is negative
    have hlt' := hltv.1 h
    have hso : (bigint_optimized.sub_same ⟨x.data__, x.sign__⟩
        ⟨right.data__, right.sign__⟩).sign_ = true :=
      bigint_optimized.sign_of_val_neg _ (by rw [hv]; omega)
    rw [bigint_optimized.val_of_neg _ hso] at hv
    refine ⟨⟨by rw [hdata]; exact hc.1, by rw [hdata]; exact hc.2.1, by rw [hdata]; exact hc.2.2.1,
      ?_⟩, ?_⟩
    · intro h0
      rw [hdata] at h0
      rw [h0] at hv
      omega
    · rw [simple_val_of_neg _ (by rw [hsign, h]), hdata]
      exact hv
  · have hge : ¬ nat_of x.data__ < nat_of right.data__ := fun hh => by
      have := hltv.2 hh
      rw [h] at this; cases this
    have hso : (bigint_optimized.sub_same ⟨x.data__, x.sign__⟩
        ⟨right.data__, right.sign__⟩).sign_ = false :=
      bigint_optimized.canonical_nonneg_of_val _ hc (by rw [hv]; omega)
    rw [bigint_optimized.val_of_nonneg _ hso] at hv
    refine ⟨canonical_of_optimized _ _ hc hdata (by rw [hsign, h]), ?_⟩
    rw [simple_val_of_nonneg _ (by rw [hsign, h]), hdata]
    exact hv

/-- Source `operator*=` on typed non-negative operands. -/
theorem mul_assign_nonneg (x right : big_integer) (hx : ∀ d ∈ x.data__, d < BASE)
    (hr : ∀ d ∈ right.data__, d < BASE) (hxne : x.data__ ≠ [])
    (hsx : x.sign__ = false) (hsr : right.sign__ = false) :
    canonical (mul_assign x right) ∧ (mul_assign x right).sign__ = false ∧
    nat_of (mul_assign x right).data__ = nat_of x.data__ * nat_of right.data__ := by
  have hc := bigint_optimized.canonical_mul_assign ⟨x.data__, x.sign__⟩
    ⟨right.data__, right.sign__⟩ hxne
  have hn := bigint_optimized.nat_of_mul_assign ⟨x.data__, x.sign__⟩
    ⟨right.data__, right.sign__⟩ hx hr
  have hd := bigint_optimized.data_mul_assign ⟨x.data__, x.sign__⟩ ⟨right.data__, right.sign__⟩
  have hdata : (mul_assign x right).data__ =
      (bigint_optimized.mul_assign ⟨x.data__, x.sign__⟩ ⟨right.data__, right.sign__⟩).data_ := by
    rw [hd]
    unfold mul_assign
    simp only [trim, data_set_sign, bigint_optimized.length_mul_rows,
      bigint_optimized.length_resize]
    rfl
  have hsign : (mul_assign x right).sign__ = false := by
    unfold mul_assign
    simp only [trim, sign, hsx, hsr, Bool.xor_false]
    unfold set_sign
    split <;> rfl
  exact ⟨canonical_of_optimized _ _ hc hdata hsign, hsign, by rw [hdata, hn]⟩

/-! ## The simple implementation: division -/

theorem add_assign_nonneg (x right : big_integer) (hsx : x.sign__ = false)
    (hsr : right.sign__ = false) : add_assign x right = some (add_same x right) := by
  simp [add_assign, add_assign_depth, sign, hsx, hsr]

theorem sub_assign_nonneg (x right : big_integer) (hsx : x.sign__ = false)
    (hsr : right.sign__ = false) : sub_assign x right = some (sub_same x right) := by
  simp [sub_assign, sub_assign_depth, sign, hsx, hsr]

theorem canonical_of_unsigned_long (v : Nat) (hv : v < BASE) :
    canonical (of_unsigned_long v) ∧ (of_unsigned_long v).sign__ = false ∧
    nat_of (of_unsigned_long v).data__ = v := by
  refine ⟨⟨?_, by simp [of_unsigned_long], Or.inl rfl, fun _ => rfl⟩, rfl, by
    simp [of_unsigned_long, nat_of]⟩
  intro d hd
  have : d = v := by simpa [of_unsigned_long] using hd
  rw [this]; exact hv

theorem canonical_mk_default : canonical mk_default ∧ mk_default.sign__ = false ∧
    nat_of mk_default.data__ = 0 := by
  refine ⟨by decide, rfl, rfl⟩

/-- The shift `x << BASE_POWER2` of a canonical non-negative value appends a zero digit at the
low end. -/
theorem shl_one_digit (x : big_integer) (hx : canonical x) (hs : x.sign__ = false) :
    ∃ y, op_shl x (BASE_POWER2 : Nat) = some y ∧ canonical y ∧ y.sign__ = false ∧
      nat_of y.data__ = nat_of x.data__ * BASE := by
  unfold op_shl shl_assign
  have hneg : ¬ ((BASE_POWER2 : Nat) : Int) < 0 := by decide
  rw [if_neg hneg]
  rcases Bool.eq_false_or_eq_true (op_eq x (of_int 0)) with h | h
  · rw [if_pos h]
    refine ⟨x, rfl, hx, hs, ?_⟩
    have h0 : ¬ nat_of x.data__ ≠ 0 := by
      intro hnz
      have := (op_ne_zero x hx).2 hnz
      unfold op_eq at h
      rw [this] at h
      cases h
    have : nat_of x.data__ = 0 := by omega
    rw [this]; rfl
  · rw [if_neg (by rw [h]; simp)]
    have hbits : ((BASE_POWER2 : Nat) : Int).toNat / BASE_POWER2 = 1 := by decide
    have hrem : ((BASE_POWER2 : Nat) : Int).toNat % BASE_POWER2 = 0 := by decide
    simp only [hbits, hrem, Nat.lt_one_iff, Nat.one_ne_zero, if_true, gt_iff_lt, Nat.zero_lt_one,
      bigint_optimized.shift_digits_eq, Nat.shiftLeft_zero]
    have hone : (1 : Nat) % BASE = 1 := by decide
    rw [hone]
    have hm := mul_assign_nonneg (big_integer.mk (List.replicate 1 0 ++ x.data__) x.sign__)
      (of_unsigned_long_long 1)
      (by
        intro d hd
        rcases List.mem_append.1 hd with h1 | h1
        · rw [List.eq_of_mem_replicate h1]; exact bigint_optimized.BASE_pos
        · exact hx.1 d h1)
      (by
        intro d hd
        have : d = 1 := by simpa [of_unsigned_long_long] using hd
        rw [this]; decide)
      (by simp) hs rfl
    refine ⟨_, rfl, hm.1, hm.2.1, ?_⟩
    rw [hm.2.2]
    have e1 : nat_of (List.replicate 1 0 ++ x.data__) = BASE ^ 1 * nat_of x.data__ :=
      bigint_optimized.nat_of_shift_digits _ _
    have e2 : nat_of (of_unsigned_long_long 1).data__ = 1 := rfl
    show nat_of (List.replicate 1 0 ++ x.data__) * nat_of (of_unsigned_long_long 1).data__ = _
    rw [e1, e2, pow_one]
    ring

/-- The comparison `remainder < right * m` of the binary search. -/
theorem search_test (remainder right : big_integer) (m : Nat) (hrem : canonical remainder)
    (hrs : remainder.sign__ = false) (hr : canonical right) (hs : right.sign__ = false)
    (hm : m < BASE) :
    op_lt remainder (op_mul right (of_unsigned_long m)) = true ↔
      nat_of remainder.data__ < nat_of right.data__ * m := by
  obtain ⟨_, _, c3⟩ := canonical_of_unsigned_long m hm
  have hmul := mul_assign_nonneg right (of_unsigned_long m) hr.1
    (canonical_of_unsigned_long m hm).1.1 hr.2.1 hs rfl
  unfold op_mul
  rw [op_lt_nonneg _ _ hrem hmul.1 hrs hmul.2.1, hmul.2.2, c3]

/-- The binary search of `operator/=` ends, within its bound, at the largest value of the
interval whose multiple of `right` does not exceed `remainder`. -/
theorem search_loop_spec (remainder right : big_integer) (hrem : canonical remainder)
    (hrs : remainder.sign__ = false) (hr : canonical right) (hs : right.sign__ = false)
    (fuel : Nat) :
    ∀ l r, l ≤ r → r ≤ MAX_DIGIT → r - l < 2 ^ fuel →
      nat_of right.data__ * l ≤ nat_of remainder.data__ →
      (∀ z, r < z → z ≤ MAX_DIGIT → nat_of remainder.data__ < nat_of right.data__ * z) →
      ∃ l', search_loop remainder right (fuel + 1) l r = some l' ∧ l' ≤ MAX_DIGIT ∧
        nat_of right.data__ * l' ≤ nat_of remainder.data__ ∧
        (∀ z, l' < z → z ≤ MAX_DIGIT → nat_of remainder.data__ < nat_of right.data__ * z) := by
  have hB : BASE = MAX_DIGIT + 1 := by decide
  induction fuel with
  | zero =>
    intro l r hlr hr1 hsz hl hz
    simp only [pow_zero, Nat.lt_one_iff] at hsz
    have : ¬ l < r := by omega
    unfold search_loop
    rw [if_neg this]
    have hrl : r = l := by omega
    exact ⟨l, rfl, by omega, hl, fun z h1 h2 => hz z (by omega) h2⟩
  | succ fuel ih =>
    intro l r hlr hr1 hsz hl hz
    unfold search_loop
    by_cases hlt : l < r
    · rw [if_pos hlt]
      simp only
      have hm1 : l < r - (r - l) / 2 := by omega
      have hm2 : r - (r - l) / 2 ≤ r := by omega
      have htest := search_test remainder right (r - (r - l) / 2) hrem hrs hr hs (by omega)
      rw [pow_succ] at hsz
      by_cases hc : op_lt remainder (op_mul right (of_unsigned_long (r - (r - l) / 2))) = true
      · rw [if_pos hc]
        have hlt' := htest.1 hc
        apply ih l (r - (r - l) / 2 - 1) (by omega) (by omega) (by omega) hl
        intro z hz1 hz2
        have hzm : r - (r - l) / 2 ≤ z := by omega
        calc nat_of remainder.data__ < nat_of right.data__ * (r - (r - l) / 2) := hlt'
          _ ≤ nat_of right.data__ * z := Nat.mul_le_mul_left _ hzm
      · rw [if_neg hc]
        have hge : ¬ nat_of remainder.data__ < nat_of right.data__ * (r - (r - l) / 2) :=
          fun h => hc (htest.2 h)
        exact ih (r - (r - l) / 2) r hm2 hr1 (by omega) (by omega) hz
    · rw [if_neg hlt]
      have hrl : r = l := by omega
      exact ⟨l, rfl, by omega, hl, fun z h1 h2 => hz z (by omega) h2⟩

theorem nonneg_of_val (x : big_integer) (hx : canonical x) (hv : 0 ≤ val x) :
    x.sign__ = false := by
  rcases Bool.eq_false_or_eq_true x.sign__ with hs | hs
  · rw [simple_val_of_neg x hs] at hv
    have h0 : nat_of x.data__ = 0 := by omega
    exact hx.2.2.2 h0
  · exact hs

/-- One iteration of the digit loop of `operator/=`, from canonical non-negative `result` and
`remainder` with `remainder` below `right`: the search selects the largest `l` of
`[0, MAX_DIGIT]` with `right * l ≤ remainder * BASE + digit`, the new result is
`result * BASE + l`, and the new remainder is below `right`. -/
theorem div_digit (right result remainder : big_integer) (digit : Nat) (hdig : digit < BASE)
    (hr : canonical right) (hs : right.sign__ = false)
    (hres : canonical result) (hress : result.sign__ = false)
    (hrem : canonical remainder) (hrems : remainder.sign__ = false)
    (hlt : nat_of remainder.data__ < nat_of right.data__) :
    ∃ rs remainder1 l qs result1 remainder2,
      op_shl remainder (BASE_POWER2 : Nat) = some rs ∧
      op_add rs (of_unsigned_long digit) = some remainder1 ∧
      nat_of remainder1.data__ = nat_of remainder.data__ * BASE + digit ∧
      search_loop remainder1 right 65 0 MAX_DIGIT = some l ∧ l ≤ MAX_DIGIT ∧
      nat_of right.data__ * l ≤ nat_of remainder1.data__ ∧
      (∀ z, l < z → z ≤ MAX_DIGIT → nat_of remainder1.data__ < nat_of right.data__ * z) ∧
      op_shl result (BASE_POWER2 : Nat) = some qs ∧
      op_add qs (of_unsigned_long l) = some result1 ∧
      sub_assign remainder1 (op_mul right (of_unsigned_long l)) = some remainder2 ∧
      canonical result1 ∧ result1.sign__ = false ∧
      nat_of result1.data__ = nat_of result.data__ * BASE + l ∧
      canonical remainder2 ∧ remainder2.sign__ = false ∧
      nat_of remainder2.data__ = nat_of remainder1.data__ - nat_of right.data__ * l ∧
      nat_of remainder2.data__ < nat_of right.data__ := by
  have hB : BASE = MAX_DIGIT + 1 := by decide
  obtain ⟨rs, e1, rc, rss, rn⟩ := shl_one_digit remainder hrem hrems
  obtain ⟨dc, dss, dn⟩ := canonical_of_unsigned_long digit hdig
  obtain ⟨a1, a2, a3⟩ := add_same_nonneg rs (of_unsigned_long digit) rc.1 dc.1 rss
  have e2 : op_add rs (of_unsigned_long digit) = some (add_same rs (of_unsigned_long digit)) := by
    unfold op_add
    exact add_assign_nonneg _ _ rss dss
  rw [rn, dn] at a3
  obtain ⟨l, e3, l1, l2, l3⟩ := search_loop_spec (add_same rs (of_unsigned_long digit)) right
    a1 a2 hr hs 64 0 MAX_DIGIT (Nat.zero_le _) (le_refl _) (by decide) (by omega)
    (fun z h1 h2 => by omega)
  have hl : l < BASE := by omega
  obtain ⟨qs, e4, qc, qss, qn⟩ := shl_one_digit result hres hress
  obtain ⟨lc, lss, ln⟩ := canonical_of_unsigned_long l hl
  obtain ⟨b1, b2, b3⟩ := add_same_nonneg qs (of_unsigned_long l) qc.1 lc.1 qss
  have e5 : op_add qs (of_unsigned_long l) = some (add_same qs (of_unsigned_long l)) := by
    unfold op_add
    exact add_assign_nonneg _ _ qss lss
  rw [qn, ln] at b3
  obtain ⟨m1, m2, m3⟩ := mul_assign_nonneg right (of_unsigned_long l) hr.1 lc.1 hr.2.1 hs lss
  rw [ln] at m3
  have e6 := sub_assign_nonneg (add_same rs (of_unsigned_long digit))
    (op_mul right (of_unsigned_long l)) a2 m2
  obtain ⟨s1, s2⟩ := sub_same_nonneg (add_same rs (of_unsigned_long digit))
    (op_mul right (of_unsigned_long l)) a1 m1 a2 m2
  have hm3 : nat_of (op_mul right (of_unsigned_long l)).data__ = nat_of right.data__ * l := m3
  rw [hm3] at s2
  have hs3 := nonneg_of_val _ s1 (by rw [s2]; omega)
  rw [simple_val_of_nonneg _ hs3] at s2
  have hn2 : nat_of (sub_same (add_same rs (of_unsigned_long digit))
      (op_mul right (of_unsigned_long l))).data__ =
      nat_of (add_same rs (of_unsigned_long digit)).data__ - nat_of right.data__ * l := by
    omega
  -- the remainder stays below the divisor
  have hR1 : nat_of (add_same rs (of_unsigned_long digit)).data__ <
      nat_of right.data__ * (l + 1) := by
    by_cases hmax : l = MAX_DIGIT
    · rw [hmax, ← hB, a3]
      have : (nat_of remainder.data__ + 1) * BASE ≤ nat_of right.data__ * BASE :=
        Nat.mul_le_mul_right _ hlt
      have h2 : (nat_of remainder.data__ + 1) * BASE = nat_of remainder.data__ * BASE + BASE := by
        ring
      omega
    · exact l3 (l + 1) (by omega) (by omega)
  refine ⟨rs, _, l, qs, _, _, e1, e2, a3, e3, l1, l2, l3, e4, e5, e6, b1, b2, b3, s1, hs3, hn2, ?_⟩
  rw [hn2]
  have : nat_of right.data__ * (l + 1) = nat_of right.data__ * l + nat_of right.data__ := by ring
  omega

/-- The digit loop of `operator/=` over the digits below position `i`: it returns, the result
and the remainder stay canonical and non-negative, and
`result' * right + remainder' = (result * right + remainder) * BASE ^ i + (the digits below i)`
with `remainder'` below `right`. -/
theorem simple_div_loop_spec (data : List Nat) (hdata : ∀ d ∈ data, d < BASE) (right : big_integer)
    (hr : canonical right) (hs : right.sign__ = false) (i : Nat) :
    ∀ result remainder, canonical result → result.sign__ = false → canonical remainder →
      remainder.sign__ = false → nat_of remainder.data__ < nat_of right.data__ →
      ∃ result' remainder', div_loop data right i result remainder = some (result', remainder') ∧
        canonical result' ∧ result'.sign__ = false ∧
        nat_of remainder'.data__ < nat_of right.data__ ∧
        nat_of result'.data__ * nat_of right.data__ + nat_of remainder'.data__ =
          (nat_of result.data__ * nat_of right.data__ + nat_of remainder.data__) * BASE ^ i +
            nat_of (data.take i) := by
  induction i with
  | zero =>
    intro result remainder h1 h2 _ _ h5
    exact ⟨result, remainder, rfl, h1, h2, h5, by simp [nat_of]⟩
  | succ i ih =>
    intro result remainder h1 h2 h3 h4 h5
    obtain ⟨rs, remainder1, l, qs, result1, remainder2, e1, e2, n1, e3, _, n2, _, e4, e5, e6,
      c1, c2, n3, c3, c4, n4, n5⟩ :=
      div_digit right result remainder (data.getD i 0)
        (bigint_optimized.getD_lt data i hdata) hr hs h1 h2 h3 h4 h5
    obtain ⟨result', remainder', f1, f2, f3, f4, f5⟩ := ih result1 remainder2 c1 c2 c3 c4 n5
    refine ⟨result', remainder', ?_, f2, f3, f4, ?_⟩
    · unfold div_loop
      simp only [e1, e2, e3, e4, e5, e6]
      exact f1
    · rw [f5, n3, n4, n1, bigint_optimized.nat_of_take_succ, pow_succ]
      have hsub : nat_of right.data__ * l ≤ nat_of remainder.data__ * BASE + data.getD i 0 := by
        rw [← n1]; exact n2
      have hS : (nat_of result.data__ * BASE + l) * nat_of right.data__ +
          (nat_of remainder.data__ * BASE + data.getD i 0 - nat_of right.data__ * l) =
          (nat_of result.data__ * nat_of right.data__ + nat_of remainder.data__) * BASE +
            data.getD i 0 := by
        have e7 : (nat_of result.data__ * BASE + l) * nat_of right.data__ =
            nat_of result.data__ * nat_of right.data__ * BASE + nat_of right.data__ * l := by ring
        have e8 : (nat_of result.data__ * nat_of right.data__ + nat_of remainder.data__) * BASE =
            nat_of result.data__ * nat_of right.data__ * BASE + nat_of remainder.data__ * BASE := by
          ring
        rw [e7, e8]
        omega
      rw [hS]
      ring

theorem simple_val_ne_zero_iff (x : big_integer) : val x ≠ 0 ↔ nat_of x.data__ ≠ 0 := by
  unfold val
  split <;> omega

/-- C29: in the simple implementation, for canonical `x` and canonical non-zero `y`, `x / y`
is returned, is canonical and denotes the quotient of the values truncated toward zero; its
sign is `sign(x) XOR sign(y)` unless the quotient is zero. For each dividend digit, from
canonical non-negative `result` and `remainder` with `remainder` below `|y|`, the binary search
selects the largest `l` in `[0, MAX_DIGIT]` with `|y| * l` not above the running remainder
`remainder * BASE + digit`, and the new remainder is below `|y|`. -/
theorem simple_division (x y : big_integer) (hx : canonical x) (hy : canonical y)
    (hy0 : val y ≠ 0) :
    (∃ q, op_div x y = some q ∧ canonical q ∧ val q = Int.tdiv (val x) (val y) ∧
      (val q ≠ 0 → sign q = xor (sign x) (sign y))) ∧
    (∀ result remainder digit, digit < BASE → canonical result → result.sign__ = false →
      canonical remainder → remainder.sign__ = false →
      nat_of remainder.data__ < nat_of y.data__ →
      ∃ rs remainder1 l remainder2,
        op_shl remainder (BASE_POWER2 : Nat) = some rs ∧
        op_add rs (of_unsigned_long digit) = some remainder1 ∧
        nat_of remainder1.data__ = nat_of remainder.data__ * BASE + digit ∧
        search_loop remainder1 (set_sign y false) 65 0 MAX_DIGIT = some l ∧ l ≤ MAX_DIGIT ∧
        nat_of y.data__ * l ≤ nat_of remainder1.data__ ∧
        (∀ z, l < z → z ≤ MAX_DIGIT → nat_of remainder1.data__ < nat_of y.data__ * z) ∧
        sub_assign remainder1 (op_mul (set_sign y false) (of_unsigned_long l)) =
          some remainder2 ∧
        nat_of remainder2.data__ < nat_of y.data__) := by
  have hY := (simple_val_ne_zero_iff y).1 hy0
  obtain ⟨r1, r2, r3, _⟩ := canonical_set_sign y false hy
  have r4 := r3 hY
  constructor
  · have hne := (op_ne_zero y hy).2 hY
    obtain ⟨d1, d2, d3⟩ := canonical_mk_default
    obtain ⟨result', remainder', f1, f2, f3, f4, f5⟩ :=
      simple_div_loop_spec x.data__ hx.1 (set_sign y false) r1 r4 x.data__.length
        mk_default mk_default d1 d2 d1 d2 (by rw [d3, r2]; omega)
    rw [d3, r2, List.take_length] at f5
    rw [r2] at f4
    simp only [Nat.zero_mul, Nat.add_zero, Nat.zero_add] at f5
    have hQ : nat_of result'.data__ = nat_of x.data__ / nat_of y.data__ := by
      rw [← f5, Nat.mul_comm, Nat.mul_add_div (by omega), Nat.div_eq_of_lt f4]
      rfl
    obtain ⟨q1, q2, q3, q4⟩ := canonical_set_sign result' (xor (sign x) (sign y)) f2
    have he : op_div x y = some (set_sign result' (xor (sign x) (sign y))) := by
      unfold op_div div_assign
      simp only [hne, Bool.not_true, Bool.false_eq_true, if_false, f1]
    refine ⟨_, he, q1, ?_, ?_⟩
    · by_cases h0 : nat_of result'.data__ = 0
      · rw [simple_val_of_nonneg _ (q4 h0), q2, h0]
        have hd : nat_of x.data__ / nat_of y.data__ = 0 := by rw [← hQ]; exact h0
        have ht : (val x).tdiv (val y) = 0 := by
          apply Int.natAbs_eq_zero.1
          rw [Int.natAbs_tdiv]
          have hax : (val x).natAbs = nat_of x.data__ := by
            unfold val; split <;> simp
          have hay : (val y).natAbs = nat_of y.data__ := by
            unfold val; split <;> simp
          rw [hax, hay]
          exact hd
        rw [ht]
        rfl
      · have hsq := q3 h0
        rcases Bool.eq_false_or_eq_true x.sign__ with hsx | hsx <;>
          rcases Bool.eq_false_or_eq_true y.sign__ with hsy | hsy
        · have hxor : xor (sign x) (sign y) = false := by simp [sign, hsx, hsy]
          rw [simple_val_of_nonneg _ (hsq.trans hxor), simple_val_of_neg x hsx, simple_val_of_neg y hsy, q2, hQ,
            Int.neg_tdiv, Int.tdiv_neg, neg_neg, Int.ofNat_tdiv]
        · have hxor : xor (sign x) (sign y) = true := by simp [sign, hsx, hsy]
          rw [simple_val_of_neg _ (hsq.trans hxor), simple_val_of_neg x hsx, simple_val_of_nonneg y hsy, q2, hQ,
            Int.neg_tdiv, Int.ofNat_tdiv]
        · have hxor : xor (sign x) (sign y) = true := by simp [sign, hsx, hsy]
          rw [simple_val_of_neg _ (hsq.trans hxor), simple_val_of_nonneg x hsx, simple_val_of_neg y hsy, q2, hQ,
            Int.tdiv_neg, Int.ofNat_tdiv]
        · have hxor : xor (sign x) (sign y) = false := by simp [sign, hsx, hsy]
          rw [simple_val_of_nonneg _ (hsq.trans hxor), simple_val_of_nonneg x hsx, simple_val_of_nonneg y hsy, q2,
            hQ, Int.ofNat_tdiv]
    · intro hv
      exact q3 (by rw [← q2]; exact (simple_val_ne_zero_iff _).1 hv)
  · intro result remainder digit hdig h1 h2 h3 h4 h5
    obtain ⟨rs, remainder1, l, qs, result1, remainder2, e1, e2, n1, e3, l1, n2, l3, _, _, e6,
      _, _, _, _, _, _, n5⟩ :=
      div_digit (set_sign y false) result remainder digit hdig r1 r4 h1 h2 h3 h4
        (by rw [r2]; exact h5)
    rw [r2] at n2 l3 n5
    exact ⟨rs, remainder1, l, remainder2, e1, e2, n1, e3, l1, n2, l3, e6, n5⟩

theorem simple_division_witness :
    canonical ⟨[5, 7, 3], true⟩ ∧ canonical ⟨[9, 2], false⟩ ∧
    ∃ q, op_div ⟨[5, 7, 3], true⟩ ⟨[9, 2], false⟩ = some q ∧ canonical q ∧
      val q = Int.tdiv (val ⟨[5, 7, 3], true⟩) (val ⟨[9, 2], false⟩) ∧
      (val q ≠ 0 → sign q = xor (sign ⟨[5, 7, 3], true⟩) (sign ⟨[9, 2], false⟩)) :=
  ⟨by decide, by decide,
    (simple_division ⟨[5, 7, 3], true⟩ ⟨[9, 2], false⟩ (by decide) (by decide) (by decide)).1⟩

/-! ## The simple implementation: bitwise AND -/

/-- Bit `i` of the value of a digit sequence is bit `i % 64` of digit `i / 64`. -/
theorem testBit_nat_of (ds : List Nat) (hds : ∀ d ∈ ds, d < BASE) (i : Nat) :
    (nat_of ds).testBit i = (ds.getD (i / 64) 0).testBit (i % 64) := by
  induction ds generalizing i with
  | nil => simp [nat_of]
  | cons d ds ih =>
    have hd : d < 2 ^ 64 := by
      have := hds d (List.mem_cons_self _ _)
      rw [bigint_optimized.BASE_eq_pow] at this
      exact this
    have h1 : nat_of (d :: ds) = 2 ^ 64 * nat_of ds + d := by
      simp only [nat_of, bigint_optimized.BASE_eq_pow]
      ring
    rw [h1, Nat.testBit_mul_pow_two_add _ hd]
    by_cases hi : i < 64
    · rw [if_pos hi, Nat.div_eq_of_lt hi, Nat.mod_eq_of_lt hi]
      rfl
    · rw [if_neg hi, ih (fun e he => hds e (List.mem_cons_of_mem _ he))]
      have h2 : i / 64 = (i - 64) / 64 + 1 := by omega
      have h3 : i % 64 = (i - 64) % 64 := by omega
      rw [h2, h3, List.getD_cons_succ]

/-- The bits of the complement `MAX_DIGIT - d` of a digit. -/
theorem testBit_compl_digit (d b : Nat) (hd : d < BASE) (hb : b < 64) :
    (MAX_DIGIT - d).testBit b = !d.testBit b := by
  have hd' : d < 2 ^ 64 := by
    rw [bigint_optimized.BASE_eq_pow] at hd
    exact hd
  have h := Nat.testBit_two_pow_sub_succ hd' b
  have he : 2 ^ 64 - (d + 1) = MAX_DIGIT - d := by
    unfold MAX_DIGIT
    omega
  rw [he] at h
  rw [h]
  simp [hb]

theorem length_and_loop (right : List Nat) (n i : Nat) (left : List Nat) :
    (and_loop right n i left).length = left.length := by
  induction n generalizing i left with
  | zero => rfl
  | succ n ih =>
    unfold and_loop
    rw [ih]
    simp

/-- A loop that rewrites the digits at positions `i, i + 1, ..., i + n - 1` one by one leaves
a sequence whose digit `j` is rewritten exactly when `j` is one of these positions. -/
theorem getD_digit_loop (g : Nat → Nat → List Nat → List Nat) (f : Nat → Nat → Nat)
    (h0 : ∀ i xs, g 0 i xs = xs)
    (hstep : ∀ n i xs, g (n + 1) i xs = g n (i + 1) (xs.set i (f (xs.getD i 0) i)))
    (n i : Nat) (xs : List Nat) (j : Nat) :
    (g n i xs).getD j 0 =
      if i ≤ j ∧ j < i + n ∧ j < xs.length then f (xs.getD j 0) j else xs.getD j 0 := by
  induction n generalizing i xs with
  | zero =>
    rw [h0, if_neg (by omega)]
  | succ n ih =>
    rw [hstep, ih, List.length_set]
    by_cases hij : i = j
    · subst hij
      rw [if_neg (by omega)]
      by_cases h2 : i < xs.length
      · rw [bigint_optimized.getD_set_self _ _ _ h2, if_pos ⟨le_refl _, by omega, h2⟩]
      · rw [List.set_eq_of_length_le (by omega), if_neg (by omega)]
    · rw [bigint_optimized.getD_set_ne _ _ _ _ hij]
      by_cases h3 : i + 1 ≤ j ∧ j < i + 1 + n ∧ j < xs.length
      · rw [if_pos h3, if_pos ⟨by omega, by omega, h3.2.2⟩]
      · rw [if_neg h3, if_neg (by omega)]

theorem length_digit_loop (g : Nat → Nat → List Nat → List Nat) (f : Nat → Nat → Nat)
    (h0 : ∀ i xs, g 0 i xs = xs)
    (hstep : ∀ n i xs, g (n + 1) i xs = g n (i + 1) (xs.set i (f (xs.getD i 0) i)))
    (n i : Nat) (xs : List Nat) : (g n i xs).length = xs.length := by
  induction n generalizing i xs with
  | zero => rw [h0]
  | succ n ih => rw [hstep, ih, List.length_set]

/-- The digits after the loop `_left.data__[i] &= _right.data__[i]`. -/
theorem getD_and_loop (right : List Nat) (n i : Nat) (left : List Nat) (j : Nat) :
    (and_loop right n i left).getD j 0 =
      if i ≤ j ∧ j < i + n ∧ j < left.length then left.getD j 0 &&& right.getD j 0
      else left.getD j 0 :=
  getD_digit_loop (and_loop right) (fun a k => a &&& right.getD k 0) (fun _ _ => rfl)
    (fun _ _ _ => rfl) n i left j

theorem length_and_not_loop (left : List Nat) (n i : Nat) (right : List Nat) :
    (and_not_loop left n i right).length = right.length :=
  length_digit_loop (and_not_loop left) (fun a k => a &&& (MAX_DIGIT - left.getD k 0))
    (fun _ _ => rfl) (fun _ _ _ => rfl) n i right

/-- The digits after the loop `_right.data__[i] &= ~_left.data__[i]`. -/
theorem getD_and_not_loop (left : List Nat) (n i : Nat) (right : List Nat) (j : Nat) :
    (and_not_loop left n i right).getD j 0 =
      if i ≤ j ∧ j < i + n ∧ j < right.length then
        right.getD j 0 &&& (MAX_DIGIT - left.getD j 0)
      else right.getD j 0 :=
  getD_digit_loop (and_not_loop left) (fun a k => a &&& (MAX_DIGIT - left.getD k 0))
    (fun _ _ => rfl) (fun _ _ _ => rfl) n i right j

theorem length_or_loop (right : List Nat) (n i : Nat) (left : List Nat) :
    (or_loop right n i left).length = left.length :=
  length_digit_loop (or_loop right) (fun a k => a ||| right.getD k 0) (fun _ _ => rfl)
    (fun _ _ _ => rfl) n i left

/-- The digits after the loop `_left.data__[i] |= _right.data__[i]`. -/
theorem getD_or_loop (right : List Nat) (n i : Nat) (left : List Nat) (j : Nat) :
    (or_loop right n i left).getD j 0 =
      if i ≤ j ∧ j < i + n ∧ j < left.length then left.getD j 0 ||| right.getD j 0
      else left.getD j 0 :=
  getD_digit_loop (or_loop right) (fun a k => a ||| right.getD k 0) (fun _ _ => rfl)
    (fun _ _ _ => rfl) n i left j

/-- Every element of a list is one of its `getD` reads. -/
theorem mem_iff_getD (l : List Nat) (P : Nat → Prop) (h : ∀ j, j < l.length → P (l.getD j 0)) :
    ∀ d ∈ l, P d := by
  intro d hd
  obtain ⟨n, hn, rfl⟩ := List.getElem_of_mem hd
  have := h n hn
  rwa [List.getD_eq_getElem _ _ hn] at this

theorem mod_64_lt (i : Nat) : i % 64 < 64 := Nat.mod_lt _ (by decide)

theorem typed_and_loop (right left : List Nat) (hl : ∀ d ∈ left, d < BASE)
    (hr : ∀ d ∈ right, d < BASE) (n : Nat) :
    ∀ d ∈ and_loop right n 0 left, d < BASE := by
  apply mem_iff_getD
  intro j _
  rw [getD_and_loop]
  split
  · exact bigint_optimized.and_lt_BASE _ _ (bigint_optimized.getD_lt _ _ hl)
      (bigint_optimized.getD_lt _ _ hr)
  · exact bigint_optimized.getD_lt _ _ hl

/-- The loop of the non-negative case of `operator&` computes the AND of the values. -/
theorem nat_of_and_loop (right left : List Nat) (hl : ∀ d ∈ left, d < BASE)
    (hr : ∀ d ∈ right, d < BASE) :
    nat_of (and_loop right left.length 0 left) = nat_of left &&& nat_of right := by
  apply Nat.eq_of_testBit_eq
  intro i
  rw [testBit_nat_of _ (typed_and_loop right left hl hr _), Nat.testBit_land,
    testBit_nat_of _ hl, testBit_nat_of _ hr, getD_and_loop]
  by_cases h : i / 64 < left.length
  · rw [if_pos ⟨Nat.zero_le _, by omega, h⟩, Nat.testBit_land]
  · rw [if_neg (by omega), List.getD_eq_default _ _ (by omega)]
    simp

theorem typed_and_not_loop (left right : List Nat) (hr : ∀ d ∈ right, d < BASE) (n : Nat) :
    ∀ d ∈ and_not_loop left n 0 right, d < BASE := by
  apply mem_iff_getD
  intro j _
  rw [getD_and_not_loop]
  split
  · have h1 := bigint_optimized.getD_lt right j hr
    have h2 : right.getD j 0 &&& (MAX_DIGIT - left.getD j 0) ≤ right.getD j 0 := Nat.and_le_left
    omega
  · exact bigint_optimized.getD_lt _ _ hr

/-- The loop of the mixed-sign case of `operator&` computes `right AND NOT left` on the
values. -/
theorem nat_of_and_not_loop (left right : List Nat) (hl : ∀ d ∈ left, d < BASE)
    (hr : ∀ d ∈ right, d < BASE) :
    nat_of (and_not_loop left (min left.length right.length) 0 right) =
      Nat.ldiff (nat_of right) (nat_of left) := by
  apply Nat.eq_of_testBit_eq
  intro i
  rw [testBit_nat_of _ (typed_and_not_loop left right hr _), Nat.testBit_ldiff,
    testBit_nat_of _ hl, testBit_nat_of _ hr, getD_and_not_loop]
  by_cases h : i / 64 < min left.length right.length
  · rw [if_pos ⟨Nat.zero_le _, by omega, by omega⟩, Nat.testBit_land,
      testBit_compl_digit _ _ (bigint_optimized.getD_lt _ _ hl) (mod_64_lt i)]
  · rw [if_neg (by omega)]
    by_cases h2 : i / 64 < right.length
    · have h3 : left.length ≤ i / 64 := by omega
      rw [List.getD_eq_default _ _ h3]
      simp
    · rw [List.getD_eq_default _ _ (by omega)]
      simp

theorem typed_or_loop (right left : List Nat) (hl : ∀ d ∈ left, d < BASE)
    (hr : ∀ d ∈ right, d < BASE) (n : Nat) :
    ∀ d ∈ or_loop right n 0 left, d < BASE := by
  apply mem_iff_getD
  intro j _
  rw [getD_or_loop]
  split
  · exact bigint_optimized.or_lt_BASE _ _ (bigint_optimized.getD_lt _ _ hl)
      (bigint_optimized.getD_lt _ _ hr)
  · exact bigint_optimized.getD_lt _ _ hl

/-- The loop of the non-negative case of `operator|` computes the OR of the values. -/
theorem nat_of_or_loop (right left : List Nat) (hl : ∀ d ∈ left, d < BASE)
    (hr : ∀ d ∈ right, d < BASE) (hlen : right.length ≤ left.length) :
    nat_of (or_loop right right.length 0 left) = nat_of left ||| nat_of right := by
  apply Nat.eq_of_testBit_eq
  intro i
  rw [testBit_nat_of _ (typed_or_loop right left hl hr _), Nat.testBit_lor,
    testBit_nat_of _ hl, testBit_nat_of _ hr, getD_or_loop]
  by_cases h : i / 64 < right.length
  · rw [if_pos ⟨Nat.zero_le _, by omega, by omega⟩, Nat.testBit_lor]
  · rw [if_neg (by omega), List.getD_eq_default right _ (by omega)]
    simp

theorem or_eq_zero_left (a b : Nat) (h : a ||| b = 0) : a = 0 := by
  apply Nat.eq_of_testBit_eq
  intro i
  have := congrArg (fun x => Nat.testBit x i) h
  simp only [Nat.testBit_lor, Nat.zero_testBit, Bool.or_eq_false_iff] at this
  rw [this.1, Nat.zero_testBit]

/-- The result of the non-negative case of `operator|` on canonical operands is canonical. -/
theorem canonical_or_loop (l r : big_integer) (hl : canonical l) (hr : canonical r)
    (hs : l.sign__ = false) :
    canonical (big_integer.mk (or_loop r.data__ r.data__.length 0 l.data__) l.sign__) := by
  have hlenr := length_or_loop r.data__ r.data__.length 0 l.data__
  refine ⟨typed_or_loop _ _ hl.1 hr.1 _, ?_, ?_, fun _ => hs⟩
  · intro h
    have := congrArg List.length h
    simp only [hlenr, List.length_nil] at this
    exact hl.2.1 (List.length_eq_zero.1 this)
  · rcases hl.2.2.1 with h1 | h1
    · left
      simp only [hlenr]
      exact h1
    · right
      have hne : l.data__.length ≠ 0 := fun h => hl.2.1 (List.length_eq_zero.1 h)
      have hlast := bigint_optimized.getD_last_ne_zero _ hl.2.1 h1
      intro hc
      apply hlast
      have hidx : l.data__.length - 1 < (or_loop r.data__ r.data__.length 0 l.data__).length := by
        rw [hlenr]; omega
      have hg : (or_loop r.data__ r.data__.length 0 l.data__).getD (l.data__.length - 1) 0 = 0 := by
        rw [List.getLast?_eq_getElem?, hlenr, List.getElem?_eq_getElem hidx] at hc
        rw [List.getD_eq_getElem _ _ hidx]
        exact Option.some.inj hc
      rw [getD_or_loop] at hg
      split at hg
      · exact or_eq_zero_left _ _ hg
      · exact hg

theorem simple_canonical_of_int_one : canonical (of_int 1) ∧ (of_int 1).sign__ = false ∧
    nat_of (of_int 1).data__ = 1 := by
  refine ⟨by decide, rfl, rfl⟩

theorem data_switch_sign (x : big_integer) : (switch_sign x).data__ = x.data__ :=
  data_set_sign x _

theorem nat_ne_zero_of_neg (a : big_integer) (ha : canonical a) (hs : a.sign__ = true) :
    nat_of a.data__ ≠ 0 := by
  intro h0
  have := ha.2.2.2 h0
  rw [hs] at this
  cases this

/-- Source `operator~` on a canonical negative value `-A` returns the canonical non-negative
value `A - 1`. -/
theorem op_not_neg (a : big_integer) (ha : canonical a) (hs : a.sign__ = true) :
    ∃ t, op_not a = some t ∧ canonical t ∧ t.sign__ = false ∧
      nat_of t.data__ + 1 = nat_of a.data__ := by
  have hA := nat_ne_zero_of_neg a ha hs
  obtain ⟨s1, _, s3, s4⟩ := canonical_switch_sign a ha
  have s5 : (switch_sign a).sign__ = false := by rw [s4 hA, hs]; rfl
  obtain ⟨o1, o2, o3⟩ := simple_canonical_of_int_one
  obtain ⟨c1, c2⟩ := sub_same_nonneg (switch_sign a) (of_int 1) s1 o1 s5 o2
  rw [s3, o3] at c2
  have c3 := nonneg_of_val _ c1 (by rw [c2]; omega)
  rw [simple_val_of_nonneg _ c3] at c2
  refine ⟨_, ?_, c1, c3, by omega⟩
  unfold op_not op_neg
  exact sub_assign_nonneg _ _ s5 o2

/-- Prefix `operator++` on a canonical negative value `-A` returns digits that denote
`A - 1`. -/
theorem pre_inc_neg (a : big_integer) (ha : canonical a) (hs : a.sign__ = true) :
    ∃ t, pre_inc a = some t ∧ (∀ d ∈ t.data__, d < BASE) ∧
      nat_of t.data__ + 1 = nat_of a.data__ := by
  have hA := nat_ne_zero_of_neg a ha hs
  obtain ⟨s1, _, s3, s4⟩ := canonical_switch_sign a ha
  have s5 : (switch_sign a).sign__ = false := by rw [s4 hA, hs]; rfl
  obtain ⟨o1, o2, o3⟩ := simple_canonical_of_int_one
  obtain ⟨c1, c2⟩ := sub_same_nonneg (switch_sign a) (of_int 1) s1 o1 s5 o2
  rw [s3, o3] at c2
  have c3 := nonneg_of_val _ c1 (by rw [c2]; omega)
  rw [simple_val_of_nonneg _ c3] at c2
  refine ⟨switch_sign (sub_same (switch_sign a) (of_int 1)), ?_, ?_, ?_⟩
  · unfold pre_inc add_assign add_assign_depth
    simp only [sign, hs, o2, Bool.not_true, Bool.false_and, Bool.false_eq_true, if_false,
      Bool.not_false, Bool.and_self, if_true]
    unfold sub_assign_depth
    simp only [sign, s5, o2, Bool.not_false, Bool.and_false, Bool.false_eq_true, if_false,
      Bool.false_and, Option.map_some']
  · rw [data_switch_sign]
    exact c1.1
  · rw [data_switch_sign]
    omega

theorem mk_sign_false (r : big_integer) (hs : r.sign__ = false) :
    big_integer.mk r.data__ false = r := by
  cases r with
  | mk d s =>
    simp only at hs
    rw [hs]

/-- Source `operator~` on a canonical non-negative value `R` returns the canonical value
`-(R + 1)`. -/
theorem op_not_nonneg (r : big_integer) (hr : canonical r) (hs : r.sign__ = false) :
    ∃ t, op_not r = some t ∧ canonical t ∧ val t = Int.negSucc (nat_of r.data__) := by
  by_cases h0 : nat_of r.data__ = 0
  · have hd := bigint_optimized.eq_zero_digit_of_trimmed r.data__ hr.2.1 hr.2.2.1 h0
    have hr0 : r = ⟨[0], false⟩ := by
      rw [← mk_sign_false r hs, hd]
    rw [hr0]
    exact ⟨⟨[1], true⟩, by decide, by decide, by decide⟩
  · have hne := (op_ne_zero r hr).2 h0
    have hneg : op_neg r = ⟨r.data__, true⟩ := by
      unfold op_neg switch_sign
      rw [set_sign_of_ne _ _ hne, hs]
      rfl
    have hsw : switch_sign ⟨r.data__, true⟩ = r := by
      unfold switch_sign
      have h1 : op_ne ⟨r.data__, true⟩ (of_int 0) = true := by
        rw [of_int_zero]
        simp [op_ne, op_lt, sign]
      rw [set_sign_of_ne _ _ h1]
      exact mk_sign_false r hs
    obtain ⟨o1, o2, o3⟩ := simple_canonical_of_int_one
    obtain ⟨a1, a2, a3⟩ := add_same_nonneg r (of_int 1) hr.1 o1.1 hs
    rw [o3] at a3
    obtain ⟨w1, w2, w3, w4⟩ := canonical_switch_sign (add_same r (of_int 1)) a1
    refine ⟨switch_sign (add_same r (of_int 1)), ?_, w1, ?_⟩
    · unfold op_not sub_assign sub_assign_depth
      rw [hneg]
      simp only [sign, o2, Bool.not_true, Bool.false_and, Bool.false_eq_true, if_false,
        Bool.not_false, Bool.and_self, if_true, hsw]
      unfold add_assign_depth
      simp only [sign, hs, o2, Bool.not_false, Bool.and_false, Bool.false_eq_true, if_false,
        Bool.false_and, Option.map_some']
    · rw [w2, simple_val_of_nonneg _ a2, a3, Int.negSucc_coe]

/-- The non-negative case of `operator|` on canonical operands. -/
theorem op_or_nonneg (a b : big_integer) (ha : canonical a) (hb : canonical b)
    (hsa : a.sign__ = false) (hsb : b.sign__ = false) (depth : Nat) :
    ∃ r, op_or_depth (depth + 1) a b = some r ∧ canonical r ∧ r.sign__ = false ∧
      nat_of r.data__ = nat_of a.data__ ||| nat_of b.data__ := by
  unfold op_or_depth
  simp only [sign, hsa, hsb, Bool.or_self, Bool.false_eq_true, if_false]
  by_cases hlen : a.data__.length < b.data__.length
  · simp only [hlen, if_true]
    refine ⟨_, rfl, canonical_or_loop b a hb ha hsb, hsb, ?_⟩
    simp only
    rw [nat_of_or_loop _ _ hb.1 ha.1 (by omega), Nat.lor_comm]
  · simp only [hlen, if_false]
    refine ⟨_, rfl, canonical_or_loop a b ha hb hsa, hsa, ?_⟩
    simp only
    rw [nat_of_or_loop _ _ ha.1 hb.1 (by omega)]

/-- The case of `operator&` with a negative left and a non-negative right operand. -/
theorem op_and_neg_nonneg (a b : big_integer) (ha : canonical a) (hb : canonical b)
    (hsa : a.sign__ = true) (hsb : b.sign__ = false) (depth : Nat) :
    ∃ r, op_and_depth (depth + 1) a b = some r ∧ r.sign__ = false ∧
      ∃ m, m + 1 = nat_of a.data__ ∧ nat_of r.data__ = Nat.ldiff (nat_of b.data__) m := by
  obtain ⟨t, ht, t1, t2⟩ := pre_inc_neg a ha hsa
  unfold op_and_depth
  simp only [sign, hsa, hsb, Bool.not_true, Bool.false_and, Bool.false_eq_true, if_false,
    Bool.and_false, Bool.not_false, Bool.and_self, if_true, ht]
  refine ⟨_, rfl, rfl, nat_of t.data__, t2, ?_⟩
  simp only
  exact nat_of_and_not_loop _ _ t1 hb.1

/-- C30: in the simple implementation, for canonical `a` and `b` of any signs, `a & b` is
returned and the integer denoted by its digits and sign is the bitwise AND of `val a` and
`val b` in infinite-precision two's complement (`Int.land`). -/
theorem simple_and_denotes (a b : big_integer) (ha : canonical a) (hb : canonical b) :
    ∃ r, op_and a b = some r ∧ val r = Int.land (val a) (val b) := by
  unfold op_and
  rcases Bool.eq_false_or_eq_true a.sign__ with hsa | hsa <;>
    rcases Bool.eq_false_or_eq_true b.sign__ with hsb | hsb
  · -- both negative: ~(~a | ~b)
    obtain ⟨na, e1, c1, s1, n1⟩ := op_not_neg a ha hsa
    obtain ⟨nb, e2, c2, s2, n2⟩ := op_not_neg b hb hsb
    obtain ⟨o, e3, c3, s3, n3⟩ := op_or_nonneg na nb c1 c2 s1 s2 6
    obtain ⟨t, e4, _, v4⟩ := op_not_nonneg o c3 s3
    refine ⟨t, ?_, ?_⟩
    · unfold op_and_depth
      simp only [sign, hsa, hsb, Bool.not_true, Bool.false_and, Bool.false_eq_true, if_false,
        Bool.and_self, if_true, e1, e2, e3, e4]
    · rw [v4, n3, simple_val_of_neg a hsa, simple_val_of_neg b hsb, ← n1, ← n2,
        ← Int.negSucc_coe, ← Int.negSucc_coe]
      rfl
  · -- a negative, b non-negative
    obtain ⟨r, e, s, m, hm, hn⟩ := op_and_neg_nonneg a b ha hb hsa hsb 7
    refine ⟨r, e, ?_⟩
    rw [simple_val_of_nonneg r s, hn, simple_val_of_neg a hsa, simple_val_of_nonneg b hsb, ← hm,
      ← Int.negSucc_coe]
    rfl
  · -- a non-negative, b negative: the call is `b & a`
    obtain ⟨r, e, s, m, hm, hn⟩ := op_and_neg_nonneg b a hb ha hsb hsa 6
    refine ⟨r, ?_, ?_⟩
    · unfold op_and_depth
      simp only [sign, hsa, hsb, Bool.not_false, Bool.and_self, if_true]
      exact e
    · rw [simple_val_of_nonneg r s, hn, simple_val_of_nonneg a hsa, simple_val_of_neg b hsb, ← hm,
        ← Int.negSucc_coe]
      rfl
  · -- both non-negative
    unfold op_and_depth
    simp only [sign, hsa, hsb, Bool.not_false, Bool.and_false, Bool.false_and, Bool.false_eq_true,
      if_false, Bool.and_self]
    by_cases hlen : a.data__.length > b.data__.length
    · simp only [hlen, if_true]
      refine ⟨_, rfl, ?_⟩
      rw [simple_val_of_nonneg _ (by exact hsb), simple_val_of_nonneg a hsa,
        simple_val_of_nonneg b hsb]
      simp only
      rw [nat_of_and_loop _ _ hb.1 ha.1, Nat.land_comm]
      rfl
    · simp only [hlen, if_false]
      refine ⟨_, rfl, ?_⟩
      rw [simple_val_of_nonneg _ (by exact hsa), simple_val_of_nonneg a hsa,
        simple_val_of_nonneg b hsb]
      simp only
      rw [nat_of_and_loop _ _ ha.1 hb.1]
      rfl

theorem simple_and_denotes_witness :
    canonical ⟨[0, 1], true⟩ ∧ canonical ⟨[5, 1], true⟩ ∧
    ∃ r, op_and ⟨[0, 1], true⟩ ⟨[5, 1], true⟩ = some r ∧
      val r = Int.land (val ⟨[0, 1], true⟩) (val ⟨[5, 1], true⟩) :=
  ⟨by decide, by decide, simple_and_denotes ⟨[0, 1], true⟩ ⟨[5, 1], true⟩ (by decide) (by decide)⟩

end bigint_simple

namespace storage

/-! ## The free store -/

theorem size_dec_eq (n : Nat) (h1 : 1 ≤ n) (h2 : n < SIZE_RANGE) : size_dec n = n - 1 := by
  unfold size_dec SIZE_RANGE at *
  omega

theorem size_inc_eq (n : Nat) (h2 : n + 1 < SIZE_RANGE) : size_inc n = n + 1 := by
  unfold size_inc SIZE_RANGE at *
  omega

theorem heap_get_lt (h : heap) (p : Nat) (r : ref_data_) (hg : heap_get h p = some r) :
    p < h.length := by
  unfold heap_get at hg
  by_contra hc
  rw [List.get?_eq_none.mpr (by omega)] at hg
  simp at hg

theorem heap_get_set_self (h : heap) (p : Nat) (r : ref_data_) (hp : p < h.length) :
    heap_get (heap_set h p r) p = some r := by
  simp [heap_get, heap_set, hp]

theorem heap_get_set_ne (h : heap) (p q : Nat) (r : ref_data_) (hne : q ≠ p) :
    heap_get (heap_set h p r) q = heap_get h q := by
  simp [heap_get, heap_set, List.getElem?_set_ne (Ne.symm hne)]

theorem heap_get_delete_ne (h : heap) (p q : Nat) (hne : q ≠ p) :
    heap_get (heap_delete h p) q = heap_get h q := by
  simp [heap_get, heap_delete, List.getElem?_set_ne (Ne.symm hne)]

theorem heap_get_new_self (h : heap) (r : ref_data_) :
    heap_get (heap_new h r).1 (heap_new h r).2 = some r := by
  simp [heap_get, heap_new]

theorem heap_get_new_lt (h : heap) (x : Option ref_data_) (q : Nat) (hq : q < h.length) :
    heap_get (h ++ [x]) q = heap_get h q := by
  simp [heap_get, List.getElem?_append_left hq]

theorem length_heap_set (h : heap) (p : Nat) (r : ref_data_) :
    (heap_set h p r).length = h.length := by
  simp [heap_set]

/-- The method `detach` on a live block: the handle ends on a block with the same vector and a
count of one; every other live block, and the old block when it had a second owner, keeps its
vector and stays counted. -/
theorem detach_spec (h : heap) (p : Nat) (r : ref_data_) (hg : heap_get h p = some r)
    (h1 : 1 ≤ r.ref_cnt_) (h2 : r.ref_cnt_ < SIZE_RANGE) :
    ∃ h2 p2, detach h p = some (h2, p2) ∧ heap_get h2 p2 = some ⟨r.obj_, 1⟩ ∧
      ∀ q r', heap_get h q = some r' → (q ≠ p ∨ 2 ≤ r.ref_cnt_) →
        q ≠ p2 ∧ ∃ r'', heap_get h2 q = some r'' ∧ r''.obj_ = r'.obj_ ∧
          (1 ≤ r'.ref_cnt_ → 1 ≤ r''.ref_cnt_) ∧ r''.ref_cnt_ ≤ r'.ref_cnt_ := by
  have hp := heap_get_lt h p r hg
  unfold detach
  rw [hg]
  by_cases hc : r.ref_cnt_ > 1
  · simp only [hc, if_true]
    refine ⟨_, _, rfl, heap_get_new_self _ _, ?_⟩
    intro q r' hq hor
    have hql := heap_get_lt h q r' hq
    have hlen := length_heap_set h p { r with ref_cnt_ := size_dec r.ref_cnt_ }
    refine ⟨?_, ?_⟩
    · simp only [heap_new, hlen]; omega
    · show ∃ r'', heap_get (heap_set h p { r with ref_cnt_ := size_dec r.ref_cnt_ } ++
          [some ⟨r.obj_, 1⟩]) q = some r'' ∧ _
      rw [heap_get_new_lt _ _ _ (by rw [hlen]; exact hql)]
      by_cases hqp : q = p
      · subst hqp
        rw [heap_get_set_self _ _ _ hp]
        rw [hg] at hq
        cases hq
        refine ⟨_, rfl, rfl, ?_, ?_⟩
        · intro _; simp only; rw [size_dec_eq _ h1 h2]; omega
        · simp only; rw [size_dec_eq _ h1 h2]; omega
      · rw [heap_get_set_ne _ _ _ _ hqp]
        exact ⟨r', hq, rfl, id, le_refl _⟩
  · simp only [hc, if_false]
    have hr : r = ⟨r.obj_, 1⟩ := by
      cases r with
      | mk o c => simp only [ref_data_.mk.injEq, true_and]; simp only at hc h1; omega
    refine ⟨_, _, rfl, by rw [hg]; exact congrArg some hr, ?_⟩
    intro q r' hq hor
    have hqp : q ≠ p := by
      rcases hor with h | h
      · exact h
      · omega
    exact ⟨hqp, r', hq, rfl, id, le_refl _⟩

/-- A storage that is valid in a store stays valid, with the same elements, in every store that
keeps the vector of its block and does not lose its owner count. -/
theorem frame_of_blocks (K : Nat) (h h3 : heap) (t : uint_storage) (hv : valid K h t)
    (hk : t.is_big_ = true → ∀ r, heap_get h t.big_data_ = some r →
      ∃ r2, heap_get h3 t.big_data_ = some r2 ∧ r2.obj_ = r.obj_ ∧
        (1 ≤ r.ref_cnt_ → 1 ≤ r2.ref_cnt_) ∧ r2.ref_cnt_ ≤ r.ref_cnt_) :
    contents h3 t = contents h t ∧ valid K h3 t := by
  unfold contents valid at *
  by_cases hb : t.is_big_ = true
  · simp only [hb, if_true] at hv ⊢
    obtain ⟨hl, r, hg, h1, h2⟩ := hv
    obtain ⟨r2, hg2, ho, hc1, hc2⟩ := hk hb r hg
    rw [hg, hg2]
    exact ⟨by simp [ho], hl, r2, rfl, hc1 h1, by omega⟩
  · simp only [hb] at hv ⊢
    exact ⟨rfl, hv⟩

/-- The write path of a shared storage: after `detach` the handle owns a block with the same
vector; replacing that vector changes the elements of this storage only. -/
theorem big_update (K : Nat) (h : heap) (s : uint_storage) (xs : List Nat)
    (hv : valid K h s) (hb : s.is_big_ = true) (hc : contents h s = some xs) :
    ∃ h2 p r, detach h s.big_data_ = some (h2, p) ∧ heap_get h2 p = some r ∧ r.obj_ = xs ∧
      ∀ ys, contents (heap_set h2 p { r with obj_ := ys }) { s with big_data_ := p } = some ys ∧
        valid K (heap_set h2 p { r with obj_ := ys }) { s with big_data_ := p } ∧
        ∀ t, valid K h t → counted h s t →
          contents (heap_set h2 p { r with obj_ := ys }) t = contents h t ∧
          valid K (heap_set h2 p { r with obj_ := ys }) t := by
  have hv0 := hv
  unfold valid at hv
  simp only [hb, if_true] at hv
  obtain ⟨hl, r, hg, h1, h2⟩ := hv
  have hxs : r.obj_ = xs := by
    unfold contents at hc
    simp only [hb, if_true, hg, Option.map_some'] at hc
    exact Option.some.inj hc
  obtain ⟨h2', p, hd, hg2, hfr⟩ := detach_spec h s.big_data_ r hg h1 h2
  refine ⟨h2', p, _, hd, hg2, hxs, ?_⟩
  intro ys
  have hp := heap_get_lt _ _ _ hg2
  refine ⟨?_, ?_, ?_⟩
  · unfold contents
    simp only [hb, if_true]
    rw [heap_get_set_self _ _ _ hp]
    rfl
  · unfold valid
    simp only [hb, if_true]
    rw [heap_get_set_self _ _ _ hp]
    exact ⟨hl, _, rfl, by simp, by simp [SIZE_RANGE]⟩
  · intro t hvt hct
    apply frame_of_blocks K h _ t hvt
    intro htb r' hg'
    have hor : t.big_data_ ≠ s.big_data_ ∨ 2 ≤ r.ref_cnt_ := by
      by_cases he : s.big_data_ = t.big_data_
      · right
        obtain ⟨r0, hg0, h20⟩ := hct hb htb he
        rw [hg] at hg0
        cases hg0
        exact h20
      · left
        exact fun hh => he hh.symm
    obtain ⟨hne, r'', hg'', ho, hc1, hc2⟩ := hfr t.big_data_ r' hg' hor
    rw [heap_get_set_ne _ _ _ _ hne]
    exact ⟨r'', hg'', ho, hc1, hc2⟩

/-- The method `small_to_big` on an inline storage: a fresh block holds the elements, with one
owner; nothing else in the store changes. -/
theorem small_to_big_spec (K : Nat) (h : heap) (s : uint_storage)
    (hb : s.is_big_ = false) (hl : s.small_data_.length = SMALL_DATA_SIZE K) :
    (small_to_big h s).2.is_big_ = true ∧
    contents (small_to_big h s).1 (small_to_big h s).2 = contents h s ∧
    valid K (small_to_big h s).1 (small_to_big h s).2 ∧
    ∀ t, valid K h t →
      contents (small_to_big h s).1 t = contents h t ∧ valid K (small_to_big h s).1 t ∧
      counted (small_to_big h s).1 (small_to_big h s).2 t := by
  have hst : small_to_big h s =
      (h ++ [some ⟨s.small_data_.take s.size_, 1⟩], { s with big_data_ := h.length, is_big_ := true }) := by
    simp [small_to_big, hb, heap_new]
  rw [hst]
  have hself : heap_get (h ++ [some ⟨s.small_data_.take s.size_, 1⟩]) h.length =
      some ⟨s.small_data_.take s.size_, 1⟩ := heap_get_new_self h _
  refine ⟨rfl, ?_, ?_, ?_⟩
  · simp only [contents, if_true, hself, hb, Option.map_some']
    rfl
  · simp only [valid, if_true, hself]
    exact ⟨hl, _, rfl, by simp, by simp [SIZE_RANGE]⟩
  · intro t hvt
    have hlt : t.is_big_ = true → t.big_data_ < h.length := by
      intro htb
      unfold valid at hvt
      simp only [htb, if_true] at hvt
      obtain ⟨_, r, hg, _⟩ := hvt
      exact heap_get_lt _ _ _ hg
    have hfr := frame_of_blocks K h (h ++ [some ⟨s.small_data_.take s.size_, 1⟩]) t hvt (by
      intro htb r hg
      rw [heap_get_new_lt _ _ _ (hlt htb)]
      exact ⟨r, hg, rfl, id, le_refl _⟩)
    refine ⟨hfr.1, hfr.2, ?_⟩
    intro _ htb he
    have := hlt htb
    simp only at he
    omega

/-- The common write path of `push_back` and `resize`: promote an inline storage when asked,
then `detach`; the handle ends as the only owner of a block holding the elements, and replacing
its vector changes this storage only. -/
theorem write_path (K : Nat) (h : heap) (s : uint_storage) (xs : List Nat) (c : Bool)
    (hv : valid K h s) (hc : contents h s = some xs)
    (hc1 : c = true → s.is_big_ = false) (hc2 : s.is_big_ = true ∨ c = true) :
    ∃ h1 s1 h2 p r, (if c then small_to_big h s else (h, s)) = (h1, s1) ∧ s1.is_big_ = true ∧
      (s.is_big_ = true → h1 = h ∧ s1 = s) ∧
      detach h1 s1.big_data_ = some (h2, p) ∧ heap_get h2 p = some r ∧ r.obj_ = xs ∧
      ∀ ys, contents (heap_set h2 p { r with obj_ := ys }) { s1 with big_data_ := p } = some ys ∧
        valid K (heap_set h2 p { r with obj_ := ys }) { s1 with big_data_ := p } ∧
        ∀ t, valid K h t → counted h s t →
          contents (heap_set h2 p { r with obj_ := ys }) t = contents h t ∧
          valid K (heap_set h2 p { r with obj_ := ys }) t := by
  rcases Bool.eq_false_or_eq_true c with hct | hcf
  · have hb := hc1 hct
    obtain ⟨hb1, hcont, hval, hfr⟩ := small_to_big_spec K h s hb hv.1
    obtain ⟨h2, p, r, hd, hg, ho, hall⟩ :=
      big_update K _ _ xs hval hb1 (by rw [hcont]; exact hc)
    refine ⟨_, _, h2, p, r, by rw [hct]; rfl, hb1, ?_, hd, hg, ho, ?_⟩
    · intro hbt; rw [hb] at hbt; cases hbt
    · intro ys
      obtain ⟨a1, a2, a3⟩ := hall ys
      refine ⟨a1, a2, ?_⟩
      intro t hvt _
      obtain ⟨b1, b2, b3⟩ := hfr t hvt
      obtain ⟨d1, d2⟩ := a3 t b2 b3
      exact ⟨by rw [d1, b1], d2⟩
  · have hb : s.is_big_ = true := by
      rcases hc2 with h' | h'
      · exact h'
      · rw [hcf] at h'; cases h'
    obtain ⟨h2, p, r, hd, hg, ho, hall⟩ := big_update K h s xs hv hb hc
    exact ⟨h, s, h2, p, r, by rw [hcf]; rfl, hb, fun _ => ⟨rfl, rfl⟩, hd, hg, ho, hall⟩

theorem take_succ_set (l : List Nat) (n v : Nat) (hn : n < l.length) :
    (l.set n v).take (n + 1) = l.take n ++ [v] := by
  induction l generalizing n with
  | nil => simp at hn
  | cons a l ih =>
      cases n with
      | zero => simp
      | succ n =>
          simp only [List.set_cons_succ, List.take_succ_cons, List.cons_append, List.cons.injEq,
            true_and]
          exact ih n (by simpa using hn)

/-- The elements of a valid inline storage. -/
theorem contents_inline (h : heap) (s : uint_storage) (hb : s.is_big_ = false) :
    contents h s = some (s.small_data_.take s.size_) := by
  simp [contents, hb]

theorem valid_inline (K : Nat) (h : heap) (s : uint_storage) (hb : s.is_big_ = false)
    (hv : valid K h s) :
    s.size_ ≤ SMALL_DATA_SIZE K ∧ s.small_data_.length = SMALL_DATA_SIZE K := by
  have := hv
  simp only [valid, hb, Bool.false_eq_true, if_false] at this
  exact ⟨this.2, this.1⟩

theorem SMALL_DATA_SIZE_le (K : Nat) : SMALL_DATA_SIZE K ≤ 8 := by
  unfold SMALL_DATA_SIZE SIZEOF_VECTOR_PTR
  exact Nat.div_le_self 8 K

/-- The method `push_back` on a valid storage appends the value of the referenced object and
changes no other storage, unless the push promotes the storage (inline array full) and the
reference is to an element of that inline array. -/
theorem push_back_spec (K : Nat) (h : heap) (s : uint_storage) (elem : elem_ref) (v : Nat)
    (xs : List Nat) (hv : valid K h s) (hc : contents h s = some xs)
    (hr : read_ref s elem = some v)
    (hsafe : s.size_ = SMALL_DATA_SIZE K → ∀ ind, elem ≠ elem_ref.own_small ind) :
    ∃ h1 s1, push_back K h s elem = some (h1, s1) ∧ contents h1 s1 = some (xs ++ [v]) ∧
      valid K h1 s1 ∧ (s.is_big_ = true ∨ s.size_ = SMALL_DATA_SIZE K → s1.is_big_ = true) ∧
      ∀ t, valid K h t → counted h s t → contents h1 t = contents h t ∧ valid K h1 t := by
  by_cases hcase : s.is_big_ = true ∨ s.size_ = SMALL_DATA_SIZE K
  · obtain ⟨h1, s1, h2, p, r, he, hb1, _, hd, hg, ho, hall⟩ :=
      write_path K h s xs (!s.is_big_ && decide (s.size_ = SMALL_DATA_SIZE K)) hv hc
        (by intro hh; simp only [Bool.and_eq_true, Bool.not_eq_true'] at hh; exact hh.1)
        (by
          rcases hcase with h' | h'
          · exact Or.inl h'
          · rcases Bool.eq_false_or_eq_true s.is_big_ with hh | hh
            · exact Or.inl hh
            · right; simp [hh, h'])
    obtain ⟨a1, a2, a3⟩ := hall (xs ++ [v])
    have hr1 : read_ref s1 elem = some v := by
      cases elem with
      | outside w => exact hr
      | own_small ind =>
          rcases Bool.eq_false_or_eq_true s.is_big_ with hh | hh
          · simp [read_ref, hh] at hr
          · rcases hcase with h' | h'
            · rw [hh] at h'; cases h'
            · exact absurd rfl (hsafe h' ind)
    refine ⟨_, _, ?_, a1, a2, fun _ => hb1, a3⟩
    unfold push_back
    rw [he]
    simp only [hb1, if_true, hd, hg, ho, hr1]
  · have hb : s.is_big_ = false := by
      rcases Bool.eq_false_or_eq_true s.is_big_ with hh | hh
      · exact absurd (Or.inl hh) hcase
      · exact hh
    have hsz : s.size_ ≠ SMALL_DATA_SIZE K := fun hh => hcase (Or.inr hh)
    obtain ⟨v1, v2⟩ := valid_inline K h s hb hv
    have hlt : s.size_ < s.small_data_.length := by omega
    have h8 := SMALL_DATA_SIZE_le K
    have hinc : size_inc s.size_ = s.size_ + 1 := size_inc_eq _ (by unfold SIZE_RANGE; omega)
    have hxs : xs = s.small_data_.take s.size_ := by
      rw [contents_inline h s hb] at hc
      exact (Option.some.inj hc).symm
    refine ⟨h, { s with small_data_ := s.small_data_.set s.size_ v, size_ := size_inc s.size_ },
      ?_, ?_, ?_, ?_, ?_⟩
    · unfold push_back
      simp [hb, hsz, hlt, hr]
    · rw [contents_inline _ _ (by exact hb), hinc]
      simp only
      rw [take_succ_set _ _ _ hlt, hxs]
    · simp only [valid, hb, hinc, List.length_set]
      simp only [Bool.false_eq_true, if_false]
      exact ⟨v2, by omega⟩
    · intro hh; exact absurd hh hcase
    · intro t hvt _
      exact ⟨rfl, hvt⟩

theorem inline_of_not_big (s : uint_storage) (h : ¬ s.is_big_ = true) : s.is_big_ = false := by
  simpa using h

/-- What `size()` and the constant `operator[]` report are the length and the elements of
`contents`. -/
theorem view_of_contents (K : Nat) (h : heap) (s : uint_storage) (xs : List Nat)
    (hv : valid K h s) (hc : contents h s = some xs) :
    size h s = some xs.length ∧ ∀ i, i < xs.length → op_index h s i = xs.get? i := by
  by_cases hb : s.is_big_ = true
  · unfold contents at hc
    unfold size op_index
    simp only [hb, if_true] at hc ⊢
    cases hg : heap_get h s.big_data_ with
    | none => rw [hg] at hc; simp at hc
    | some r =>
        rw [hg] at hc
        simp only [Option.map_some', Option.some.injEq] at hc
        simp [hc]
  · have hb := inline_of_not_big s hb
    obtain ⟨v1, v2⟩ := valid_inline K h s hb hv
    rw [contents_inline h s hb] at hc
    have hxs := (Option.some.inj hc).symm
    unfold size op_index
    simp only [hb, Bool.false_eq_true, if_false]
    subst hxs
    refine ⟨by simp; omega, ?_⟩
    intro i hi
    simp only [List.length_take] at hi
    simp only [List.get?_eq_getElem?]
    rw [List.getElem?_take_of_lt (by omega)]

theorem dropLast_take (l : List Nat) (n : Nat) (hn : n ≤ l.length) :
    (l.take n).dropLast = l.take (n - 1) := by
  rw [List.dropLast_eq_take, List.length_take, List.take_take]
  congr 1
  omega

theorem take_set_comm (l : List Nat) (n i v : Nat) :
    (l.set i v).take n = (l.take n).set i v := by
  induction l generalizing n i with
  | nil => simp
  | cons a l ih =>
      cases n with
      | zero => simp
      | succ n =>
          cases i with
          | zero => simp
          | succ i => simp [ih]

/-- The method `pop_back` on a valid non-empty storage removes the last element and changes no
other storage. -/
theorem pop_back_spec (K : Nat) (h : heap) (s : uint_storage) (xs : List Nat)
    (hv : valid K h s) (hc : contents h s = some xs) (hne : xs ≠ []) :
    ∃ h1 s1, pop_back h s = some (h1, s1) ∧ contents h1 s1 = some xs.dropLast ∧
      valid K h1 s1 ∧ (s.is_big_ = true → s1.is_big_ = true) ∧
      ∀ t, valid K h t → counted h s t → contents h1 t = contents h t ∧ valid K h1 t := by
  by_cases hb : s.is_big_ = true
  · obtain ⟨h2, p, r, hd, hg, ho, hall⟩ := big_update K h s xs hv hb hc
    obtain ⟨a1, a2, a3⟩ := hall xs.dropLast
    refine ⟨_, _, ?_, a1, a2, fun _ => hb, a3⟩
    unfold pop_back
    simp only [hb, if_true, hd, hg, ho, hne, if_false]
  · have hb := inline_of_not_big s hb
    obtain ⟨v1, v2⟩ := valid_inline K h s hb hv
    have h8 := SMALL_DATA_SIZE_le K
    rw [contents_inline h s hb] at hc
    have hxs := (Option.some.inj hc).symm
    have hpos : 1 ≤ s.size_ := by
      rcases Nat.eq_zero_or_pos s.size_ with h0 | h0
      · rw [h0] at hxs; simp at hxs; exact absurd hxs hne
      · exact h0
    have hdec : size_dec s.size_ = s.size_ - 1 := size_dec_eq _ hpos (by unfold SIZE_RANGE; omega)
    refine ⟨h, { s with size_ := size_dec s.size_ }, ?_, ?_, ?_, ?_, ?_⟩
    · unfold pop_back
      simp [hb]
    · rw [contents_inline _ _ (by exact hb), hdec, hxs]
      rw [dropLast_take _ _ (by omega)]
    · simp only [valid, hb, hdec]
      simp only [Bool.false_eq_true, if_false]
      exact ⟨v2, by omega⟩
    · intro hh; rw [hb] at hh; cases hh
    · intro t hvt _
      exact ⟨rfl, hvt⟩

/-- A write through the mutable `operator[]` at an index below the length replaces that element
and changes no other storage. -/
theorem op_index_set_spec (K : Nat) (h : heap) (s : uint_storage) (xs : List Nat) (i v : Nat)
    (hv : valid K h s) (hc : contents h s = some xs) (hi : i < xs.length) :
    ∃ h1 s1, op_index_set h s i v = some (h1, s1) ∧ contents h1 s1 = some (xs.set i v) ∧
      valid K h1 s1 ∧ (s.is_big_ = true → s1.is_big_ = true) ∧
      ∀ t, valid K h t → counted h s t → contents h1 t = contents h t ∧ valid K h1 t := by
  by_cases hb : s.is_big_ = true
  · obtain ⟨h2, p, r, hd, hg, ho, hall⟩ := big_update K h s xs hv hb hc
    obtain ⟨a1, a2, a3⟩ := hall (xs.set i v)
    refine ⟨_, _, ?_, a1, a2, fun _ => hb, a3⟩
    unfold op_index_set
    simp only [hb, if_true, hd, hg, ho, hi]
  · have hb := inline_of_not_big s hb
    obtain ⟨v1, v2⟩ := valid_inline K h s hb hv
    rw [contents_inline h s hb] at hc
    have hxs := (Option.some.inj hc).symm
    have hi2 : i < s.size_ ∧ i < s.small_data_.length := by
      rw [hxs, List.length_take] at hi
      omega
    refine ⟨h, { s with small_data_ := s.small_data_.set i v }, ?_, ?_, ?_, ?_, ?_⟩
    · unfold op_index_set
      simp [hb, hi2.2]
    · rw [contents_inline _ _ (by exact hb), hxs]
      rw [take_set_comm]
    · simp only [valid, hb, List.length_set]
      simp only [Bool.false_eq_true, if_false]
      exact ⟨v2, v1⟩
    · intro hh; rw [hb] at hh; cases hh
    · intro t hvt _
      exact ⟨rfl, hvt⟩

/-- A write through the mutable `back()` of a non-empty storage replaces the last element and
changes no other storage. -/
theorem back_set_spec (K : Nat) (h : heap) (s : uint_storage) (xs : List Nat) (v : Nat)
    (hv : valid K h s) (hc : contents h s = some xs) (hne : xs ≠ []) :
    ∃ h1 s1, back_set h s v = some (h1, s1) ∧ contents h1 s1 = some (xs.set (xs.length - 1) v) ∧
      valid K h1 s1 ∧ (s.is_big_ = true → s1.is_big_ = true) ∧
      ∀ t, valid K h t → counted h s t → contents h1 t = contents h t ∧ valid K h1 t := by
  by_cases hb : s.is_big_ = true
  · obtain ⟨h2, p, r, hd, hg, ho, hall⟩ := big_update K h s xs hv hb hc
    obtain ⟨a1, a2, a3⟩ := hall (xs.set (xs.length - 1) v)
    refine ⟨_, _, ?_, a1, a2, fun _ => hb, a3⟩
    unfold back_set
    simp only [hb, if_true, hd, hg, ho, hne, if_false]
  · have hb := inline_of_not_big s hb
    obtain ⟨v1, v2⟩ := valid_inline K h s hb hv
    have h8 := SMALL_DATA_SIZE_le K
    rw [contents_inline h s hb] at hc
    have hxs := (Option.some.inj hc).symm
    have hpos : 1 ≤ s.size_ := by
      rcases Nat.eq_zero_or_pos s.size_ with h0 | h0
      · rw [h0] at hxs; simp at hxs; exact absurd hxs hne
      · exact h0
    have hdec : size_dec s.size_ = s.size_ - 1 := size_dec_eq _ hpos (by unfold SIZE_RANGE; omega)
    have hlen : xs.length = s.size_ := by rw [hxs, List.length_take]; omega
    refine ⟨h, { s with small_data_ := s.small_data_.set (size_dec s.size_) v }, ?_, ?_, ?_, ?_, ?_⟩
    · unfold back_set
      have : size_dec s.size_ < s.small_data_.length := by omega
      simp [hb, this]
    · rw [contents_inline _ _ (by exact hb), hlen, hdec, hxs]
      rw [take_set_comm]
    · simp only [valid, hb, List.length_set]
      simp only [Bool.false_eq_true, if_false]
      exact ⟨v2, v1⟩
    · intro hh; rw [hb] at hh; cases hh
    · intro t hvt _
      exact ⟨rfl, hvt⟩

/-- The method `resize` on a valid storage that is shared, or is not asked to shrink, cuts or
pads the elements with zeros and changes no other storage. -/
theorem resize_spec (K : Nat) (h : heap) (s : uint_storage) (xs : List Nat) (n : Nat)
    (hv : valid K h s) (hc : contents h s = some xs)
    (hok : s.is_big_ = true ∨ xs.length ≤ n) :
    ∃ h1 s1, resize K h s n = some (h1, s1) ∧
      contents h1 s1 = some (bigint_optimized.resize xs n) ∧
      valid K h1 s1 ∧ (s.is_big_ = true → s1.is_big_ = true) ∧
      ∀ t, valid K h t → counted h s t → contents h1 t = contents h t ∧ valid K h1 t := by
  by_cases hcase : s.is_big_ = true ∨ n > SMALL_DATA_SIZE K
  · obtain ⟨h1, s1, h2, p, r, he, hb1, _, hd, hg, ho, hall⟩ :=
      write_path K h s xs (!s.is_big_ && decide (n > SMALL_DATA_SIZE K)) hv hc
        (by intro hh; simp only [Bool.and_eq_true, Bool.not_eq_true'] at hh; exact hh.1)
        (by
          rcases hcase with h' | h'
          · exact Or.inl h'
          · rcases Bool.eq_false_or_eq_true s.is_big_ with hh | hh
            · exact Or.inl hh
            · right; simp [hh, h'])
    obtain ⟨a1, a2, a3⟩ := hall (bigint_optimized.resize xs n)
    refine ⟨_, _, ?_, a1, a2, fun _ => hb1, a3⟩
    unfold resize
    rw [he]
    simp only [hb1, if_true, hd, hg, ho]
  · have hb : s.is_big_ = false := by
      rcases Bool.eq_false_or_eq_true s.is_big_ with hh | hh
      · exact absurd (Or.inl hh) hcase
      · exact hh
    have hn : n ≤ SMALL_DATA_SIZE K := by
      by_contra hh
      exact hcase (Or.inr (by omega))
    obtain ⟨v1, v2⟩ := valid_inline K h s hb hv
    rw [contents_inline h s hb] at hc
    have hxs := (Option.some.inj hc).symm
    have hlen : xs.length = s.size_ := by rw [hxs, List.length_take]; omega
    have hle : s.size_ ≤ n := by
      rcases hok with h' | h'
      · rw [hb] at h'; cases h'
      · omega
    have hfill : fill_zero s.small_data_ s.size_ n =
        some (s.small_data_.take s.size_ ++ List.replicate (n - s.size_) 0 ++
          s.small_data_.drop n) := by
      unfold fill_zero
      rw [if_pos ⟨hle, by omega⟩]
    refine ⟨h, uint_storage.mk s.is_big_ n s.big_data_ (s.small_data_.take s.size_ ++
        List.replicate (n - s.size_) 0 ++ s.small_data_.drop n), ?_, ?_, ?_, ?_, ?_⟩
    · unfold resize
      have hnot : ¬ (SMALL_DATA_SIZE K < n) := by omega
      simp [hb, hnot, hfill]
    · rw [contents_inline _ _ (by exact hb)]
      simp only
      have hl1 : (s.small_data_.take s.size_ ++ List.replicate (n - s.size_) 0).length = n := by
        simp only [List.length_append, List.length_take, List.length_replicate]
        omega
      rw [List.take_left' hl1]
      unfold bigint_optimized.resize
      rw [hlen, hxs, List.take_take]
      congr 2
      · congr 1; omega
    · simp only [valid, hb, List.length_append, List.length_take, List.length_replicate,
        List.length_drop]
      simp only [Bool.false_eq_true, if_false]
      exact ⟨by omega, hn⟩
    · intro hh; rw [hb] at hh; cases hh
    · intro t hvt _
      exact ⟨rfl, hvt⟩

theorem share_spec (h : heap) (q : Nat) (r : ref_data_) (hg : heap_get h q = some r)
    (hr : r.ref_cnt_ + 1 < SIZE_RANGE) :
    share h q = some (heap_set h q { r with ref_cnt_ := r.ref_cnt_ + 1 }, q) := by
  unfold share
  rw [hg]
  simp only [size_inc_eq _ hr]

theorem unshare_eq (h : heap) (p : Nat) (r : ref_data_) (hg : heap_get h p = some r) :
    unshare h p = if size_dec r.ref_cnt_ = 0 then some (heap_delete h p)
      else some (heap_set h p { r with ref_cnt_ := size_dec r.ref_cnt_ }) := by
  unfold unshare
  rw [hg]

theorem unshare_some (h : heap) (p : Nat) (r : ref_data_) (hg : heap_get h p = some r) :
    ∃ h1, unshare h p = some h1 ∧ ∀ q, q ≠ p → heap_get h1 q = heap_get h q := by
  rw [unshare_eq h p r hg]
  by_cases hz : size_dec r.ref_cnt_ = 0
  · rw [if_pos hz]
    exact ⟨_, rfl, fun q hq => heap_get_delete_ne h p q hq⟩
  · rw [if_neg hz]
    exact ⟨_, rfl, fun q hq => heap_get_set_ne h p q _ hq⟩

theorem vector_ptr_assign_eq (h h1 : heap) (px po : Nat) (hu : unshare h px = some h1) :
    vector_ptr_assign h px po = share h1 po := by
  unfold vector_ptr_assign
  rw [hu]

/-- The copy assignment of a handle: the destination ends on the block of the source, which now
counts both of them. -/
theorem vector_ptr_assign_spec (h : heap) (px po : Nat) (rx ro : ref_data_)
    (hgx : heap_get h px = some rx) (hgo : heap_get h po = some ro)
    (hx1 : 1 ≤ rx.ref_cnt_) (hx2 : rx.ref_cnt_ < SIZE_RANGE)
    (ho1 : 1 ≤ ro.ref_cnt_) (ho2 : ro.ref_cnt_ + 1 < SIZE_RANGE)
    (hsame : px = po → 2 ≤ rx.ref_cnt_) :
    ∃ h2 r2, vector_ptr_assign h px po = some (h2, po) ∧ heap_get h2 po = some r2 ∧
      r2.obj_ = ro.obj_ ∧ 2 ≤ r2.ref_cnt_ ∧ r2.ref_cnt_ < SIZE_RANGE := by
  have hdec := size_dec_eq _ hx1 hx2
  have hpx := heap_get_lt _ _ _ hgx
  have hpo := heap_get_lt _ _ _ hgo
  have hu := unshare_eq h px rx hgx
  rw [hdec] at hu
  by_cases hz : rx.ref_cnt_ - 1 = 0
  · rw [if_pos hz] at hu
    rw [vector_ptr_assign_eq h _ px po hu]
    have hne : po ≠ px := by
      intro he
      have := hsame he.symm
      omega
    have hg1 : heap_get (heap_delete h px) po = some ro := by
      rw [heap_get_delete_ne _ _ _ hne]; exact hgo
    rw [share_spec _ po ro hg1 ho2]
    have hl : po < (heap_delete h px).length := by
      unfold heap_delete; rw [List.length_set]; exact hpo
    refine ⟨_, _, rfl, heap_get_set_self _ _ _ hl, rfl, ?_, ho2⟩
    show 2 ≤ ro.ref_cnt_ + 1
    omega
  · rw [if_neg hz] at hu
    rw [vector_ptr_assign_eq h _ px po hu]
    by_cases he : po = px
    · subst he
      rw [hgx] at hgo
      cases hgo
      have hlt : rx.ref_cnt_ - 1 + 1 < SIZE_RANGE := by omega
      rw [share_spec _ po _ (heap_get_set_self _ _ _ hpo) hlt]
      refine ⟨_, _, rfl, heap_get_set_self _ _ _ (by rw [length_heap_set]; exact hpo), rfl, ?_, hlt⟩
      show 2 ≤ rx.ref_cnt_ - 1 + 1
      omega
    · have hg1 : heap_get (heap_set h px { rx with ref_cnt_ := rx.ref_cnt_ - 1 }) po = some ro := by
        rw [heap_get_set_ne _ _ _ _ he]; exact hgo
      rw [share_spec _ po ro hg1 ho2]
      refine ⟨_, _, rfl, heap_get_set_self _ _ _ (by rw [length_heap_set]; exact hpo), rfl, ?_, ho2⟩
      show 2 ≤ ro.ref_cnt_ + 1
      omega

theorem valid_big (K : Nat) (h : heap) (s : uint_storage) (hb : s.is_big_ = true)
    (hv : valid K h s) :
    s.small_data_.length = SMALL_DATA_SIZE K ∧
    ∃ r, heap_get h s.big_data_ = some r ∧ 1 ≤ r.ref_cnt_ ∧ r.ref_cnt_ < SIZE_RANGE := by
  have := hv
  simp only [valid, hb, if_true] at this
  exact this

theorem contents_big (h : heap) (s : uint_storage) (r : ref_data_) (hb : s.is_big_ = true)
    (hg : heap_get h s.big_data_ = some r) : contents h s = some r.obj_ := by
  simp [contents, hb, hg]

theorem length_init_small_data (K : Nat) (x src : uint_storage)
    (hx : x.small_data_.length = SMALL_DATA_SIZE K)
    (hs : src.small_data_.length = SMALL_DATA_SIZE K) (hn : src.size_ ≤ SMALL_DATA_SIZE K) :
    (init_small_data x src).small_data_.length = SMALL_DATA_SIZE K ∧
    (init_small_data x src).small_data_.take src.size_ = src.small_data_.take src.size_ := by
  unfold init_small_data
  simp only [List.length_append, List.length_take, List.length_drop]
  refine ⟨by omega, ?_⟩
  rw [List.take_left' (by rw [List.length_take]; omega)]

/-- A storage that ends on the block of `other`, counted at least twice, or holds a copy of the
inline elements of `other`, is a valid copy of `other`. -/
theorem copy_result (K : Nat) (h1 : heap) (y other : uint_storage) (xs : List Nat)
    (hyl : y.small_data_.length = SMALL_DATA_SIZE K)
    (hol : other.small_data_.length = SMALL_DATA_SIZE K)
    (hbig : other.is_big_ = true → y.is_big_ = true ∧ y.big_data_ = other.big_data_ ∧
      ∃ r, heap_get h1 other.big_data_ = some r ∧ r.obj_ = xs ∧ 2 ≤ r.ref_cnt_ ∧
        r.ref_cnt_ < SIZE_RANGE)
    (hsmall : other.is_big_ = false → y.is_big_ = false ∧ y.size_ = other.size_ ∧
      other.size_ ≤ SMALL_DATA_SIZE K ∧
      y.small_data_.take other.size_ = other.small_data_.take other.size_ ∧
      xs = other.small_data_.take other.size_) :
    y.is_big_ = other.is_big_ ∧ contents h1 y = some xs ∧ contents h1 other = some xs ∧
      valid K h1 y ∧ valid K h1 other ∧ counted h1 y other ∧ counted h1 other y := by
  rcases Bool.eq_false_or_eq_true other.is_big_ with hb | hb
  · obtain ⟨hyb, hyp, r, hg, ho, h2, h3⟩ := hbig hb
    refine ⟨by rw [hyb, hb], ?_, ?_, ?_, ?_, ?_, ?_⟩
    · rw [contents_big h1 y r hyb (by rw [hyp]; exact hg), ho]
    · rw [contents_big h1 other r hb hg, ho]
    · simp only [valid, hyb, if_true, hyp]
      exact ⟨hyl, r, hg, by omega, h3⟩
    · simp only [valid, hb, if_true]
      exact ⟨hol, r, hg, by omega, h3⟩
    · intro _ _ _
      exact ⟨r, by rw [hyp]; exact hg, h2⟩
    · intro _ _ _
      exact ⟨r, hg, h2⟩
  · obtain ⟨hyb, hys, hn, htake, hxs⟩ := hsmall hb
    refine ⟨by rw [hyb, hb], ?_, ?_, ?_, ?_, ?_, ?_⟩
    · rw [contents_inline h1 y hyb, hys, htake, hxs]
    · rw [contents_inline h1 other hb, hxs]
    · simp only [valid, hyb, Bool.false_eq_true, if_false, hys]
      exact ⟨hyl, hn⟩
    · simp only [valid, hb, Bool.false_eq_true, if_false]
      exact ⟨hol, hn⟩
    · intro hh; rw [hyb] at hh; cases hh
    · intro hh; rw [hb] at hh; cases hh

/-- The copy constructor makes a valid storage with the elements of `other`; the two are counted
separately. -/
theorem copy_construct_spec (K : Nat) (h : heap) (x other : uint_storage) (xs : List Nat)
    (hx : x.small_data_.length = SMALL_DATA_SIZE K)
    (hv : valid K h other) (hs : can_share h other) (hc : contents h other = some xs) :
    ∃ h1 y, copy_construct h x other = some (h1, y) ∧ y.is_big_ = other.is_big_ ∧
      contents h1 y = some xs ∧ contents h1 other = some xs ∧
      valid K h1 y ∧ valid K h1 other ∧ counted h1 y other ∧ counted h1 other y := by
  rcases Bool.eq_false_or_eq_true other.is_big_ with hb | hb
  · obtain ⟨hol, r, hg, h1, h2⟩ := valid_big K h other hb hv
    have hro : r.obj_ = xs := by
      rw [contents_big h other r hb hg] at hc
      exact Option.some.inj hc
    have hsh := share_spec h other.big_data_ r hg (hs hb r hg)
    have he : copy_construct h x other = some (heap_set h other.big_data_ { r with ref_cnt_ := r.ref_cnt_ + 1 },
          uint_storage.mk true x.size_ other.big_data_ x.small_data_) := by
      simp only [copy_construct, hb, if_true, init_big_data, hsh]
    refine ⟨_, _, he, ?_⟩
    refine copy_result K _ _ other xs ?_ hol ?_ ?_
    · exact hx
    · intro _
      refine ⟨rfl, rfl, _, heap_get_set_self _ _ _ (heap_get_lt _ _ _ hg), hro, ?_, ?_⟩
      · simp only; omega
      · simp only; exact hs hb r hg
    · intro hh; rw [hb] at hh; cases hh
  · obtain ⟨hn, hol⟩ := valid_inline K h other hb hv
    have hxs : xs = other.small_data_.take other.size_ := by
      rw [contents_inline h other hb] at hc
      exact (Option.some.inj hc).symm
    obtain ⟨l1, l2⟩ := length_init_small_data K x other hx hol hn
    have he : copy_construct h x other = some (h,
          uint_storage.mk false (init_small_data x other).size_
            (init_small_data x other).big_data_ (init_small_data x other).small_data_) := by
      simp only [copy_construct, hb, Bool.false_eq_true, if_false]
    refine ⟨_, _, he, ?_⟩
    refine copy_result K _ _ other xs ?_ hol ?_ ?_
    · exact l1
    · intro hh; rw [hb] at hh; cases hh
    · intro _
      exact ⟨rfl, rfl, hn, l2, hxs⟩

/-- The copy assignment between two distinct valid storages makes the destination a valid
storage with the elements of `other`; the two are counted separately. -/
theorem op_assign_spec (K : Nat) (h : heap) (x other : uint_storage) (xs : List Nat)
    (hvx : valid K h x) (hv : valid K h other) (hcnt : counted h x other)
    (hs : can_share h other) (hc : contents h other = some xs) :
    ∃ h1 y, op_assign h x other false = some (h1, y) ∧ y.is_big_ = other.is_big_ ∧
      contents h1 y = some xs ∧ contents h1 other = some xs ∧
      valid K h1 y ∧ valid K h1 other ∧ counted h1 y other ∧ counted h1 other y := by
  have hx : x.small_data_.length = SMALL_DATA_SIZE K := hvx.1
  rcases Bool.eq_false_or_eq_true other.is_big_ with hb | hb
  · obtain ⟨hol, r, hg, h1, h2⟩ := valid_big K h other hb hv
    have hro : r.obj_ = xs := by
      rw [contents_big h other r hb hg] at hc
      exact Option.some.inj hc
    rcases Bool.eq_false_or_eq_true x.is_big_ with hxb | hxb
    · obtain ⟨_, rx, hgx, hx1, hx2⟩ := valid_big K h x hxb hvx
      obtain ⟨h2', r2, ha, hg2, ho2, hc2, hc3⟩ :=
        vector_ptr_assign_spec h x.big_data_ other.big_data_ rx r hgx hg hx1 hx2 h1
          (hs hb r hg) (by
            intro he
            obtain ⟨r0, hg0, h20⟩ := hcnt hxb hb he
            rw [hgx] at hg0
            cases hg0
            exact h20)
      have he : op_assign h x other false = some (h2', uint_storage.mk true x.size_ other.big_data_ x.small_data_) := by
        simp only [op_assign, hb, hxb, if_true, ha, Bool.false_eq_true, if_false]
      refine ⟨_, _, he, ?_⟩
      refine copy_result K _ _ other xs ?_ hol ?_ ?_
      · exact hx
      · intro _
        exact ⟨rfl, rfl, r2, hg2, by rw [ho2, hro], hc2, hc3⟩
      · intro hh; rw [hb] at hh; cases hh
    · have hsh := share_spec h other.big_data_ r hg (hs hb r hg)
      have he : op_assign h x other false = some (heap_set h other.big_data_ { r with ref_cnt_ := r.ref_cnt_ + 1 },
          uint_storage.mk true x.size_ other.big_data_ x.small_data_) := by
        simp only [op_assign, hb, hxb, if_true, init_big_data, hsh, Bool.false_eq_true, if_false]
      refine ⟨_, _, he, ?_⟩
      refine copy_result K _ _ other xs ?_ hol ?_ ?_
      · exact hx
      · intro _
        refine ⟨rfl, rfl, _, heap_get_set_self _ _ _ (heap_get_lt _ _ _ hg), hro, ?_, ?_⟩
        · simp only; omega
        · simp only; exact hs hb r hg
      · intro hh; rw [hb] at hh; cases hh
  · obtain ⟨hn, hol⟩ := valid_inline K h other hb hv
    have hxs : xs = other.small_data_.take other.size_ := by
      rw [contents_inline h other hb] at hc
      exact (Option.some.inj hc).symm
    obtain ⟨l1, l2⟩ := length_init_small_data K x other hx hol hn
    rcases Bool.eq_false_or_eq_true x.is_big_ with hxb | hxb
    · obtain ⟨_, rx, hgx, hx1, hx2⟩ := valid_big K h x hxb hvx
      obtain ⟨h1, hu, _⟩ := unshare_some h x.big_data_ rx hgx
      have he : op_assign h x other false = some (h1,
          uint_storage.mk false (init_small_data x other).size_
            (init_small_data x other).big_data_ (init_small_data x other).small_data_) := by
        simp only [op_assign, hb, hxb, if_true, hu, Bool.false_eq_true, if_false]
      refine ⟨_, _, he, ?_⟩
      refine copy_result K _ _ other xs ?_ hol ?_ ?_
      · exact l1
      · intro hh; rw [hb] at hh; cases hh
      · intro _
        exact ⟨rfl, rfl, hn, l2, hxs⟩
    · have he : op_assign h x other false = some (h,
          uint_storage.mk false (init_small_data x other).size_
            (init_small_data x other).big_data_ (init_small_data x other).small_data_) := by
        simp only [op_assign, hb, hxb, Bool.false_eq_true, if_false]
      refine ⟨_, _, he, ?_⟩
      refine copy_result K _ _ other xs ?_ hol ?_ ?_
      · exact l1
      · intro hh; rw [hb] at hh; cases hh
      · intro _
        exact ⟨rfl, rfl, hn, l2, hxs⟩

/-- A valid storage has a sequence of elements. -/
theorem valid_contents (K : Nat) (h : heap) (s : uint_storage) (hv : valid K h s) :
    ∃ xs, contents h s = some xs := by
  rcases Bool.eq_false_or_eq_true s.is_big_ with hb | hb
  · obtain ⟨_, r, hg, _⟩ := valid_big K h s hb hv
    exact ⟨_, contents_big h s r hb hg⟩
  · exact ⟨_, contents_inline h s hb⟩

/-- Every mutating operation whose precondition holds, other than a `resize` that shrinks an
inline storage, has the intended effect on the elements, keeps the storage valid, keeps a shared
storage shared, and changes no other storage. -/
theorem mutation_spec (K : Nat) (h : heap) (s : uint_storage) (xs ys : List Nat) (m : mutation)
    (hv : valid K h s) (hc : contents h s = some xs) (hm : mutate xs m = some ys)
    (hok : ∀ n, m = mutation.resize n → s.is_big_ = true ∨ xs.length ≤ n) :
    ∃ h1 s1, apply_mutation K h s m = some (h1, s1) ∧ contents h1 s1 = some ys ∧
      valid K h1 s1 ∧ (s.is_big_ = true → s1.is_big_ = true) ∧
      ∀ t, valid K h t → counted h s t → contents h1 t = contents h t ∧ valid K h1 t := by
  cases m with
  | push_back v =>
      simp only [mutate, Option.some.injEq] at hm
      subst hm
      obtain ⟨h1, s1, a, b, c, d, e⟩ :=
        push_back_spec K h s (elem_ref.outside v) v xs hv hc rfl (fun _ ind hne => by cases hne)
      exact ⟨h1, s1, a, b, c, fun hb => d (Or.inl hb), e⟩
  | pop_back =>
      by_cases hne : xs = []
      · simp [mutate, hne] at hm
      · simp only [mutate, hne, if_false, Option.some.injEq] at hm
        subst hm
        exact pop_back_spec K h s xs hv hc hne
  | index_set i v =>
      by_cases hi : i < xs.length
      · simp only [mutate, hi, if_true, Option.some.injEq] at hm
        subst hm
        exact op_index_set_spec K h s xs i v hv hc hi
      · simp [mutate, hi] at hm
  | back_set v =>
      by_cases hne : xs = []
      · simp [mutate, hne] at hm
      · simp only [mutate, hne, if_false, Option.some.injEq] at hm
        subst hm
        exact back_set_spec K h s xs v hv hc hne
  | resize n =>
      simp only [mutate, Option.some.injEq] at hm
      subst hm
      exact resize_spec K h s xs n hv hc (hok n rfl)

/-- A shared storage stays shared under every mutating operation that returns. -/
theorem apply_mutation_big (K : Nat) (h h1 : heap) (s s1 : uint_storage) (m : mutation)
    (hb : s.is_big_ = true) (he : apply_mutation K h s m = some (h1, s1)) :
    s1.is_big_ = true := by
  cases m with
  | push_back v =>
      simp only [apply_mutation, push_back, read_ref, hb, Bool.not_true, Bool.false_and,
        Bool.false_eq_true, if_false, if_true] at he
      cases hd : detach h s.big_data_ with
      | none => rw [hd] at he; cases he
      | some r =>
          obtain ⟨h2, p⟩ := r
          rw [hd] at he
          simp only at he
          cases hg : heap_get h2 p with
          | none => rw [hg] at he; cases he
          | some r =>
              rw [hg] at he
              simp only [Option.some.injEq, Prod.mk.injEq] at he
              rw [← he.2]
  | pop_back =>
      simp only [apply_mutation, pop_back, hb, if_true] at he
      cases hd : detach h s.big_data_ with
      | none => rw [hd] at he; cases he
      | some r =>
          obtain ⟨h2, p⟩ := r
          rw [hd] at he
          simp only at he
          cases hg : heap_get h2 p with
          | none => rw [hg] at he; cases he
          | some r =>
              rw [hg] at he
              simp only at he
              split at he
              · cases he
              · simp only [Option.some.injEq, Prod.mk.injEq] at he
                rw [← he.2]
  | index_set i v =>
      simp only [apply_mutation, op_index_set, hb, if_true] at he
      cases hd : detach h s.big_data_ with
      | none => rw [hd] at he; cases he
      | some r =>
          obtain ⟨h2, p⟩ := r
          rw [hd] at he
          simp only at he
          cases hg : heap_get h2 p with
          | none => rw [hg] at he; cases he
          | some r =>
              rw [hg] at he
              simp only at he
              split at he
              · simp only [Option.some.injEq, Prod.mk.injEq] at he
                rw [← he.2]
              · cases he
  | back_set v =>
      simp only [apply_mutation, back_set, hb, if_true] at he
      cases hd : detach h s.big_data_ with
      | none => rw [hd] at he; cases he
      | some r =>
          obtain ⟨h2, p⟩ := r
          rw [hd] at he
          simp only at he
          cases hg : heap_get h2 p with
          | none => rw [hg] at he; cases he
          | some r =>
              rw [hg] at he
              simp only at he
              split at he
              · cases he
              · simp only [Option.some.injEq, Prod.mk.injEq] at he
                rw [← he.2]
  | resize n =>
      simp only [apply_mutation, resize, hb, Bool.not_true, Bool.false_and, Bool.false_eq_true,
        if_false, if_true] at he
      cases hd : detach h s.big_data_ with
      | none => rw [hd] at he; cases he
      | some r =>
          obtain ⟨h2, p⟩ := r
          rw [hd] at he
          simp only at he
          cases hg : heap_get h2 p with
          | none => rw [hg] at he; cases he
          | some r =>
              rw [hg] at he
              simp only [Option.some.injEq, Prod.mk.injEq] at he
              rw [← he.2]

/-- The copy assignment leaves the destination with the tag of the source. -/
theorem op_assign_tag (h h1 : heap) (x other s1 : uint_storage)
    (he : op_assign h x other false = some (h1, s1)) : s1.is_big_ = other.is_big_ := by
  unfold op_assign at he
  simp only [Bool.false_eq_true, if_false] at he
  split at he
  · split at he
    · split at he
      · cases he
      · simp only [Option.some.injEq, Prod.mk.injEq] at he
        rw [← he.2]
    · split at he
      · cases he
      · simp only [Option.some.injEq, Prod.mk.injEq] at he
        rw [← he.2]
  · split at he
    · split at he
      · cases he
      · simp only [Option.some.injEq, Prod.mk.injEq] at he
        rw [← he.2]
    · simp only [Option.some.injEq, Prod.mk.injEq] at he
      rw [← he.2]

/-! ## The claims about the storage -/

/-- Copy-on-write isolation for the operations that are defined: after `B` is copy-constructed
from a valid `A`, a mutating operation on either of them (other than a `resize` that shrinks an
inline storage) has its effect on that storage and leaves the elements of the other one as they
were. -/
theorem copy_construct_isolated (K : Nat) (h : heap) (x A : uint_storage) (xs ys : List Nat)
    (m : mutation) (hx : x.small_data_.length = SMALL_DATA_SIZE K)
    (hv : valid K h A) (hs : can_share h A) (hc : contents h A = some xs)
    (hm : mutate xs m = some ys)
    (hok : ∀ n, m = mutation.resize n → A.is_big_ = true ∨ xs.length ≤ n) :
    ∃ h1 B, copy_construct h x A = some (h1, B) ∧
      contents h1 A = some xs ∧ contents h1 B = some xs ∧
      (∃ h2 B2, apply_mutation K h1 B m = some (h2, B2) ∧ contents h2 B2 = some ys ∧
        contents h2 A = some xs) ∧
      (∃ h2 A2, apply_mutation K h1 A m = some (h2, A2) ∧ contents h2 A2 = some ys ∧
        contents h2 B = some xs) := by
  obtain ⟨h1, B, he, htag, hcB, hcA, hvB, hvA, hBA, hAB⟩ :=
    copy_construct_spec K h x A xs hx hv hs hc
  refine ⟨h1, B, he, hcA, hcB, ?_, ?_⟩
  · obtain ⟨h2, B2, e1, e2, _, _, e5⟩ :=
      mutation_spec K h1 B xs ys m hvB hcB hm (by rw [htag]; exact hok)
    exact ⟨h2, B2, e1, e2, by rw [(e5 A hvA hBA).1]; exact hcA⟩
  · obtain ⟨h2, A2, e1, e2, _, _, e5⟩ := mutation_spec K h1 A xs ys m hvA hcA hm hok
    exact ⟨h2, A2, e1, e2, by rw [(e5 B hvB hAB).1]; exact hcB⟩

/-- Copy-on-write isolation for the operations that are defined: after a valid `B0` is
copy-assigned from another valid `A`, a mutating operation on either of them (other than a
`resize` that shrinks an inline storage) has its effect on that storage and leaves the elements
of the other one as they were. -/
theorem op_assign_isolated (K : Nat) (h : heap) (B0 A : uint_storage) (xs ys : List Nat)
    (m : mutation) (hvB : valid K h B0) (hv : valid K h A) (hcnt : counted h B0 A)
    (hs : can_share h A) (hc : contents h A = some xs) (hm : mutate xs m = some ys)
    (hok : ∀ n, m = mutation.resize n → A.is_big_ = true ∨ xs.length ≤ n) :
    ∃ h1 B, op_assign h B0 A false = some (h1, B) ∧
      contents h1 A = some xs ∧ contents h1 B = some xs ∧
      (∃ h2 B2, apply_mutation K h1 B m = some (h2, B2) ∧ contents h2 B2 = some ys ∧
        contents h2 A = some xs) ∧
      (∃ h2 A2, apply_mutation K h1 A m = some (h2, A2) ∧ contents h2 A2 = some ys ∧
        contents h2 B = some xs) := by
  obtain ⟨h1, B, he, htag, hcB, hcA, hvB1, hvA, hBA, hAB⟩ :=
    op_assign_spec K h B0 A xs hvB hv hcnt hs hc
  refine ⟨h1, B, he, hcA, hcB, ?_, ?_⟩
  · obtain ⟨h2, B2, e1, e2, _, _, e5⟩ :=
      mutation_spec K h1 B xs ys m hvB1 hcB hm (by rw [htag]; exact hok)
    exact ⟨h2, B2, e1, e2, by rw [(e5 A hvA hBA).1]; exact hcA⟩
  · obtain ⟨h2, A2, e1, e2, _, _, e5⟩ := mutation_spec K h1 A xs ys m hvA hcA hm hok
    exact ⟨h2, A2, e1, e2, by rw [(e5 B hvB1 hAB).1]; exact hcB⟩

/-- C23 (the code at the failing input): for `T = uint64_t` the inline array has one element;
`A` is the inline storage holding `[5]` and `B` is copy-constructed from it, so `B` is inline
with the same element; `B.resize(0)` calls `std::fill` on the range from `small_data_ + 1` to
`small_data_ + 0`, which is not a valid range: the operation has no defined result, so `B` does
not report length 0 afterwards. -/
theorem copy_then_shrink_undefined :
    SMALL_DATA_SIZE 8 = 1 ∧
    copy_construct [] ⟨false, 0, 0, [0]⟩ ⟨false, 1, 0, [5]⟩ = some ([], ⟨false, 1, 0, [5]⟩) ∧
    size [] ⟨false, 1, 0, [5]⟩ = some 1 ∧
    apply_mutation 8 [] ⟨false, 1, 0, [5]⟩ (mutation.resize 0) = none := by
  decide

/-- C24 (the claim fails): the shared storage `s` owns the block `[1, 2]`; copy-assigning the
inline storage holding `[7]` to it destroys the handle and leaves `s` inline. -/
theorem assign_from_inline_demotes :
    (⟨true, 0, 0, [0]⟩ : uint_storage).is_big_ = true ∧
    contents [some ⟨[1, 2], 1⟩] ⟨true, 0, 0, [0]⟩ = some [1, 2] ∧
    contents [some ⟨[1, 2], 1⟩] ⟨false, 1, 0, [7]⟩ = some [7] ∧
    op_assign [some ⟨[1, 2], 1⟩] ⟨true, 0, 0, [0]⟩ ⟨false, 1, 0, [7]⟩ false =
      some ([none], ⟨false, 1, 0, [7]⟩) := by
  decide

/-- C24 (amended): a valid shared storage stays shared under every mutating operation
(`push_back`, `pop_back`, `resize` to any length, a write through `operator[]` or `back()`):
whenever the operation returns, the result is shared, and it returns, with the intended elements,
whenever the precondition of the operation holds. The copy assignment gives the storage the
representation of its source: it stays shared when the source is shared (or is the storage
itself) and becomes inline when the source is inline. -/
theorem shared_stays_shared (K : Nat) (h : heap) (s : uint_storage)
    (hv : valid K h s) (hb : s.is_big_ = true) :
    (∀ m h1 s1, apply_mutation K h s m = some (h1, s1) → s1.is_big_ = true) ∧
    (∀ m xs ys, contents h s = some xs → mutate xs m = some ys →
      ∃ h1 s1, apply_mutation K h s m = some (h1, s1) ∧ s1.is_big_ = true ∧
        contents h1 s1 = some ys) ∧
    (∀ other h1 s1, op_assign h s other false = some (h1, s1) → s1.is_big_ = other.is_big_) ∧
    (∀ other, valid K h other → counted h s other → can_share h other →
      ∃ h1 s1, op_assign h s other false = some (h1, s1) ∧ s1.is_big_ = other.is_big_) ∧
    (∀ other, op_assign h s other true = some (h, s)) := by
  refine ⟨?_, ?_, ?_, ?_, ?_⟩
  · intro m h1 s1 he
    exact apply_mutation_big K h h1 s s1 m hb he
  · intro m xs ys hc hm
    obtain ⟨h1, s1, e1, e2, _, e4, _⟩ :=
      mutation_spec K h s xs ys m hv hc hm (fun _ _ => Or.inl hb)
    exact ⟨h1, s1, e1, e4 hb, e2⟩
  · intro other h1 s1 he
    exact op_assign_tag h h1 s other s1 he
  · intro other hvo hcnt hs
    obtain ⟨xs, hc⟩ := valid_contents K h other hvo
    obtain ⟨h1, y, he, htag, _⟩ := op_assign_spec K h s other xs hv hvo hcnt hs hc
    exact ⟨h1, y, he, htag⟩
  · intro other
    simp [op_assign]

theorem shared_stays_shared_witness :
    valid 8 [some ⟨[1, 2], 1⟩] ⟨true, 0, 0, [0]⟩ ∧
    (∀ m h1 s1, apply_mutation 8 [some ⟨[1, 2], 1⟩] ⟨true, 0, 0, [0]⟩ m = some (h1, s1) →
      s1.is_big_ = true) ∧
    apply_mutation 8 [some ⟨[1, 2], 1⟩] ⟨true, 0, 0, [0]⟩ (mutation.resize 0) =
      some ([some ⟨[], 1⟩], ⟨true, 0, 0, [0]⟩) :=
  ⟨⟨by decide, ⟨[1, 2], 1⟩, rfl, by decide, by decide⟩,
    (shared_stays_shared 8 [some ⟨[1, 2], 1⟩] ⟨true, 0, 0, [0]⟩
      ⟨by decide, ⟨[1, 2], 1⟩, rfl, by decide, by decide⟩ rfl).1,
    by decide⟩

/-- C25 (the code at the failing input): for `T = uint64_t` the inline array has one element; on
the inline storage holding `[5]`, `resize(0)` calls `std::fill` on the range from
`small_data_ + 1` to `small_data_ + 0`, which is not a valid range, so the operation has no
defined result. The same happens for `T = uint32_t` (two inline elements) on `[5, 7]` with
`resize(1)`. A shared storage of the same length shrinks as intended. -/
theorem resize_inline_shrink_undefined :
    SMALL_DATA_SIZE 8 = 1 ∧
    size [] ⟨false, 1, 0, [5]⟩ = some 1 ∧
    resize 8 [] ⟨false, 1, 0, [5]⟩ 0 = none ∧
    SMALL_DATA_SIZE 4 = 2 ∧
    resize 4 [] ⟨false, 2, 0, [5, 7]⟩ 1 = none ∧
    resize 8 [some ⟨[5], 1⟩] ⟨true, 0, 0, [0]⟩ 0 = some ([some ⟨[], 1⟩], ⟨true, 0, 0, [0]⟩) := by
  decide

/-- The method `push_back` followed by `pop_back`: on a valid storage of length `m`, a
`push_back` whose argument refers to an object with value `v` returns a storage of length
`m + 1` whose element `m` is `v` and whose elements below `m` are the old ones; a push onto a
full inline array (`m = SMALL_DATA_SIZE`) ends in the shared representation; a following
`pop_back()` returns a storage of length `m` with the old elements. The one case left out is the
push that promotes the storage while its argument refers to an element of the inline array of
the storage itself. -/
theorem push_back_pop_back (K : Nat) (h : heap) (s : uint_storage) (elem : elem_ref) (v m : Nat)
    (hv : valid K h s) (hm : size h s = some m) (hr : read_ref s elem = some v)
    (hsafe : s.size_ = SMALL_DATA_SIZE K → ∀ ind, elem ≠ elem_ref.own_small ind) :
    ∃ h1 s1, push_back K h s elem = some (h1, s1) ∧
      size h1 s1 = some (m + 1) ∧ op_index h1 s1 m = some v ∧
      (∀ i, i < m → op_index h1 s1 i = op_index h s i) ∧
      (s.is_big_ = false → m = SMALL_DATA_SIZE K → s1.is_big_ = true) ∧
      ∃ h2 s2, pop_back h1 s1 = some (h2, s2) ∧ size h2 s2 = some m ∧
        ∀ i, i < m → op_index h2 s2 i = op_index h s i := by
  obtain ⟨xs, hc⟩ := valid_contents K h s hv
  obtain ⟨hsz, hidx⟩ := view_of_contents K h s xs hv hc
  have hlen : xs.length = m := by
    rw [hsz] at hm
    exact Option.some.inj hm
  obtain ⟨h1, s1, e1, e2, e3, e4, _⟩ := push_back_spec K h s elem v xs hv hc hr hsafe
  obtain ⟨hsz1, hidx1⟩ := view_of_contents K h1 s1 _ e3 e2
  obtain ⟨h2, s2, f1, f2, f3, _, _⟩ := pop_back_spec K h1 s1 _ e3 e2 (by simp)
  rw [List.dropLast_concat] at f2
  obtain ⟨hsz2, hidx2⟩ := view_of_contents K h2 s2 xs f3 f2
  refine ⟨h1, s1, e1, ?_, ?_, ?_, ?_, h2, s2, f1, ?_, ?_⟩
  · rw [hsz1, List.length_append, hlen]
    rfl
  · rw [hidx1 m (by rw [List.length_append, hlen]; simp), ← hlen]
    simp
  · intro i hi
    rw [hidx1 i (by rw [List.length_append, hlen]; simp; omega), hidx i (by omega)]
    simp only [List.get?_eq_getElem?]
    rw [List.getElem?_append_left (by omega)]
  · intro hb hmk
    apply e4
    right
    have : size h s = some s.size_ := by simp [size, hb]
    rw [this] at hm
    rw [Option.some.inj hm, hmk]
  · rw [hsz2, hlen]
  · intro i hi
    rw [hidx2 i (by omega), hidx i (by omega)]

theorem push_back_pop_back_witness :
    valid 8 [] ⟨false, 1, 0, [5]⟩ ∧ size [] ⟨false, 1, 0, [5]⟩ = some 1 ∧
    ∃ h1 s1, push_back 8 [] ⟨false, 1, 0, [5]⟩ (elem_ref.outside 9) = some (h1, s1) ∧
      size h1 s1 = some (1 + 1) ∧ op_index h1 s1 1 = some 9 ∧
      (∀ i, i < 1 → op_index h1 s1 i = op_index [] ⟨false, 1, 0, [5]⟩ i) ∧
      ((⟨false, 1, 0, [5]⟩ : uint_storage).is_big_ = false → 1 = SMALL_DATA_SIZE 8 →
        s1.is_big_ = true) ∧
      ∃ h2 s2, pop_back h1 s1 = some (h2, s2) ∧ size h2 s2 = some 1 ∧
        ∀ i, i < 1 → op_index h2 s2 i = op_index [] ⟨false, 1, 0, [5]⟩ i :=
  ⟨⟨by decide, show 1 ≤ SMALL_DATA_SIZE 8 by decide⟩, rfl,
    push_back_pop_back 8 [] ⟨false, 1, 0, [5]⟩ (elem_ref.outside 9) 9 1
      ⟨by decide, show 1 ≤ SMALL_DATA_SIZE 8 by decide⟩ rfl rfl
      (fun _ ind hne => by cases hne)⟩

/-- Claim C26 (the code at the failing input): for `T = uint64_t` the inline array has one
element. On the inline storage `s` holding `[5]`, the call `s.push_back(s[0])` passes a
reference to `small_data_[0]`, whose value is 5. The array is full, so `small_to_big()`
constructs the handle `big_data_` in the bytes of the array before `elem` is read; the element
that `elem` refers to is gone, the read in `big_data_->push_back(elem)` has no defined result,
and element 1 of the storage is not 5. The same happens for `T = uint32_t` on `[5, 7]` with
`s.push_back(s[1])`. Passing an object with value 5 that is not part of `s` appends 5, and so
does `s.push_back(s[0])` while the inline array still has room. -/
theorem push_back_own_element_undefined :
    SMALL_DATA_SIZE 8 = 1 ∧
    size [] ⟨false, 1, 0, [5]⟩ = some 1 ∧
    op_index [] ⟨false, 1, 0, [5]⟩ 0 = some 5 ∧
    read_ref ⟨false, 1, 0, [5]⟩ (elem_ref.own_small 0) = some 5 ∧
    small_to_big [] ⟨false, 1, 0, [5]⟩ = ([some ⟨[5], 1⟩], ⟨true, 1, 0, [5]⟩) ∧
    read_ref ⟨true, 1, 0, [5]⟩ (elem_ref.own_small 0) = none ∧
    push_back 8 [] ⟨false, 1, 0, [5]⟩ (elem_ref.own_small 0) = none ∧
    SMALL_DATA_SIZE 4 = 2 ∧
    read_ref ⟨false, 2, 0, [5, 7]⟩ (elem_ref.own_small 1) = some 7 ∧
    push_back 4 [] ⟨false, 2, 0, [5, 7]⟩ (elem_ref.own_small 1) = none ∧
    push_back 8 [] ⟨false, 1, 0, [5]⟩ (elem_ref.outside 5) =
      some ([some ⟨[5, 5], 1⟩], ⟨true, 1, 0, [5]⟩) ∧
    push_back 4 [] ⟨false, 1, 0, [5, 0]⟩ (elem_ref.own_small 0) =
      some ([], ⟨false, 2, 0, [5, 5]⟩) := by
  decide

end storage

namespace generic_vector

/-! ## The free store and the loops of the generic vector -/

theorem getD_set_same {α : Type} (l : List α) (i : Nat) (x d : α) (h : i < l.length) :
    (l.set i x).getD i d = x := by
  simp [List.getD_eq_getElem?_getD, List.getElem?_set, h]

theorem getD_set_other {α : Type} (l : List α) (i j : Nat) (x d : α) (h : i ≠ j) :
    (l.set i x).getD j d = l.getD j d := by
  simp [List.getD_eq_getElem?_getD, List.getElem?_set, h]

theorem lt_of_getD_some {α : Type} (l : List (Option α)) (i : Nat) (x : α)
    (h : l.getD i none = some x) : i < l.length := by
  by_contra hn
  rw [List.getD_eq_default _ _ (by omega)] at h
  cases h

theorem getD_append_new {α : Type} (l : List (Option α)) (x : Option α) :
    (l ++ [x]).getD l.length none = x := by
  simp [List.getD_eq_getElem?_getD]

theorem getD_append_old {α : Type} (l : List (Option α)) (x : Option α) (i : Nat)
    (h : i < l.length) : (l ++ [x]).getD i none = l.getD i none := by
  simp [List.getD_eq_getElem?_getD, List.getElem?_append_left h]

theorem set_set_same {α : Type} (l : List α) (i : Nat) (x y : α) :
    (l.set i x).set i y = l.set i y := by
  simp

/-- The copy loop fills the slots `i, ..., i + k - 1` of the destination block with the values
of the source block. -/
theorem copy_loop_spec {T : Type} (a t : Nat) (hat : a ≠ t) (b : block T) (k : Nat) :
    ∀ (i : Nat) (h : heap T) (c : block T), h.getD a none = some b → h.getD t none = some c →
      i + k ≤ c.length → (∀ j, i ≤ j → j < i + k → ∃ e, b.getD j none = some e) →
      ∃ c1, copy_loop (some a) (some t) k i h = some (h.set t (some c1)) ∧
        c1.length = c.length ∧
        ∀ j, c1.getD j none = if i ≤ j ∧ j < i + k then b.getD j none else c.getD j none := by
  induction k with
  | zero =>
    intro i h c _ hc _ _
    refine ⟨c, ?_, rfl, ?_⟩
    · simp only [copy_loop]
      have ht := lt_of_getD_some h t c hc
      congr 1
      apply List.ext_getElem (by simp)
      intro n h1 h2
      by_cases hn : t = n
      · subst hn
        simp only [List.getElem_set_self]
        have := hc
        rw [List.getD_eq_getElem _ _ ht] at this
        exact this
      · simp only [List.getElem_set_ne hn]
    · intro j
      rw [if_neg (by omega)]
  | succ k ih =>
    intro i h c hb hc hlen hsrc
    obtain ⟨e, he⟩ := hsrc i (Nat.le_refl _) (by omega)
    have ht := lt_of_getD_some h t c hc
    have hb1 : (h.set t (some (c.set i (some e)))).getD a none = some b := by
      rw [getD_set_other _ _ _ _ _ (Ne.symm hat)]; exact hb
    have hc1 : (h.set t (some (c.set i (some e)))).getD t none = some (c.set i (some e)) :=
      getD_set_same _ _ _ _ ht
    obtain ⟨c1, h1, h2, h3⟩ := ih (i + 1) _ (c.set i (some e)) hb1 hc1
      (by rw [List.length_set]; omega) (fun j hj1 hj2 => hsrc j (by omega) (by omega))
    refine ⟨c1, ?_, by rw [h2, List.length_set], ?_⟩
    · simp only [copy_loop, read_at, deref, hb, he, construct_at, hc]
      rw [if_pos (by omega)]
      simp only [h1, set_set_same]
    · intro j
      rw [h3 j]
      by_cases hj : j = i
      · subst hj
        rw [if_neg (by omega), if_pos (by omega), getD_set_same _ _ _ _ (by omega), he]
      · rw [getD_set_other _ _ _ _ _ (Ne.symm hj)]
        by_cases hj2 : i + 1 ≤ j ∧ j < i + 1 + k
        · rw [if_pos hj2, if_pos (by omega)]
        · rw [if_neg hj2, if_neg (by omega)]

theorem set_getD_self {α : Type} (h : List (Option α)) (a : Nat) (b : α)
    (hb : h.getD a none = some b) : h.set a (some b) = h := by
  have ht := lt_of_getD_some h a b hb
  apply List.ext_getElem (by simp)
  intro n h1 h2
  by_cases hn : a = n
  · subst hn
    simp only [List.getElem_set_self]
    rw [List.getD_eq_getElem _ _ ht] at hb
    exact hb.symm
  · simp only [List.getElem_set_ne hn]

/-- The destructor loop ends the lifetime of the first `k` objects of a live block. -/
theorem free_data_spec {T : Type} (a : Nat) (k : Nat) :
    ∀ (h : heap T) (b : block T), h.getD a none = some b →
      (∀ j, j < k → ∃ e, b.getD j none = some e) →
      ∃ b1, free_data (some a) k h = some (h.set a (some b1)) ∧ b1.length = b.length := by
  induction k with
  | zero =>
    intro h b hb _
    exact ⟨b, by simp only [free_data]; rw [set_getD_self h a b hb], rfl⟩
  | succ k ih =>
    intro h b hb hsrc
    obtain ⟨e, he⟩ := hsrc k (by omega)
    have ht := lt_of_getD_some h a b hb
    have hb1 : (h.set a (some (b.set k none))).getD a none = some (b.set k none) :=
      getD_set_same _ _ _ _ ht
    obtain ⟨b1, h1, h2⟩ := ih _ (b.set k none) hb1 (by
      intro j hj
      rw [getD_set_other _ _ _ _ _ (by omega)]
      exact hsrc j (by omega))
    refine ⟨b1, ?_, by rw [h2, List.length_set]⟩
    simp only [free_data, destroy_at, hb, he, h1, set_set_same]

theorem copy_data_eq {T : Type} (K : Nat) (h : heap T) (src : Option Nat) (new_size new_cap : Nat)
    (hK : 0 < K) (hle : new_size ≤ new_cap) (h0 : new_cap ≠ 0) (hfit : K * new_cap < SIZE_RANGE) :
    copy_data K h src new_size new_cap =
      match copy_loop src (some h.length) new_size 0
          (h ++ [some (List.replicate new_cap none)]) with
      | none => none
      | some h2 => some (h2, some h.length) := by
  unfold copy_data operator_new
  rw [if_neg (by omega), if_neg h0, Nat.mod_eq_of_lt hfit, Nat.mul_div_cancel_left _ hK]

/-- Source `force_capacity` on a vector that satisfies the storage invariant: for every
`new_cap >= size_` whose byte count fits `size_t` it returns a vector with that capacity, the
same elements and the invariant. -/
theorem force_capacity_spec {T : Type} (K : Nat) (h : heap T) (v : vector T) (new_cap : Nat)
    (hv : valid K h v) (hn : v.size_ ≤ new_cap) (hfit : K * new_cap < SIZE_RANGE) :
    ∃ h1 v1, force_capacity K h v new_cap = some (h1, v1) ∧ valid K h1 v1 ∧
      v1.size_ = v.size_ ∧ v1.capacity_ = new_cap ∧
      ∀ i, i < v.size_ → op_index h1 v1 i = op_index h v i := by
  obtain ⟨hK, hsc, hcap, hblock⟩ := hv
  unfold force_capacity
  rw [if_neg (by omega)]
  by_cases hsame : new_cap = v.capacity_
  · rw [if_pos hsame]
    exact ⟨h, v, rfl, ⟨hK, hsc, hcap, hblock⟩, rfl, hsame.symm, fun _ _ => rfl⟩
  rw [if_neg hsame]
  by_cases hc0 : v.capacity_ = 0
  · -- no block yet
    rw [if_pos hc0] at hblock
    have hs0 : v.size_ = 0 := by omega
    have hnc : new_cap ≠ 0 := by omega
    rw [copy_data_eq K h _ _ _ hK hn hnc hfit, hblock, hs0]
    refine ⟨_, _, rfl, ⟨hK, Nat.zero_le _, hfit, ?_⟩, rfl, rfl, ?_⟩
    · show (if new_cap = 0 then _ else _)
      rw [if_neg hnc]
      refine ⟨List.replicate new_cap none, ?_, List.length_replicate _ _, ?_⟩
      · exact getD_append_new h _
      · intro i hi; exact absurd hi (Nat.not_lt_zero i)
    · intro i hi; omega
  · rw [if_neg hc0] at hblock
    obtain ⟨b, hb, hblen, hobj⟩ := hblock
    rcases hd : v.data_ with _ | a
    · rw [hd] at hb; cases hb
    rw [hd] at hb
    have hb' : h.getD a none = some b := hb
    have ha := lt_of_getD_some h a b hb'
    by_cases hnc : new_cap = 0
    · have hs0 : v.size_ = 0 := by omega
      subst hnc
      have hcd : copy_data K h (some a) v.size_ 0 = some (h, none) := by
        unfold copy_data; rw [if_neg (by omega), if_pos rfl]
      rw [hcd, hs0]
      have hdel : operator_delete h (some a) = some (h.set a none) := by
        simp only [operator_delete, hb']
      simp only [free_data, hdel]
      refine ⟨_, _, rfl, ⟨hK, Nat.le_refl _, hfit, ?_⟩, rfl, rfl, ?_⟩
      · show (if (0 : Nat) = 0 then _ else _)
        rw [if_pos rfl]
      · intro i hi; omega
    · rw [copy_data_eq K h _ _ _ hK hn hnc hfit]
      have hb1 : (h ++ [some (List.replicate new_cap (none : Option T))]).getD a none = some b := by
        rw [getD_append_old _ _ _ ha]; exact hb'
      have hc1 : (h ++ [some (List.replicate new_cap (none : Option T))]).getD h.length none =
          some (List.replicate new_cap none) := getD_append_new h _
      obtain ⟨c1, hcopy, hc1len, hc1get⟩ := copy_loop_spec a h.length (by omega) b v.size_ 0 _ _
        hb1 hc1 (by rw [List.length_replicate]; omega) (fun j _ hj => hobj j (by omega))
      rw [hcopy]
      simp only
      have hb2 : ((h ++ [some (List.replicate new_cap (none : Option T))]).set h.length
          (some c1)).getD a none = some b := by
        rw [getD_set_other _ _ _ _ _ (by omega)]; exact hb1
      obtain ⟨b1, hfree, _⟩ := free_data_spec a v.size_ _ b hb2 (fun j hj => hobj j hj)
      rw [hfree]
      simp only
      have hlen2 : a < ((h ++ [some (List.replicate new_cap (none : Option T))]).set h.length
          (some c1)).length := by
        rw [List.length_set, List.length_append]; omega
      have hdel : operator_delete (((h ++ [some (List.replicate new_cap (none : Option T))]).set
          h.length (some c1)).set a (some b1)) (some a) =
          some ((((h ++ [some (List.replicate new_cap (none : Option T))]).set
          h.length (some c1)).set a (some b1)).set a none) := by
        simp only [operator_delete, getD_set_same _ _ _ _ hlen2]
      rw [hdel]
      simp only
      have hfinal : ((((h ++ [some (List.replicate new_cap (none : Option T))]).set
          h.length (some c1)).set a (some b1)).set a none).getD h.length none = some c1 := by
        rw [getD_set_other _ _ _ _ _ (by omega), getD_set_other _ _ _ _ _ (by omega),
          getD_set_same _ _ _ _ (by rw [List.length_append]; simp)]
      refine ⟨_, _, rfl, ⟨hK, hn, hfit, ?_⟩, rfl, rfl, ?_⟩
      · show (if new_cap = 0 then _ else _)
        rw [if_neg hnc]
        refine ⟨c1, hfinal, by rw [hc1len, List.length_replicate], ?_⟩
        intro i hi
        have hi1 : i < v.size_ := hi
        rw [hc1get i, if_pos (by omega)]
        exact hobj i hi1
      · intro i hi
        show read_at _ (some h.length) i = read_at h v.data_ i
        rw [hd]
        simp only [read_at, deref, hfinal, hb', hc1get i]
        rw [if_pos (by omega)]

/-! ## `push_back` and `shrink_to_fit` -/

/-- Constructing an object in the first free slot of a vector with spare capacity. -/
theorem construct_back {T : Type} (K : Nat) (h : heap T) (v : vector T) (elem : T)
    (hv : valid K h v) (hlt : v.size_ < v.capacity_) :
    ∃ h1, construct_at h v.data_ v.size_ elem = some h1 ∧
      valid K h1 ⟨v.data_, v.size_ + 1, v.capacity_⟩ ∧
      read_at h1 v.data_ v.size_ = some elem ∧
      ∀ i, i < v.size_ → read_at h1 v.data_ i = read_at h v.data_ i := by
  obtain ⟨hK, hsc, hcap, hblock⟩ := hv
  rw [if_neg (by omega)] at hblock
  obtain ⟨b, hb, hblen, hobj⟩ := hblock
  rcases hd : v.data_ with _ | a
  · rw [hd] at hb; cases hb
  rw [hd] at hb
  have hb' : h.getD a none = some b := hb
  have ha := lt_of_getD_some h a b hb'
  have hnew : (h.set a (some (b.set v.size_ (some elem)))).getD a none =
      some (b.set v.size_ (some elem)) := getD_set_same _ _ _ _ ha
  refine ⟨h.set a (some (b.set v.size_ (some elem))), ?_, ⟨hK, hlt, hcap, ?_⟩, ?_, ?_⟩
  · simp only [construct_at, hb']
    rw [if_pos (by omega)]
  · show (if v.capacity_ = 0 then _ else _)
    rw [if_neg (by omega)]
    refine ⟨b.set v.size_ (some elem), hnew, by rw [List.length_set]; exact hblen, ?_⟩
    intro i hi
    have hi1 : i < v.size_ + 1 := hi
    by_cases hie : i = v.size_
    · subst hie
      exact ⟨elem, getD_set_same _ _ _ _ (by omega)⟩
    · rw [getD_set_other _ _ _ _ _ (Ne.symm hie)]
      exact hobj i (by omega)
  · simp only [read_at, deref, hnew]
    exact getD_set_same _ _ _ _ (by omega)
  · intro i hi
    simp only [read_at, deref, hnew, hb']
    exact getD_set_other _ _ _ _ _ (by omega)

/-- Source `push_back` on a vector that satisfies the storage invariant (when the block is
full, the doubled capacity must fit `size_t` in bytes): the element is stored after the
existing ones, which are unchanged, and the invariant holds again. -/
theorem vector_push_back_spec {T : Type} (K : Nat) (h : heap T) (v : vector T) (elem : T)
    (hv : valid K h v)
    (hroom : v.size_ = v.capacity_ → K * (2 * v.capacity_) < SIZE_RANGE ∧ K < SIZE_RANGE) :
    ∃ h1 v1, push_back K h v elem = some (h1, v1) ∧ valid K h1 v1 ∧
      size v1 = size v + 1 ∧ op_index h1 v1 (size v) = some elem ∧
      ∀ i, i < size v → op_index h1 v1 i = op_index h v i := by
  have hK := hv.1
  have hsc := hv.2.1
  have hcap := hv.2.2.1
  have hle : v.capacity_ ≤ K * v.capacity_ := Nat.le_mul_of_pos_left _ hK
  unfold push_back
  by_cases hfull : v.size_ = v.capacity_
  · rw [if_pos hfull]
    obtain ⟨hr1, hr2⟩ := hroom hfull
    have hle2 : 2 * v.capacity_ ≤ K * (2 * v.capacity_) := Nat.le_mul_of_pos_left _ hK
    obtain ⟨nc, hnc, hlt, hfit⟩ : ∃ nc,
        (if v.capacity_ ≠ 0 then (2 * v.capacity_) % SIZE_RANGE else 1) = nc ∧
          v.size_ < nc ∧ K * nc < SIZE_RANGE := by
      by_cases hc0 : v.capacity_ = 0
      · exact ⟨1, by rw [if_neg (by omega)], by omega, by omega⟩
      · exact ⟨2 * v.capacity_, by rw [if_pos hc0, Nat.mod_eq_of_lt (by omega)], by omega, hr1⟩
    rw [hnc]
    obtain ⟨h1, v1, hf, hv1, hs1, hc1, hel⟩ := force_capacity_spec K h v nc hv (by omega) hfit
    rw [hf]
    simp only
    obtain ⟨h2, hcon, hv2, hr, hold⟩ := construct_back K h1 v1 elem hv1 (by omega)
    rw [hcon]
    simp only
    have hnle : nc ≤ K * nc := Nat.le_mul_of_pos_left _ hK
    rw [Nat.mod_eq_of_lt (by omega)]
    refine ⟨_, _, rfl, ?_, ?_, ?_, ?_⟩
    · exact hv2
    · show v1.size_ + 1 = v.size_ + 1
      rw [hs1]
    · show read_at h2 v1.data_ v.size_ = some elem
      rw [← hs1]; exact hr
    · intro i hi
      have hi1 : i < v.size_ := hi
      show read_at h2 v1.data_ i = read_at h v.data_ i
      rw [hold i (by omega)]
      exact hel i hi1
  · rw [if_neg hfull]
    obtain ⟨h2, hcon, hv2, hr, hold⟩ := construct_back K h v elem hv (by omega)
    rw [hcon]
    simp only
    rw [Nat.mod_eq_of_lt (by omega)]
    exact ⟨_, _, rfl, hv2, rfl, hr, fun i hi => hold i hi⟩

/-- Source `shrink_to_fit` on a vector that holds at least one element: the capacity becomes
the size, the elements are unchanged and the storage invariant holds. -/
theorem vector_shrink_nonempty {T : Type} (K : Nat) (h : heap T) (v : vector T)
    (hv : valid K h v) (hne : v.size_ ≠ 0) :
    ∃ h1 v1, shrink_to_fit K h v = some (h1, v1) ∧ capacity v1 = size v1 ∧ size v1 = size v ∧
      valid K h1 v1 ∧ ∀ i, i < size v → op_index h1 v1 i = op_index h v i := by
  have hfit : K * v.size_ < SIZE_RANGE :=
    Nat.lt_of_le_of_lt (Nat.mul_le_mul_left K hv.2.1) hv.2.2.1
  obtain ⟨h1, v1, hf, hv1, hs1, hc1, hel⟩ :=
    force_capacity_spec K h v v.size_ hv (Nat.le_refl _) hfit
  refine ⟨h1, v1, ?_, ?_, hs1, hv1, hel⟩
  · unfold shrink_to_fit
    have he : empty v = false := by simp [empty, hne]
    rw [he]
    exact hf
  · show v1.capacity_ = v1.size_
    rw [hc1, hs1]

/-- Source `shrink_to_fit` on a vector without a block: nothing changes. -/
theorem vector_shrink_no_capacity {T : Type} (K : Nat) (h : heap T) (v : vector T)
    (hv : valid K h v) (hc : v.capacity_ = 0) : shrink_to_fit K h v = some (h, v) := by
  obtain ⟨hK, hsc, hcap, hblock⟩ := hv
  rw [if_pos hc] at hblock
  have hs0 : v.size_ = 0 := by omega
  unfold shrink_to_fit
  have he : empty v = true := by simp [empty, hs0]
  rw [he, hblock]
  simp only [operator_delete, if_true]
  cases v
  simp only at hblock
  rw [hblock]

/-- Source `shrink_to_fit` on an empty vector that owns a block: the block is released and
`data_` becomes null, but `capacity_` keeps its value; the storage invariant is lost and the
next `push_back` constructs its element through the null pointer. -/
theorem vector_shrink_empty_spare {T : Type} (K : Nat) (h : heap T) (v : vector T)
    (hv : valid K h v) (hs : v.size_ = 0) (hc : v.capacity_ ≠ 0) :
    ∃ h1, shrink_to_fit K h v = some (h1, ⟨none, 0, v.capacity_⟩) ∧
      capacity (⟨none, 0, v.capacity_⟩ : vector T) ≠ size (⟨none, 0, v.capacity_⟩ : vector T) ∧
      ¬ valid K h1 (⟨none, 0, v.capacity_⟩ : vector T) ∧
      ∀ elem, push_back K h1 (⟨none, 0, v.capacity_⟩ : vector T) elem = none := by
  obtain ⟨hK, hsc, hcap, hblock⟩ := hv
  rw [if_neg hc] at hblock
  obtain ⟨b, hb, hblen, hobj⟩ := hblock
  rcases hd : v.data_ with _ | a
  · rw [hd] at hb; cases hb
  rw [hd] at hb
  have hb' : h.getD a none = some b := hb
  refine ⟨h.set a none, ?_, ?_, ?_, ?_⟩
  · unfold shrink_to_fit
    have he : empty v = true := by simp [empty, hs]
    rw [he, hd]
    simp only [operator_delete, hb', if_true, hs]
  · show v.capacity_ ≠ 0
    exact hc
  · intro hval
    have h4 := hval.2.2.2
    have h5 : (if v.capacity_ = 0 then (none : Option Nat) = none
        else ∃ b, deref (h.set a none) (none : Option Nat) = some b ∧ b.length = v.capacity_ ∧
          ∀ i, i < 0 → ∃ e, b.getD i none = some e) := h4
    rw [if_neg hc] at h5
    obtain ⟨b2, hb2, _⟩ := h5
    cases hb2
  · intro elem
    unfold push_back
    have hne : ¬ ((⟨none, 0, v.capacity_⟩ : vector T).size_ =
        (⟨none, 0, v.capacity_⟩ : vector T).capacity_) := by
      show ¬ (0 = v.capacity_)
      omega
    rw [if_neg hne]
    rfl

/-- Claim C33, evaluated on the vector obtained from an empty one by `push_back(1)` and
`pop_back()` (no elements, capacity 1): `shrink_to_fit` releases the block and sets `data_` to
null but leaves `capacity_` at 1, so `capacity() == 1` while `size() == 0`, and the following
`push_back(2)` constructs its element through the null pointer, which has no defined result. -/
theorem shrink_to_fit_empty_keeps_capacity :
    push_back 4 [] (mk_default : vector Nat) 1 = some ([some [some 1]], ⟨some 0, 1, 1⟩) ∧
      pop_back [some [some 1]] (⟨some 0, 1, 1⟩ : vector Nat) =
        some ([some [none]], ⟨some 0, 0, 1⟩) ∧
      shrink_to_fit 4 [some [none]] (⟨some 0, 0, 1⟩ : vector Nat) =
        some ([none], ⟨none, 0, 1⟩) ∧
      capacity (⟨none, 0, 1⟩ : vector Nat) = 1 ∧ size (⟨none, 0, 1⟩ : vector Nat) = 0 ∧
      push_back 4 [none] (⟨none, 0, 1⟩ : vector Nat) 2 = none := by
  refine ⟨?_, ?_, ?_, rfl, rfl, ?_⟩ <;> rfl

end generic_vector
